import Mathlib

/-!
# ModularNEAT: genome, innovation registry, phenotype compilation and engine

A shallow embedding of `Source/NEAT/{Genome,NEAT,Network,MathHelpers,SerializeMap}`
and the properties proved about it.

Modelling conventions
* `int` node ids are `Int`; positions inside vectors are `Nat`.
* `float` weights and neuron values are rationals (`ℚ`); the activation
  `tanh` is a parameter `act : ℚ → ℚ` of `Run`. Where `UpdateGeneration`
  converts a `float` to `int` (the number of offspring of a specie, the size
  of the breeding pool), every operation on `float` that leads to the value,
  the sums of the fitnesses included, is rounded to the 24 binary digits of a
  `float` (`roundFloat`, round to nearest, ties to even), and the product of
  `rand_int` to the 53 digits of a `double`; infinities and NaN are not
  modelled. The sums `max + 1` and `max - min` of `rand_int` are taken in the
  32 bits of an `int` (`wrapInt`).
* `std::map` is a key-ordered association list (`SMap`); `operator[]`,
  `find` and `erase` are `SMap.set`/`SMap.touch`, `SMap.find` and `SMap.del`.
* `std::unordered_set<int>` is a duplicate-free list; the order in which such
  a set is iterated is implementation defined and is a parameter
  `it : List Int → List Int` (a permutation of its argument) of every
  function that iterates one.
* every call of the process-global random source is an explicit argument.
* the engine `NEAT` is the record `Engine`; the object `fitness_valid_ptr`
  points to is a number that `UpdateGeneration` replaces by a new one, and a
  `FitnessInterface` holds the number it was made with and the position of
  its organism; the result of `std::sort` is a parameter `srt` (a permutation
  of its argument); a function whose C++ behaviour is undefined, or whose
  loop has not finished within the fuel, returns `none`.
* a binary file is the list of the values written to it (`Cell`).
-/

namespace ModularNEAT

/-! ## `std::map` -/

/-- The strict order `std::map` keeps its keys in (`std::less`). -/
class KeyOrd (K : Type) where
  klt : K → K → Bool

instance : KeyOrd Int := ⟨fun a b => decide (a < b)⟩

/-- The order of `std::pair<int,int>` is lexicographic. -/
instance : KeyOrd (Int × Int) :=
  ⟨fun a b => decide (a.1 < b.1) || (decide (a.1 = b.1) && decide (a.2 < b.2))⟩

/-- A `std::map<K,V>`: its entries in iteration order. -/
abbrev SMap (K V : Type) := List (K × V)

namespace SMap

variable {K V : Type}

/-- The model of `m.find(k)`: `none` is `m.end()`. -/
def find [DecidableEq K] : SMap K V → K → Option V
  | [], _ => none
  | (k1, v) :: rest, k => if k1 = k then some v else find rest k

/-- The model of `m[k] = v`. -/
def set [DecidableEq K] [KeyOrd K] : SMap K V → K → V → SMap K V
  | [], k, v => [(k, v)]
  | (k1, v1) :: rest, k, v =>
    if k1 = k then (k, v) :: rest
    else if KeyOrd.klt k k1 then (k, v) :: (k1, v1) :: rest
    else (k1, v1) :: set rest k v

/-- The model of `m.erase(k)`. -/
def del [DecidableEq K] (m : SMap K V) (k : K) : SMap K V :=
  m.filter (fun e => decide (e.1 ≠ k))

/-- The model of `m.count(k) > 0`. -/
def has [DecidableEq K] (m : SMap K V) (k : K) : Bool := (find m k).isSome

/-- The model of `m[k]` read as a value: the stored value, or the
value-initialised default when the key is absent. -/
def getD [DecidableEq K] (m : SMap K V) (k : K) (d : V) : V := (find m k).getD d

/-- The model of the statement `m[k];`: the key is created with the default
value when absent. -/
def touch [DecidableEq K] [KeyOrd K] (m : SMap K V) (k : K) (d : V) : SMap K V :=
  if has m k then m else set m k d

/-- The keys in iteration order. -/
def keys (m : SMap K V) : List K := m.map Prod.fst

end SMap

/-! ## Binary floating point and `int` arithmetic -/

/-- The number of binary digits of `n`; `fuel` bounds the number of halvings,
and `fuel = n` is enough. -/
def bitLength : Nat → Nat → Nat
  | 0, _ => 0
  | fuel + 1, n => if n = 0 then 0 else bitLength fuel (n / 2) + 1

/-- The power `2 ^ e` for an integer exponent. -/
def pow2 (e : Int) : ℚ :=
  if 0 ≤ e then ((2 ^ e.toNat : Nat) : ℚ) else 1 / ((2 ^ (-e).toNat : Nat) : ℚ)

/-- The integer nearest to `q`; of two integers at the same distance, the even
one. -/
def roundEven (q : ℚ) : Int :=
  let n := ⌊q⌋
  if q - n < 1 / 2 then n
  else if 1 / 2 < q - n then n + 1
  else if n % 2 = 0 then n else n + 1

/-- The exponent `e` of the unit in the last place of `x` in the binary
floating-point format with `prec` significant digits and the least positive
value `2 ^ emin`: for `x ≠ 0` the least `e ≥ emin` with `|x| < 2 ^ (prec +
e)`, found from the numbers of binary digits of the numerator and the
denominator. -/
def ulpExp (prec : Nat) (emin : Int) (x : ℚ) : Int :=
  let e0 : Int := (bitLength x.num.natAbs x.num.natAbs : Int) - (bitLength x.den x.den : Int)
    - (prec : Int)
  let e := if |x| < pow2 (e0 + prec) then e0 else e0 + 1
  max e emin

/-- The value of the format nearest to `x`, the one with the even significand
of two at the same distance (the rounding of IEEE 754 arithmetic). The format
of the model has no largest value: infinities and NaN are not modelled. -/
def roundBinary (prec : Nat) (emin : Int) (x : ℚ) : ℚ :=
  let ulp := pow2 (ulpExp prec emin x)
  (roundEven (x / ulp) : ℚ) * ulp

/-- The rounding of a result to `float` (IEEE 754 binary32). -/
def roundFloat (x : ℚ) : ℚ := roundBinary 24 (-149) x

/-- The rounding of a result to `double` (IEEE 754 binary64). -/
def roundDouble (x : ℚ) : ℚ := roundBinary 53 (-1074) x

/-- A result of `int` arithmetic: the value of the 32-bit two's complement
representation. -/
def wrapInt (x : Int) : Int := (x + 2147483648) % 4294967296 - 2147483648

/-- The value `x` is a multiple of the least positive `float`, as every
`float` is. -/
def FloatGrid (x : ℚ) : Prop := ∃ k : Int, x = (k : ℚ) * pow2 (-149)

/-- The sum `acc += x` over a list, every partial sum rounded to `float`. -/
def floatSum (l : List ℚ) (acc : ℚ) : ℚ := l.foldl (fun a x => roundFloat (a + x)) acc

/-! ## `MathHelpers` -/

/-- The model of `rand_int(max)`: `draw` is the truncated product
`(max + 1) * rand_norm()`, which the code clamps to `max`. -/
def rand_int (max : Int) (draw : Nat) : Int :=
  if (draw : Int) > max then max else (draw : Int)

/-- The model of `rand_int(min, max)`. -/
def rand_int2 (min max : Int) (draw : Nat) : Int :=
  rand_int (max - min) draw + min

/-! ## The innovation registry (`NEAT`) -/

/-- The registry part of the engine: the node counter and the two
split-edge maps. -/
structure NEAT where
  node_ctr : Int
  forwardConnectNode : SMap (Int × Int) Int
  recurrentConnectNode : SMap (Int × Int) Int
  deriving DecidableEq, Repr

/-- The registry state the constructor
`NEAT::NEAT(input_size, output_size, ...)` leaves:
`node_ctr{ input_size + output_size }` and two empty maps. -/
def NEAT.new (input_size output_size : Int) : NEAT :=
  { node_ctr := input_size + output_size
    forwardConnectNode := []
    recurrentConnectNode := [] }

/-- The map `GetAddNodeNumber` selects with `isRecurrent`. -/
def NEAT.connectNode (n : NEAT) (isRecurrent : Bool) : SMap (Int × Int) Int :=
  if isRecurrent then n.recurrentConnectNode else n.forwardConnectNode

/-- The model of `NEAT::GetAddNodeNumber`: the returned id and the engine
afterwards. -/
def GetAddNodeNumber (n : NEAT) (oldConnection : Int × Int) (isRecurrent : Bool) :
    Int × NEAT :=
  match SMap.find (n.connectNode isRecurrent) oldConnection with
  | some id => (id, n)
  | none =>
    let ctr := n.node_ctr + 1
    if isRecurrent then
      (ctr, { n with node_ctr := ctr
                     recurrentConnectNode := SMap.set n.recurrentConnectNode oldConnection ctr })
    else
      (ctr, { n with node_ctr := ctr
                     forwardConnectNode := SMap.set n.forwardConnectNode oldConnection ctr })

/-- A run of registry calls, in order. -/
def registryCalls (n : NEAT) (calls : List ((Int × Int) × Bool)) : NEAT :=
  calls.foldl (fun s c => (GetAddNodeNumber s c.1 c.2).2) n

/-! ## `Genome` -/

/-- The model of `class Genome`: the node counts and the four edge maps. -/
structure Genome where
  num_input_nodes : Int
  num_output_nodes : Int
  forward_edges : SMap (Int × Int) ℚ
  recurrent_edges : SMap (Int × Int) ℚ
  disabled_forward_edges : SMap (Int × Int) ℚ
  disabled_recurrent_edges : SMap (Int × Int) ℚ
  deriving DecidableEq, Repr

/-- The model of `Genome::Genome(input_nodes, output_nodes)`. -/
def Genome.new (input_nodes output_nodes : Int) : Genome :=
  { num_input_nodes := input_nodes
    num_output_nodes := output_nodes
    forward_edges := []
    recurrent_edges := []
    disabled_forward_edges := []
    disabled_recurrent_edges := [] }

/-- The model of `IsInputNode` (`NetworkBase`). -/
def IsInputNode (num_input_nodes : Int) (node_id : Int) : Bool :=
  !(decide (node_id < 0) || decide (node_id ≥ num_input_nodes))

/-- The model of `IsOutputNode` (`Genome` and `NetworkBase` define the same
function). -/
def IsOutputNode (num_input_nodes num_output_nodes : Int) (node_id : Int) : Bool :=
  !(decide (node_id < num_input_nodes) ||
    decide (node_id ≥ num_input_nodes + num_output_nodes))

/-- The model of `Genome::IsOutputNode`. -/
def Genome.IsOutputNode (g : Genome) (node_id : Int) : Bool :=
  ModularNEAT.IsOutputNode g.num_input_nodes g.num_output_nodes node_id

/-- The first loop of `AddNodeMutation`: the enabled forward edges whose
source is not an output. -/
def Genome.normalEdges (g : Genome) : List (Int × Int) :=
  (SMap.keys g.forward_edges).filter (fun e => !g.IsOutputNode e.1)

/-- The vector `possibleEdges` of `AddNodeMutation` after both loops. -/
def Genome.possibleEdges (g : Genome) : List (Int × Int) :=
  g.normalEdges ++ (SMap.keys g.recurrent_edges).filter (fun e => !g.IsOutputNode e.1)

/-- The value of `randIndex` in `AddNodeMutation`. -/
def Genome.randIndex (g : Genome) (draw : Nat) : Nat :=
  (rand_int ((g.possibleEdges.length : Int) - 1) draw).toNat

/-- The edge `possibleEdges[randIndex]`. -/
def Genome.splitEdge (g : Genome) (draw : Nat) : Int × Int :=
  g.possibleEdges.getD (g.randIndex draw) (0, 0)

/-- The flag `isRecurrent` of `AddNodeMutation`. -/
def Genome.splitRecurrent (g : Genome) (draw : Nat) : Bool :=
  decide (g.randIndex draw ≥ g.normalEdges.length)

/-- The model of `Genome::AddNodeMutation(NEAT& n)`: the returned flag, the
genome and the engine afterwards. `draw` is the random draw of
`rand_int(possibleEdges.size() - 1)`. -/
def AddNodeMutation (g : Genome) (n : NEAT) (draw : Nat) : Bool × Genome × NEAT :=
  if g.possibleEdges.length < 1 then (false, g, n)
  else
    let edge := g.splitEdge draw
    let isRecurrent := g.splitRecurrent draw
    let oldFromNode := edge.1
    let oldToNode := edge.2
    let reg := GetAddNodeNumber n edge isRecurrent
    let newNode := reg.1
    if isRecurrent then
      let oldWeight := SMap.getD g.recurrent_edges edge 0
      let rec1 := SMap.del g.recurrent_edges edge
      let drec := SMap.set g.disabled_recurrent_edges edge oldWeight
      let fwd := SMap.set g.forward_edges (oldFromNode, newNode) 1
      let rec2 := SMap.set rec1 (newNode, oldToNode) oldWeight
      (true, { g with forward_edges := fwd
                      recurrent_edges := rec2
                      disabled_recurrent_edges := drec }, reg.2)
    else
      let oldWeight := SMap.getD g.forward_edges edge 0
      let fwd1 := SMap.del g.forward_edges edge
      let dfwd := SMap.set g.disabled_forward_edges edge oldWeight
      let fwd2 := SMap.set fwd1 (oldFromNode, newNode) 1
      let fwd3 := SMap.set fwd2 (newNode, oldToNode) oldWeight
      (true, { g with forward_edges := fwd3
                      disabled_forward_edges := dfwd }, reg.2)

/-- The model of `Genome::AddInputOutputEdge`: `drawIn` and `drawOut` are the
two `rand_int` draws and `weight` the Gaussian sample. -/
def AddInputOutputEdge (g : Genome) (drawIn drawOut : Nat) (weight : ℚ) : Genome :=
  let inNode := rand_int (g.num_input_nodes - 1) drawIn
  let outNode := rand_int2 g.num_input_nodes (g.num_input_nodes + g.num_output_nodes - 1) drawOut
  { g with forward_edges := SMap.set g.forward_edges (inNode, outNode) weight }

/-- The enabled map `AddNodeMutation` takes the split edge from. -/
def Genome.enabledMap (g : Genome) (isRecurrent : Bool) : SMap (Int × Int) ℚ :=
  if isRecurrent then g.recurrent_edges else g.forward_edges

/-- The disabled map matching `enabledMap`. -/
def Genome.disabledMap (g : Genome) (isRecurrent : Bool) : SMap (Int × Int) ℚ :=
  if isRecurrent then g.disabled_recurrent_edges else g.disabled_forward_edges

/-- The postcondition the specification states for a split of the enabled
edge `(u,v)` with weight `w` and recurrence flag `r` through the hidden node
`h`, between the genome `g` before and `g1` after. -/
def SplitPost (g g1 : Genome) (u v h : Int) (w : ℚ) (r : Bool) : Prop :=
  SMap.find (g1.enabledMap r) (u, v) = none ∧
  SMap.find (g1.disabledMap r) (u, v) = some w ∧
  SMap.find g1.forward_edges (u, h) = some 1 ∧
  SMap.find (g1.enabledMap r) (h, v) = some w ∧
  ∀ k : Int × Int, k ≠ (u, v) → k ≠ (u, h) → k ≠ (h, v) →
    SMap.find g1.forward_edges k = SMap.find g.forward_edges k ∧
    SMap.find g1.recurrent_edges k = SMap.find g.recurrent_edges k ∧
    SMap.find g1.disabled_forward_edges k = SMap.find g.disabled_forward_edges k ∧
    SMap.find g1.disabled_recurrent_edges k = SMap.find g.disabled_recurrent_edges k

/-- The contract of `AddNodeMutation` as the specification states it: when the
call succeeds, the selected edge is an enabled edge and `SplitPost` holds for
it and the id the registry returns. -/
def AddNodeMutationContract (g : Genome) (n : NEAT) (draw : Nat) : Prop :=
  (AddNodeMutation g n draw).1 = true →
    ∃ w : ℚ,
      SMap.find (g.enabledMap (g.splitRecurrent draw)) (g.splitEdge draw) = some w ∧
      SplitPost g (AddNodeMutation g n draw).2.1 (g.splitEdge draw).1 (g.splitEdge draw).2
        (GetAddNodeNumber n (g.splitEdge draw) (g.splitRecurrent draw)).1 w
        (g.splitRecurrent draw)

/-- The value of `newNode` in `AddNodeMutation`: the id the registry returns
for the selected edge. -/
def Genome.newNode (g : Genome) (n : NEAT) (draw : Nat) : Int :=
  (GetAddNodeNumber n (g.splitEdge draw) (g.splitRecurrent draw)).1

/-- The registry holds the id `x` for the key `(e, r)`. -/
def NEAT.registered (n : NEAT) (e : Int × Int) (r : Bool) (x : Int) : Prop :=
  SMap.find (n.connectNode r) e = some x

/-- The invariant of the registry of an engine whose counter started at `b`:
the counter never went down, every registered id lies in `(b, node_ctr]`, and
no id is registered under two keys. -/
def NEAT.RegInv (b : Int) (n : NEAT) : Prop :=
  b ≤ n.node_ctr ∧
  (∀ e r x, n.registered e r x → b < x ∧ x ≤ n.node_ctr) ∧
  (∀ e1 r1 e2 r2 x, n.registered e1 r1 x → n.registered e2 r2 x → e1 = e2 ∧ r1 = r2)

/-! ## `std::unordered_set<int>` -/

/-- The model of `s.insert(x)`. -/
def USet.insert (s : List Int) (x : Int) : List Int :=
  if x ∈ s then s else s ++ [x]

/-- The model of `s.erase(x)`. -/
def USet.erase (s : List Int) (x : Int) : List Int :=
  s.filter (fun y => decide (y ≠ x))

/-- The model of `m[k].insert(x)` on a `std::map<int, std::unordered_set<int>>`. -/
def adjInsert (m : SMap Int (List Int)) (k x : Int) : SMap Int (List Int) :=
  SMap.set m k (USet.insert (SMap.getD m k []) x)

/-! ## `NetworkBase`, `NetworkBaseVisual`, `Genome::Network` -/

/-- The model of `NeuronInputInfo`. -/
structure NeuronInputInfo where
  input_index : Nat
  weight : ℚ
  deriving DecidableEq, Repr

/-- The model of `NeuronRunInfo`. -/
structure NeuronRunInfo where
  output_val : ℚ
  input_info_block_size : Nat
  deriving DecidableEq, Repr

/-- The model of `NeuronVisualInfo`. -/
structure NeuronVisualInfo where
  label : Int
  layer_num : Int
  layer_index : Int
  is_output : Bool
  deriving DecidableEq, Repr

/-- The model of `NeuronIdDepth`. -/
structure NeuronIdDepth where
  id : Int
  depth : Int
  deriving DecidableEq, Repr

/-- The order `std::sort` gives two entries under
`NeuronIdDepth::operator<`: `a` is not after `b`. -/
def NeuronIdDepth.le (a b : NeuronIdDepth) : Prop :=
  a.depth < b.depth ∨ (a.depth = b.depth ∧ a.id ≤ b.id)

instance : DecidableRel NeuronIdDepth.le := fun a b => by
  unfold NeuronIdDepth.le
  exact inferInstance

/-- The members of `NetworkBase`, `NetworkBaseVisual` and `Genome::Network`. -/
structure Network where
  num_input_nodes : Int
  num_output_nodes : Int
  input_info : List NeuronInputInfo
  output_indices : List Nat
  run_info : List NeuronRunInfo
  visual_info : List NeuronVisualInfo
  layer_sizes : List Nat
  adjacency_list : SMap Int (List Int)
  adjacency_list_recurrent_rev : SMap Int (List Int)
  deriving DecidableEq, Repr

/-- The object an early `return` of the constructor leaves: the counts and the
adjacency list read so far, every vector empty. -/
def Network.bare (input_nodes output_nodes : Int) (adj : SMap Int (List Int)) : Network :=
  { num_input_nodes := input_nodes
    num_output_nodes := output_nodes
    input_info := []
    output_indices := []
    run_info := []
    visual_info := []
    layer_sizes := []
    adjacency_list := adj
    adjacency_list_recurrent_rev := [] }

/-- The model of `NetworkBase::IsInvalid`. -/
def Network.IsInvalid (net : Network) : Bool :=
  decide (net.num_input_nodes < 2) || decide (net.num_output_nodes < 1)

/-- The ids `0 .. n-1` of a counting loop `for (int i = 0; i < n; ++i)`. -/
def countUp (n : Int) : List Int := (List.range n.toNat).map (fun (i : Nat) => (i : Int))

/-- Constructor, lines 169-172: every sensor and output id becomes a key of both
adjacency maps. -/
def initAdjacency (total : Int) : SMap Int (List Int) :=
  (countUp total).foldl (fun m i => SMap.touch m i []) []

/-- Constructor, lines 173-186: the forward edges are read into
`adjacency_list` and `adjacency_list_rev`; `Except.error` is the early return
on an output-to-non-output edge, with the adjacency list at that point. -/
def readForward (ni no : Int) :
    List ((Int × Int) × ℚ) → SMap Int (List Int) → SMap Int (List Int) →
    Except (SMap Int (List Int)) (SMap Int (List Int) × SMap Int (List Int))
  | [], adj, rev => .ok (adj, rev)
  | ((fromNode, toNode), _) :: rest, adj, rev =>
    if IsOutputNode ni no fromNode && !IsOutputNode ni no toNode then .error adj
    else
      let adj1 := adjInsert adj fromNode toNode
      let adj2 := SMap.touch adj1 toNode []
      let rev1 := adjInsert rev toNode fromNode
      let rev2 := SMap.touch rev1 fromNode []
      readForward ni no rest adj2 rev2

/-- Constructor, lines 192-199: the sensors, then every other non-output key of
`adjacency_list_rev` without a predecessor. -/
def initialSorted (ni no : Int) (rev : SMap Int (List Int)) : List Int :=
  countUp ni ++
    (rev.filter (fun e => !IsInputNode ni e.1 && !IsOutputNode ni no e.1 &&
      decide (e.2.length = 0))).map Prod.fst

/-- The body of the inner loop of lines 203-207 (`onlyNonOutput = true`) and of
lines 221-226 (`onlyNonOutput = false`) for one successor `e` of `curNode`. -/
def relaxEdge (ni no : Int) (onlyNonOutput : Bool) (curNode : Int)
    (st : SMap Int (List Int) × List Int) (e : Int) : SMap Int (List Int) × List Int :=
  let rev1 := SMap.set st.1 e (USet.erase (SMap.getD st.1 e []) curNode)
  if decide ((SMap.getD rev1 e []).length ≤ 0) && (!onlyNonOutput || !IsOutputNode ni no e) then
    (rev1, st.2 ++ [e])
  else (rev1, st.2)

/-- The state of the two topological-sort loops: `sortedNodes`,
`sortedNodesIndex`, `adjacency_list` and `adjacency_list_rev`. -/
structure SortState where
  sortedNodes : List Int
  sortedNodesIndex : Nat
  adj : SMap Int (List Int)
  rev : SMap Int (List Int)

/-- Constructor, lines 201-208: the first loop of the topological sort.
`none`: the loop is still running when `fuel` iterations are used up. -/
def sortLoop1 (it : List Int → List Int) (ni no : Int) : Nat → SortState → Option SortState
  | 0, _ => none
  | fuel + 1, st =>
    if st.sortedNodesIndex < st.sortedNodes.length then
      let curNode := st.sortedNodes.getD st.sortedNodesIndex 0
      let adj1 := SMap.touch st.adj curNode []
      let r := (it (SMap.getD adj1 curNode [])).foldl (relaxEdge ni no true curNode)
        (st.rev, st.sortedNodes)
      sortLoop1 it ni no fuel
        { sortedNodes := r.2, sortedNodesIndex := st.sortedNodesIndex + 1, adj := adj1, rev := r.1 }
    else some st

/-- Constructor, lines 211-214: the outputs without a remaining predecessor
are appended. -/
def pushOutputSources (ni no : Int) (rev : SMap Int (List Int)) (sorted : List Int) : List Int :=
  (countUp no).foldl (fun acc i =>
    if (SMap.getD rev (ni + i) []).length ≤ 0 then acc ++ [ni + i] else acc) sorted

/-- Constructor, lines 215-227: the second loop of the topological sort.
`Except.error` is the early return of the sanity check. -/
def sortLoop2 (it : List Int → List Int) (ni no : Int) :
    Nat → SortState → Option (Except (SMap Int (List Int)) SortState)
  | 0, _ => none
  | fuel + 1, st =>
    if st.sortedNodesIndex < st.sortedNodes.length then
      let curNode := st.sortedNodes.getD st.sortedNodesIndex 0
      if !IsOutputNode ni no curNode then some (.error st.adj)
      else
        let adj1 := SMap.touch st.adj curNode []
        let r := (it (SMap.getD adj1 curNode [])).foldl (relaxEdge ni no false curNode)
          (st.rev, st.sortedNodes)
        sortLoop2 it ni no fuel
          { sortedNodes := r.2, sortedNodesIndex := st.sortedNodesIndex + 1, adj := adj1,
            rev := r.1 }
    else some (.ok st)

/-- Constructor, lines 241-244: one predecessor `e` of `curNode`; reading
`maxDepth[e]` creates the key with depth `0` when it is absent. -/
def depthEdge (st : SMap Int Int × Int) (e : Int) : SMap Int Int × Int :=
  let maxDepth1 := SMap.touch st.1 e 0
  let newDepth := SMap.getD maxDepth1 e 0 + 1
  if newDepth > st.2 then (maxDepth1, newDepth) else (maxDepth1, st.2)

/-- Constructor, lines 233-247: the depth of one node of `sortedNodes`; the
state is `maxDepth` and `outputDepth`. -/
def depthNode (it : List Int → List Int) (ni no : Int) (revCopy : SMap Int (List Int))
    (st : SMap Int Int × Int) (curNode : Int) : SMap Int Int × Int :=
  if IsInputNode ni curNode then (SMap.set st.1 curNode 0, st.2)
  else
    let start : Int := if IsOutputNode ni no curNode then st.2 + 1 else 1
    let r := (it (SMap.getD revCopy curNode [])).foldl depthEdge (st.1, start)
    let maxDepth1 := SMap.set r.1 curNode r.2
    if !IsOutputNode ni no curNode && decide (r.2 > st.2) then (maxDepth1, r.2)
    else (maxDepth1, st.2)

/-- Constructor, lines 230-248: `maxDepth` after the loop over `sortedNodes`. -/
def computeDepths (it : List Int → List Int) (ni no : Int) (revCopy : SMap Int (List Int))
    (sorted : List Int) : SMap Int Int :=
  (sorted.foldl (depthNode it ni no revCopy) ([], 0)).1

/-- Constructor, lines 250-256: `id_depth_pair` after `sort`. The ids are the
keys of a map, hence distinct, so `operator<` orders the entries totally and
the sorted vector is unique. -/
def sortedIdDepth (maxDepth : SMap Int Int) : List NeuronIdDepth :=
  (maxDepth.map (fun e => NeuronIdDepth.mk e.1 e.2)).insertionSort NeuronIdDepth.le

/-- The state of the loop of lines 265-277: `last_depth`, `curIndex`,
`visual_info` and `layer_sizes`. -/
structure LayerState where
  last_depth : Int
  curIndex : Nat
  visual_info : List NeuronVisualInfo
  layer_sizes : List Nat

/-- Constructor, lines 267-276: one entry of `id_depth_pair`. -/
def layerStep (ni no : Int) (st : LayerState) (e : NeuronIdDepth) : LayerState :=
  let st1 : LayerState :=
    if e.depth ≠ st.last_depth then
      { st with layer_sizes := st.layer_sizes ++ [st.curIndex], last_depth := e.depth, curIndex := 0 }
    else st
  let bIsOutputNode := IsOutputNode ni no e.id
  { st1 with
    visual_info := st1.visual_info ++
      [{ label := e.id, layer_num := e.depth,
         layer_index := if bIsOutputNode then e.id - ni else (st1.curIndex : Int),
         is_output := bIsOutputNode }]
    curIndex := st1.curIndex + 1 }

/-- Constructor, lines 265-277. -/
def layerInfo (ni no : Int) (idDepth : List NeuronIdDepth) : LayerState :=
  let st := idDepth.foldl (layerStep ni no)
    { last_depth := 0, curIndex := 0, visual_info := [], layer_sizes := [] }
  { st with layer_sizes := st.layer_sizes ++ [st.curIndex] }

/-- Constructor, lines 280-283: `internal_index_map`, built for the entries
from position `i` on. -/
def indexMapFrom : Nat → List NeuronIdDepth → SMap Int Nat → SMap Int Nat
  | _, [], m => m
  | i, e :: rest, m => indexMapFrom (i + 1) rest (SMap.set m e.id i)

/-- Constructor, lines 286-291: `adjacency_list_recurrent_rev`. -/
def readRecurrent : List ((Int × Int) × ℚ) → SMap Int (List Int) → SMap Int (List Int)
  | [], m => m
  | ((fromNode, toNode), _) :: rest, m =>
    readRecurrent rest (SMap.touch (adjInsert m toNode fromNode) fromNode [])

/-- The records lines 304-309 (or 310-315) append to `input_info` for the
destination `curNode`: one per predecessor in `preds`, with the weight found
in `edges` (`0` when the edge is not found). -/
def blockOf (edges : SMap (Int × Int) ℚ) (indexMap : SMap Int Nat) (curNode : Int)
    (preds : List Int) : List NeuronInputInfo :=
  preds.map (fun f =>
    { input_index := SMap.getD indexMap f 0, weight := SMap.getD edges (f, curNode) 0 })

/-- The state of the loop of lines 299-319: `output_indices`, `input_info`,
`run_info` and `adjacency_list_recurrent_rev`. -/
structure EmitState where
  output_indices : List Nat
  input_info : List NeuronInputInfo
  run_info : List NeuronRunInfo
  recRev : SMap Int (List Int)

/-- Constructor, lines 299-319, for the entries of `id_depth_pair` from
position `i` on. -/
def emitFrom (it : List Int → List Int) (ni no : Int) (forward_edges recurrent_edges :
    SMap (Int × Int) ℚ) (revCopy : SMap Int (List Int)) (indexMap : SMap Int Nat) :
    Nat → List NeuronIdDepth → EmitState → EmitState
  | _, [], st => st
  | i, e :: rest, st =>
    let curNode := e.id
    let outIdx := if IsOutputNode ni no curNode then
        st.output_indices.set (curNode - ni).toNat i
      else st.output_indices
    let fwdPreds := SMap.getD revCopy curNode []
    let recRev1 := SMap.touch st.recRev curNode []
    let recPreds := SMap.getD recRev1 curNode []
    let info := st.input_info ++ blockOf forward_edges indexMap curNode (it fwdPreds) ++
      blockOf recurrent_edges indexMap curNode (it recPreds)
    emitFrom it ni no forward_edges recurrent_edges revCopy indexMap (i + 1) rest
      { output_indices := outIdx
        input_info := info
        run_info := st.run_info ++
          [{ output_val := 0, input_info_block_size := fwdPreds.length + recPreds.length }]
        recRev := recRev1 }

/-- The model of `v[i].output_val = x` on `run_info`. -/
def setOutputVal (run_info : List NeuronRunInfo) (i : Nat) (x : ℚ) : List NeuronRunInfo :=
  run_info.modify (fun r => { r with output_val := x }) i

/-- The model of the constructor `Genome::Network::Network`. `it` is the
iteration order of `std::unordered_set`, `fuel` bounds the iterations of each
of the two topological-sort loops. `none`: a loop is still running when the
fuel is used up; `some net`: the object the constructor leaves, also after an
early `return`. -/
def Network.build (it : List Int → List Int) (fuel : Nat) (input_nodes output_nodes : Int)
    (forward_edges recurrent_edges : SMap (Int × Int) ℚ) : Option Network :=
  let adj0 := initAdjacency (input_nodes + output_nodes)
  match readForward input_nodes output_nodes forward_edges adj0 adj0 with
  | .error adj => some (Network.bare input_nodes output_nodes adj)
  | .ok (adj, rev) =>
    let revCopy := rev
    match sortLoop1 it input_nodes output_nodes fuel
        { sortedNodes := initialSorted input_nodes output_nodes rev, sortedNodesIndex := 0,
          adj := adj, rev := rev } with
    | none => none
    | some st1 =>
      match sortLoop2 it input_nodes output_nodes fuel
          { st1 with sortedNodes :=
              pushOutputSources input_nodes output_nodes st1.rev st1.sortedNodes } with
      | none => none
      | some (.error adj2) => some (Network.bare input_nodes output_nodes adj2)
      | some (.ok st2) =>
        let maxDepth := computeDepths it input_nodes output_nodes revCopy st2.sortedNodes
        let idDepth := sortedIdDepth maxDepth
        let layers := layerInfo input_nodes output_nodes idDepth
        let indexMap := indexMapFrom 0 idDepth []
        let recRev := readRecurrent recurrent_edges []
        let em := emitFrom it input_nodes output_nodes forward_edges recurrent_edges revCopy
          indexMap 0 idDepth
          { output_indices := List.replicate output_nodes.toNat 0, input_info := [],
            run_info := [], recRev := recRev }
        some
          { num_input_nodes := input_nodes
            num_output_nodes := output_nodes
            input_info := em.input_info
            output_indices := em.output_indices
            run_info := setOutputVal em.run_info (input_nodes - 1).toNat 1
            visual_info := layers.visual_info
            layer_sizes := layers.layer_sizes
            adjacency_list := st2.adj
            adjacency_list_recurrent_rev := em.recRev }

/-- The model of `Genome::GenerateNetwork`. -/
def GenerateNetwork (it : List Int → List Int) (fuel : Nat) (g : Genome) : Option Network :=
  Network.build it fuel g.num_input_nodes g.num_output_nodes g.forward_edges g.recurrent_edges

/-! ## `CheckRecurrent`, `FindNewPossibleConnection`, `AddEdgeMutation` -/

/-- `CheckRecurrent`, lines 409-414: one successor `e` of the popped node; the
state is `discovered` and `frontier`. -/
def bfsVisit (st : List Int × List Int) (e : Int) : List Int × List Int :=
  if e ∈ st.1 then st else (USet.insert st.1 e, st.2 ++ [e])

/-- `CheckRecurrent`, lines 397-415: the breadth-first loop. `none`: the loop
is still running when `fuel` iterations are used up. -/
def bfsLoop (it : List Int → List Int) (adj : SMap Int (List Int)) (inputLabel : Int) :
    Nat → List Int → List Int → Option Bool
  | 0, _, _ => none
  | _ + 1, _, [] => some false
  | fuel + 1, discovered, curNode :: rest =>
    if curNode = inputLabel then some true
    else
      match SMap.find adj curNode with
      | none => some true
      | some succs =>
        let r := (it succs).foldl bfsVisit (discovered, rest)
        bfsLoop it adj inputLabel fuel r.1 r.2

/-- A number of iterations the breadth-first loop of `CheckRecurrent` never
exceeds: every iteration pops one node, and a node is pushed at most once, as
the start node or as a member of an adjacency set. -/
def bfsFuel (adj : SMap Int (List Int)) : Nat :=
  (adj.map (fun e => e.2.length)).sum + 2

/-- The model of `Genome::Network::CheckRecurrent`. -/
def CheckRecurrent (it : List Int → List Int) (net : Network) (inputLabel outputLabel : Int) :
    Option Bool :=
  if inputLabel = outputLabel then some true
  else if IsOutputNode net.num_input_nodes net.num_output_nodes inputLabel &&
      !IsOutputNode net.num_input_nodes net.num_output_nodes outputLabel then some true
  else bfsLoop it net.adjacency_list inputLabel (bfsFuel net.adjacency_list)
    [outputLabel] [outputLabel]

/-- The model of `visual_info[i].label` for an `int` index: `none` when the
index is outside the vector (undefined behaviour). -/
def labelAt (visual_info : List NeuronVisualInfo) (i : Int) : Option Int :=
  if i < 0 then none else (visual_info.get? i.toNat).map (fun v => v.label)

/-- The body of the loop of `FindNewPossibleConnection` for one try with the
draws `d`: `none` is undefined behaviour or a loop that does not return,
`some none` is `continue`, `some (some (in, out, is_recurrent))` is
`return true`. -/
def tryConnection (it : List Int → List Int) (net : Network) (d : Nat × Nat) :
    Option (Option (Int × Int × Bool)) :=
  let randInput := rand_int ((net.run_info.length : Int) - 1) d.1
  match labelAt net.visual_info randInput with
  | none => none
  | some randInputLabel =>
    let randOutput := rand_int2 net.num_input_nodes ((net.run_info.length : Int) - 1) d.2
    match labelAt net.visual_info randOutput with
    | none => none
    | some randOutputLabel =>
      match SMap.find net.adjacency_list randInputLabel with
      | none => some none
      | some succs =>
        if randOutputLabel ∈ succs then some none
        else
          match SMap.find net.adjacency_list_recurrent_rev randOutputLabel with
          | some preds =>
            if randInputLabel ∈ preds then some none
            else (CheckRecurrent it net randInputLabel randOutputLabel).map
              (fun r => some (randInputLabel, randOutputLabel, r))
          | none => (CheckRecurrent it net randInputLabel randOutputLabel).map
              (fun r => some (randInputLabel, randOutputLabel, r))

/-- The model of `Genome::Network::FindNewPossibleConnection` for the tries
`try_num, try_num + 1, ..` with `tries` of them left; `draws t` are the two
`rand_int` draws of try `t`. `some none` is `return false`. -/
def FindNewPossibleConnectionFrom (it : List Int → List Int) (net : Network)
    (draws : Nat → Nat × Nat) : Nat → Nat → Option (Option (Int × Int × Bool))
  | 0, _ => some none
  | tries + 1, try_num =>
    match tryConnection it net (draws try_num) with
    | none => none
    | some (some r) => some (some r)
    | some none => FindNewPossibleConnectionFrom it net draws tries (try_num + 1)

/-- The model of `Genome::Network::FindNewPossibleConnection`. -/
def FindNewPossibleConnection (it : List Int → List Int) (net : Network)
    (draws : Nat → Nat × Nat) (max_tries : Nat) : Option (Option (Int × Int × Bool)) :=
  FindNewPossibleConnectionFrom it net draws max_tries 0

/-- The model of `randomGaussian(stdDev)`: `z` is the standard normal sample
`u * s` of the polar method. -/
def randomGaussian (stdDev z : ℚ) : ℚ := stdDev * z

/-- The model of `Genome::AddEdgeMutation(network, randomValStdDev, max_tries)`:
`none` when `FindNewPossibleConnection` has no defined result, else the
returned flag and the genome afterwards. -/
def AddEdgeMutation (it : List Int → List Int) (g : Genome) (network : Network)
    (randomValStdDev : ℚ) (max_tries : Nat) (draws : Nat → Nat × Nat) (z : ℚ) :
    Option (Bool × Genome) :=
  match FindNewPossibleConnection it network draws max_tries with
  | none => none
  | some none => some (false, g)
  | some (some (inNode, outNode, is_recurrent)) =>
    if is_recurrent then
      some (true, { g with
        recurrent_edges := SMap.set g.recurrent_edges (inNode, outNode)
          (randomGaussian randomValStdDev z)
        disabled_recurrent_edges := SMap.del g.disabled_recurrent_edges (inNode, outNode) })
    else
      some (true, { g with
        forward_edges := SMap.set g.forward_edges (inNode, outNode)
          (randomGaussian randomValStdDev z)
        disabled_forward_edges := SMap.del g.disabled_forward_edges (inNode, outNode) })

/-! ## `MutateWeights`, `Crossover` -/

/-- One loop of `MutateWeights` over a map; the edge at position `k` of the
walk uses the draws `u k` (of `rand_norm`) and `z k` (of the Gaussian). -/
def mutateMap (perturbStdDev randomValStdDev randomValProb : ℚ) (u z : Nat → ℚ) :
    Nat → SMap (Int × Int) ℚ → SMap (Int × Int) ℚ
  | _, [] => []
  | k, (e, w) :: rest =>
    (e, if u k < randomValProb then randomGaussian randomValStdDev (z k)
        else w + randomGaussian perturbStdDev (z k)) ::
      mutateMap perturbStdDev randomValStdDev randomValProb u z (k + 1) rest

/-- The model of `Genome::MutateWeights`. -/
def MutateWeights (g : Genome) (perturbStdDev randomValStdDev randomValProb : ℚ)
    (u z : Nat → ℚ) : Genome :=
  { g with
    forward_edges := mutateMap perturbStdDev randomValStdDev randomValProb u z 0 g.forward_edges
    recurrent_edges := mutateMap perturbStdDev randomValStdDev randomValProb u z
      g.forward_edges.length g.recurrent_edges }

/-- One loop of `Crossover` over a map of `this`, against the matching map of
`parent1`; the edge at position `k` uses the draw `draws k` of `rand_int(1)`. -/
def crossMap (other : SMap (Int × Int) ℚ) (draws : Nat → Nat) :
    Nat → SMap (Int × Int) ℚ → SMap (Int × Int) ℚ
  | _, [] => []
  | k, (e, w) :: rest =>
    (e, match SMap.find other e with
        | some w1 => if rand_int 1 (draws k) = 0 then w1 else w
        | none => w) :: crossMap other draws (k + 1) rest

/-- The model of `Genome::Crossover(parent1)`. -/
def Crossover (g parent1 : Genome) (draws : Nat → Nat) : Genome :=
  { g with
    forward_edges := crossMap parent1.forward_edges draws 0 g.forward_edges
    recurrent_edges := crossMap parent1.recurrent_edges draws g.forward_edges.length
      g.recurrent_edges }

/-! ## `Run`, `ResetRecurrentConnections` -/

/-- The model of `NetworkBase::ResetRecurrentConnections`. -/
def ResetRecurrentConnections (net : Network) : Network :=
  { net with run_info := net.run_info.map (fun r => { r with output_val := 0 }) }

/-- `Run`, lines 104-106: the inputs are copied into the first slots. -/
def copyInputs : Nat → List ℚ → List NeuronRunInfo → List NeuronRunInfo
  | _, [], ri => ri
  | i, x :: rest, ri => copyInputs (i + 1) rest (setOutputVal ri i x)

/-- `Run`, lines 113-121: the weighted sum over the block of `numPrevNodes`
records of `input_info` that starts at `start`. -/
def blockSum (input_info : List NeuronInputInfo) (run_info : List NeuronRunInfo)
    (start numPrevNodes : Nat) : ℚ :=
  ((input_info.drop start).take numPrevNodes).foldl
    (fun sum p => sum + (run_info.getD p.input_index ⟨0, 0⟩).output_val * p.weight) 0

/-- `Run`, lines 111-123: the loop over the nodes `i, i + 1, ..`, `count` of
them, with `input_info_start_index = start`. -/
def runNodes (act : ℚ → ℚ) (input_info : List NeuronInputInfo) :
    Nat → Nat → Nat → List NeuronRunInfo → List NeuronRunInfo
  | 0, _, _, ri => ri
  | count + 1, i, start, ri =>
    let numPrevNodes := (ri.getD i ⟨0, 0⟩).input_info_block_size
    let sum := blockSum input_info ri start numPrevNodes
    runNodes act input_info count (i + 1) (start + numPrevNodes) (setOutputVal ri i (act sum))

/-- `Run`, lines 125-127: the values written to `out`. -/
def readOutputs (net : Network) (run_info : List NeuronRunInfo) : List ℚ :=
  (List.range net.num_output_nodes.toNat).map
    (fun i => (run_info.getD (net.output_indices.getD i 0) ⟨0, 0⟩).output_val)

/-- The `run_info` that `Run` leaves when it passes its three checks. -/
def runInfoAfter (act : ℚ → ℚ) (net : Network) (inp : List ℚ) : List NeuronRunInfo :=
  let ri1 := copyInputs 0 inp net.run_info
  let ri2 := setOutputVal ri1 (net.num_input_nodes - 1).toNat 1
  runNodes act net.input_info (ri2.length - net.num_input_nodes.toNat)
    net.num_input_nodes.toNat 0 ri2

/-- The model of `NetworkBase::Run(in, out)` with the activation `act` in the
place of `tanh`: the returned flag, the network and `out` afterwards. -/
def Run (act : ℚ → ℚ) (net : Network) (inp out : List ℚ) : Bool × Network × List ℚ :=
  if net.IsInvalid then (false, net, out)
  else if (inp.length : Int) ≠ net.num_input_nodes - 1 then (false, net, out)
  else if (out.length : Int) ≠ net.num_output_nodes then (false, net, out)
  else
    let ri := runInfoAfter act net inp
    (true, { net with run_info := ri }, readOutputs net ri)

/-- The facts `tryConnection` establishes before it reports the pair
`(a, b)` with the flag `r`. -/
structure TryResult (it : List Int → List Int) (net : Network) (d : Nat × Nat) (a b : Int)
    (r : Bool) : Prop where
  labelIn : labelAt net.visual_info (rand_int ((net.run_info.length : Int) - 1) d.1) = some a
  labelOut : labelAt net.visual_info
    (rand_int2 net.num_input_nodes ((net.run_info.length : Int) - 1) d.2) = some b
  known : ∃ succs, SMap.find net.adjacency_list a = some succs ∧ b ∉ succs
  notRec : ∀ preds, SMap.find net.adjacency_list_recurrent_rev b = some preds → a ∉ preds
  check : CheckRecurrent it net a b = some r

/-! ## Reachable genomes -/

/-- The genomes `g` that an engine built for `ni - 1` inputs and `no` outputs
can hold, with the registry state `n` at that moment: the empty genome, the
empty genome after `AddInputOutputEdge`, and every genome obtained from one of
these by successful `AddNodeMutation`, by successful `AddEdgeMutation` on the
network compiled from the genome itself (for any iteration order `it` of the
unordered sets), by `MutateWeights` and by `Crossover` with any other genome,
under any random draws. The step `registry` is a registry call made for
another genome of the population. -/
inductive Reachable (ni no : Int) : NEAT → Genome → Prop
  | empty : Reachable ni no (NEAT.new (ni - 1) no) (Genome.new ni no)
  | seed (drawIn drawOut : Nat) (weight : ℚ) :
      Reachable ni no (NEAT.new (ni - 1) no)
        (AddInputOutputEdge (Genome.new ni no) drawIn drawOut weight)
  | registry {n : NEAT} {g : Genome} (e : Int × Int) (r : Bool) :
      Reachable ni no n g → Reachable ni no (GetAddNodeNumber n e r).2 g
  | addNode {n : NEAT} {g : Genome} (draw : Nat) :
      Reachable ni no n g → (AddNodeMutation g n draw).1 = true →
      Reachable ni no (AddNodeMutation g n draw).2.2 (AddNodeMutation g n draw).2.1
  | addEdge {n : NEAT} {g g1 : Genome} (it : List Int → List Int) (fuel : Nat) (net : Network)
      (randomValStdDev : ℚ) (max_tries : Nat) (draws : Nat → Nat × Nat) (z : ℚ) :
      Reachable ni no n g → (∀ l, (it l).Perm l) → GenerateNetwork it fuel g = some net →
      AddEdgeMutation it g net randomValStdDev max_tries draws z = some (true, g1) →
      Reachable ni no n g1
  | weights {n : NEAT} {g : Genome} (perturbStdDev randomValStdDev randomValProb : ℚ)
      (u z : Nat → ℚ) :
      Reachable ni no n g →
      Reachable ni no n (MutateWeights g perturbStdDev randomValStdDev randomValProb u z)
  | crossover {n : NEAT} {g : Genome} (parent1 : Genome) (draws : Nat → Nat) :
      Reachable ni no n g → Reachable ni no n (Crossover g parent1 draws)

/-- The keys of `forward_edges` and `disabled_forward_edges`. -/
def Genome.forwardKeys (g : Genome) : List (Int × Int) :=
  SMap.keys g.forward_edges ++ SMap.keys g.disabled_forward_edges

/-- The keys of the four maps. -/
def Genome.allKeys (g : Genome) : List (Int × Int) :=
  g.forwardKeys ++ (SMap.keys g.recurrent_edges ++ SMap.keys g.disabled_recurrent_edges)

/-- No key of `forward_edges` or `disabled_forward_edges` leads from an output
node to a node that is not an output. -/
def Genome.NoOutputToInner (g : Genome) : Prop :=
  ∀ k ∈ g.forwardKeys, ¬ (g.IsOutputNode k.1 = true ∧ g.IsOutputNode k.2 = false)

/-- The part of the invariant of reachable genomes that needs no look at the
compiled network: the node counts are those of the engine, the registry
invariant holds, and no forward key leads from an output to a non-output. -/
structure BasicInv (ni no : Int) (n : NEAT) (g : Genome) : Prop where
  sizeIn : g.num_input_nodes = ni
  sizeOut : g.num_output_nodes = no
  reg : n.RegInv (ni - 1 + no)
  src : g.NoOutputToInner

/-! ## Concrete genomes used as test inputs -/

/-- One input, the bias and one output, with the single forward edge
`(0,2)` of weight `5`. -/
def genomeA : Genome :=
  { Genome.new 2 1 with forward_edges := [((0, 2), 5)] }

/-- The genome `genomeA` after `AddNodeMutation` in an engine built for one
input and one output: `(0,2)` is split through the hidden node `3`. -/
def genomeB : Genome := (AddNodeMutation genomeA (NEAT.new 1 1) 0).2.1

/-- A second genome with the enabled forward edge `(0,2)`, of another weight,
and the edge `(1,2)`. -/
def genomeC : Genome :=
  { Genome.new 2 1 with forward_edges := [((0, 2), 7), ((1, 2), -3)] }

/-- The engine after `genomeA` was split into `genomeB`. -/
def engineB : NEAT := (AddNodeMutation genomeA (NEAT.new 1 1) 0).2.2

/-- The genome `genomeB` after a second `AddNodeMutation` (draw `0`): `(0,3)` is
split through the hidden node `4`. -/
def genomeB2 : Genome := (AddNodeMutation genomeB engineB 0).2.1

/-- The engine after the second split. -/
def engineB2 : NEAT := (AddNodeMutation genomeB engineB 0).2.2

/-- The result of `AddEdgeMutation` on `genomeB2` and its own network, with the
draws that select the nodes `0` and `2`. -/
def addEdgeB3 : Option (Bool × Genome) :=
  (GenerateNetwork id 10 genomeB2).bind
    (fun net => AddEdgeMutation id genomeB2 net 2 3 (fun _ => (0, 2)) 1)

/-- The genome `genomeB2` after that `AddEdgeMutation`: the disabled edge
`(0,2)` is enabled again. -/
def genomeB3 : Genome := (addEdgeB3.getD (false, genomeB2)).2

/-- The genome `genomeB3` after a third `AddNodeMutation` (draw `0`): `(0,2)` is
split again, through the memoised hidden node `3`. -/
def genomeB4 : Genome := (AddNodeMutation genomeB3 engineB2 0).2.1

/-- The empty genome with one input, the bias and two outputs `2` and `3`. -/
def genomeTwoOut : Genome := Genome.new 2 2

/-- The result of `AddEdgeMutation` on `genomeTwoOut` and its own network, with
the draws that select the nodes `2` and `3`. -/
def addEdgeTwoOut : Option (Bool × Genome) :=
  (GenerateNetwork id 10 genomeTwoOut).bind
    (fun net => AddEdgeMutation id genomeTwoOut net 2 3 (fun _ => (2, 1)) 1)

/-- The network compiled from `genomeTwoOut`. -/
def netTwoOut : Network := (GenerateNetwork id 10 genomeTwoOut).getD (Network.bare 0 0 [])

/-- The genome `genomeTwoOut` after that `AddEdgeMutation`. -/
def genomeTwoOut1 : Genome := (addEdgeTwoOut.getD (false, genomeTwoOut)).2

/-- The edge relation of a list of edge keys. -/
def EdgeRel (E : List (Int × Int)) (a b : Int) : Prop := (a, b) ∈ E

/-- No directed cycle among the edge keys `E`. -/
def Acyclic (E : List (Int × Int)) : Prop := ∀ x, ¬ Relation.TransGen (EdgeRel E) x x

/-- The end points of a list of edge keys. -/
def endpoints (E : List (Int × Int)) : List Int := E.map Prod.fst ++ E.map Prod.snd

/-- A `std::map<int, V>` keeps its keys strictly ascending. -/
def SMap.WF {V : Type} (m : SMap Int V) : Prop := (SMap.keys m).Sorted (fun a b => a < b)

/-- The condition under which `relaxEdge` appends the successor `e`. -/
def relaxPush (ni no : Int) (onlyNonOutput : Bool) (curNode : Int) (rev : SMap Int (List Int))
    (e : Int) : Bool :=
  decide ((USet.erase (SMap.getD rev e []) curNode).length ≤ 0) &&
    (!onlyNonOutput || !IsOutputNode ni no e)

/-- What the constructor needs of the forward edge keys `E` and of the
adjacency maps read from them: the maps hold exactly the edges, no edge enters
a sensor, no edge leads from an output to a non-output, and `E` is acyclic. -/
structure GraphOK (ni no : Int) (E : List (Int × Int)) (adj rev : SMap Int (List Int)) :
    Prop where
  succ_iff : ∀ a b, b ∈ SMap.getD adj a [] ↔ (a, b) ∈ E
  pred_iff : ∀ a b, a ∈ SMap.getD rev b [] ↔ (a, b) ∈ E
  adj_nodup : ∀ a, (SMap.getD adj a []).Nodup
  rev_nodup : ∀ a, (SMap.getD rev a []).Nodup
  keys_adj : ∀ x, x ∈ SMap.keys adj ↔ (0 ≤ x ∧ x < ni + no) ∨ x ∈ endpoints E
  keys_rev : ∀ x, x ∈ SMap.keys rev ↔ (0 ≤ x ∧ x < ni + no) ∨ x ∈ endpoints E
  wf_adj : SMap.WF adj
  wf_rev : SMap.WF rev
  noSensorTarget : ∀ k ∈ E, IsInputNode ni k.2 = false
  outClosed : ∀ k ∈ E, IsOutputNode ni no k.1 = true → IsOutputNode ni no k.2 = true
  acyclic : Acyclic E

/-- Every id the topological sort can append: the sensors, the keys of
`adjacency_list_rev` and the outputs. -/
def candidates (ni no : Int) (rev : SMap Int (List Int)) : List Int :=
  countUp ni ++ SMap.keys rev ++ (countUp no).map (fun i => ni + i)

/-- The nodes a loop of the topological sort is responsible for: the first
loop for the keys that are neither sensor nor output, the second loop for the
outputs. -/
def sortDuty (ni no : Int) (rev : SMap Int (List Int)) (only : Bool) (x : Int) : Prop :=
  if only = true then
    IsInputNode ni x = false ∧ IsOutputNode ni no x = false ∧ x ∈ SMap.keys rev
  else IsOutputNode ni no x = true

/-- One iteration of a loop of the topological sort on the node at
`sortedNodesIndex`. -/
def sortStep (it : List Int → List Int) (ni no : Int) (only : Bool) (st : SortState) :
    SortState :=
  let curNode := st.sortedNodes.getD st.sortedNodesIndex 0
  let adj1 := SMap.touch st.adj curNode []
  let r := (it (SMap.getD adj1 curNode [])).foldl (relaxEdge ni no only curNode)
    (st.rev, st.sortedNodes)
  { sortedNodes := r.2, sortedNodesIndex := st.sortedNodesIndex + 1, adj := adj1, rev := r.1 }

/-- The invariant of the two loops of the topological sort (`only = true` for
the first loop). `adj` and `rev0` are the maps read from the edges. -/
structure SortInv (ni no : Int) (E : List (Int × Int)) (adj rev0 : SMap Int (List Int))
    (only : Bool) (st : SortState) : Prop where
  nodup : st.sortedNodes.Nodup
  idx_le : st.sortedNodesIndex ≤ st.sortedNodes.length
  rev_eq : ∀ x, SMap.getD st.rev x [] =
    (SMap.getD rev0 x []).filter
      (fun p => decide (p ∉ st.sortedNodes.take st.sortedNodesIndex))
  adj_eq : ∀ x, SMap.getD st.adj x [] = SMap.getD adj x []
  sub : ∀ x ∈ st.sortedNodes, x ∈ candidates ni no rev0
  sensors : ∀ x, IsInputNode ni x = true → x ∈ st.sortedNodes.take st.sortedNodesIndex ∨
    (x ∈ st.sortedNodes ∧ only = true)
  done : ∀ x ∈ st.sortedNodes, IsInputNode ni x = false → ∀ p, (p, x) ∈ E →
    p ∈ st.sortedNodes.take st.sortedNodesIndex
  topo : ∀ j, j < st.sortedNodes.length → IsInputNode ni (st.sortedNodes.getD j 0) = false →
    ∀ p, (p, st.sortedNodes.getD j 0) ∈ E → p ∈ st.sortedNodes.take j
  complete : ∀ x, sortDuty ni no rev0 only x →
    (∀ p, (p, x) ∈ E → p ∈ st.sortedNodes.take st.sortedNodesIndex) → x ∈ st.sortedNodes
  pending : ∀ x ∈ st.sortedNodes.drop st.sortedNodesIndex, IsOutputNode ni no x = !only
  nonOut : only = true → ∀ x ∈ st.sortedNodes, IsOutputNode ni no x = false
  outputsLast : ∀ j, j < st.sortedNodes.length →
    IsOutputNode ni no (st.sortedNodes.getD j 0) = false →
    ∀ y ∈ st.sortedNodes.take j, IsOutputNode ni no y = false

/-- The outputs `pushOutputSources` appends: those without a remaining
predecessor. -/
def outputSources (ni no : Int) (rev : SMap Int (List Int)) : List Int :=
  ((countUp no).map (fun i => ni + i)).filter
    (fun o => decide ((SMap.getD rev o []).length ≤ 0))

/-- What the two loops of the topological sort establish about the final
`sortedNodes`: it lists every sensor, every output and every key of the
adjacency maps exactly once, every predecessor of a non-sensor node stands
before the node, and no output stands before a non-output. -/
structure SortDone (ni no : Int) (E : List (Int × Int)) (rev0 : SMap Int (List Int))
    (S : List Int) : Prop where
  nodup : S.Nodup
  mem_iff : ∀ x, x ∈ S ↔
    IsInputNode ni x = true ∨ IsOutputNode ni no x = true ∨ x ∈ SMap.keys rev0
  topo : ∀ j, j < S.length → IsInputNode ni (S.getD j 0) = false →
    ∀ p, (p, S.getD j 0) ∈ E → p ∈ S.take j
  outputsLast : ∀ j, j < S.length → IsOutputNode ni no (S.getD j 0) = false →
    ∀ y ∈ S.take j, IsOutputNode ni no y = false

/-- The three conditions on a list of forward edge keys under which the
constructor compiles a network: no edge enters a sensor, no edge leads from an
output to a non-output, and there is no directed cycle. -/
structure ForwardOK (ni no : Int) (E : List (Int × Int)) : Prop where
  noSensorTarget : ∀ k ∈ E, IsInputNode ni k.2 = false
  outClosed : ∀ k ∈ E, IsOutputNode ni no k.1 = true → IsOutputNode ni no k.2 = true
  acyclic : Acyclic E

/-- A fuel that suffices for both loops of the topological sort of a genome
with `edges` forward edges. -/
def sortFuel (ni no : Int) (edges : Nat) : Nat :=
  ni.toNat + no.toNat + (ni + no).toNat + 2 * edges + 1

/-- The invariant of the depth loop (lines 232-248) after the first `k` entries
of `sortedNodes = S`; the state is `maxDepth` and `outputDepth`. -/
structure DepthInv (ni no : Int) (E : List (Int × Int)) (S : List Int) (k : Nat)
    (st : SMap Int Int × Int) : Prop where
  wf : SMap.WF st.1
  keys_sub : ∀ y ∈ SMap.keys st.1, y ∈ S
  keys_sup : ∀ y ∈ S.take k, y ∈ SMap.keys st.1
  sensor0 : ∀ y ∈ S.take k, IsInputNode ni y = true → SMap.getD st.1 y 0 = 0
  pos : ∀ y ∈ S.take k, IsInputNode ni y = false → 1 ≤ SMap.getD st.1 y 0
  edge : ∀ y ∈ S.take k, IsInputNode ni y = false → ∀ p, (p, y) ∈ E →
    SMap.getD st.1 p 0 + 1 ≤ SMap.getD st.1 y 0
  odNonneg : 0 ≤ st.2
  odBound : ∀ y ∈ S.take k, IsInputNode ni y = false → IsOutputNode ni no y = false →
    SMap.getD st.1 y 0 ≤ st.2
  outAbove : ∀ y ∈ S.take k, IsOutputNode ni no y = true → st.2 + 1 ≤ SMap.getD st.1 y 0

/-- What the depth loop establishes about `maxDepth = D`: its keys are the
entries of `sortedNodes`, sensors have depth `0`, every other node a depth of
at least `1`, the depth grows along every edge, and every output lies deeper
than every node that is not an output. -/
structure DepthOK (ni no : Int) (E : List (Int × Int)) (S : List Int) (D : SMap Int Int) :
    Prop where
  wf : SMap.WF D
  keys_iff : ∀ y, y ∈ SMap.keys D ↔ y ∈ S
  sensor0 : ∀ y, IsInputNode ni y = true → SMap.getD D y 0 = 0
  pos : ∀ y ∈ S, IsInputNode ni y = false → 1 ≤ SMap.getD D y 0
  edge : ∀ p y, (p, y) ∈ E → SMap.getD D p 0 < SMap.getD D y 0
  outAbove : ∀ x ∈ S, ∀ y ∈ S, IsOutputNode ni no x = true → IsOutputNode ni no y = false →
    SMap.getD D y 0 < SMap.getD D x 0

/-- The node ids of `id_depth_pair`, in order. -/
def idsOf (L : List NeuronIdDepth) : List Int := L.map (fun e => e.id)

/-- The node ids of the compiled network in the order of their internal
indices: `visual_info[i].label` is the id of the node `run_info[i]`. -/
def Network.labels (net : Network) : List Int := net.visual_info.map (fun v => v.label)

/-- The internal index of the node `x` in the compiled network, if it has
one. -/
def Network.nodeIndex (net : Network) (x : Int) : Option Nat :=
  if x ∈ net.labels then some (net.labels.indexOf x) else none

/-- The block of `input_info` records the constructor emits for the entry `e`
of `id_depth_pair`: the forward predecessors, then the recurrent ones. -/
def emitBlock (it : List Int → List Int) (forward_edges recurrent_edges : SMap (Int × Int) ℚ)
    (revCopy recRev : SMap Int (List Int)) (indexMap : SMap Int Nat) (e : NeuronIdDepth) :
    List NeuronInputInfo :=
  blockOf forward_edges indexMap e.id (it (SMap.getD revCopy e.id [])) ++
    blockOf recurrent_edges indexMap e.id (it (SMap.getD recRev e.id []))

/-- What the constructor establishes about the network `net` it compiles from
the forward edges `fe` and the recurrent edges `re`, in terms of the
predecessor map `rev`, the final `sortedNodes = S` and `maxDepth = D`. -/
structure Compiled (it : List Int → List Int) (ni no : Int) (fe re : SMap (Int × Int) ℚ)
    (rev : SMap Int (List Int)) (S : List Int) (D : SMap Int Int) (net : Network) : Prop where
  sizeIn : net.num_input_nodes = ni
  sizeOut : net.num_output_nodes = no
  pred_iff : ∀ a b, a ∈ SMap.getD rev b [] ↔ (a, b) ∈ SMap.keys fe
  pred_nodup : ∀ b, (SMap.getD rev b []).Nodup
  sortDone : SortDone ni no (SMap.keys fe) rev S
  keys_rev : ∀ x, x ∈ SMap.keys rev ↔ (0 ≤ x ∧ x < ni + no) ∨ x ∈ endpoints (SMap.keys fe)
  depth : DepthOK ni no (SMap.keys fe) S D
  labels_eq : net.labels = idsOf (sortedIdDepth D)
  adj_iff : ∀ a b, b ∈ SMap.getD net.adjacency_list a [] ↔ (a, b) ∈ SMap.keys fe
  rec_iff : ∀ a b, a ∈ SMap.getD net.adjacency_list_recurrent_rev b [] ↔
    (a, b) ∈ SMap.keys re
  rec_nodup : ∀ b, (SMap.getD net.adjacency_list_recurrent_rev b []).Nodup
  run_info_eq : net.run_info = setOutputVal
    ((sortedIdDepth D).map (fun e => NeuronRunInfo.mk 0
      ((SMap.getD rev e.id []).length +
        (SMap.getD net.adjacency_list_recurrent_rev e.id []).length))) (ni - 1).toNat 1
  input_info_eq : net.input_info =
    ((sortedIdDepth D).map (emitBlock it fe re rev net.adjacency_list_recurrent_rev
      (indexMapFrom 0 (sortedIdDepth D) []))).flatten
  output_indices_eq : ∀ k : Nat, (k : Int) < no →
    net.output_indices.getD k 0 = (idsOf (sortedIdDepth D)).indexOf (ni + (k : Int))
  forwardOK : ForwardOK ni no (SMap.keys fe)
  adj_keys : ∀ x, (0 ≤ x ∧ x < ni + no) ∨ x ∈ endpoints (SMap.keys fe) →
    x ∈ SMap.keys net.adjacency_list

/-- The object the constructor returns after the topological sort left the
state `st2`, with the predecessor map `revCopy` (lines 229-322). -/
def Network.assemble (it : List Int → List Int) (input_nodes output_nodes : Int)
    (forward_edges recurrent_edges : SMap (Int × Int) ℚ) (revCopy : SMap Int (List Int))
    (st2 : SortState) : Network :=
  let maxDepth := computeDepths it input_nodes output_nodes revCopy st2.sortedNodes
  let idDepth := sortedIdDepth maxDepth
  let layers := layerInfo input_nodes output_nodes idDepth
  let indexMap := indexMapFrom 0 idDepth []
  let recRev := readRecurrent recurrent_edges []
  let em := emitFrom it input_nodes output_nodes forward_edges recurrent_edges revCopy
    indexMap 0 idDepth
    { output_indices := List.replicate output_nodes.toNat 0, input_info := [],
      run_info := [], recRev := recRev }
  { num_input_nodes := input_nodes
    num_output_nodes := output_nodes
    input_info := em.input_info
    output_indices := em.output_indices
    run_info := setOutputVal em.run_info (input_nodes - 1).toNat 1
    visual_info := layers.visual_info
    layer_sizes := layers.layer_sizes
    adjacency_list := st2.adj
    adjacency_list_recurrent_rev := em.recRev }

/-- A rank of the nodes of `genomeB` that grows along its forward edges. -/
def rankB (x : Int) : Int := if x = 0 then 0 else if x = 3 then 1 else 2

/-- The `output_val` of slot `j` of a `run_info` vector. -/
def valAt (ri : List NeuronRunInfo) (j : Nat) : ℚ := (ri.getD j ⟨0, 0⟩).output_val

/-- The `input_info_block_size` of slot `j` of a `run_info` vector. -/
def sizeAt (ri : List NeuronRunInfo) (j : Nat) : Nat :=
  (ri.getD j ⟨0, 0⟩).input_info_block_size

/-- The sum of the block sizes of the slots `i, .., i + k - 1`. -/
def sizeSum (ri : List NeuronRunInfo) (i : Nat) : Nat → Nat
  | 0 => 0
  | k + 1 => sizeSum ri i k + sizeAt ri (i + k)

/-- The position in the flattened vector at which block `j` starts. -/
def offsetOf (B : List (List NeuronInputInfo)) (j : Nat) : Nat :=
  ((B.take j).map List.length).sum

/-- The term one record of `input_info` adds to the sum of `Run`. -/
def blockTerm (ri : List NeuronRunInfo) (sum : ℚ) (p : NeuronInputInfo) : ℚ :=
  sum + valAt ri p.input_index * p.weight

/-- The `run_info` with which the node loop of `Run` starts: the inputs
copied into the first slots of `ri`, then the bias slot set to `1`. -/
def runStart (ni : Int) (inp : List ℚ) (ri : List NeuronRunInfo) : List NeuronRunInfo :=
  setOutputVal (copyInputs 0 inp ri) (ni - 1).toNat 1

/-- The `run_info` of the node loop of `Run` at the moment it turns to the
slot `j`: the slots from `ni` up to `j - 1` are computed. -/
def runBefore (act : ℚ → ℚ) (net : Network) (ri : List NeuronRunInfo) (j : Nat) :
    List NeuronRunInfo :=
  runNodes act net.input_info (j - net.num_input_nodes.toNat) net.num_input_nodes.toNat 0 ri

/-- Modelled from the spec's words: `val` is a graph-recursive reference value
of the forward graph `fe` on the input vector `inp`. A sensor `i` has the value
`inp[i]`, the bias `ni - 1` the value `1`, and every other node `n` the
activation of the sum of `weight(p, n) * val p` over the forward edges
`(p, n)`. -/
structure ReferenceValue (act : ℚ → ℚ) (ni : Int) (fe : SMap (Int × Int) ℚ) (inp : List ℚ)
    (val : Int → ℚ) : Prop where
  sensor : ∀ i : Nat, (i : Int) < ni - 1 → val (i : Int) = inp.getD i 0
  bias : val (ni - 1) = 1
  node : ∀ n, IsInputNode ni n = false →
    val n = act (((fe.filter (fun e => decide (e.1.2 = n))).map
      (fun e => e.2 * val e.1.1)).sum)

/-- A genome without inputs: the bias `0`, the output `1` and the forward edge
between them. -/
def genomeNoInput : Genome :=
  { Genome.new 1 1 with forward_edges := [((0, 1), 2)] }

/-- An activation for concrete runs. -/
def halve (x : ℚ) : ℚ := x / 2

/-- The successor relation of an adjacency map: `b` is in the set stored
under `a`. -/
def AdjRel (adj : SMap Int (List Int)) (a b : Int) : Prop := b ∈ SMap.getD adj a []

/-- A genome with the forward edge `(3,0)` from a hidden node into the
sensor `0`. -/
def genomeIntoSensor : Genome :=
  { Genome.new 2 1 with forward_edges := [((3, 0), 1)] }

/-- The genome `genomeIntoSensor` with the recurrent edge `(0,3)`. -/
def genomeIntoSensor2 : Genome :=
  { genomeIntoSensor with
    recurrent_edges := SMap.set genomeIntoSensor.recurrent_edges (0, 3) 4 }

/-- The node `h` is an end point of a key of the set `P`. -/
def Occurs (P : Int × Int → Prop) (h : Int) : Prop := ∃ k, P k ∧ (k.1 = h ∨ k.2 = h)

/-- The invariant of the four key sets `F`, `Fd`, `R`, `Rd` (enabled and
disabled forward keys, enabled and disabled recurrent keys) of a reachable
genome, with the node counter `ctr` and the registry `regd` of its engine:
no node id exceeds the counter; a registered hidden node that occurs in the
genome is linked to the end points of its split edge; the forward keys have
no cycle; every disabled forward key is bridged by a path of enabled forward
keys; no key enters a sensor. -/
structure KeyInv (ni ctr : Int) (regd : Int × Int → Bool → Int → Prop)
    (F Fd R Rd : Int × Int → Prop) : Prop where
  bound : ∀ k, (F k ∨ Fd k ∨ R k ∨ Rd k) → k.1 ≤ ctr ∧ k.2 ≤ ctr
  regF : ∀ e h, regd e false h → Occurs (fun k => F k ∨ Fd k ∨ R k ∨ Rd k) h →
    (F (e.1, h) ∨ Fd (e.1, h)) ∧ (F (h, e.2) ∨ Fd (h, e.2))
  regR : ∀ e h, regd e true h → Occurs (fun k => F k ∨ Fd k ∨ R k ∨ Rd k) h →
    (F (e.1, h) ∨ Fd (e.1, h))
  acyclic : ∀ x, ¬ Relation.TransGen (fun a b => F (a, b) ∨ Fd (a, b)) x x
  detour : ∀ k, Fd k → Relation.TransGen (fun a b => F (a, b)) k.1 k.2
  noSensor : ∀ k, (F k ∨ Fd k ∨ R k ∨ Rd k) → IsInputNode ni k.2 = false

/-- The invariant `KeyInv` for the four maps of the genome `g` and the
registry `n`. -/
def FullInv (ni : Int) (n : NEAT) (g : Genome) : Prop :=
  KeyInv ni n.node_ctr n.registered
    (fun k => k ∈ SMap.keys g.forward_edges)
    (fun k => k ∈ SMap.keys g.disabled_forward_edges)
    (fun k => k ∈ SMap.keys g.recurrent_edges)
    (fun k => k ∈ SMap.keys g.disabled_recurrent_edges)

/-- The model of the default constructor `NetworkBase::NetworkBase()`: both
counts `0`, every vector empty. -/
def NetworkBase.new : Network := Network.bare 0 0 []

/-- The genome with one input, the bias and one output whose only edge is the
enabled forward edge from the bias `1` to the output `2`, of weight `w`. -/
def biasGenome (w : ℚ) : Genome :=
  { Genome.new 2 1 with forward_edges := [((1, 2), w)] }

/-! ## `GetCompatibilityDistInfo`, `WithinCompatibilityThresh` -/

/-- The body of each of the four loops of `GetCompatibilityDistInfo` for one
entry `e` of a map of `this`: the key is looked up in the map `enabled` of the
other genome, then in its map `disabled`; the state is `matching` and
`avgWeightDiff`. -/
def compatEntry (enabled disabled : SMap (Int × Int) ℚ) (st : Int × ℚ)
    (e : (Int × Int) × ℚ) : Int × ℚ :=
  match SMap.find enabled e.1 with
  | some w => (st.1 + 1, st.2 + |e.2 - w|)
  | none =>
    match SMap.find disabled e.1 with
    | some w => (st.1 + 1, st.2 + |e.2 - w|)
    | none => st

/-- The model of `Genome::GetCompatibilityDistInfo(genome, ..)`: the values
written to `nonMatching_out`, `genomeSize_out` and `avgWeightDiff_out`. -/
def GetCompatibilityDistInfo (g genome : Genome) : Int × Int × ℚ :=
  let st1 := g.forward_edges.foldl
    (compatEntry genome.forward_edges genome.disabled_forward_edges) (0, 0)
  let st2 := g.disabled_forward_edges.foldl
    (compatEntry genome.forward_edges genome.disabled_forward_edges) st1
  let st3 := g.recurrent_edges.foldl
    (compatEntry genome.recurrent_edges genome.disabled_recurrent_edges) st2
  let st4 := g.disabled_recurrent_edges.foldl
    (compatEntry genome.recurrent_edges genome.disabled_recurrent_edges) st3
  let matching := st4.1
  let avgWeightDiff := st4.2
  let nonMatching : Int :=
    (g.forward_edges.length : Int) + g.disabled_forward_edges.length +
      genome.forward_edges.length + genome.disabled_forward_edges.length +
      g.recurrent_edges.length + g.disabled_recurrent_edges.length +
      genome.recurrent_edges.length + genome.disabled_recurrent_edges.length - 2 * matching
  (nonMatching, nonMatching + matching,
    if matching = 0 then 0 else avgWeightDiff / (matching : ℚ))

/-- The value `compatibility_dist` of `NEAT::WithinCompatibilityThresh`. -/
def compatibilityDist (c1_c2 c3 : ℚ) (g1 g2 : Genome) : ℚ :=
  let r := GetCompatibilityDistInfo g1 g2
  if r.2.1 ≤ 0 then 0 else (c1_c2 * (r.1 : ℚ)) / (r.2.1 : ℚ) + c3 * r.2.2

/-- The model of `NEAT::WithinCompatibilityThresh(g1, g2)`. -/
def WithinCompatibilityThresh (c1_c2 c3 compatibility_thresh : ℚ) (g1 g2 : Genome) : Bool :=
  decide (compatibilityDist c1_c2 c3 g1 g2 < compatibility_thresh)

/-- The keys of `recurrent_edges` and `disabled_recurrent_edges`. -/
def Genome.recurrentKeys (g : Genome) : List (Int × Int) :=
  SMap.keys g.recurrent_edges ++ SMap.keys g.disabled_recurrent_edges

/-- The weight the lookups of `GetCompatibilityDistInfo` find for a forward
key: the one in `forward_edges` if the key is there, else the one in
`disabled_forward_edges`. -/
def Genome.forwardWeight (g : Genome) (k : Int × Int) : ℚ :=
  SMap.getD (g.forward_edges ++ g.disabled_forward_edges) k 0

/-- The weight the lookups of `GetCompatibilityDistInfo` find for a recurrent
key. -/
def Genome.recurrentWeight (g : Genome) (k : Int × Int) : ℚ :=
  SMap.getD (g.recurrent_edges ++ g.disabled_recurrent_edges) k 0

/-- The forward keys (enabled or disabled) that two genomes share. -/
def sharedForward (g1 g2 : Genome) : Finset (Int × Int) :=
  g1.forwardKeys.toFinset ∩ g2.forwardKeys.toFinset

/-- The recurrent keys (enabled or disabled) that two genomes share. -/
def sharedRecurrent (g1 g2 : Genome) : Finset (Int × Int) :=
  g1.recurrentKeys.toFinset ∩ g2.recurrentKeys.toFinset

/-- Modelled from the spec's words, with keys matched within their kind: the
number `m` of keys present in both genomes. -/
def matchingKeys (g1 g2 : Genome) : Nat :=
  (sharedForward g1 g2).card + (sharedRecurrent g1 g2).card

/-- Modelled from the spec's words, with keys matched within their kind: the
sum of `|w1 - w2|` over the keys present in both genomes. -/
def weightDiffSum (g1 g2 : Genome) : ℚ :=
  (sharedForward g1 g2).sum (fun k => |g1.forwardWeight k - g2.forwardWeight k|) +
    (sharedRecurrent g1 g2).sum (fun k => |g1.recurrentWeight k - g2.recurrentWeight k|)

/-- A genome with the hidden nodes `3` and `4` and the forward path
`0 → 3 → 4 → 2`. -/
def compatX : Genome :=
  { Genome.new 2 1 with forward_edges := [((0, 3), 1), ((3, 4), 1), ((4, 2), 1)] }

/-- A genome with the forward path `0 → 4 → 3 → 2` and the recurrent edge
`(3,4)`. -/
def compatY : Genome :=
  { Genome.new 2 1 with
    forward_edges := [((0, 4), 1), ((3, 2), 1), ((4, 3), 1)]
    recurrent_edges := [((3, 4), 1)] }

/-- The genome `genomeB4` after `MutateWeights(0.1, 2, 0.1)` whose draws of
`rand_norm` are all `1` and whose Gaussian samples are all `1`: every enabled
weight grows by `1/10`. -/
def genomeB5 : Genome := MutateWeights genomeB4 (1 / 10) 2 (1 / 10) (fun _ => 1) (fun _ => 1)

/-- A genome whose forward edges `3 → 4 → 3` form a cycle that also feeds the
output `2`. -/
def genomeCycle : Genome :=
  { Genome.new 2 1 with forward_edges := [((3, 4), 1), ((4, 2), 1), ((4, 3), 1)] }

/-- The genome with one input, the bias and one output in which every pair
of a node and a non-sensor node is an enabled edge. -/
def genomeFull : Genome :=
  { Genome.new 2 1 with
    forward_edges := [((0, 2), 1), ((1, 2), 1)]
    recurrent_edges := [((2, 2), 1)] }

/-- The network compiled from `genomeFull`. -/
def netFull : Network := (GenerateNetwork id 9 genomeFull).getD (Network.bare 0 0 [])

/-- The network compiled from `genomeB2`. -/
def netB2 : Network := (GenerateNetwork id 10 genomeB2).getD (Network.bare 0 0 [])

/-- Every entry of every adjacency set of `adj`, with repetitions. -/
def allSuccs (adj : SMap Int (List Int)) : List Int := (adj.map (fun e => e.2)).flatten

/-- The number of entries of the adjacency sets that are not yet
discovered. -/
def undiscovered (adj : SMap Int (List Int)) (disc : List Int) : Nat :=
  ((allSuccs adj).filter (fun x => decide (x ∉ disc))).length

/-- The network compiled from `genomeB`. -/
def netB : Network := (GenerateNetwork id 11 genomeB).getD (Network.bare 0 0 [])

/-- The adjacency list the second loop of the topological sort hands on:
the one of the early `return`, or the one of the final state. -/
def sortAdj : Except (SMap Int (List Int)) SortState → SMap Int (List Int)
  | .error adj => adj
  | .ok st => st.adj

/-! ## The engine: organisms, species, `NEAT::NEAT`, fitness handles -/

/-- The model of `NEAT::Organism`: the genome and the fitness. -/
structure Organism where
  genome : Genome
  fitness : ℚ
  deriving DecidableEq, Repr

/-- The model of `Organism(const Genome& parent)`: the member initialiser
`fitness = -1` marks the fitness as not set. -/
def Organism.new (parent : Genome) : Organism :=
  { genome := parent, fitness := -1 }

/-- The model of `NEAT::Specie`. -/
structure Specie where
  organisms : List Organism
  specie_id : Int
  deriving DecidableEq, Repr

/-- The model of the object `NEAT`. The fields `node_ctr`,
`forwardConnectNode` and `recurrentConnectNode` are the registry `NEAT` above;
`fitness_valid_ptr` is the identity of the `int` object the shared pointer
owns (every `std::make_shared` yields an object no handle has seen). -/
structure Engine where
  registry : NEAT
  fitness_valid_ptr : Nat
  species_ctr : Int
  species : List Specie
  pop_size : Int
  c1_c2 : ℚ
  c3 : ℚ
  compatibility_thresh : ℚ
  top_p_cutoff : ℚ
  add_node_mutation_prob : ℚ
  add_edge_mutation_prob : ℚ
  weight_mutation_prob : ℚ
  generation_id : Int
  deriving DecidableEq, Repr

/-- The model of `NEAT::WithinCompatibilityThresh` as a member of the
engine. -/
def Engine.within (e : Engine) (g1 g2 : Genome) : Bool :=
  WithinCompatibilityThresh e.c1_c2 e.c3 e.compatibility_thresh g1 g2

/-- The model of `species[j].organisms[0].GetGenome()`: `none` when the index
is outside a vector (undefined behaviour). -/
def representativeOf (species : List Specie) (j : Nat) : Option Genome :=
  match species.get? j with
  | none => none
  | some s => s.organisms.head?.map (fun o => o.genome)

/-- The loop `for (j = 0; j < size; ++j)` that looks for the first specie
whose representative is within the compatibility threshold of `childGenome`,
with `count` iterations left from the index `j`; `rep j` is the representative
the loop reads. `none`: undefined behaviour; `some none`: no specie found;
`some (some j)`: the loop leaves at `j` with `foundSpecie = true`. -/
def findSpecie (e : Engine) (rep : Nat → Option Genome) (childGenome : Genome) :
    Nat → Nat → Option (Option Nat)
  | 0, _ => some none
  | count + 1, j =>
    match rep j with
    | none => none
    | some representative =>
      if e.within representative childGenome then some (some j)
      else findSpecie e rep childGenome count (j + 1)

/-- The model of `species[j].organisms.emplace_back(childGenome)`. -/
def placeInto (species : List Specie) (j : Nat) (childGenome : Genome) : List Specie :=
  species.modify (fun s => { s with organisms := s.organisms ++ [Organism.new childGenome] }) j

/-- The model of the three statements that create a new specie for
`childGenome`, with the id `++species_ctr`. -/
def foundSpecie (species : List Specie) (species_ctr : Int) (childGenome : Genome) :
    List Specie :=
  species ++ [{ organisms := [Organism.new childGenome], specie_id := species_ctr + 1 }]

/-- Constructor, lines 62-75: `childGenome` is placed into the first specie
whose representative is compatible with it, or founds a new specie. -/
def placeChild (e : Engine) (childGenome : Genome) : Option Engine :=
  match findSpecie e (representativeOf e.species) childGenome e.species.length 0 with
  | none => none
  | some (some j) => some { e with species := placeInto e.species j childGenome }
  | some none =>
    some { e with
      species := foundSpecie e.species e.species_ctr childGenome
      species_ctr := e.species_ctr + 1 }

/-- Constructor, lines 57-76, one iteration: the empty genome after
`AddInputOutputEdge(2)` is placed. `d` holds the two `rand_int` draws and the
standard normal sample. -/
def seedOrganism (input_nodes output_nodes : Int) (e : Engine) (d : Nat × Nat × ℚ) :
    Option Engine :=
  let childGenome :=
    AddInputOutputEdge (Genome.new input_nodes output_nodes) d.1 d.2.1 (randomGaussian 2 d.2.2)
  placeChild e childGenome

/-- Constructor, lines 57-76: the loop over `organismsCreated`, with `count`
iterations left. -/
def seedLoop (input_nodes output_nodes : Int) (draws : Nat → Nat × Nat × ℚ) :
    Nat → Nat → Engine → Option Engine
  | 0, _, e => some e
  | count + 1, organismsCreated, e =>
    match seedOrganism input_nodes output_nodes e (draws organismsCreated) with
    | none => none
    | some e1 => seedLoop input_nodes output_nodes draws count (organismsCreated + 1) e1

/-- The parameters of the constructor besides the three sizes, in the order
`compatibility_thresh`, `c1_c2`, `c3`, `top_p_cutoff`,
`add_node_mutation_prob`, `add_edge_mutation_prob`, `weight_mutation_prob`. -/
structure Params where
  compatibility_thresh : ℚ
  c1_c2 : ℚ
  c3 : ℚ
  top_p_cutoff : ℚ
  add_node_mutation_prob : ℚ
  add_edge_mutation_prob : ℚ
  weight_mutation_prob : ℚ
  deriving DecidableEq, Repr

/-- The default arguments of `NEAT::NEAT`. -/
def Params.default : Params :=
  { compatibility_thresh := 3 / 2
    c1_c2 := 1
    c3 := 2 / 5
    top_p_cutoff := 3 / 5
    add_node_mutation_prob := 3 / 100
    add_edge_mutation_prob := 3 / 10
    weight_mutation_prob := 4 / 5 }

/-- The state the member initialisers of `NEAT::NEAT` leave, before the body
runs: no species, `species_ctr = -1`, `generation_id = 0`. -/
def Engine.init (input_size output_size pop_size_in : Int) (p : Params) : Engine :=
  { registry := NEAT.new input_size output_size
    fitness_valid_ptr := 0
    species_ctr := -1
    species := []
    pop_size := pop_size_in
    c1_c2 := p.c1_c2
    c3 := p.c3
    compatibility_thresh := p.compatibility_thresh
    top_p_cutoff := p.top_p_cutoff
    add_node_mutation_prob := p.add_node_mutation_prob
    add_edge_mutation_prob := p.add_edge_mutation_prob
    weight_mutation_prob := p.weight_mutation_prob
    generation_id := 0 }

/-- The model of the constructor `NEAT::NEAT`. `draws k` holds the random
draws for the organism number `k`. `none`: undefined behaviour. -/
def Engine.create (input_size output_size pop_size_in : Int) (p : Params)
    (draws : Nat → Nat × Nat × ℚ) : Option Engine :=
  let e := Engine.init input_size output_size pop_size_in p
  if input_size ≤ 0 then some e
  else if output_size ≤ 0 then some e
  else if pop_size_in ≤ 0 then some e
  else
    let input_nodes := input_size + 1
    let output_nodes := output_size
    let emptyGenome := Genome.new input_nodes output_nodes
    let e1 := { e with
      species := [{ organisms := [Organism.new emptyGenome], specie_id := e.species_ctr + 1 }]
      species_ctr := e.species_ctr + 1 }
    seedLoop input_nodes output_nodes draws (pop_size_in - 1).toNat 1 e1

/-- The model of `NEAT::GetNumSpecies`. -/
def Engine.GetNumSpecies (e : Engine) : Int := e.species.length

/-- The number of organisms of all species. -/
def Engine.numOrganisms (e : Engine) : Nat :=
  (e.species.map (fun s => s.organisms.length)).sum

/-- The model of `FitnessInterface`: the object the weak pointer watches, and
the organism `species[specie_index].organisms[organism_index]` whose
`fitness` the reference `fitness_ref` is bound to. -/
structure FitnessInterface where
  fitness_valid_ptr : Nat
  specie_index : Nat
  organism_index : Nat
  deriving DecidableEq, Repr

/-- The model of `fitness_ref = f`. -/
def Engine.writeFitness (e : Engine) (specie_index organism_index : Nat) (f : ℚ) : Engine :=
  { e with
    species := e.species.modify
      (fun s => { s with
        organisms := s.organisms.modify (fun o => { o with fitness := f }) organism_index })
      specie_index }

/-- The model of `FitnessInterface::SetFitness(f)` on a handle of the engine
`e`: the weak pointer is expired exactly when the engine no longer owns the
object the handle watches. -/
def SetFitness (e : Engine) (h : FitnessInterface) (f : ℚ) : Bool × Engine :=
  if h.fitness_valid_ptr ≠ e.fitness_valid_ptr then (false, e)
  else if f < 0 then (false, e)
  else (true, e.writeFitness h.specie_index h.organism_index f)

/-- `GenerateNetworks`, the inner loop over the organisms of the specie number
`i`, from the organism number `j`. -/
def organismEntries (it : List Int → List Int) (fuel : Nat) (ptr : Nat) (i : Nat)
    (specie_id : Int) : Nat → List Organism → Option (List (Network × FitnessInterface × Int))
  | _, [] => some []
  | j, o :: rest =>
    match GenerateNetwork it fuel o.genome with
    | none => none
    | some net =>
      (organismEntries it fuel ptr i specie_id (j + 1) rest).map
        (fun l => (net, { fitness_valid_ptr := ptr, specie_index := i, organism_index := j },
          specie_id) :: l)

/-- `GenerateNetworks`, the outer loop over the species, from the specie
number `i`. -/
def specieEntries (it : List Int → List Int) (fuel : Nat) (ptr : Nat) :
    Nat → List Specie → Option (List (Network × FitnessInterface × Int))
  | _, [] => some []
  | i, s :: rest =>
    match organismEntries it fuel ptr i s.specie_id 0 s.organisms with
    | none => none
    | some l => (specieEntries it fuel ptr (i + 1) rest).map (fun l2 => l ++ l2)

/-- The model of `NEAT::GenerateNetworks`: one triple per organism. `none`: a
constructor of a network is still running when `fuel` is used up. -/
def GenerateNetworks (it : List Int → List Int) (fuel : Nat) (e : Engine) :
    Option (List (Network × FitnessInterface × Int)) :=
  specieEntries it fuel e.fitness_valid_ptr 0 e.species

/-! ## `UpdateGeneration` -/

/-- The conversion of a `float` to `int`: the fractional part is dropped. -/
def truncate (x : ℚ) : Int := if 0 ≤ x then ⌊x⌋ else ⌈x⌉

/-- `UpdateGeneration`, lines 130-136: the loop over the organisms of one
specie; `none` is the `return false` on a fitness below `0`, `some sum` the
accumulated `specie_fitnesses[i]`, a `float`: every sum is rounded. -/
def sumFitness : List Organism → ℚ → Option ℚ
  | [], acc => some acc
  | o :: rest, acc =>
    if o.fitness < 0 then none else sumFitness rest (roundFloat (acc + o.fitness))

/-- `UpdateGeneration`, lines 129-140: the loop over the species; `none` is
the `return false`, `some (specie_fitnesses, specie_fitness_sum)` the values
after the loop. The division by `organisms.size()`, converted to `float`, and
the sum are operations on `float`. -/
def fitnessLoop : List Specie → List ℚ → ℚ → Option (List ℚ × ℚ)
  | [], fs, sum => some (fs, sum)
  | s :: rest, fs, sum =>
    match sumFitness s.organisms 0 with
    | none => none
    | some f =>
      let f1 := roundFloat (f / roundFloat (s.organisms.length : ℚ))
      fitnessLoop rest (fs ++ [f1]) (roundFloat (sum + f1))

/-- `UpdateGeneration`, lines 153-159: `numOffspring` of a specie with the
fitness `f`. The division `pop_size / species.size()` is the one of
non-negative integers. The expression `pop_size * (specie_fitnesses[i] /
specie_fitness_sum) + 0.5f` is one of `float`: `pop_size` is converted, and
the quotient, the product and the sum are rounded, before the result is
converted to `int`. -/
def numOffspringOf (pop_size : Int) (numSpecies : Nat) (f specie_fitness_sum : ℚ) : Int :=
  if specie_fitness_sum = 0 then pop_size / (numSpecies : Int)
  else truncate (roundFloat (roundFloat (roundFloat (pop_size : ℚ) *
    roundFloat (f / specie_fitness_sum)) + 1 / 2))

/-- `UpdateGeneration`, lines 170-174: `topOrganismsSize` as the largest index
the parents are drawn from. The expression `specie.organisms.size() *
top_p_cutoff + 0.5f` is one of `float`: the size is converted, and the product
and the sum are rounded, before the result is converted to `int`. -/
def topOrganismsIndex (size : Nat) (top_p_cutoff : ℚ) : Int :=
  let topOrganismsSize :=
    truncate (roundFloat (roundFloat (roundFloat (size : ℚ) * top_p_cutoff) + 1 / 2))
  (if topOrganismsSize ≤ 0 ∨ topOrganismsSize ≥ (size : Int) then (size : Int)
    else topOrganismsSize) - 1

/-- The model of `NEAT::AddGenome(newSpecies, childGenome)`; the
representative of a specie of the last generation is read from the member
`species`. `none`: undefined behaviour. -/
def AddGenome (e : Engine) (newSpecies : List Specie) (childGenome : Genome) :
    Option (List Specie × Engine) :=
  let rep := fun j =>
    if j < e.species.length then representativeOf e.species j
    else representativeOf newSpecies j
  match findSpecie e rep childGenome newSpecies.length 0 with
  | none => none
  | some (some j) => some (placeInto newSpecies j childGenome, e)
  | some none =>
    some (foundSpecie newSpecies e.species_ctr childGenome,
      { e with species_ctr := e.species_ctr + 1 })

/-- The random draws `UpdateGeneration` makes for one offspring: the two
parent draws, the coin flips of `Crossover`, the three draws of `rand_norm`
that select the mutation, and the draws of the three mutations. -/
structure OffspringDraws where
  parent1 : Nat
  parent2 : Nat
  cross : Nat → Nat
  u_node : ℚ
  u_edge : ℚ
  u_weight : ℚ
  node : Nat
  edge : Nat → Nat × Nat
  edge_z : ℚ
  mut_u : Nat → ℚ
  mut_z : Nat → ℚ

/-- `UpdateGeneration`, lines 178-187: the two parent indices after the
exchange that is meant to make `parent1_index` the smaller one. The body of
the `if` reads `temp_index = parent1_index; parent2_index = parent1_index;
parent1_index = temp_index;`. -/
def parentIndices (parent1_index parent2_index : Int) : Int × Int :=
  if parent1_index > parent2_index then
    let temp_index := parent1_index
    let parent2_index := parent1_index
    let parent1_index := temp_index
    (parent1_index, parent2_index)
  else (parent1_index, parent2_index)

/-- The model of `specie.organisms[i]` for an `int` index: `none` outside the
vector. -/
def organismAt (specie : Specie) (i : Int) : Option Organism :=
  if i < 0 then none else specie.organisms.get? i.toNat

/-- `UpdateGeneration`, lines 189-191: the child genome before mutation. -/
def crossoverChild (specie : Specie) (p : Int × Int) (cross : Nat → Nat) : Option Genome :=
  match organismAt specie p.1 with
  | none => none
  | some o1 =>
    if p.1 ≠ p.2 then
      match organismAt specie p.2 with
      | none => none
      | some o2 => some (Crossover o1.genome o2.genome cross)
    else some o1.genome

/-- `UpdateGeneration`, lines 195-203: the mutation of the child genome; the
genome and the engine (its registry) afterwards. -/
def mutateChild (it : List Int → List Int) (fuel : Nat) (e : Engine) (childGenome : Genome)
    (d : OffspringDraws) : Option (Genome × Engine) :=
  if d.u_node < e.add_node_mutation_prob then
    let r := AddNodeMutation childGenome e.registry d.node
    some (r.2.1, { e with registry := r.2.2 })
  else if d.u_edge < e.add_edge_mutation_prob then
    match GenerateNetwork it fuel childGenome with
    | none => none
    | some net =>
      match AddEdgeMutation it childGenome net 2 3 d.edge d.edge_z with
      | none => none
      | some r => some (r.2, e)
  else if d.u_weight < e.weight_mutation_prob then
    some (MutateWeights childGenome (1 / 10) 2 (1 / 10) d.mut_u d.mut_z, e)
  else some (childGenome, e)

/-- `UpdateGeneration`, lines 177-206: the loop that creates the offspring of
one specie, with `count` iterations left. -/
def offspringLoop (it : List Int → List Int) (fuel : Nat) (specie : Specie)
    (topOrganismsSize : Int) (draws : Nat → OffspringDraws) :
    Nat → Nat → List Specie × Engine → Option (List Specie × Engine)
  | 0, _, st => some st
  | count + 1, offspringCreated, st =>
    let d := draws offspringCreated
    let p := parentIndices (rand_int topOrganismsSize d.parent1)
      (rand_int topOrganismsSize d.parent2)
    match crossoverChild specie p d.cross with
    | none => none
    | some childGenome =>
      match mutateChild it fuel st.2 childGenome d with
      | none => none
      | some (childGenome1, e1) =>
        match AddGenome e1 st.1 childGenome1 with
        | none => none
        | some st1 =>
          offspringLoop it fuel specie topOrganismsSize draws count (offspringCreated + 1) st1

/-- `UpdateGeneration`, lines 152-207: the body of the loop over the species
for one specie with the fitness `f`. -/
def specieOffspring (it : List Int → List Int) (fuel : Nat) (specie : Specie) (f : ℚ)
    (specie_fitness_sum : ℚ) (draws : Nat → OffspringDraws) (st : List Specie × Engine) :
    Option (List Specie × Engine) :=
  let numOffspring := numOffspringOf st.2.pop_size st.2.species.length f specie_fitness_sum
  if numOffspring < 1 then some st
  else
    let top := topOrganismsIndex specie.organisms.length st.2.top_p_cutoff
    if numOffspring > 5 then
      match specie.organisms.head? with
      | none => none
      | some champion =>
        match AddGenome st.2 st.1 champion.genome with
        | none => none
        | some st1 => offspringLoop it fuel specie top draws (numOffspring - 1).toNat 0 st1
    else offspringLoop it fuel specie top draws numOffspring.toNat 0 st

/-- `UpdateGeneration`, lines 151-208: the loop over the species, from the
specie number `i`; every entry pairs a specie with its fitness. -/
def speciesLoop (it : List Int → List Int) (fuel : Nat) (specie_fitness_sum : ℚ)
    (draws : Nat → Nat → OffspringDraws) :
    Nat → List (Specie × ℚ) → List Specie × Engine → Option (List Specie × Engine)
  | _, [], st => some st
  | i, (specie, f) :: rest, st =>
    match specieOffspring it fuel specie f specie_fitness_sum (draws i) st with
    | none => none
    | some st1 => speciesLoop it fuel specie_fitness_sum draws (i + 1) rest st1

/-- The model of `NEAT::UpdateGeneration`. `srt` is the result of `std::sort`
on the organisms of a specie, `draws i k` holds the random draws for the
offspring number `k` of the specie number `i`. `none`: undefined behaviour
(an index outside a vector, the conversion to `int` of the quotient `0 / 0`
for a specie without organisms), or the constructor of a network is still
running when `fuel` is used up. -/
def UpdateGeneration (it : List Int → List Int) (srt : List Organism → List Organism)
    (fuel : Nat) (draws : Nat → Nat → OffspringDraws) (e : Engine) : Option (Bool × Engine) :=
  let newSpecies : List Specie :=
    e.species.map (fun s => { organisms := [], specie_id := s.specie_id })
  match fitnessLoop e.species [] 0 with
  | none => some (false, e)
  | some (specie_fitnesses, specie_fitness_sum) =>
    if e.species.any (fun s => s.organisms.isEmpty) then none
    else
      let e1 := { e with
        species := e.species.map (fun s => { s with organisms := srt s.organisms }) }
      match speciesLoop it fuel specie_fitness_sum draws 0 (e1.species.zip specie_fitnesses)
          (newSpecies, e1) with
      | none => none
      | some (newSpecies1, e2) =>
        some (true, { e2 with
          species := newSpecies1.filter (fun s => decide (0 < s.organisms.length))
          fitness_valid_ptr := e2.fitness_valid_ptr + 1 })

/-- The model of reading `species[i].organisms[j].fitness`: `none` when there
is no such organism. -/
def Engine.fitnessAt (e : Engine) (i j : Nat) : Option ℚ :=
  match e.species.get? i with
  | none => none
  | some s => (s.organisms.get? j).map (fun o => o.fitness)

/-- The genomes of the organisms, specie by specie. -/
def Engine.genomes (e : Engine) : List (List Genome) :=
  e.species.map (fun s => s.organisms.map (fun o => o.genome))

/-- A specie with the organisms `genomeC` (fitness `3`), `genomeA`
(fitness `2`) and `genomeB` (fitness `1`), in the order of decreasing
fitness. -/
def specieCA : Specie :=
  { organisms := [{ genome := genomeC, fitness := 3 }, { genome := genomeA, fitness := 2 },
      { genome := genomeB, fitness := 1 }]
    specie_id := 0 }

/-- The engine `NEAT(1, 1, 2)` with the default parameters: the empty genome
and one genome with the edge `(0,2)` of weight `2`, both in the specie `0`. -/
def engineTwo : Engine :=
  (Engine.create 1 1 2 Params.default (fun _ => (0, 0, 1))).getD
    (Engine.init 1 1 2 Params.default)

/-- The number of organisms of a vector of species. -/
def totalOrganisms (species : List Specie) : Nat :=
  (species.map (fun s => s.organisms.length)).sum

/-- The place of a genome `g` at the position `j` of the specie number `i`:
no representative of an earlier specie is within the compatibility threshold
of `g`, and, unless `g` is the representative itself, the representative of
its specie is. -/
def Placed (e : Engine) (species : List Specie) (i j : Nat) (g : Genome) : Prop :=
  (∀ i1, i1 < i → ∀ r, representativeOf species i1 = some r → e.within r g = false) ∧
  (j ≠ 0 → ∀ r, representativeOf species i = some r → e.within r g = true)

/-- The genomes the constructor creates for the organisms after the first:
the empty genome after `AddInputOutputEdge`. -/
def Seeded (ni no : Int) (g : Genome) : Prop :=
  ∃ (drawIn drawOut : Nat) (w : ℚ), g = AddInputOutputEdge (Genome.new ni no) drawIn drawOut w

/-- The invariant of the constructor's loop after `k` organisms, `e0` being
the engine before the loop. -/
structure SeedInv (ni no : Int) (e0 e : Engine) (k : Nat) : Prop where
  within_eq : ∀ g1 g2, e.within g1 g2 = e0.within g1 g2
  total : totalOrganisms e.species = k
  first : ∃ rest0 restS id, e.species =
    { organisms := Organism.new (Genome.new ni no) :: rest0, specie_id := id } :: restS
  nonempty : ∀ s ∈ e.species, s.organisms ≠ []
  each : ∀ i j s o, e.species[i]? = some s → s.organisms[j]? = some o →
    o.fitness = -1 ∧ ((i, j) ≠ (0, 0) → Seeded ni no o.genome ∧ Placed e0 e.species i j o.genome)

/-- The parameters of the constructor with the compatibility threshold
`0`. -/
def paramsZeroThresh : Params := { Params.default with compatibility_thresh := 0 }

/-- The genome the constructor of `NEAT(1, 1, ..)` creates from the draws
`(0, 0, 1)`: the edge `(0,2)` with the weight `2 * 1`. -/
def seedGenome : Genome := AddInputOutputEdge (Genome.new 2 1) 0 0 (randomGaussian 2 1)

/-- The invariant of the engine states: every specie has an organism, and
every genome is one the engine can hold with its registry. `ni` is the number
of sensors (the inputs and the bias) and `no` the number of outputs. -/
structure EngineInv (ni no : Int) (e : Engine) : Prop where
  nonempty : ∀ s ∈ e.species, s.organisms ≠ []
  reach : ∀ s ∈ e.species, ∀ o ∈ s.organisms, Reachable ni no e.registry o.genome

/-- The engine states: the engine the constructor returns for positive
sizes, and every engine obtained from it by calls of `SetFitness` and of
`UpdateGeneration`, under any random draws, any iteration order `it` of the
unordered sets and any result `srt` of `std::sort`. -/
inductive Engine.Live (input_size output_size : Int) : Engine → Prop
  | create (pop_size_in : Int) (p : Params) (draws : Nat → Nat × Nat × ℚ) (e : Engine) :
      0 < input_size → 0 < output_size → 0 < pop_size_in →
      Engine.create input_size output_size pop_size_in p draws = some e →
      Engine.Live input_size output_size e
  | setFitness {e : Engine} (h : FitnessInterface) (f : ℚ) :
      Engine.Live input_size output_size e →
      Engine.Live input_size output_size (SetFitness e h f).2
  | update {e : Engine} (it : List Int → List Int) (srt : List Organism → List Organism)
      (fuel : Nat) (draws : Nat → Nat → OffspringDraws) (r : Bool × Engine) :
      Engine.Live input_size output_size e → (∀ l, (it l).Perm l) → (∀ l, (srt l).Perm l) →
      UpdateGeneration it srt fuel draws e = some r →
      Engine.Live input_size output_size r.2

/-- Some organism of the engine has a fitness that is not set. -/
def Engine.hasUnset (e : Engine) : Prop :=
  ∃ s ∈ e.species, ∃ o ∈ s.organisms, o.fitness < 0

/-- A fuel that suffices for the constructor of the network of every genome
of the engine. -/
def Engine.FuelOK (ni no : Int) (e : Engine) (fuel : Nat) : Prop :=
  ∀ s ∈ e.species, ∀ o ∈ s.organisms, sortFuel ni no o.genome.forward_edges.length ≤ fuel

/-- The invariant of the loops of `UpdateGeneration` that create the
offspring. `e0` is the engine after the species were sorted; the state is
`newSpecies` and the engine, of which only the registry and `species_ctr`
change. -/
structure LoopInv (ni no : Int) (e0 : Engine) (st : List Specie × Engine) : Prop where
  frame : { st.2 with registry := e0.registry, species_ctr := e0.species_ctr } = e0
  lenLe : e0.species.length ≤ st.1.length
  newNonempty : ∀ j s, e0.species.length ≤ j → st.1[j]? = some s → s.organisms ≠ []
  reachOld : ∀ s ∈ e0.species, ∀ o ∈ s.organisms, Reachable ni no st.2.registry o.genome
  reachNew : ∀ s ∈ st.1, ∀ o ∈ s.organisms, Reachable ni no st.2.registry o.genome

/-- The number of organisms `UpdateGeneration` creates for a specie with the
fitness `f`. -/
def offspringCount (e : Engine) (specie_fitness_sum f : ℚ) : Nat :=
  (numOffspringOf e.pop_size e.species.length f specie_fitness_sum).toNat

/-- The fitness of a specie, the value `specie_fitnesses[i]` of
`UpdateGeneration`: the sum in `float` of the fitnesses of its organisms,
divided in `float` by their number. -/
def specieFitness (s : Specie) : ℚ :=
  roundFloat (floatSum (s.organisms.map (fun o => o.fitness)) 0 /
    roundFloat (s.organisms.length : ℚ))

/-- The value `specie_fitness_sum` of `UpdateGeneration`: the sum in `float`
of the fitnesses of the species. -/
def Engine.fitnessSum (e : Engine) : ℚ := floatSum (e.species.map specieFitness) 0

/-- The engine after `UpdateGeneration` sorted the organisms of every
specie. -/
def Engine.sortSpecies (srt : List Organism → List Organism) (e : Engine) : Engine :=
  { e with species := e.species.map (fun s => { s with organisms := srt s.organisms }) }

/-- The vector `newSpecies` at the start of `UpdateGeneration`: one specie
without organisms for every specie of the engine. -/
def emptiedSpecies (species : List Specie) : List Specie :=
  species.map (fun s => { organisms := [], specie_id := s.specie_id })

/-- The engine `UpdateGeneration` leaves when the loops that create the
offspring end in the state `st`. -/
def turnover (st : List Specie × Engine) : Engine :=
  { st.2 with
    species := st.1.filter (fun s => decide (0 < s.organisms.length))
    fitness_valid_ptr := st.2.fitness_valid_ptr + 1 }

/-- The engine `e` is reached from the engine `e0` by calls of `SetFitness`
and of `UpdateGeneration`. -/
inductive Engine.Steps (e0 : Engine) : Engine → Prop
  | refl : Engine.Steps e0 e0
  | setFitness {e : Engine} (h : FitnessInterface) (f : ℚ) :
      Engine.Steps e0 e → Engine.Steps e0 (SetFitness e h f).2
  | update {e : Engine} (it : List Int → List Int) (srt : List Organism → List Organism)
      (fuel : Nat) (draws : Nat → Nat → OffspringDraws) (r : Bool × Engine) :
      Engine.Steps e0 e → (∀ l, (it l).Perm l) → (∀ l, (srt l).Perm l) →
      UpdateGeneration it srt fuel draws e = some r → Engine.Steps e0 r.2

/-- Random draws for one offspring that select the first organism as both
parents and no mutation. -/
def plainDraws : OffspringDraws :=
  { parent1 := 0
    parent2 := 0
    cross := fun _ => 0
    u_node := 1
    u_edge := 1
    u_weight := 1
    node := 0
    edge := fun _ => (0, 0)
    edge_z := 0
    mut_u := fun _ => 1
    mut_z := fun _ => 0 }

/-- The engine `engineTwo` after `SetFitness(1)` on the handles of both
organisms. -/
def engineTwoSet : Engine :=
  (SetFitness
    (SetFitness engineTwo { fitness_valid_ptr := 0, specie_index := 0, organism_index := 0 } 1).2
    { fitness_valid_ptr := 0, specie_index := 0, organism_index := 1 } 1).2

/-- The engine `engineTwoSet` after `UpdateGeneration`. -/
def engineTwoNext : Engine :=
  ((UpdateGeneration id id 9 (fun _ _ => plainDraws) engineTwoSet).getD (false, engineTwoSet)).2

/-- The parameters of the constructor with `c1_c2 = 2`: two genomes with one
edge each are compatible exactly when it is the same edge. -/
def paramsApart : Params := { Params.default with c1_c2 := 2 }

/-- The engine `NEAT(2, 1, 6)` with the parameters `paramsApart`: the empty
genome, and five genomes with the edges `(1,3)`, `(2,3)`, `(0,3)`, `(1,3)`,
`(2,3)`, in four species. -/
def engineFour : Engine :=
  (Engine.create 2 1 6 paramsApart (fun k => (k % 3, 0, 1))).getD
    (Engine.init 2 1 6 paramsApart)

/-- The handles `GenerateNetworks` returns for `engineFour`. -/
def handlesFour : List FitnessInterface :=
  [{ fitness_valid_ptr := 0, specie_index := 0, organism_index := 0 },
   { fitness_valid_ptr := 0, specie_index := 1, organism_index := 0 },
   { fitness_valid_ptr := 0, specie_index := 1, organism_index := 1 },
   { fitness_valid_ptr := 0, specie_index := 2, organism_index := 0 },
   { fitness_valid_ptr := 0, specie_index := 2, organism_index := 1 },
   { fitness_valid_ptr := 0, specie_index := 3, organism_index := 0 }]

/-- The engine `engineFour` after `SetFitness(1)` on every handle. -/
def engineFourSet : Engine :=
  handlesFour.foldl (fun e h => (SetFitness e h 1).2) engineFour

/-! ## Binary files: `SerializeMap.h`, `NetworkBaseVisual::Save`, `LoadImpl` -/

/-- One value of a binary file, as `file.write` copies it from an object of
the type `int`, `float` or `bool`. A file is the list of its values; reading
a value as another type than it was written as is not modelled. -/
inductive Cell where
  | int (v : Int)
  | float (w : ℚ)
  | bool (b : Bool)
  deriving DecidableEq, Repr

/-- The model of `file.read((char*)(&x), sizeof(int))`: the value and the rest
of the file; `none` when the file has no `int` at this position. -/
def readInt : List Cell → Option (Int × List Cell)
  | Cell.int v :: rest => some (v, rest)
  | _ => none

/-- The model of `file.read((char*)(&x), sizeof(float))`. -/
def readFloat : List Cell → Option (ℚ × List Cell)
  | Cell.float w :: rest => some (w, rest)
  | _ => none

/-- `SaveMap`, lines 36-40: the three values written for one entry. -/
def saveEntry (e : (Int × Int) × ℚ) : List Cell :=
  [Cell.int e.1.1, Cell.int e.1.2, Cell.float e.2]

/-- The model of `NEATSerializeMap::SaveMap` for `T = int`, `U = float`: the
values appended to the file. -/
def SaveMap (inMap : SMap (Int × Int) ℚ) : List Cell :=
  Cell.int (inMap.length : Int) :: (inMap.map saveEntry).flatten

/-- `LoadMap`, lines 53-58: the loop over the entries, with `count` iterations
left. -/
def loadEntries : Nat → SMap (Int × Int) ℚ → List Cell →
    Option (SMap (Int × Int) ℚ × List Cell)
  | 0, inMap, file => some (inMap, file)
  | count + 1, inMap, file =>
    match readInt file with
    | none => none
    | some (fromNode, file1) =>
      match readInt file1 with
      | none => none
      | some (toNode, file2) =>
        match readFloat file2 with
        | none => none
        | some (weight, file3) =>
          loadEntries count (SMap.set inMap (fromNode, toNode) weight) file3

/-- The model of `NEATSerializeMap::LoadMap`: the map and the rest of the file
afterwards; `none` when a read finds no value of its type. -/
def LoadMap (inMap : SMap (Int × Int) ℚ) (file : List Cell) (resetBeforeLoad : Bool) :
    Option (SMap (Int × Int) ℚ × List Cell) :=
  let inMap1 := if resetBeforeLoad then [] else inMap
  match readInt file with
  | none => none
  | some (mapSize, file1) => loadEntries mapSize.toNat inMap1 file1

/-- The keys of a `std::map` are strictly ascending in its order. -/
def SMap.Ascending (m : SMap (Int × Int) ℚ) : Prop :=
  (SMap.keys m).Pairwise (fun a b => KeyOrd.klt a b = true)

/-- The four maps of a genome written one after the other with `SaveMap`, in
the order `forward_edges`, `recurrent_edges`, `disabled_forward_edges`,
`disabled_recurrent_edges`. -/
def saveFourMaps (g : Genome) : List Cell :=
  SaveMap g.forward_edges ++ SaveMap g.recurrent_edges ++ SaveMap g.disabled_forward_edges ++
    SaveMap g.disabled_recurrent_edges

/-- Four maps read one after the other with `LoadMap` (with reset) into the
maps of the genome `g`, in the same order. -/
def loadFourMaps (g : Genome) (file : List Cell) : Option (Genome × List Cell) :=
  match LoadMap g.forward_edges file true with
  | none => none
  | some (fe, file1) =>
    match LoadMap g.recurrent_edges file1 true with
    | none => none
    | some (re, file2) =>
      match LoadMap g.disabled_forward_edges file2 true with
      | none => none
      | some (dfe, file3) =>
        match LoadMap g.disabled_recurrent_edges file3 true with
        | none => none
        | some (dre, file4) =>
          some ({ g with
            forward_edges := fe
            recurrent_edges := re
            disabled_forward_edges := dfe
            disabled_recurrent_edges := dre }, file4)

/-! ## `NetworkBaseVisual::Save`, `LoadImpl` -/

/-- A genome with the forward edge `(2,3)` from the output `2` to the hidden
node `3`. -/
def genomeOutToHidden : Genome :=
  { Genome.new 2 1 with forward_edges := [((2, 3), 1)] }

/-! ## `rand_int` on the sample of `rand_norm` -/

/-- The model of `rand_int(max)` on the value `r` that `rand_norm()` returns:
the sum `max + 1` is one of `int`, the product `(max + 1) * r` one of
`double`, converted to `int` (`ret_val`), and a value above `max` is replaced
by `max`. For `max = INT_MAX` the sum leaves the range of `int`; the model
takes the value of the two's complement representation, `INT_MIN`. -/
def rand_intFrom (max : Int) (r : ℚ) : Int :=
  let ret_val := truncate (roundDouble (((wrapInt (max + 1) : Int) : ℚ) * r))
  if ret_val > max then max else ret_val

/-- The model of `rand_int(min, max)` on the value `r` of `rand_norm()`; the
difference `max - min` and the sum with `min` are operations on `int`. -/
def rand_int2From (min max : Int) (r : ℚ) : Int :=
  wrapInt (rand_intFrom (wrapInt (max - min)) r + min)

/-! ## The states of the offspring loops -/

/-- The states `(newSpecies, engine)` that the loops of `UpdateGeneration`
reach from the state `st0`: every step is a call of `AddGenome` or the
mutation of a child genome (which may register a node in the engine). -/
inductive BreedSteps (it : List Int → List Int) (fuel : Nat) (st0 : List Specie × Engine) :
    List Specie × Engine → Prop
  | refl : BreedSteps it fuel st0 st0
  | add {st : List Specie × Engine} (child : Genome) (st1 : List Specie × Engine) :
      BreedSteps it fuel st0 st → AddGenome st.2 st.1 child = some st1 →
      BreedSteps it fuel st0 st1
  | mutate {st : List Specie × Engine} (child : Genome) (d : OffspringDraws) (c1 : Genome)
      (e1 : Engine) :
      BreedSteps it fuel st0 st → mutateChild it fuel st.2 child d = some (c1, e1) →
      BreedSteps it fuel st0 (st.1, e1)

/-- What holds of `newSpecies` and the engine at every moment of the loops
that create the offspring; `e0` is the engine after its species were sorted.
Only the registry and `species_ctr` of the engine change; the first entries of
`newSpecies` carry the ids of the species of the engine; every later entry
holds an organism and an id above the `species_ctr` of `e0`; every organism
in `newSpecies` has the fitness `-1`. -/
structure PlaceInv (e0 : Engine) (st : List Specie × Engine) : Prop where
  frame : { st.2 with registry := e0.registry, species_ctr := e0.species_ctr } = e0
  lenLe : e0.species.length ≤ st.1.length
  oldIds : (st.1.take e0.species.length).map (fun s => s.specie_id) =
    e0.species.map (fun s => s.specie_id)
  newNonempty : ∀ j s, e0.species.length ≤ j → st.1[j]? = some s → s.organisms ≠ []
  newIds : ∀ j s, e0.species.length ≤ j → st.1[j]? = some s →
    e0.species_ctr < s.specie_id ∧ s.specie_id ≤ st.2.species_ctr
  ctr : e0.species_ctr ≤ st.2.species_ctr
  unset : ∀ s ∈ st.1, ∀ o ∈ s.organisms, o.fitness = -1

/-- The ids of the species of an engine are at most `species_ctr`. -/
def IdInv (e : Engine) : Prop := ∀ s ∈ e.species, s.specie_id ≤ e.species_ctr

/-- Constructor, lines 52-55: the engine when the loop over the remaining
organisms starts, with the empty genome in the specie `0`. -/
def Engine.seedStart (input_size output_size pop_size_in : Int) (p : Params) : Engine :=
  { Engine.init input_size output_size pop_size_in p with
    species := [{ organisms := [Organism.new (Genome.new (input_size + 1) output_size)],
                  specie_id := (Engine.init input_size output_size pop_size_in p).species_ctr
                    + 1 }]
    species_ctr := (Engine.init input_size output_size pop_size_in p).species_ctr + 1 }

/-! ## The breeding pool -/

/-- The number of candidates the specification states for the breeding pool
of a specie of `n` organisms: `max(1, round(n * top_p_cutoff))`, with
rounding to the nearest integer, halves up. -/
def breedingPoolSpec (n : Nat) (top_p_cutoff : ℚ) : Int :=
  max 1 ⌊(n : ℚ) * top_p_cutoff + 1 / 2⌋

/-- The number of candidates of `UpdateGeneration`: the largest index the
parents are drawn from, plus one. -/
def breedingPool (n : Nat) (top_p_cutoff : ℚ) : Int :=
  topOrganismsIndex n top_p_cutoff + 1

/-! ## The representatives `AddGenome` compares a child with -/

/-- The representative `AddGenome` reads for the index `j` of `newSpecies`:
the first organism of the specie `j` of the engine when there is one, else
the first organism of `newSpecies[j]`. -/
def breedingRep (e0 : Engine) (newSpecies : List Specie) (j : Nat) : Option Genome :=
  if j < e0.species.length then representativeOf e0.species j
  else representativeOf newSpecies j

/-- A result of `std::sort` under `Organism::operator<`: no organism has a
higher fitness than one before it. -/
def SortedByFitness (l : List Organism) : Prop :=
  l.Pairwise (fun a b => b.fitness ≤ a.fitness)

/-- One function with the result of `std::sort` on the organisms of a specie:
insertion sort by decreasing fitness. -/
def sortByFitness (l : List Organism) : List Organism :=
  l.insertionSort (fun a b => b.fitness ≤ a.fitness)

/-- Some specie of `species` holds the organism `o`. -/
def HoldsOrganism (species : List Specie) (o : Organism) : Prop :=
  ∃ s ∈ species, o ∈ s.organisms

/-- The value `numOffspring` that `UpdateGeneration` computes for the specie
`s` of the engine `e`. -/
def Engine.allocation (e : Engine) (s : Specie) : Int :=
  numOffspringOf e.pop_size e.species.length (specieFitness s) e.fitnessSum

/-- The engine `NEAT(1, 1, 6)` with the default parameters, the Gaussian
sample of the organism number `k` being `k`: the empty genome and five
genomes with the edge `(0,2)` of the weights `2, 4, 6, 8, 10`, in one
specie. -/
def engineSix : Engine :=
  (Engine.create 1 1 6 Params.default (fun k => (0, 0, (k : ℚ)))).getD
    (Engine.init 1 1 6 Params.default)

/-- The engine `engineSix` after `SetFitness(k)` on the handle of the
organism number `k`, for `k = 0, .., 5`. -/
def engineSixSet : Engine :=
  (List.range 6).foldl
    (fun e k => (SetFitness e { fitness_valid_ptr := 0, specie_index := 0, organism_index := k }
      (k : ℚ)).2) engineSix

/-- Random draws for one offspring that select the rank `1` for both parents
and no mutation. -/
def rankOneDraws : OffspringDraws := { plainDraws with parent1 := 1, parent2 := 1 }

/-- The engine `engineSixSet` after `UpdateGeneration`. -/
def engineSixNext : Engine :=
  ((UpdateGeneration id sortByFitness 9 (fun _ _ => rankOneDraws) engineSixSet).getD
    (false, engineSixSet)).2

/-- No sum of fitnesses of `UpdateGeneration` reaches `2 ^ 128`, from where on
a `float` is infinite: the sums of the code are finite, and are the ones of
the model. -/
def Engine.FitnessFinite (e : Engine) : Prop :=
  (∀ s ∈ e.species, floatSum (s.organisms.map (fun o => o.fitness)) 0 < 2 ^ 128) ∧
    e.fitnessSum < 2 ^ 128

instance (e : Engine) : Decidable e.FitnessFinite := by
  unfold Engine.FitnessFinite
  exact inferInstance

/-- The engine `NEAT(1, 1, 11)` with the parameters `paramsApart`: the empty
genome in the specie `0`, and ten genomes with the edge `(0,2)` of weight `2`
in the specie `1`. -/
def engineEleven : Engine :=
  (Engine.create 1 1 11 paramsApart (fun _ => (0, 0, 1))).getD (Engine.init 1 1 11 paramsApart)

/-- The handles `GenerateNetworks` returns for `engineEleven`, each with the
fitness it is given: `13` for the organism of the specie `0`, `9` for every
organism of the specie `1`. -/
def handlesEleven : List (FitnessInterface × ℚ) :=
  ({ fitness_valid_ptr := 0, specie_index := 0, organism_index := 0 }, 13) ::
    (List.range 10).map
      (fun k => ({ fitness_valid_ptr := 0, specie_index := 1, organism_index := k }, 9))

/-- The engine `engineEleven` after `SetFitness` on every handle. -/
def engineElevenSet : Engine :=
  handlesEleven.foldl (fun e h => (SetFitness e h.1 h.2).2) engineEleven

/-! # Lemmas and theorems -/

set_option maxRecDepth 8000

/-! ## Binary floating point -/

theorem pow2_eq (e : Int) : pow2 e = (2 : ℚ) ^ e := by
  unfold pow2
  split
  · rename_i h
    have he : e = ((e.toNat : ℕ) : ℤ) := (Int.toNat_of_nonneg h).symm
    conv_rhs => rw [he]
    rw [zpow_natCast]
    push_cast
    rfl
  · rename_i h
    have he : e = -(((-e).toNat : ℕ) : ℤ) := by omega
    conv_rhs => rw [he]
    rw [zpow_neg, zpow_natCast]
    push_cast
    rw [one_div]

theorem pow2_pos (e : Int) : 0 < pow2 e := by
  rw [pow2_eq]
  positivity

theorem pow2_add (a b : Int) : pow2 (a + b) = pow2 a * pow2 b := by
  rw [pow2_eq, pow2_eq, pow2_eq]
  exact zpow_add₀ (by norm_num) a b

theorem pow2_le {a b : Int} (h : a ≤ b) : pow2 a ≤ pow2 b := by
  rw [pow2_eq, pow2_eq]
  exact zpow_le_zpow_right₀ (by norm_num) h

theorem pow2_lt {a b : Int} (h : a < b) : pow2 a < pow2 b := by
  rw [pow2_eq, pow2_eq]
  exact zpow_lt_zpow_right₀ (by norm_num) h

theorem pow2_natCast (n : Nat) : pow2 (n : Int) = (2 : ℚ) ^ n := by
  rw [pow2_eq, zpow_natCast]

theorem bitLength_zero (fuel : Nat) : bitLength fuel 0 = 0 := by
  cases fuel <;> simp [bitLength]

theorem bitLength_spec : ∀ fuel n : Nat, n ≤ fuel →
    n < 2 ^ bitLength fuel n ∧ (n ≠ 0 → 2 ^ bitLength fuel n ≤ 2 * n) := by
  intro fuel
  induction fuel with
  | zero =>
    intro n h
    have : n = 0 := by omega
    subst this
    simp [bitLength]
  | succ fuel ih =>
    intro n h
    unfold bitLength
    by_cases hn : n = 0
    · simp [hn]
    · rw [if_neg hn]
      have h2 : n / 2 ≤ fuel := by omega
      obtain ⟨h3, h4⟩ := ih (n / 2) h2
      rw [pow_succ]
      constructor
      · omega
      · intro _
        by_cases hz : n / 2 = 0
        · rw [hz, bitLength_zero]
          omega
        · have := h4 hz
          omega

theorem abs_eq_natAbs_div (x : ℚ) : |x| = (x.num.natAbs : ℚ) / (x.den : ℚ) := by
  have h1 : ((x.num.natAbs : ℕ) : ℚ) = |(x.num : ℚ)| := by
    rw [Nat.cast_natAbs, Int.cast_abs]
  rw [h1]
  conv_lhs => rw [← Rat.num_div_den x]
  rw [abs_div, Nat.abs_cast]

theorem pow2_sub_nat (L D : Nat) (k : Int) :
    pow2 ((L : Int) - (D : Int) + k) = (2 : ℚ) ^ L / (2 : ℚ) ^ D * pow2 k := by
  have : (L : Int) - (D : Int) + k = (L : Int) + (-(D : Int) + k) := by ring
  rw [this, pow2_add, pow2_add, pow2_natCast, pow2_eq (-(D : Int)), zpow_neg, zpow_natCast]
  ring

theorem ulpExp_ge (prec : Nat) (emin : Int) (x : ℚ) : emin ≤ ulpExp prec emin x := by
  unfold ulpExp
  exact le_max_right _ _

theorem ulpExp_spec (prec : Nat) (emin : Int) (x : ℚ) (hx : x ≠ 0) :
    |x| < pow2 (prec + ulpExp prec emin x) ∧
      (ulpExp prec emin x = emin ∨ pow2 (prec + ulpExp prec emin x - 1) ≤ |x|) := by
  have hN : x.num.natAbs ≠ 0 := by
    intro h
    exact hx (Rat.num_eq_zero.1 (Int.natAbs_eq_zero.1 h))
  have hd : x.den ≠ 0 := x.den_nz
  obtain ⟨hN1, hN2⟩ := bitLength_spec _ _ (le_refl x.num.natAbs)
  obtain ⟨hd1, hd2⟩ := bitLength_spec _ _ (le_refl x.den)
  have hN2 := hN2 hN
  have hd2 := hd2 hd
  have ha := abs_eq_natAbs_div x
  generalize hL : bitLength x.num.natAbs x.num.natAbs = L at hN1 hN2
  generalize hD : bitLength x.den x.den = D at hd1 hd2
  have hLq : ((x.num.natAbs : ℕ) : ℚ) < (2 : ℚ) ^ L := by exact_mod_cast hN1
  have hLq2 : (2 : ℚ) ^ L ≤ 2 * ((x.num.natAbs : ℕ) : ℚ) := by exact_mod_cast hN2
  have hDq : ((x.den : ℕ) : ℚ) < (2 : ℚ) ^ D := by exact_mod_cast hd1
  have hDq2 : (2 : ℚ) ^ D ≤ 2 * ((x.den : ℕ) : ℚ) := by exact_mod_cast hd2
  have hNpos : (0 : ℚ) < ((x.num.natAbs : ℕ) : ℚ) := by
    exact_mod_cast Nat.pos_of_ne_zero hN
  have hdpos : (0 : ℚ) < ((x.den : ℕ) : ℚ) := by
    exact_mod_cast Nat.pos_of_ne_zero hd
  have hDpos : (0 : ℚ) < (2 : ℚ) ^ D := by positivity
  have hup : |x| < pow2 ((L : Int) - (D : Int) + 1) := by
    rw [pow2_sub_nat, ha, pow2_eq, zpow_one, div_mul_eq_mul_div, div_lt_div_iff₀ hdpos hDpos]
    nlinarith
  have hlo : pow2 ((L : Int) - (D : Int) + (-1)) < |x| := by
    rw [pow2_sub_nat, ha, pow2_eq, zpow_neg, zpow_one, ← div_eq_mul_inv, div_div,
      div_lt_div_iff₀ (by positivity) hdpos]
    nlinarith
  have key : ∀ e1 : Int, |x| < pow2 (prec + e1) → pow2 (prec + e1 - 1) ≤ |x| →
      |x| < pow2 (prec + max e1 emin) ∧
        (max e1 emin = emin ∨ pow2 (prec + max e1 emin - 1) ≤ |x|) := by
    intro e1 h1 h2
    by_cases hm : emin ≤ e1
    · rw [max_eq_left hm]
      exact ⟨h1, Or.inr h2⟩
    · have hm1 : e1 ≤ emin := by omega
      rw [max_eq_right hm1]
      exact ⟨lt_of_lt_of_le h1 (pow2_le (by omega)), Or.inl rfl⟩
  unfold ulpExp
  simp only
  rw [hD, hL]
  have he0 : (L : Int) - (D : Int) - (prec : Int) + (prec : Int) = (L : Int) - (D : Int) + 0 := by
    ring
  rw [he0]
  by_cases ht : |x| < pow2 ((L : Int) - (D : Int) + 0)
  · rw [if_pos ht]
    apply key
    · have : (prec : Int) + ((L : Int) - (D : Int) - (prec : Int)) = (L : Int) - (D : Int) + 0 := by
        ring
      rw [this]
      exact ht
    · have : (prec : Int) + ((L : Int) - (D : Int) - (prec : Int)) - 1 =
          (L : Int) - (D : Int) + (-1) := by ring
      rw [this]
      exact hlo.le
  · rw [if_neg ht]
    apply key
    · have : (prec : Int) + ((L : Int) - (D : Int) - (prec : Int) + 1) =
          (L : Int) - (D : Int) + 1 := by ring
      rw [this]
      exact hup
    · have : (prec : Int) + ((L : Int) - (D : Int) - (prec : Int) + 1) - 1 =
          (L : Int) - (D : Int) + 0 := by ring
      rw [this]
      exact not_lt.1 ht

theorem roundEven_sub_le (q : ℚ) : |((roundEven q : Int) : ℚ) - q| ≤ 1 / 2 := by
  have h1 := Int.floor_le q
  have h2 := Int.lt_floor_add_one q
  unfold roundEven
  simp only
  rw [abs_le]
  split_ifs <;> push_cast <;> constructor <;> linarith

theorem roundEven_intCast (n : Int) : roundEven (n : ℚ) = n := by
  unfold roundEven
  simp

theorem roundEven_le (q : ℚ) (K : Int) (h : q ≤ K) : roundEven q ≤ K := by
  have h1 := (abs_le.1 (roundEven_sub_le q)).2
  have h2 : ((roundEven q : Int) : ℚ) < ((K + 1 : Int) : ℚ) := by
    push_cast
    linarith
  have h3 : roundEven q < K + 1 := by exact_mod_cast h2
  omega

theorem le_roundEven (q : ℚ) (K : Int) (h : (K : ℚ) ≤ q) : K ≤ roundEven q := by
  have h1 := (abs_le.1 (roundEven_sub_le q)).1
  have h2 : ((K - 1 : Int) : ℚ) < ((roundEven q : Int) : ℚ) := by
    push_cast
    linarith
  have h3 : K - 1 < roundEven q := by exact_mod_cast h2
  omega

theorem roundBinary_zero (prec : Nat) (emin : Int) : roundBinary prec emin 0 = 0 := by
  unfold roundBinary
  simp [roundEven]

theorem roundBinary_nonneg (prec : Nat) (emin : Int) (x : ℚ) (hx : 0 ≤ x) :
    0 ≤ roundBinary prec emin x := by
  unfold roundBinary
  simp only
  have hp := pow2_pos (ulpExp prec emin x)
  apply mul_nonneg _ hp.le
  have : (0 : Int) ≤ roundEven (x / pow2 (ulpExp prec emin x)) :=
    le_roundEven _ 0 (by simpa using div_nonneg hx hp.le)
  exact_mod_cast this

theorem roundBinary_sub_le (prec : Nat) (emin : Int) (x : ℚ) :
    |roundBinary prec emin x - x| ≤ pow2 (ulpExp prec emin x) / 2 := by
  unfold roundBinary
  simp only
  have hp := pow2_pos (ulpExp prec emin x)
  have h := roundEven_sub_le (x / pow2 (ulpExp prec emin x))
  have he : ((roundEven (x / pow2 (ulpExp prec emin x)) : Int) : ℚ) * pow2 (ulpExp prec emin x) - x
      = (((roundEven (x / pow2 (ulpExp prec emin x)) : Int) : ℚ) -
          x / pow2 (ulpExp prec emin x)) * pow2 (ulpExp prec emin x) := by
    field_simp
  rw [he, abs_mul, abs_of_pos hp]
  calc _ ≤ 1 / 2 * pow2 (ulpExp prec emin x) := mul_le_mul_of_nonneg_right h hp.le
    _ = pow2 (ulpExp prec emin x) / 2 := by ring

/-- The unit in the last place is at most `|x| * 2 ^ (1 - prec)` above the
least exponent. -/
theorem pow2_ulp_le (prec : Nat) (emin : Int) (x : ℚ)
    (h : pow2 (prec + ulpExp prec emin x - 1) ≤ |x|) :
    pow2 (ulpExp prec emin x) / 2 ≤ |x| / 2 ^ prec := by
  have h1 : pow2 (prec + ulpExp prec emin x - 1) =
      (2 : ℚ) ^ prec * (pow2 (ulpExp prec emin x) / 2) := by
    have : (prec : Int) + ulpExp prec emin x - 1 = (prec : Int) + (ulpExp prec emin x + (-1)) := by
      ring
    rw [this, pow2_add, pow2_add, pow2_natCast, pow2_eq (-1)]
    norm_num
    ring
  rw [h1] at h
  rw [le_div_iff₀ (by positivity)]
  linarith

theorem roundBinary_error (prec : Nat) (emin : Int) (x : ℚ) :
    |roundBinary prec emin x - x| ≤ |x| / 2 ^ prec + pow2 emin / 2 := by
  by_cases hx : x = 0
  · rw [hx, roundBinary_zero]
    have := pow2_pos emin
    simp
    positivity
  have h := roundBinary_sub_le prec emin x
  have hp := pow2_pos emin
  have hxx : 0 ≤ |x| / 2 ^ prec := by positivity
  rcases (ulpExp_spec prec emin x hx).2 with h1 | h1
  · rw [h1] at h
    linarith
  · have := pow2_ulp_le prec emin x h1
    linarith

/-- Every value of the format is a multiple of the least positive value. -/
theorem roundBinary_grid (prec : Nat) (emin : Int) (x : ℚ) :
    ∃ k : Int, roundBinary prec emin x = (k : ℚ) * pow2 emin := by
  unfold roundBinary
  simp only
  have hge := ulpExp_ge prec emin x
  refine ⟨roundEven (x / pow2 (ulpExp prec emin x)) * 2 ^ (ulpExp prec emin x - emin).toNat, ?_⟩
  have h1 : ulpExp prec emin x = ((ulpExp prec emin x - emin).toNat : Int) + emin := by omega
  have h2 : pow2 (ulpExp prec emin x) =
      (2 : ℚ) ^ (ulpExp prec emin x - emin).toNat * pow2 emin := by
    conv_lhs => rw [h1, pow2_add, pow2_natCast]
  push_cast
  rw [mul_assoc, ← h2]

theorem roundBinary_error_grid (prec : Nat) (emin : Int) (x : ℚ)
    (hg : ∃ k : Int, x = (k : ℚ) * pow2 emin) :
    |roundBinary prec emin x - x| ≤ |x| / 2 ^ prec := by
  by_cases hx : x = 0
  · rw [hx, roundBinary_zero]
    simp
  have hxx : 0 ≤ |x| / 2 ^ prec := by positivity
  rcases (ulpExp_spec prec emin x hx).2 with h1 | h1
  · obtain ⟨k, hk⟩ := hg
    have hp := pow2_pos emin
    have : roundBinary prec emin x = x := by
      unfold roundBinary
      simp only
      rw [h1]
      have : x / pow2 emin = (k : ℚ) := by
        rw [hk]
        field_simp
      rw [this, roundEven_intCast, hk]
    rw [this]
    simpa using hxx
  · have h := roundBinary_sub_le prec emin x
    have := pow2_ulp_le prec emin x h1
    linarith

/-- A value with at most `prec` significant digits above the exponent `j` is
a value of the format. -/
theorem ulpExp_le (prec : Nat) (emin j : Int) (hj : emin ≤ j) (x : ℚ) (hx : x ≠ 0)
    (hlt : |x| < pow2 (prec + j)) : ulpExp prec emin x ≤ j := by
  rcases (ulpExp_spec prec emin x hx).2 with h1 | h1
  · omega
  · by_contra hc
    have : pow2 (prec + j) ≤ pow2 (prec + ulpExp prec emin x - 1) := pow2_le (by omega)
    linarith

theorem roundBinary_le (prec : Nat) (emin j : Int) (hj : emin ≤ j) (x : ℚ)
    (hlt : |x| < pow2 (prec + j)) (K : Int) (h : x ≤ (K : ℚ) * pow2 j) :
    roundBinary prec emin x ≤ (K : ℚ) * pow2 j := by
  by_cases hx : x = 0
  · rw [hx, roundBinary_zero]
    rw [hx] at h
    exact h
  have he := ulpExp_le prec emin j hj x hx hlt
  unfold roundBinary
  simp only
  have hp := pow2_pos (ulpExp prec emin x)
  have h1 : j = ((j - ulpExp prec emin x).toNat : Int) + ulpExp prec emin x := by omega
  have h2 : pow2 j = (2 : ℚ) ^ (j - ulpExp prec emin x).toNat * pow2 (ulpExp prec emin x) := by
    conv_lhs => rw [h1, pow2_add, pow2_natCast]
  rw [h2] at h ⊢
  have h3 : x / pow2 (ulpExp prec emin x) ≤
      ((K * 2 ^ (j - ulpExp prec emin x).toNat : Int) : ℚ) := by
    rw [div_le_iff₀ hp]
    push_cast
    linarith
  have h4 := roundEven_le _ _ h3
  have h5 : ((roundEven (x / pow2 (ulpExp prec emin x)) : Int) : ℚ) ≤
      ((K * 2 ^ (j - ulpExp prec emin x).toNat : Int) : ℚ) := by exact_mod_cast h4
  push_cast at h5
  calc _ ≤ ((K : ℚ) * 2 ^ (j - ulpExp prec emin x).toNat) * pow2 (ulpExp prec emin x) :=
        mul_le_mul_of_nonneg_right h5 hp.le
    _ = _ := by ring

theorem le_roundBinary (prec : Nat) (emin j : Int) (hj : emin ≤ j) (x : ℚ)
    (hlt : |x| < pow2 (prec + j)) (K : Int) (h : (K : ℚ) * pow2 j ≤ x) :
    (K : ℚ) * pow2 j ≤ roundBinary prec emin x := by
  by_cases hx : x = 0
  · rw [hx, roundBinary_zero]
    rw [hx] at h
    exact h
  have he := ulpExp_le prec emin j hj x hx hlt
  unfold roundBinary
  simp only
  have hp := pow2_pos (ulpExp prec emin x)
  have h1 : j = ((j - ulpExp prec emin x).toNat : Int) + ulpExp prec emin x := by omega
  have h2 : pow2 j = (2 : ℚ) ^ (j - ulpExp prec emin x).toNat * pow2 (ulpExp prec emin x) := by
    conv_lhs => rw [h1, pow2_add, pow2_natCast]
  rw [h2] at h ⊢
  have h3 : ((K * 2 ^ (j - ulpExp prec emin x).toNat : Int) : ℚ) ≤
      x / pow2 (ulpExp prec emin x) := by
    rw [le_div_iff₀ hp]
    push_cast
    linarith
  have h4 := le_roundEven _ _ h3
  have h5 : ((K * 2 ^ (j - ulpExp prec emin x).toNat : Int) : ℚ) ≤
      ((roundEven (x / pow2 (ulpExp prec emin x)) : Int) : ℚ) := by exact_mod_cast h4
  push_cast at h5
  calc (K : ℚ) * ((2 : ℚ) ^ (j - ulpExp prec emin x).toNat * pow2 (ulpExp prec emin x))
      = ((K : ℚ) * 2 ^ (j - ulpExp prec emin x).toNat) * pow2 (ulpExp prec emin x) := by ring
    _ ≤ _ := mul_le_mul_of_nonneg_right h5 hp.le

/-- A multiple of `2 ^ j` below `2 ^ (prec + j)` is a value of the format. -/
theorem roundBinary_exact (prec : Nat) (emin j : Int) (hj : emin ≤ j) (K : Int)
    (hlt : |(K : ℚ) * pow2 j| < pow2 (prec + j)) :
    roundBinary prec emin ((K : ℚ) * pow2 j) = (K : ℚ) * pow2 j :=
  le_antisymm (roundBinary_le prec emin j hj _ hlt K (le_refl _))
    (le_roundBinary prec emin j hj _ hlt K (le_refl _))

theorem roundBinary_intCast (prec : Nat) (emin : Int) (hmin : emin ≤ 0) (n : Int)
    (hn : |n| < 2 ^ prec) : roundBinary prec emin (n : ℚ) = (n : ℚ) := by
  have h0 : pow2 0 = 1 := by
    rw [pow2_eq]
    simp
  have h := roundBinary_exact prec emin 0 hmin n (by
    rw [h0, mul_one, add_zero, pow2_natCast]
    exact_mod_cast hn)
  rw [h0, mul_one] at h
  exact h

/-! ## `float` -/

theorem roundFloat_zero : roundFloat 0 = 0 := roundBinary_zero 24 (-149)

theorem roundFloat_nonneg (x : ℚ) (hx : 0 ≤ x) : 0 ≤ roundFloat x :=
  roundBinary_nonneg 24 (-149) x hx

theorem pow2_least_float : pow2 (-149) / 2 = 1 / 2 ^ 150 := by
  rw [pow2_eq, zpow_neg]
  norm_num

theorem roundFloat_error (x : ℚ) : |roundFloat x - x| ≤ |x| / 2 ^ 24 + 1 / 2 ^ 150 := by
  have h := roundBinary_error 24 (-149) x
  rw [pow2_least_float] at h
  exact h

theorem roundFloat_intCast (n : Int) (hn : |n| < 2 ^ 24) : roundFloat (n : ℚ) = (n : ℚ) :=
  roundBinary_intCast 24 (-149) (by norm_num) n hn

theorem roundFloat_natCast (n : Nat) (hn : n < 2 ^ 24) : roundFloat (n : ℚ) = (n : ℚ) := by
  have h := roundFloat_intCast (n : Int) (by
    rw [abs_of_nonneg (by omega)]
    exact_mod_cast hn)
  exact_mod_cast h

theorem roundFloat_grid (x : ℚ) : FloatGrid (roundFloat x) := roundBinary_grid 24 (-149) x

theorem floatGrid_zero : FloatGrid 0 := ⟨0, by simp⟩

theorem floatGrid_add {x y : ℚ} (hx : FloatGrid x) (hy : FloatGrid y) : FloatGrid (x + y) := by
  obtain ⟨k, hk⟩ := hx
  obtain ⟨l, hl⟩ := hy
  refine ⟨k + l, ?_⟩
  rw [hk, hl]
  push_cast
  ring

theorem roundFloat_error_grid (x : ℚ) (hx : FloatGrid x) :
    |roundFloat x - x| ≤ |x| / 2 ^ 24 :=
  roundBinary_error_grid 24 (-149) x hx

/-- The error of `z + 0.5f` in `float`, the value `z` being rounded first. -/
theorem roundFloat_add_half (z : ℚ) (hz : 0 ≤ z) :
    0 ≤ roundFloat (roundFloat z + 1 / 2) ∧
    |roundFloat (roundFloat z + 1 / 2) - (z + 1 / 2)| ≤ (2 * z + z / 2 ^ 24 + 1) / 2 ^ 24 := by
  have hm := roundFloat_nonneg z hz
  have h1 := roundFloat_error z
  have h2 := roundFloat_error (roundFloat z + 1 / 2)
  have hy := roundFloat_nonneg (roundFloat z + 1 / 2) (by linarith)
  rw [abs_of_nonneg hz] at h1
  rw [abs_of_nonneg (show (0 : ℚ) ≤ roundFloat z + 1 / 2 by linarith)] at h2
  refine ⟨hy, ?_⟩
  rw [abs_le] at h1 h2 ⊢
  norm_num at h1 h2 ⊢
  constructor <;> linarith

/-- The error of the `float` expression `p * a + 0.5f` of `UpdateGeneration`,
line 158, for an `int` `p` below `2 ^ 24`. -/
theorem roundFloat_mul_add_half (p : Int) (hp0 : 0 ≤ p) (hp : p < 2 ^ 24) (a : ℚ) (ha : 0 ≤ a) :
    0 ≤ roundFloat (roundFloat (roundFloat (p : ℚ) * roundFloat a) + 1 / 2) ∧
    |roundFloat (roundFloat (roundFloat (p : ℚ) * roundFloat a) + 1 / 2) -
      ((p : ℚ) * a + 1 / 2)| ≤ ((p : ℚ) * a + 1) / 2 ^ 22 := by
  rw [roundFloat_intCast p (by rw [abs_of_nonneg hp0]; exact hp)]
  have hq := roundFloat_nonneg a ha
  have h1 := roundFloat_error a
  rw [abs_of_nonneg ha] at h1
  have hpq : (0 : ℚ) ≤ (p : ℚ) := by exact_mod_cast hp0
  have hpq2 : (p : ℚ) ≤ 2 ^ 24 := by exact_mod_cast hp.le
  have hz : 0 ≤ (p : ℚ) * roundFloat a := mul_nonneg hpq hq
  obtain ⟨hy, h2⟩ := roundFloat_add_half _ hz
  refine ⟨hy, ?_⟩
  rw [abs_le] at h1 h2 ⊢
  have hx : 0 ≤ (p : ℚ) * a := mul_nonneg hpq ha
  have h3 : (p : ℚ) * roundFloat a ≤ (p : ℚ) * a + (p : ℚ) * a / 2 ^ 24 + (p : ℚ) / 2 ^ 150 := by
    have := mul_le_mul_of_nonneg_left (show roundFloat a ≤ a + a / 2 ^ 24 + 1 / 2 ^ 150 by linarith)
      hpq
    calc _ ≤ _ := this
      _ = _ := by ring
  have h4 : (p : ℚ) * a - (p : ℚ) * a / 2 ^ 24 - (p : ℚ) / 2 ^ 150 ≤ (p : ℚ) * roundFloat a := by
    have := mul_le_mul_of_nonneg_left (show a - a / 2 ^ 24 - 1 / 2 ^ 150 ≤ roundFloat a by linarith)
      hpq
    calc _ = (p : ℚ) * (a - a / 2 ^ 24 - 1 / 2 ^ 150) := by ring
      _ ≤ _ := this
  generalize (p : ℚ) * roundFloat a = z at *
  generalize (p : ℚ) * a = x at *
  generalize roundFloat (z + 1 / 2) = y at *
  norm_num at h2 h3 h4 hpq2 ⊢
  constructor <;> linarith

/-- The error of the `float` expression `n * c + 0.5f` of `UpdateGeneration`,
line 170, for a size `n` below `2 ^ 24`. -/
theorem roundFloat_size_add_half (n : Nat) (hn : n < 2 ^ 24) (c : ℚ) (hc : 0 ≤ c) :
    0 ≤ roundFloat (roundFloat (roundFloat (n : ℚ) * c) + 1 / 2) ∧
    |roundFloat (roundFloat (roundFloat (n : ℚ) * c) + 1 / 2) - ((n : ℚ) * c + 1 / 2)| ≤
      ((n : ℚ) * c + 1) / 2 ^ 22 := by
  rw [roundFloat_natCast n hn]
  have hz : 0 ≤ (n : ℚ) * c := mul_nonneg (Nat.cast_nonneg n) hc
  obtain ⟨hy, h2⟩ := roundFloat_add_half _ hz
  refine ⟨hy, ?_⟩
  rw [abs_le] at h2 ⊢
  generalize (n : ℚ) * c = z at *
  generalize roundFloat (roundFloat z + 1 / 2) = y at *
  norm_num at h2 ⊢
  constructor <;> linarith

theorem floatSum_nil (acc : ℚ) : floatSum [] acc = acc := rfl

theorem floatSum_cons (x : ℚ) (l : List ℚ) (acc : ℚ) :
    floatSum (x :: l) acc = floatSum l (roundFloat (acc + x)) := rfl

theorem floatSum_bounds_aux (u : ℚ) (hu : u = 1 / 2 ^ 24) :
    ∀ (l : List ℚ) (acc : ℚ), 0 ≤ acc → FloatGrid acc →
    (∀ f ∈ l, 0 ≤ f ∧ FloatGrid f) →
    0 ≤ floatSum l acc ∧
    (1 - u) ^ l.length * (acc + l.sum) ≤ floatSum l acc ∧
    floatSum l acc ≤ (1 + u) ^ l.length * (acc + l.sum) := by
  have hu0 : 0 < u := by
    rw [hu]
    positivity
  have hu1 : u < 1 := by
    rw [hu]
    norm_num
  intro l
  induction l with
  | nil =>
    intro acc h0 _ _
    simp [floatSum_nil, h0]
  | cons f rest ih =>
    intro acc h0 hg hl
    obtain ⟨hf0, hfg⟩ := hl f (List.mem_cons_self _ _)
    have hrest : ∀ g ∈ rest, 0 ≤ g ∧ FloatGrid g := fun g hg => hl g (List.mem_cons_of_mem _ hg)
    have hs : 0 ≤ rest.sum := List.sum_nonneg (fun g hg => (hrest g hg).1)
    have h1 := roundFloat_error_grid (acc + f) (floatGrid_add hg hfg)
    have h2 := roundFloat_nonneg (acc + f) (by linarith)
    rw [abs_of_nonneg (show (0 : ℚ) ≤ acc + f by linarith), abs_le] at h1
    have hdu : (acc + f) / 2 ^ 24 = (acc + f) * u := by
      rw [hu]
      ring
    rw [hdu] at h1
    obtain ⟨i0, i1, i2⟩ := ih (roundFloat (acc + f)) h2 (roundFloat_grid _) hrest
    rw [floatSum_cons]
    have hsu : 0 ≤ rest.sum * u := mul_nonneg hs hu0.le
    refine ⟨i0, ?_, ?_⟩
    · refine le_trans ?_ i1
      simp only [List.length_cons, List.sum_cons, pow_succ]
      rw [mul_assoc]
      apply mul_le_mul_of_nonneg_left _ (pow_nonneg (by linarith) _)
      linarith
    · refine le_trans i2 ?_
      simp only [List.length_cons, List.sum_cons, pow_succ]
      rw [mul_assoc]
      apply mul_le_mul_of_nonneg_left _ (pow_nonneg (by linarith) _)
      linarith

/-- The sum in `float` of non-negative `float` values against the exact
sum. -/
theorem floatSum_bounds (l : List ℚ) (acc : ℚ) (h0 : 0 ≤ acc) (hg : FloatGrid acc)
    (hl : ∀ f ∈ l, 0 ≤ f ∧ FloatGrid f) :
    0 ≤ floatSum l acc ∧
    (1 - 1 / 2 ^ 24) ^ l.length * (acc + l.sum) ≤ floatSum l acc ∧
    floatSum l acc ≤ (1 + 1 / 2 ^ 24) ^ l.length * (acc + l.sum) :=
  floatSum_bounds_aux _ rfl l acc h0 hg hl


/-! ## Lemmas on `SMap` -/

namespace SMap

variable {K V : Type} [DecidableEq K]

theorem find_set_self [KeyOrd K] (m : SMap K V) (k : K) (v : V) :
    find (set m k v) k = some v := by
  induction m with
  | nil => simp [set, find]
  | cons hd tl ih =>
    obtain ⟨k1, v1⟩ := hd
    by_cases h1 : k1 = k
    · simp [set, find, h1]
    · by_cases h2 : KeyOrd.klt k k1 = true
      · simp [set, find, h1, h2]
      · simp [set, find, h1, h2, ih]

theorem find_set_ne [KeyOrd K] (m : SMap K V) (k j : K) (v : V) (h : j ≠ k) :
    find (set m k v) j = find m j := by
  induction m with
  | nil => simp [set, find, Ne.symm h]
  | cons hd tl ih =>
    obtain ⟨k1, v1⟩ := hd
    by_cases h1 : k1 = k
    · subst h1
      simp [set, find, Ne.symm h]
    · by_cases h2 : KeyOrd.klt k k1 = true
      · simp [set, find, h1, h2, Ne.symm h]
      · simp [set, find, h1, h2, ih]

theorem find_del_self (m : SMap K V) (k : K) : find (del m k) k = none := by
  induction m with
  | nil => simp [del, find]
  | cons hd tl ih =>
    obtain ⟨k1, v1⟩ := hd
    by_cases h1 : k1 = k
    · simpa [del, List.filter, h1] using ih
    · simpa [del, List.filter, h1, find] using ih

theorem find_del_ne (m : SMap K V) (k j : K) (h : j ≠ k) :
    find (del m k) j = find m j := by
  induction m with
  | nil => simp [del, find]
  | cons hd tl ih =>
    obtain ⟨k1, v1⟩ := hd
    by_cases h1 : k1 = k
    · subst h1
      simpa [del, List.filter, find, Ne.symm h] using ih
    · by_cases h2 : k1 = j
      · subst h2
        simp [del, List.filter, h, find]
      · simpa [del, List.filter, h1, find, h2] using ih

theorem find_isSome_iff_mem_keys (m : SMap K V) (k : K) :
    (find m k).isSome = true ↔ k ∈ keys m := by
  induction m with
  | nil => simp [find, keys]
  | cons hd tl ih =>
    obtain ⟨k1, v1⟩ := hd
    by_cases h1 : k1 = k
    · simp [find, keys, h1]
    · have : ¬ k = k1 := fun h => h1 h.symm
      simpa [find, keys, h1, this] using ih

theorem find_eq_none_iff (m : SMap K V) (k : K) :
    find m k = none ↔ k ∉ keys m := by
  rw [← find_isSome_iff_mem_keys]
  cases find m k <;> simp

end SMap

/-! ## `rand_int` and the edge `AddNodeMutation` selects -/

theorem rand_int_bounds (max : Int) (draw : Nat) (h : 0 ≤ max) :
    0 ≤ rand_int max draw ∧ rand_int max draw ≤ max := by
  unfold rand_int
  split <;> omega

theorem Genome.randIndex_lt (g : Genome) (draw : Nat) (h : 1 ≤ g.possibleEdges.length) :
    g.randIndex draw < g.possibleEdges.length := by
  have hb := rand_int_bounds ((g.possibleEdges.length : Int) - 1) draw (by omega)
  unfold Genome.randIndex
  omega

theorem Genome.splitEdge_mem (g : Genome) (draw : Nat) (h : 1 ≤ g.possibleEdges.length) :
    g.splitEdge draw ∈ SMap.keys (g.enabledMap (g.splitRecurrent draw)) ∧
    g.IsOutputNode (g.splitEdge draw).1 = false := by
  have hlt := g.randIndex_lt draw h
  have hget : g.splitEdge draw = g.possibleEdges[g.randIndex draw] := by
    unfold Genome.splitEdge
    exact List.getD_eq_getElem _ _ hlt
  by_cases hr : g.randIndex draw < g.normalEdges.length
  · have hrec : g.splitRecurrent draw = false := by
      simp [Genome.splitRecurrent, hr]
    have hmem : g.splitEdge draw ∈ g.normalEdges := by
      rw [hget]
      simp only [Genome.possibleEdges]
      rw [List.getElem_append_left hr]
      exact List.getElem_mem _
    simp only [Genome.normalEdges, List.mem_filter] at hmem
    simpa [hrec, Genome.enabledMap] using hmem
  · have hrec : g.splitRecurrent draw = true := by
      simp only [Genome.splitRecurrent, decide_eq_true_eq]
      omega
    have hmem : g.splitEdge draw ∈
        (SMap.keys g.recurrent_edges).filter (fun e => !g.IsOutputNode e.1) := by
      rw [hget]
      simp only [Genome.possibleEdges]
      rw [List.getElem_append_right (by omega)]
      exact List.getElem_mem _
    simp only [List.mem_filter] at hmem
    simpa [hrec, Genome.enabledMap] using hmem

/-! ## C1: the contract of `AddNodeMutation` -/

theorem AddNodeMutation_fst (g : Genome) (n : NEAT) (draw : Nat) :
    (AddNodeMutation g n draw).1 = decide (1 ≤ g.possibleEdges.length) := by
  unfold AddNodeMutation
  by_cases h : g.possibleEdges.length < 1
  · simp [h]
  · simp only [h, if_false]
    split <;> simp <;> omega

theorem AddNodeMutation_engine (g : Genome) (n : NEAT) (draw : Nat)
    (h : 1 ≤ g.possibleEdges.length) :
    (AddNodeMutation g n draw).2.2 =
      (GetAddNodeNumber n (g.splitEdge draw) (g.splitRecurrent draw)).2 := by
  have hl : ¬ g.possibleEdges.length < 1 := by omega
  unfold AddNodeMutation
  simp only [hl, if_false]
  split <;> rfl

/-- C1 (as amended): when `AddNodeMutation` succeeds on the enabled edge `(u,v)`
with weight `w` and flag `r`, and the id `h` the registry returns differs from
`u` and, for a forward split, from `v`, then `(u,v)` has left its enabled map
and is in the matching disabled map with weight `w`, `forward_edges` maps
`(u,h)` to `1`, `(h,v)` maps to `w` in the enabled map of flag `r`, and the four
maps are unchanged at every other key. -/
theorem AddNodeMutation_contract_of_fresh (g : Genome) (n : NEAT) (draw : Nat)
    (hu : (GetAddNodeNumber n (g.splitEdge draw) (g.splitRecurrent draw)).1 ≠
      (g.splitEdge draw).1)
    (hv : g.splitRecurrent draw = false →
      (GetAddNodeNumber n (g.splitEdge draw) (g.splitRecurrent draw)).1 ≠
        (g.splitEdge draw).2) :
    AddNodeMutationContract g n draw := by
  intro hsucc
  rw [AddNodeMutation_fst] at hsucc
  have hlen : 1 ≤ g.possibleEdges.length := by simpa using hsucc
  have hmem := (g.splitEdge_mem draw hlen).1
  rw [← SMap.find_isSome_iff_mem_keys, Option.isSome_iff_exists] at hmem
  obtain ⟨w, hw⟩ := hmem
  refine ⟨w, hw, ?_⟩
  have hnl : ¬ g.possibleEdges.length < 1 := by omega
  generalize hh : (GetAddNodeNumber n (g.splitEdge draw) (g.splitRecurrent draw)).1 = h
    at hu hv
  have hpair : g.splitEdge draw = ((g.splitEdge draw).1, (g.splitEdge draw).2) := rfl
  generalize (g.splitEdge draw).1 = u at hu hpair
  generalize (g.splitEdge draw).2 = v at hv hpair
  have h1 : (u, v) ≠ (h, v) := fun hc => hu (by injection hc with h1 _; exact h1.symm)
  have h2 : (u, h) ≠ (h, v) := fun hc => hu (by injection hc with h1 _; exact h1.symm)
  cases hr : g.splitRecurrent draw
  · have h3 : (u, v) ≠ (u, h) := fun hc => hv hr (by injection hc with _ h2; exact h2.symm)
    rw [hr, hpair] at hh hw
    simp only [Genome.enabledMap, Bool.false_eq_true, if_false] at hw
    have hgw : SMap.getD g.forward_edges (u, v) 0 = w := by simp [SMap.getD, hw]
    simp only [SplitPost, AddNodeMutation, hnl, if_false, hr, Genome.enabledMap,
      Genome.disabledMap, Bool.false_eq_true, hh, hpair, hgw]
    refine ⟨?_, ?_, ?_, ?_, ?_⟩
    · rw [SMap.find_set_ne _ _ _ _ h1, SMap.find_set_ne _ _ _ _ h3, SMap.find_del_self]
    · rw [SMap.find_set_self]
    · rw [SMap.find_set_ne _ _ _ _ h2, SMap.find_set_self]
    · rw [SMap.find_set_self]
    · intro k k1 k2 k3
      refine ⟨?_, trivial, ?_, trivial⟩
      · rw [SMap.find_set_ne _ _ _ _ k3, SMap.find_set_ne _ _ _ _ k2,
          SMap.find_del_ne _ _ _ k1]
      · rw [SMap.find_set_ne _ _ _ _ k1]
  · rw [hr, hpair] at hh hw
    simp only [Genome.enabledMap, if_true] at hw
    have hgw : SMap.getD g.recurrent_edges (u, v) 0 = w := by simp [SMap.getD, hw]
    simp only [SplitPost, AddNodeMutation, hnl, if_false, hr, Genome.enabledMap,
      Genome.disabledMap, if_true, hh, hpair, hgw]
    refine ⟨?_, ?_, ?_, ?_, ?_⟩
    · rw [SMap.find_set_ne _ _ _ _ h1, SMap.find_del_self]
    · rw [SMap.find_set_self]
    · rw [SMap.find_set_self]
    · rw [SMap.find_set_self]
    · intro k k1 k2 k3
      refine ⟨?_, ?_, trivial, ?_⟩
      · rw [SMap.find_set_ne _ _ _ _ k2]
      · rw [SMap.find_set_ne _ _ _ _ k3, SMap.find_del_ne _ _ _ k1]
      · rw [SMap.find_set_ne _ _ _ _ k1]

/-- C1, witness: splitting `(0,2)` of `genomeA` in a fresh engine returns the id
`3`, which differs from both end points. -/
theorem AddNodeMutation_contract_of_fresh_witness :
    (GetAddNodeNumber (NEAT.new 1 1) (genomeA.splitEdge 0) (genomeA.splitRecurrent 0)).1 ≠
      (genomeA.splitEdge 0).1 ∧
    AddNodeMutationContract genomeA (NEAT.new 1 1) 0 :=
  ⟨by decide, AddNodeMutation_contract_of_fresh genomeA (NEAT.new 1 1) 0 (by decide)
    (by decide)⟩

/-- C1, counterexample: `genomeB` holds the enabled edge `(0,3)`; a second
engine built for the same sizes returns `3` for that edge, so the split writes
`(0,3)` back into `forward_edges` with weight `1`: the split edge is still
enabled and the stated contract fails. -/
theorem AddNodeMutation_contract_fails :
    ¬ AddNodeMutationContract genomeB (NEAT.new 1 1) 0 := by
  intro hc
  obtain ⟨w, _, hpost⟩ := hc (by decide)
  exact absurd hpost.1 (by decide)

/-! ## C2, C3: the innovation registry -/

theorem GetAddNodeNumber_of_registered (n : NEAT) (e : Int × Int) (r : Bool) (x : Int)
    (h : n.registered e r x) : GetAddNodeNumber n e r = (x, n) := by
  unfold NEAT.registered at h
  simp [GetAddNodeNumber, h]

theorem GetAddNodeNumber_registers (n : NEAT) (e : Int × Int) (r : Bool) :
    (GetAddNodeNumber n e r).2.registered e r (GetAddNodeNumber n e r).1 := by
  unfold NEAT.registered GetAddNodeNumber
  cases hf : SMap.find (n.connectNode r) e with
  | some x => simpa using hf
  | none =>
    cases r <;> simp [NEAT.connectNode, SMap.find_set_self]

theorem GetAddNodeNumber_keeps (n : NEAT) (e e1 : Int × Int) (r r1 : Bool) (x : Int)
    (h : n.registered e r x) : (GetAddNodeNumber n e1 r1).2.registered e r x := by
  unfold NEAT.registered at h ⊢
  unfold GetAddNodeNumber
  cases hf : SMap.find (n.connectNode r1) e1 with
  | some y => simpa using h
  | none =>
    cases r1 <;> cases r <;> simp only [NEAT.connectNode, Bool.false_eq_true, if_false,
      if_true] at h hf ⊢
    · by_cases hee : e = e1
      · subst hee
        rw [hf] at h
        cases h
      · rw [SMap.find_set_ne _ _ _ _ hee]
        exact h
    · exact h
    · exact h
    · by_cases hee : e = e1
      · subst hee
        rw [hf] at h
        cases h
      · rw [SMap.find_set_ne _ _ _ _ hee]
        exact h

theorem registryCalls_keeps (calls : List ((Int × Int) × Bool)) (n : NEAT) (e : Int × Int)
    (r : Bool) (x : Int) (h : n.registered e r x) :
    (registryCalls n calls).registered e r x := by
  induction calls generalizing n with
  | nil => exact h
  | cons c cs ih =>
    exact ih _ (GetAddNodeNumber_keeps n e c.1 r c.2 x h)

/-- C2: once `GetAddNodeNumber(e, r)` has returned `h`, a later call with the
same key, after any other registry calls, returns `h` again and leaves the
engine (its node counter included) as it was; so two genomes that split the
edge `(0,2)` as a forward edge in the same engine get the same hidden id, and
the second split does not advance the counter. -/
theorem GetAddNodeNumber_memoised (n : NEAT) (e : Int × Int) (r : Bool)
    (calls : List ((Int × Int) × Bool)) :
    GetAddNodeNumber (registryCalls (GetAddNodeNumber n e r).2 calls) e r =
      ((GetAddNodeNumber n e r).1, registryCalls (GetAddNodeNumber n e r).2 calls) ∧
    ∀ (g1 g2 : Genome) (d1 d2 : Nat),
      (AddNodeMutation g1 n d1).1 = true → (AddNodeMutation g2 n d2).1 = true →
      g1.splitEdge d1 = (0, 2) → g1.splitRecurrent d1 = false →
      g2.splitEdge d2 = (0, 2) → g2.splitRecurrent d2 = false →
      g2.newNode (registryCalls (AddNodeMutation g1 n d1).2.2 calls) d2 = g1.newNode n d1 ∧
      (AddNodeMutation g2 (registryCalls (AddNodeMutation g1 n d1).2.2 calls) d2).2.2.node_ctr =
        (registryCalls (AddNodeMutation g1 n d1).2.2 calls).node_ctr := by
  have key : ∀ (n : NEAT) (e : Int × Int) (r : Bool),
      GetAddNodeNumber (registryCalls (GetAddNodeNumber n e r).2 calls) e r =
      ((GetAddNodeNumber n e r).1, registryCalls (GetAddNodeNumber n e r).2 calls) :=
    fun n e r => GetAddNodeNumber_of_registered _ e r _
      (registryCalls_keeps calls _ e r _ (GetAddNodeNumber_registers n e r))
  refine ⟨key n e r, ?_⟩
  intro g1 g2 d1 d2 hs1 hs2 he1 hr1 he2 hr2
  rw [AddNodeMutation_fst] at hs1 hs2
  have hl1 : 1 ≤ g1.possibleEdges.length := of_decide_eq_true hs1
  have hl2 : 1 ≤ g2.possibleEdges.length := of_decide_eq_true hs2
  have hk := key n (0, 2) false
  rw [AddNodeMutation_engine _ _ _ hl1, AddNodeMutation_engine _ _ _ hl2]
  simp only [Genome.newNode, he1, hr1, he2, hr2, hk, and_self]

/-- C2, witness: `genomeA` and `genomeC` both split `(0,2)` in the engine built
for one input and one output, with two other registry calls in between. -/
theorem GetAddNodeNumber_memoised_witness :
    genomeC.newNode
        (registryCalls (AddNodeMutation genomeA (NEAT.new 1 1) 0).2.2
          [((1, 2), false), ((0, 2), true)]) 0 =
      genomeA.newNode (NEAT.new 1 1) 0 ∧
    (AddNodeMutation genomeC
        (registryCalls (AddNodeMutation genomeA (NEAT.new 1 1) 0).2.2
          [((1, 2), false), ((0, 2), true)]) 0).2.2.node_ctr =
      (registryCalls (AddNodeMutation genomeA (NEAT.new 1 1) 0).2.2
          [((1, 2), false), ((0, 2), true)]).node_ctr :=
  (GetAddNodeNumber_memoised (NEAT.new 1 1) (0, 2) false
    [((1, 2), false), ((0, 2), true)]).2 genomeA genomeC 0 0
    (by decide) (by decide) (by decide) (by decide) (by decide) (by decide)

theorem RegInv_new (input_size output_size : Int) :
    NEAT.RegInv (input_size + output_size) (NEAT.new input_size output_size) := by
  refine ⟨le_refl _, ?_, ?_⟩
  · intro e r x h
    cases r <;> simp [NEAT.registered, NEAT.new, NEAT.connectNode, SMap.find] at h
  · intro e1 r1 e2 r2 x h
    cases r1 <;> simp [NEAT.registered, NEAT.new, NEAT.connectNode, SMap.find] at h

theorem GetAddNodeNumber_unregistered (n : NEAT) (e : Int × Int) (r : Bool)
    (h : SMap.find (n.connectNode r) e = none) :
    (GetAddNodeNumber n e r).1 = n.node_ctr + 1 ∧
    (GetAddNodeNumber n e r).2.node_ctr = n.node_ctr + 1 ∧
    ∀ e1 r1 x, (GetAddNodeNumber n e r).2.registered e1 r1 x →
      n.registered e1 r1 x ∨ (e1 = e ∧ r1 = r ∧ x = n.node_ctr + 1) := by
  unfold GetAddNodeNumber
  rw [h]
  cases r
  · refine ⟨rfl, rfl, ?_⟩
    intro e1 r1 x hx
    cases r1
    · simp only [NEAT.registered, NEAT.connectNode, Bool.false_eq_true, if_false] at hx
      by_cases hee : e1 = e
      · subst hee
        rw [SMap.find_set_self] at hx
        right
        exact ⟨rfl, rfl, (Option.some.inj hx).symm⟩
      · rw [SMap.find_set_ne _ _ _ _ hee] at hx
        exact Or.inl hx
    · left
      simpa [NEAT.registered, NEAT.connectNode] using hx
  · refine ⟨rfl, rfl, ?_⟩
    intro e1 r1 x hx
    cases r1
    · left
      simpa [NEAT.registered, NEAT.connectNode] using hx
    · simp only [NEAT.registered, NEAT.connectNode, if_true] at hx
      by_cases hee : e1 = e
      · subst hee
        rw [SMap.find_set_self] at hx
        right
        exact ⟨rfl, rfl, (Option.some.inj hx).symm⟩
      · rw [SMap.find_set_ne _ _ _ _ hee] at hx
        exact Or.inl hx

theorem RegInv_step (b : Int) (n : NEAT) (e : Int × Int) (r : Bool) (h : n.RegInv b) :
    (GetAddNodeNumber n e r).2.RegInv b := by
  cases hf : SMap.find (n.connectNode r) e with
  | some x =>
    rw [GetAddNodeNumber_of_registered n e r x hf]
    exact h
  | none =>
    obtain ⟨h1, h2, h3⟩ := h
    obtain ⟨_, hctr, hreg⟩ := GetAddNodeNumber_unregistered n e r hf
    refine ⟨by omega, ?_, ?_⟩
    · intro e1 r1 x hx
      rcases hreg e1 r1 x hx with ho | ⟨_, _, hx1⟩
      · have := h2 e1 r1 x ho
        omega
      · omega
    · intro e1 r1 e2 r2 x hx1 hx2
      rcases hreg e1 r1 x hx1 with ho1 | ⟨ha1, hb1, hc1⟩
      · rcases hreg e2 r2 x hx2 with ho2 | ⟨ha2, hb2, hc2⟩
        · exact h3 e1 r1 e2 r2 x ho1 ho2
        · have := h2 e1 r1 x ho1
          omega
      · rcases hreg e2 r2 x hx2 with ho2 | ⟨ha2, hb2, hc2⟩
        · have := h2 e2 r2 x ho2
          omega
        · exact ⟨ha1.trans ha2.symm, hb1.trans hb2.symm⟩

theorem RegInv_registryCalls (b : Int) (calls : List ((Int × Int) × Bool)) (n : NEAT)
    (h : n.RegInv b) : (registryCalls n calls).RegInv b := by
  induction calls generalizing n with
  | nil => exact h
  | cons c cs ih => exact ih _ (RegInv_step b n c.1 c.2 h)

/-- C3: in an engine constructed for `input_size` inputs and `output_size`
outputs (so `I = input_size + 1` sensors and `O = output_size` outputs), after
any run of registry calls, the id `GetAddNodeNumber` allocates for a key that
is not yet registered is at least `I + O` and greater than every id registered
before; and any two different registered keys, the same edge under the two
recurrence flags included, hold different ids, each at least `I + O`. -/
theorem GetAddNodeNumber_fresh (input_size output_size : Int)
    (calls : List ((Int × Int) × Bool)) (e : Int × Int) (r : Bool)
    (hnew : SMap.find ((registryCalls (NEAT.new input_size output_size) calls).connectNode r) e
      = none) :
    (input_size + 1) + output_size ≤
      (GetAddNodeNumber (registryCalls (NEAT.new input_size output_size) calls) e r).1 ∧
    (∀ e0 r0 x, (registryCalls (NEAT.new input_size output_size) calls).registered e0 r0 x →
      x < (GetAddNodeNumber (registryCalls (NEAT.new input_size output_size) calls) e r).1) ∧
    (∀ e1 r1 e2 r2 x1 x2,
      (GetAddNodeNumber (registryCalls (NEAT.new input_size output_size) calls) e r).2.registered
        e1 r1 x1 →
      (GetAddNodeNumber (registryCalls (NEAT.new input_size output_size) calls) e r).2.registered
        e2 r2 x2 →
      (e1, r1) ≠ (e2, r2) → x1 ≠ x2 ∧ (input_size + 1) + output_size ≤ x1) := by
  have hinv := RegInv_registryCalls _ calls _ (RegInv_new input_size output_size)
  have hinv2 := RegInv_step _ _ e r hinv
  obtain ⟨hid, _, _⟩ := GetAddNodeNumber_unregistered _ e r hnew
  obtain ⟨h1, h2, _⟩ := hinv
  refine ⟨by omega, ?_, ?_⟩
  · intro e0 r0 x hx
    have := h2 e0 r0 x hx
    omega
  · intro e1 r1 e2 r2 x1 x2 hx1 hx2 hne
    constructor
    · intro hxx
      subst hxx
      obtain ⟨ha, hb⟩ := hinv2.2.2 e1 r1 e2 r2 x1 hx1 hx2
      exact hne (by rw [ha, hb])
    · have := hinv2.2.1 e1 r1 x1 hx1
      omega

/-- C3, witness: in the engine built for one input and one output, after the
forward split of `(0,2)` was registered, the recurrent key `(0,2)` is new. -/
theorem GetAddNodeNumber_fresh_witness :
    (1 + 1) + 1 ≤
      (GetAddNodeNumber (registryCalls (NEAT.new 1 1) [((0, 2), false)]) (0, 2) true).1 ∧
    (GetAddNodeNumber (registryCalls (NEAT.new 1 1) [((0, 2), false)]) (0, 2) true).1 = 4 :=
  ⟨(GetAddNodeNumber_fresh 1 1 [((0, 2), false)] (0, 2) true (by decide)).1, by decide⟩

/-! ## Keys of the maps after each operation -/

theorem SMap.mem_keys_set {K V : Type} [DecidableEq K] [KeyOrd K] (m : SMap K V) (k j : K)
    (v : V) : j ∈ SMap.keys (SMap.set m k v) ↔ j = k ∨ j ∈ SMap.keys m := by
  rw [← SMap.find_isSome_iff_mem_keys, ← SMap.find_isSome_iff_mem_keys]
  by_cases h : j = k
  · subst h
    simp [SMap.find_set_self]
  · simp [SMap.find_set_ne _ _ _ _ h, h]

theorem SMap.mem_keys_del {K V : Type} [DecidableEq K] (m : SMap K V) (k j : K) :
    j ∈ SMap.keys (SMap.del m k) ↔ j ≠ k ∧ j ∈ SMap.keys m := by
  rw [← SMap.find_isSome_iff_mem_keys, ← SMap.find_isSome_iff_mem_keys]
  by_cases h : j = k
  · subst h
    simp [SMap.find_del_self]
  · simp [SMap.find_del_ne _ _ _ h, h]

theorem keys_mutateMap (a b c : ℚ) (u z : Nat → ℚ) (m : SMap (Int × Int) ℚ) (k : Nat) :
    SMap.keys (mutateMap a b c u z k m) = SMap.keys m := by
  induction m generalizing k with
  | nil => rfl
  | cons hd tl ih =>
    obtain ⟨e, w⟩ := hd
    simp only [mutateMap, SMap.keys, List.map_cons] at ih ⊢
    rw [ih]

theorem keys_crossMap (other : SMap (Int × Int) ℚ) (draws : Nat → Nat)
    (m : SMap (Int × Int) ℚ) (k : Nat) :
    SMap.keys (crossMap other draws k m) = SMap.keys m := by
  induction m generalizing k with
  | nil => rfl
  | cons hd tl ih =>
    obtain ⟨e, w⟩ := hd
    simp only [crossMap, SMap.keys, List.map_cons] at ih ⊢
    rw [ih]

/-! ## What a successful `AddEdgeMutation` did -/

theorem FindNewPossibleConnectionFrom_some (it : List Int → List Int) (net : Network)
    (draws : Nat → Nat × Nat) (tries t : Nat) (r : Int × Int × Bool)
    (h : FindNewPossibleConnectionFrom it net draws tries t = some (some r)) :
    ∃ d, tryConnection it net d = some (some r) := by
  induction tries generalizing t with
  | zero => simp [FindNewPossibleConnectionFrom] at h
  | succ k ih =>
    unfold FindNewPossibleConnectionFrom at h
    cases hc : tryConnection it net (draws t) with
    | none => simp [hc] at h
    | some o =>
      cases o with
      | none =>
        simp only [hc] at h
        exact ih _ h
      | some r1 =>
        simp only [hc, Option.some.injEq] at h
        exact ⟨draws t, by rw [hc, h]⟩

theorem tryConnection_some (it : List Int → List Int) (net : Network) (d : Nat × Nat)
    (a b : Int) (r : Bool) (h : tryConnection it net d = some (some (a, b, r))) :
    TryResult it net d a b r := by
  unfold tryConnection at h
  cases h1 : labelAt net.visual_info (rand_int ((net.run_info.length : Int) - 1) d.1) with
  | none => simp [h1] at h
  | some la =>
    cases h2 : labelAt net.visual_info
        (rand_int2 net.num_input_nodes ((net.run_info.length : Int) - 1) d.2) with
    | none => simp [h1, h2] at h
    | some lb =>
      cases h3 : SMap.find net.adjacency_list la with
      | none => simp [h1, h2, h3] at h
      | some succs =>
        by_cases h4 : lb ∈ succs
        · simp [h1, h2, h3, h4] at h
        · cases h5 : SMap.find net.adjacency_list_recurrent_rev lb with
          | none =>
            cases h7 : CheckRecurrent it net la lb with
            | none => simp [h1, h2, h3, h4, h5, h7] at h
            | some r1 =>
              simp only [h1, h2, h3, h4, h5, h7, if_false, Option.map_some', Option.some.injEq,
                Prod.mk.injEq] at h
              obtain ⟨rfl, rfl, rfl⟩ := h
              exact ⟨h1, h2, ⟨succs, h3, h4⟩, by simp [h5], h7⟩
          | some preds =>
            by_cases h6 : la ∈ preds
            · simp [h1, h2, h3, h4, h5, h6] at h
            · cases h7 : CheckRecurrent it net la lb with
              | none => simp [h1, h2, h3, h4, h5, h6, h7] at h
              | some r1 =>
                simp only [h1, h2, h3, h4, h5, h6, h7, if_false, Option.map_some',
                  Option.some.injEq, Prod.mk.injEq] at h
                obtain ⟨rfl, rfl, rfl⟩ := h
                exact ⟨h1, h2, ⟨succs, h3, h4⟩, by simp [h5, h6], h7⟩

/-- A successful `AddEdgeMutation` inserted the pair one try reported into the
enabled map of its flag and erased it from the matching disabled map. -/
theorem AddEdgeMutation_some (it : List Int → List Int) (g g1 : Genome) (net : Network)
    (sd : ℚ) (tries : Nat) (draws : Nat → Nat × Nat) (z : ℚ)
    (h : AddEdgeMutation it g net sd tries draws z = some (true, g1)) :
    ∃ d a b r, TryResult it net d a b r ∧
      g1 = (if r = true then
        { g with
          recurrent_edges := SMap.set g.recurrent_edges (a, b) (randomGaussian sd z)
          disabled_recurrent_edges := SMap.del g.disabled_recurrent_edges (a, b) }
      else
        { g with
          forward_edges := SMap.set g.forward_edges (a, b) (randomGaussian sd z)
          disabled_forward_edges := SMap.del g.disabled_forward_edges (a, b) }) := by
  unfold AddEdgeMutation at h
  cases hf : FindNewPossibleConnection it net draws tries with
  | none => simp [hf] at h
  | some o =>
    cases o with
    | none => simp [hf] at h
    | some res =>
      obtain ⟨a, b, r⟩ := res
      obtain ⟨d, hd⟩ := FindNewPossibleConnectionFrom_some it net draws tries 0 (a, b, r) hf
      refine ⟨d, a, b, r, tryConnection_some it net d a b r hd, ?_⟩
      cases r <;> simp [hf] at h <;> simp [h]

/-! ## The genome after `AddNodeMutation` -/

theorem AddNodeMutation_genome (g : Genome) (n : NEAT) (draw : Nat)
    (h : 1 ≤ g.possibleEdges.length) :
    (AddNodeMutation g n draw).2.1 =
      if g.splitRecurrent draw = true then
        { g with
          forward_edges := SMap.set g.forward_edges ((g.splitEdge draw).1, g.newNode n draw) 1
          recurrent_edges := SMap.set (SMap.del g.recurrent_edges (g.splitEdge draw))
            (g.newNode n draw, (g.splitEdge draw).2)
            (SMap.getD g.recurrent_edges (g.splitEdge draw) 0)
          disabled_recurrent_edges := SMap.set g.disabled_recurrent_edges (g.splitEdge draw)
            (SMap.getD g.recurrent_edges (g.splitEdge draw) 0) }
      else
        { g with
          forward_edges := SMap.set (SMap.set (SMap.del g.forward_edges (g.splitEdge draw))
              ((g.splitEdge draw).1, g.newNode n draw) 1)
            (g.newNode n draw, (g.splitEdge draw).2)
            (SMap.getD g.forward_edges (g.splitEdge draw) 0)
          disabled_forward_edges := SMap.set g.disabled_forward_edges (g.splitEdge draw)
            (SMap.getD g.forward_edges (g.splitEdge draw) 0) } := by
  have hl : ¬ g.possibleEdges.length < 1 := by omega
  unfold AddNodeMutation Genome.newNode
  simp only [hl, if_false]
  split <;> rfl

/-! ## The sizes of a compiled network -/

theorem Network.build_sizes (it : List Int → List Int) (fuel : Nat) (ni no : Int)
    (fe re : SMap (Int × Int) ℚ) (net : Network)
    (h : Network.build it fuel ni no fe re = some net) :
    net.num_input_nodes = ni ∧ net.num_output_nodes = no := by
  unfold Network.build at h
  simp only at h
  split at h
  · simp only [Option.some.injEq] at h
    subst h
    exact ⟨rfl, rfl⟩
  · split at h
    · cases h
    · split at h
      · cases h
      · simp only [Option.some.injEq] at h
        subst h
        exact ⟨rfl, rfl⟩
      · simp only [Option.some.injEq] at h
        subst h
        exact ⟨rfl, rfl⟩

theorem CheckRecurrent_false (it : List Int → List Int) (net : Network) (a b : Int)
    (h : CheckRecurrent it net a b = some false) :
    a ≠ b ∧
    ¬ (IsOutputNode net.num_input_nodes net.num_output_nodes a = true ∧
       IsOutputNode net.num_input_nodes net.num_output_nodes b = false) ∧
    bfsLoop it net.adjacency_list a (bfsFuel net.adjacency_list) [b] [b] = some false := by
  unfold CheckRecurrent at h
  by_cases h1 : a = b
  · simp [h1] at h
  · by_cases h2 : (IsOutputNode net.num_input_nodes net.num_output_nodes a &&
        !IsOutputNode net.num_input_nodes net.num_output_nodes b) = true
    · simp [h1, h2] at h
    · simp only [h1, h2, if_false] at h
      refine ⟨h1, ?_, h⟩
      intro hc
      apply h2
      simp [hc.1, hc.2]

/-! ## C7: forward edges that start at an output -/

theorem rand_int_le (max : Int) (draw : Nat) : rand_int max draw ≤ max := by
  unfold rand_int
  split <;> omega

theorem IsOutputNode_false_of_lt (ni no x : Int) (h : x < ni) : IsOutputNode ni no x = false := by
  simp [IsOutputNode, h]

theorem IsOutputNode_false_of_ge (ni no x : Int) (h : ni + no ≤ x) :
    IsOutputNode ni no x = false := by
  simp [IsOutputNode, h]

theorem newNode_registered (g : Genome) (n : NEAT) (draw : Nat) :
    (GetAddNodeNumber n (g.splitEdge draw) (g.splitRecurrent draw)).2.registered
      (g.splitEdge draw) (g.splitRecurrent draw) (g.newNode n draw) :=
  GetAddNodeNumber_registers n _ _

theorem BasicInv_of_reachable (ni no : Int) (n : NEAT) (g : Genome)
    (h : Reachable ni no n g) : BasicInv ni no n g := by
  induction h with
  | empty =>
    refine ⟨rfl, rfl, ?_, ?_⟩
    · have := RegInv_new (ni - 1) no
      simpa using this
    · intro k hk
      simp [Genome.forwardKeys, Genome.new, SMap.keys] at hk
  | seed drawIn drawOut weight =>
    refine ⟨rfl, rfl, ?_, ?_⟩
    · have := RegInv_new (ni - 1) no
      simpa using this
    · intro k hk
      simp only [Genome.forwardKeys, AddInputOutputEdge, Genome.new, SMap.set, SMap.keys,
        List.map_cons, List.map_nil, List.append_nil, List.mem_singleton] at hk
      subst hk
      intro hc
      have h1 := rand_int_le (ni - 1) drawIn
      have h2 := IsOutputNode_false_of_lt ni no (rand_int (ni - 1) drawIn) (by omega)
      simp only [Genome.IsOutputNode, AddInputOutputEdge, Genome.new] at hc
      rw [h2] at hc
      exact absurd hc.1 (by simp)
  | registry e r _ ih =>
    exact ⟨ih.sizeIn, ih.sizeOut, RegInv_step _ _ e r ih.reg, ih.src⟩
  | @addNode n g draw _ hs ih =>
    rw [AddNodeMutation_fst] at hs
    have hl : 1 ≤ g.possibleEdges.length := of_decide_eq_true hs
    have hreg : (AddNodeMutation g n draw).2.2.RegInv (ni - 1 + no) := by
      rw [AddNodeMutation_engine _ _ _ hl]
      exact RegInv_step _ _ _ _ ih.reg
    have hnew : ni + no ≤ g.newNode n draw := by
      have h1 := RegInv_step _ _ (g.splitEdge draw) (g.splitRecurrent draw) ih.reg
      have h2 := h1.2.1 _ _ _ (newNode_registered g n draw)
      omega
    have hmem := g.splitEdge_mem draw hl
    have hgen := AddNodeMutation_genome g n draw hl
    have hnout : ∀ x, g.IsOutputNode x = IsOutputNode ni no x := by
      intro x
      simp [Genome.IsOutputNode, ih.sizeIn, ih.sizeOut]
    cases hr : g.splitRecurrent draw
    · rw [hr] at hgen hmem
      simp only [Bool.false_eq_true, if_false] at hgen
      refine ⟨by rw [hgen]; exact ih.sizeIn, by rw [hgen]; exact ih.sizeOut, hreg, ?_⟩
      intro k hk
      have hio : ∀ x, (AddNodeMutation g n draw).2.1.IsOutputNode x = IsOutputNode ni no x := by
        intro x
        rw [hgen]
        simp [Genome.IsOutputNode, ih.sizeIn, ih.sizeOut]
      rw [hio, hio]
      rw [hgen] at hk
      simp only [Genome.forwardKeys, List.mem_append, SMap.mem_keys_set, SMap.mem_keys_del] at hk
      have hold := ih.src
      simp only [Genome.enabledMap, Bool.false_eq_true, if_false] at hmem
      rcases hk with (hk | hk | ⟨_, hk⟩) | hk | hk
      · subst hk
        simp [IsOutputNode_false_of_ge ni no _ hnew]
      · subst hk
        rw [← hnout]
        simp [hmem.2]
      · have := hold k (by simp [Genome.forwardKeys, hk])
        simpa [hnout] using this
      · subst hk
        have := hold (g.splitEdge draw) (by simp [Genome.forwardKeys, hmem.1])
        simpa [hnout] using this
      · have := hold k (by simp [Genome.forwardKeys, hk])
        simpa [hnout] using this
    · rw [hr] at hgen hmem
      simp only [if_true] at hgen
      refine ⟨by rw [hgen]; exact ih.sizeIn, by rw [hgen]; exact ih.sizeOut, hreg, ?_⟩
      intro k hk
      have hio : ∀ x, (AddNodeMutation g n draw).2.1.IsOutputNode x = IsOutputNode ni no x := by
        intro x
        rw [hgen]
        simp [Genome.IsOutputNode, ih.sizeIn, ih.sizeOut]
      rw [hio, hio]
      rw [hgen] at hk
      simp only [Genome.forwardKeys, List.mem_append, SMap.mem_keys_set] at hk
      have hold := ih.src
      rcases hk with (hk | hk) | hk
      · subst hk
        rw [← hnout]
        simp [hmem.2]
      · have := hold k (by simp [Genome.forwardKeys, hk])
        simpa [hnout] using this
      · have := hold k (by simp [Genome.forwardKeys, hk])
        simpa [hnout] using this
  | @addEdge n g g1 it fuel net sd tries draws z _ _ hnet hadd ih =>
    obtain ⟨d, a, b, r, htry, hg1⟩ := AddEdgeMutation_some it g g1 net sd tries draws z hadd
    have hsz := Network.build_sizes it fuel _ _ _ _ net hnet
    have hnout : ∀ x, g.IsOutputNode x = IsOutputNode ni no x := by
      intro x
      simp [Genome.IsOutputNode, ih.sizeIn, ih.sizeOut]
    cases r
    · simp only [Bool.false_eq_true, if_false] at hg1
      refine ⟨by rw [hg1]; exact ih.sizeIn, by rw [hg1]; exact ih.sizeOut, ih.reg, ?_⟩
      intro k hk
      have hio : ∀ x, g1.IsOutputNode x = IsOutputNode ni no x := by
        intro x
        rw [hg1]
        simp [Genome.IsOutputNode, ih.sizeIn, ih.sizeOut]
      rw [hio, hio]
      rw [hg1] at hk
      simp only [Genome.forwardKeys, List.mem_append, SMap.mem_keys_set, SMap.mem_keys_del] at hk
      have hold := ih.src
      rcases hk with (hk | hk) | ⟨_, hk⟩
      · subst hk
        have hc := (CheckRecurrent_false it net a b htry.check).2.1
        rw [hsz.1, hsz.2, ih.sizeIn, ih.sizeOut] at hc
        exact hc
      · have := hold k (by simp [Genome.forwardKeys, hk])
        simpa [hnout] using this
      · have := hold k (by simp [Genome.forwardKeys, hk])
        simpa [hnout] using this
    · simp only [if_true] at hg1
      refine ⟨by rw [hg1]; exact ih.sizeIn, by rw [hg1]; exact ih.sizeOut, ih.reg, ?_⟩
      intro k hk
      have := ih.src k (by rw [hg1] at hk; exact hk)
      rw [hg1]
      exact this
  | weights a b c u z _ ih =>
    refine ⟨ih.sizeIn, ih.sizeOut, ih.reg, ?_⟩
    intro k hk
    have := ih.src k (by
      simpa [Genome.forwardKeys, MutateWeights, keys_mutateMap] using hk)
    exact this
  | crossover parent1 draws _ ih =>
    refine ⟨ih.sizeIn, ih.sizeOut, ih.reg, ?_⟩
    intro k hk
    have := ih.src k (by
      simpa [Genome.forwardKeys, Crossover, keys_crossMap] using hk)
    exact this

theorem genomeTwoOut1_reachable : Reachable 2 2 (NEAT.new 1 2) genomeTwoOut1 :=
  Reachable.addEdge id 10 netTwoOut 2 3 (fun _ => (2, 1)) 1 Reachable.empty
    (fun l => List.Perm.refl l) (by decide) (by rfl)

theorem genomeB4_reachable : Reachable 2 1 engineB2 genomeB4 := by
  have h0 : Reachable 2 1 (NEAT.new 1 1) genomeA := Reachable.seed 0 0 5
  have h1 : Reachable 2 1 engineB genomeB := Reachable.addNode 0 h0 (by decide)
  have h2 : Reachable 2 1 engineB2 genomeB2 := Reachable.addNode 0 h1 (by decide)
  have h3 : Reachable 2 1 engineB2 genomeB3 :=
    Reachable.addEdge id 10 ((GenerateNetwork id 10 genomeB2).getD (Network.bare 0 0 []))
      2 3 (fun _ => (0, 2)) 1 h2 (fun l => List.Perm.refl l) (by decide) (by rfl)
  have h4 := Reachable.addNode 0 h3 (by decide)
  have he : (AddNodeMutation genomeB3 engineB2 0).2.2 = engineB2 := by decide
  rw [he] at h4
  exact h4

/-! ## C4: the four maps after a repeated split -/

/-- C4 (evaluation at the failing input): from the genome with the single edge
`(0,2)`, in one engine, the mutations add-node on `(0,2)`, add-node on `(0,3)`,
add-edge `(0,2)` and add-node on `(0,2)` all succeed, and leave the key `(0,3)`
both in `forward_edges` and in `disabled_forward_edges`. -/
theorem AddNodeMutation_breaks_disjointness :
    Reachable 2 1 engineB2 genomeB4 ∧
    (AddNodeMutation genomeA (NEAT.new 1 1) 0).1 = true ∧
    (AddNodeMutation genomeB engineB 0).1 = true ∧
    (addEdgeB3.map Prod.fst) = some true ∧
    (AddNodeMutation genomeB3 engineB2 0).1 = true ∧
    genomeB3.splitEdge 0 = (0, 2) ∧
    SMap.find genomeB4.forward_edges (0, 3) = some 1 ∧
    SMap.find genomeB4.disabled_forward_edges (0, 3) = some 1 :=
  ⟨genomeB4_reachable, by decide⟩

/-- C7 (as amended): in every reachable genome no key of `forward_edges` or
`disabled_forward_edges` leads from an output node to a node that is not an
output. -/
theorem reachable_no_output_to_inner (ni no : Int) (n : NEAT) (g : Genome)
    (h : Reachable ni no n g) :
    ∀ k ∈ g.forwardKeys, ¬ (g.IsOutputNode k.1 = true ∧ g.IsOutputNode k.2 = false) :=
  (BasicInv_of_reachable ni no n g h).src

/-- C7, witness: the genome reached by four mutations from the edge `(0,2)`. -/
theorem reachable_no_output_to_inner_witness :
    Reachable 2 1 engineB2 genomeB4 ∧
    ∀ k ∈ genomeB4.forwardKeys,
      ¬ (genomeB4.IsOutputNode k.1 = true ∧ genomeB4.IsOutputNode k.2 = false) :=
  ⟨genomeB4_reachable, reachable_no_output_to_inner 2 1 engineB2 genomeB4 genomeB4_reachable⟩

/-- C7, counterexample: with two outputs `2` and `3`, `AddEdgeMutation` on the
empty genome draws the pair `(2,3)`, `CheckRecurrent` classifies it as forward,
and the reachable genome holds the forward edge `(2,3)` whose source is an
output. -/
theorem forward_edge_from_output :
    Reachable 2 2 (NEAT.new 1 2) genomeTwoOut1 ∧
    (2, 3) ∈ SMap.keys genomeTwoOut1.forward_edges ∧
    genomeTwoOut1.IsOutputNode 2 = true :=
  ⟨genomeTwoOut1_reachable, by decide, by decide⟩

/-! ## Maps of adjacency sets -/

namespace SMap

variable {K V : Type} [DecidableEq K]

theorem getD_set_self [KeyOrd K] (m : SMap K V) (k : K) (v d : V) :
    getD (set m k v) k d = v := by
  simp [getD, find_set_self]

theorem getD_set_ne [KeyOrd K] (m : SMap K V) (k j : K) (v d : V) (h : j ≠ k) :
    getD (set m k v) j d = getD m j d := by
  simp [getD, find_set_ne _ _ _ _ h]

theorem has_iff_mem_keys (m : SMap K V) (k : K) : has m k = true ↔ k ∈ keys m := by
  unfold has
  exact find_isSome_iff_mem_keys m k

theorem getD_touch [KeyOrd K] (m : SMap K V) (k j : K) (d : V) :
    getD (touch m k d) j d = getD m j d := by
  unfold touch
  by_cases h : has m k = true
  · simp [h]
  · simp only [h, Bool.false_eq_true, if_false]
    by_cases hj : j = k
    · subst hj
      rw [getD_set_self]
      have : find m j = none := by
        cases hf : find m j with
        | none => rfl
        | some v => simp [has, hf] at h
      simp [getD, this]
    · exact getD_set_ne _ _ _ _ _ hj

theorem mem_keys_touch [KeyOrd K] (m : SMap K V) (k j : K) (d : V) :
    j ∈ keys (touch m k d) ↔ j = k ∨ j ∈ keys m := by
  unfold touch
  by_cases h : has m k = true
  · simp only [h, if_true]
    constructor
    · exact Or.inr
    · rintro (rfl | h1)
      · exact (has_iff_mem_keys m j).1 h
      · exact h1
  · simp only [h, Bool.false_eq_true, if_false]
    exact mem_keys_set m k j d

theorem find_touch_isSome [KeyOrd K] (m : SMap K V) (k : K) (d : V) :
    (find (touch m k d) k).isSome = true := by
  rw [find_isSome_iff_mem_keys, mem_keys_touch]
  exact Or.inl rfl

theorem getD_of_find (m : SMap K V) (k : K) (v d : V) (h : find m k = some v) :
    getD m k d = v := by
  simp [getD, h]

end SMap

theorem USet.mem_insert (s : List Int) (x y : Int) :
    y ∈ USet.insert s x ↔ y = x ∨ y ∈ s := by
  unfold USet.insert
  by_cases h : x ∈ s
  · simp only [h, if_true]
    constructor
    · exact Or.inr
    · rintro (rfl | h1)
      · exact h
      · exact h1
  · simp only [h, if_false, List.mem_append, List.mem_singleton]
    tauto

theorem USet.nodup_insert (s : List Int) (x : Int) (h : s.Nodup) : (USet.insert s x).Nodup := by
  unfold USet.insert
  by_cases hx : x ∈ s
  · simpa [hx] using h
  · simp only [hx, if_false]
    rw [List.nodup_append]
    refine ⟨h, List.nodup_singleton x, ?_⟩
    intro a ha hb
    rw [List.mem_singleton] at hb
    exact hx (hb ▸ ha)

theorem USet.mem_erase (s : List Int) (x y : Int) : y ∈ USet.erase s x ↔ y ∈ s ∧ y ≠ x := by
  simp [USet.erase]

theorem getD_adjInsert (m : SMap Int (List Int)) (k x j : Int) :
    SMap.getD (adjInsert m k x) j [] =
      if j = k then USet.insert (SMap.getD m k []) x else SMap.getD m j [] := by
  unfold adjInsert
  by_cases h : j = k
  · subst h
    simp [SMap.getD_set_self]
  · simp [h, SMap.getD_set_ne _ _ _ _ _ h]

theorem mem_keys_adjInsert (m : SMap Int (List Int)) (k x j : Int) :
    j ∈ SMap.keys (adjInsert m k x) ↔ j = k ∨ j ∈ SMap.keys m := by
  unfold adjInsert
  exact SMap.mem_keys_set _ _ _ _

/-! ## The adjacency maps the constructor reads -/

theorem mem_countUp (n x : Int) : x ∈ countUp n ↔ 0 ≤ x ∧ x < n := by
  unfold countUp
  simp only [List.mem_map, List.mem_range]
  constructor
  · rintro ⟨i, hi, rfl⟩
    omega
  · intro h
    exact ⟨x.toNat, by omega, by omega⟩

theorem nodup_countUp (n : Int) : (countUp n).Nodup := by
  unfold countUp
  apply List.Nodup.map
  · intro a b h
    exact Int.ofNat.inj h
  · exact List.nodup_range _

theorem foldl_touch_getD (l : List Int) (m : SMap Int (List Int)) (j : Int) :
    SMap.getD (l.foldl (fun m i => SMap.touch m i []) m) j [] = SMap.getD m j [] := by
  induction l generalizing m with
  | nil => rfl
  | cons a tl ih =>
    simp only [List.foldl_cons]
    rw [ih, SMap.getD_touch]

theorem foldl_touch_keys (l : List Int) (m : SMap Int (List Int)) (j : Int) :
    j ∈ SMap.keys (l.foldl (fun m i => SMap.touch m i []) m) ↔ j ∈ l ∨ j ∈ SMap.keys m := by
  induction l generalizing m with
  | nil => simp
  | cons a tl ih =>
    simp only [List.foldl_cons, List.mem_cons]
    rw [ih, SMap.mem_keys_touch]
    tauto

theorem initAdjacency_getD (total j : Int) : SMap.getD (initAdjacency total) j [] = [] := by
  unfold initAdjacency
  rw [foldl_touch_getD]
  rfl

theorem initAdjacency_keys (total j : Int) :
    j ∈ SMap.keys (initAdjacency total) ↔ 0 ≤ j ∧ j < total := by
  unfold initAdjacency
  rw [foldl_touch_keys, mem_countUp]
  simp [SMap.keys]

/-- What `readForward` returns when no edge leads from an output to a
non-output: the successor and predecessor sets are those of the start maps
extended by the edges read, they stay duplicate free, and the keys are those of
the start maps and the end points of the edges. -/
theorem readForward_ok (ni no : Int) (edges : List ((Int × Int) × ℚ))
    (adj0 rev0 : SMap Int (List Int))
    (hP2 : ∀ k ∈ SMap.keys edges,
      ¬ (IsOutputNode ni no k.1 = true ∧ IsOutputNode ni no k.2 = false)) :
    ∃ adj rev, readForward ni no edges adj0 rev0 = .ok (adj, rev) ∧
      (∀ a b, b ∈ SMap.getD adj a [] ↔ b ∈ SMap.getD adj0 a [] ∨ (a, b) ∈ SMap.keys edges) ∧
      (∀ a b, a ∈ SMap.getD rev b [] ↔ a ∈ SMap.getD rev0 b [] ∨ (a, b) ∈ SMap.keys edges) ∧
      ((∀ a, (SMap.getD adj0 a []).Nodup) → ∀ a, (SMap.getD adj a []).Nodup) ∧
      ((∀ a, (SMap.getD rev0 a []).Nodup) → ∀ a, (SMap.getD rev a []).Nodup) ∧
      (∀ x, x ∈ SMap.keys adj ↔
        x ∈ SMap.keys adj0 ∨ ∃ k ∈ SMap.keys edges, x = k.1 ∨ x = k.2) ∧
      (∀ x, x ∈ SMap.keys rev ↔
        x ∈ SMap.keys rev0 ∨ ∃ k ∈ SMap.keys edges, x = k.1 ∨ x = k.2) := by
  induction edges generalizing adj0 rev0 with
  | nil =>
    refine ⟨adj0, rev0, rfl, ?_, ?_, fun h => h, fun h => h, ?_, ?_⟩ <;> simp [SMap.keys]
  | cons hd tl ih =>
    obtain ⟨⟨f, t⟩, w⟩ := hd
    have hhd : ¬ (IsOutputNode ni no f = true ∧ IsOutputNode ni no t = false) :=
      hP2 (f, t) (by simp [SMap.keys])
    have htl : ∀ k ∈ SMap.keys tl,
        ¬ (IsOutputNode ni no k.1 = true ∧ IsOutputNode ni no k.2 = false) := by
      intro k hk
      exact hP2 k (by simp only [SMap.keys, List.map_cons, List.mem_cons]; exact Or.inr hk)
    have hcond : (IsOutputNode ni no f && !IsOutputNode ni no t) = false := by
      cases h1 : IsOutputNode ni no f <;> cases h2 : IsOutputNode ni no t <;>
        simp [h1, h2] at hhd ⊢
    obtain ⟨adj, rev, hrf, hA, hR, hAn, hRn, hAk, hRk⟩ :=
      ih (SMap.touch (adjInsert adj0 f t) t []) (SMap.touch (adjInsert rev0 t f) f []) htl
    have hkeys : ∀ (x : Int) (P : Prop),
        (P ∨ ∃ k ∈ SMap.keys (((f, t), w) :: tl), x = k.1 ∨ x = k.2) ↔
        ((x = f ∨ x = t) ∨ P) ∨ ∃ k ∈ SMap.keys tl, x = k.1 ∨ x = k.2 := by
      intro x P
      simp only [SMap.keys, List.map_cons, List.mem_cons, exists_eq_or_imp]
      constructor
      · rintro (h | h | h)
        · exact Or.inl (Or.inr h)
        · exact Or.inl (Or.inl h)
        · exact Or.inr h
      · rintro ((h | h) | h)
        · exact Or.inr (Or.inl h)
        · exact Or.inl h
        · exact Or.inr (Or.inr h)
    refine ⟨adj, rev, ?_, ?_, ?_, ?_, ?_, ?_, ?_⟩
    · simp only [readForward, hcond, Bool.false_eq_true, if_false]
      exact hrf
    · intro a b
      rw [hA, SMap.getD_touch, getD_adjInsert]
      simp only [SMap.keys, List.map_cons, List.mem_cons, Prod.mk.injEq]
      by_cases h : a = f
      · subst h
        simp only [if_true, USet.mem_insert, true_and]
        clear * -
        tauto
      · simp only [h, if_false, false_and, false_or]
    · intro a b
      rw [hR, SMap.getD_touch, getD_adjInsert]
      simp only [SMap.keys, List.map_cons, List.mem_cons, Prod.mk.injEq]
      by_cases h : b = t
      · subst h
        simp only [if_true, USet.mem_insert, and_true]
        clear * -
        tauto
      · simp only [h, if_false, and_false, false_or]
    · intro h0
      apply hAn
      intro a
      rw [SMap.getD_touch, getD_adjInsert]
      split
      · exact USet.nodup_insert _ _ (h0 f)
      · exact h0 a
    · intro h0
      apply hRn
      intro a
      rw [SMap.getD_touch, getD_adjInsert]
      split
      · exact USet.nodup_insert _ _ (h0 t)
      · exact h0 a
    · intro x
      rw [hAk, SMap.mem_keys_touch, mem_keys_adjInsert, hkeys]
      generalize (∃ k ∈ SMap.keys tl, x = k.1 ∨ x = k.2) = Q
      clear * -
      tauto
    · intro x
      rw [hRk, SMap.mem_keys_touch, mem_keys_adjInsert, hkeys]
      generalize (∃ k ∈ SMap.keys tl, x = k.1 ∨ x = k.2) = Q
      clear * -
      tauto

/-! ## Well-formed maps -/

theorem SMap.WF_nil {V : Type} : SMap.WF ([] : SMap Int V) := by
  simp [SMap.WF, SMap.keys]

theorem SMap.WF_set {V : Type} (m : SMap Int V) (k : Int) (v : V) (h : SMap.WF m) :
    SMap.WF (SMap.set m k v) := by
  induction m with
  | nil => simp [SMap.WF, SMap.set, SMap.keys]
  | cons hd tl ih =>
    obtain ⟨k1, v1⟩ := hd
    have h1 : SMap.WF tl := by
      unfold SMap.WF SMap.keys at h ⊢
      simp only [List.map_cons, List.sorted_cons] at h
      exact h.2
    have h2 : ∀ j ∈ SMap.keys tl, k1 < j := by
      unfold SMap.WF SMap.keys at h
      simp only [List.map_cons, List.sorted_cons] at h
      exact h.1
    by_cases hk : k1 = k
    · subst hk
      simpa [SMap.set, SMap.WF, SMap.keys] using h
    · by_cases hlt : k < k1
      · have : KeyOrd.klt k k1 = true := by simp [KeyOrd.klt, hlt]
        simp only [SMap.set, hk, if_false, this, if_true]
        unfold SMap.WF SMap.keys at h ⊢
        simp only [List.map_cons, List.sorted_cons] at h ⊢
        refine ⟨?_, h⟩
        intro j hj
        rcases List.mem_cons.1 hj with rfl | hj
        · exact hlt
        · exact lt_trans hlt (h.1 j hj)
      · have : KeyOrd.klt k k1 = false := by simp [KeyOrd.klt, hlt]
        simp only [SMap.set, hk, if_false, this, Bool.false_eq_true]
        have ih1 := ih h1
        unfold SMap.WF at ih1 ⊢
        have hkeys : SMap.keys ((k1, v1) :: SMap.set tl k v) = k1 :: SMap.keys (SMap.set tl k v) := rfl
        rw [hkeys, List.sorted_cons]
        refine ⟨?_, ih1⟩
        intro j hj
        rcases (SMap.mem_keys_set tl k j v).1 hj with rfl | hj
        · omega
        · exact h2 j hj

theorem SMap.WF_touch {V : Type} (m : SMap Int V) (k : Int) (d : V) (h : SMap.WF m) :
    SMap.WF (SMap.touch m k d) := by
  unfold SMap.touch
  split
  · exact h
  · exact SMap.WF_set m k d h

theorem SMap.WF_nodup {V : Type} (m : SMap Int V) (h : SMap.WF m) : (SMap.keys m).Nodup := by
  unfold SMap.WF at h
  exact h.nodup

/-- In a well-formed map every stored entry is the one `find` returns. -/
theorem SMap.find_of_mem {V : Type} (m : SMap Int V) (h : SMap.WF m) (k : Int) (v : V)
    (hm : (k, v) ∈ m) : SMap.find m k = some v := by
  induction m with
  | nil => simp at hm
  | cons hd tl ih =>
    obtain ⟨k1, v1⟩ := hd
    have h1 : SMap.WF tl := by
      unfold SMap.WF SMap.keys at h ⊢
      simp only [List.map_cons, List.sorted_cons] at h
      exact h.2
    have h2 : ∀ j ∈ SMap.keys tl, k1 < j := by
      unfold SMap.WF SMap.keys at h
      simp only [List.map_cons, List.sorted_cons] at h
      exact h.1
    rcases List.mem_cons.1 hm with heq | hm1
    · injection heq with ha hb
      subst ha hb
      simp [SMap.find]
    · have hk : k ∈ SMap.keys tl := List.mem_map.2 ⟨(k, v), hm1, rfl⟩
      have hne : k1 ≠ k := by
        have := h2 k hk
        omega
      simp only [SMap.find, hne, if_false]
      exact ih h1 hm1

theorem SMap.mem_of_find {K V : Type} [DecidableEq K] (m : SMap K V) (k : K) (v : V)
    (h : SMap.find m k = some v) : (k, v) ∈ m := by
  induction m with
  | nil => simp [SMap.find] at h
  | cons hd tl ih =>
    obtain ⟨k1, v1⟩ := hd
    by_cases hk : k1 = k
    · subst hk
      simp only [SMap.find, if_true, Option.some.injEq] at h
      subst h
      exact List.mem_cons_self _ _
    · simp only [SMap.find, hk, if_false] at h
      exact List.mem_cons_of_mem _ (ih h)

theorem WF_adjInsert (m : SMap Int (List Int)) (k x : Int) (h : SMap.WF m) :
    SMap.WF (adjInsert m k x) :=
  SMap.WF_set _ _ _ h

theorem WF_initAdjacency (total : Int) : SMap.WF (initAdjacency total) := by
  unfold initAdjacency
  have : ∀ (l : List Int) (m : SMap Int (List Int)), SMap.WF m →
      SMap.WF (l.foldl (fun m i => SMap.touch m i []) m) := by
    intro l
    induction l with
    | nil => intro m hm; exact hm
    | cons a tl ih =>
      intro m hm
      exact ih _ (SMap.WF_touch m a [] hm)
  exact this _ _ SMap.WF_nil

theorem readForward_WF (ni no : Int) (edges : List ((Int × Int) × ℚ))
    (adj0 rev0 adj rev : SMap Int (List Int)) (ha : SMap.WF adj0) (hr : SMap.WF rev0)
    (h : readForward ni no edges adj0 rev0 = .ok (adj, rev)) : SMap.WF adj ∧ SMap.WF rev := by
  induction edges generalizing adj0 rev0 with
  | nil =>
    simp only [readForward, Except.ok.injEq, Prod.mk.injEq] at h
    obtain ⟨rfl, rfl⟩ := h
    exact ⟨ha, hr⟩
  | cons hd tl ih =>
    obtain ⟨⟨f, t⟩, w⟩ := hd
    simp only [readForward] at h
    split at h
    · cases h
    · exact ih _ _ (SMap.WF_touch _ _ _ (WF_adjInsert _ _ _ ha))
        (SMap.WF_touch _ _ _ (WF_adjInsert _ _ _ hr)) h

/-! ## Acyclic edge lists are well founded -/

theorem mem_endpoints (E : List (Int × Int)) (x : Int) :
    x ∈ endpoints E ↔ ∃ k ∈ E, x = k.1 ∨ x = k.2 := by
  unfold endpoints
  simp only [List.mem_append, List.mem_map]
  constructor
  · rintro (⟨k, hk, rfl⟩ | ⟨k, hk, rfl⟩)
    · exact ⟨k, hk, Or.inl rfl⟩
    · exact ⟨k, hk, Or.inr rfl⟩
  · rintro ⟨k, hk, rfl | rfl⟩
    · exact Or.inl ⟨k, hk, rfl⟩
    · exact Or.inr ⟨k, hk, rfl⟩

theorem wellFounded_of_acyclic (E : List (Int × Int)) (h : Acyclic E) :
    WellFounded (EdgeRel E) := by
  let T := { x : Int // x ∈ endpoints E }
  let rT : T → T → Prop := fun a b => Relation.TransGen (EdgeRel E) a.1 b.1
  haveI : IsTrans T rT := ⟨fun a b c hab hbc => Relation.TransGen.trans hab hbc⟩
  haveI : IsIrrefl T rT := ⟨fun a ha => h a.1 ha⟩
  have hwf : WellFounded rT := Finite.wellFounded_of_trans_of_irrefl rT
  have hacc : ∀ t : T, Acc (EdgeRel E) t.1 := by
    intro t
    induction t using hwf.induction with
    | _ t ih =>
      constructor
      intro p hp
      have hpm : p ∈ endpoints E := (mem_endpoints E p).2 ⟨(p, t.1), hp, Or.inl rfl⟩
      exact ih ⟨p, hpm⟩ (Relation.TransGen.single hp)
  constructor
  intro x
  by_cases hx : x ∈ endpoints E
  · exact hacc ⟨x, hx⟩
  · constructor
    intro p hp
    exact absurd ((mem_endpoints E x).2 ⟨(p, x), hp, Or.inr rfl⟩) hx

/-! ## The inner loop of the topological sort -/

theorem relaxEdge_eq (ni no : Int) (only : Bool) (cur : Int)
    (st : SMap Int (List Int) × List Int) (e : Int) :
    relaxEdge ni no only cur st e =
      (SMap.set st.1 e (USet.erase (SMap.getD st.1 e []) cur),
        if relaxPush ni no only cur st.1 e = true then st.2 ++ [e] else st.2) := by
  unfold relaxEdge relaxPush
  simp only [SMap.getD_set_self]
  split <;> rfl

theorem relax_foldl (ni no : Int) (only : Bool) (cur : Int) (l : List Int) (hl : l.Nodup)
    (st : SMap Int (List Int) × List Int) :
    (l.foldl (relaxEdge ni no only cur) st).2 =
      st.2 ++ l.filter (relaxPush ni no only cur st.1) ∧
    ∀ x, SMap.getD (l.foldl (relaxEdge ni no only cur) st).1 x [] =
      if x ∈ l then USet.erase (SMap.getD st.1 x []) cur else SMap.getD st.1 x [] := by
  induction l generalizing st with
  | nil => simp
  | cons a tl ih =>
    have hnd : a ∉ tl ∧ tl.Nodup := List.nodup_cons.1 hl
    obtain ⟨ih1, ih2⟩ := ih hnd.2 (relaxEdge ni no only cur st a)
    have hget : ∀ x, x ≠ a → SMap.getD (relaxEdge ni no only cur st a).1 x [] =
        SMap.getD st.1 x [] := by
      intro x hx
      rw [relaxEdge_eq]
      exact SMap.getD_set_ne _ _ _ _ _ hx
    have hgeta : SMap.getD (relaxEdge ni no only cur st a).1 a [] =
        USet.erase (SMap.getD st.1 a []) cur := by
      rw [relaxEdge_eq]
      exact SMap.getD_set_self _ _ _ _
    have hfilt : tl.filter (relaxPush ni no only cur (relaxEdge ni no only cur st a).1) =
        tl.filter (relaxPush ni no only cur st.1) := by
      apply List.filter_congr
      intro x hx
      have hxa : x ≠ a := fun h => hnd.1 (h ▸ hx)
      unfold relaxPush
      rw [hget x hxa]
    constructor
    · simp only [List.foldl_cons]
      rw [ih1, hfilt, relaxEdge_eq]
      simp only [List.filter_cons]
      split <;> simp
    · intro x
      simp only [List.foldl_cons]
      rw [ih2]
      by_cases hxt : x ∈ tl
      · have hxa : x ≠ a := fun h => hnd.1 (h ▸ hxt)
        simp [hxt, hget x hxa]
      · by_cases hxa : x = a
        · subst hxa
          simp [hxt, hgeta]
        · simp [hxt, hxa, hget x hxa]

/-! ## One iteration of the topological sort keeps the invariant -/

theorem take_succ_getD (S : List Int) (i : Nat) (h : i < S.length) :
    S.take (i + 1) = S.take i ++ [S.getD i 0] := by
  rw [List.take_succ, List.getD_eq_getElem _ _ h, List.getElem?_eq_getElem h]
  rfl

theorem getD_not_mem_take (S : List Int) (hn : S.Nodup) (i : Nat) (h : i < S.length) :
    S.getD i 0 ∉ S.take i := by
  intro hm
  rw [List.getD_eq_getElem _ _ h] at hm
  obtain ⟨k, hk, hke⟩ := List.getElem_of_mem hm
  rw [List.length_take] at hk
  rw [List.getElem_take] at hke
  have := (List.Nodup.getElem_inj_iff hn).1 hke
  omega

theorem sortStep_sorted (it : List Int → List Int) (ni no : Int) (only : Bool)
    (st : SortState) (hit : ∀ l, (it l).Perm l)
    (hnd : (SMap.getD st.adj (st.sortedNodes.getD st.sortedNodesIndex 0) []).Nodup) :
    (sortStep it ni no only st).sortedNodes = st.sortedNodes ++
      (it (SMap.getD st.adj (st.sortedNodes.getD st.sortedNodesIndex 0) [])).filter
        (relaxPush ni no only (st.sortedNodes.getD st.sortedNodesIndex 0) st.rev) ∧
    ∀ x, SMap.getD (sortStep it ni no only st).rev x [] =
      (SMap.getD st.rev x []).filter
        (fun y => decide (y ≠ st.sortedNodes.getD st.sortedNodesIndex 0)) ∨
      (x ∉ SMap.getD st.adj (st.sortedNodes.getD st.sortedNodesIndex 0) [] ∧
        SMap.getD (sortStep it ni no only st).rev x [] = SMap.getD st.rev x []) := by
  unfold sortStep
  simp only [SMap.getD_touch]
  generalize st.sortedNodes.getD st.sortedNodesIndex 0 = cur at hnd ⊢
  have hl : (it (SMap.getD st.adj cur [])).Nodup := ((hit _).nodup_iff).2 hnd
  obtain ⟨h1, h2⟩ := relax_foldl ni no only cur _ hl (st.rev, st.sortedNodes)
  refine ⟨h1, ?_⟩
  intro x
  rw [h2 x]
  by_cases hx : x ∈ it (SMap.getD st.adj cur [])
  · left
    rw [if_pos hx]
    rfl
  · right
    refine ⟨fun hc => hx (((hit _).mem_iff).2 hc), ?_⟩
    rw [if_neg hx]

/-- The facts about one iteration that the invariant is rebuilt from: the new
`sortedNodes` is the old one followed by the pushed successors `X`, the new
`rev` drops `curNode` everywhere, and a node is pushed exactly when it is a
successor of `curNode` whose predecessors are all processed now (and, in the
first loop, it is not an output). -/
theorem sortStep_facts (it : List Int → List Int) (ni no : Int) (E : List (Int × Int))
    (adj rev0 : SMap Int (List Int)) (only : Bool) (st : SortState)
    (hit : ∀ l, (it l).Perm l) (G : GraphOK ni no E adj rev0)
    (I : SortInv ni no E adj rev0 only st)
    (hlt : st.sortedNodesIndex < st.sortedNodes.length) :
    ∃ X : List Int,
      (sortStep it ni no only st).sortedNodes = st.sortedNodes ++ X ∧
      X.Nodup ∧
      (sortStep it ni no only st).sortedNodesIndex = st.sortedNodesIndex + 1 ∧
      (sortStep it ni no only st).sortedNodes.take (st.sortedNodesIndex + 1) =
        st.sortedNodes.take st.sortedNodesIndex ++
          [st.sortedNodes.getD st.sortedNodesIndex 0] ∧
      (∀ x, SMap.getD (sortStep it ni no only st).rev x [] =
        (SMap.getD rev0 x []).filter (fun p => decide (p ∉
          st.sortedNodes.take st.sortedNodesIndex ++
            [st.sortedNodes.getD st.sortedNodesIndex 0]))) ∧
      (∀ x, SMap.getD (sortStep it ni no only st).adj x [] = SMap.getD adj x []) ∧
      (∀ e, e ∈ X ↔ (st.sortedNodes.getD st.sortedNodesIndex 0, e) ∈ E ∧
        (∀ p, (p, e) ∈ E → p ∈ st.sortedNodes.take st.sortedNodesIndex ++
          [st.sortedNodes.getD st.sortedNodesIndex 0]) ∧
        (only = true → IsOutputNode ni no e = false)) := by
  have hadjcur := I.adj_eq (st.sortedNodes.getD st.sortedNodesIndex 0)
  have hnd : (SMap.getD st.adj (st.sortedNodes.getD st.sortedNodesIndex 0) []).Nodup := by
    rw [hadjcur]
    exact G.adj_nodup _
  obtain ⟨hS, hR⟩ := sortStep_sorted it ni no only st hit hnd
  have hidx : (sortStep it ni no only st).sortedNodesIndex = st.sortedNodesIndex + 1 := rfl
  have hadj : ∀ x, SMap.getD (sortStep it ni no only st).adj x [] = SMap.getD adj x [] := by
    intro x
    have : (sortStep it ni no only st).adj =
        SMap.touch st.adj (st.sortedNodes.getD st.sortedNodesIndex 0) [] := rfl
    rw [this, SMap.getD_touch]
    exact I.adj_eq x
  generalize hcur : st.sortedNodes.getD st.sortedNodesIndex 0 = cur at *
  have htk : st.sortedNodes.take (st.sortedNodesIndex + 1) =
      st.sortedNodes.take st.sortedNodesIndex ++ [cur] := by
    rw [take_succ_getD _ _ hlt, hcur]
  have hu : ∀ x, SMap.getD (sortStep it ni no only st).rev x [] =
      (SMap.getD st.rev x []).filter (fun y => decide (y ≠ cur)) := by
    intro x
    rcases hR x with h | ⟨hx, h⟩
    · exact h
    · rw [h]
      symm
      rw [List.filter_eq_self]
      intro a ha
      have ha0 : a ∈ SMap.getD rev0 x [] := by
        rw [I.rev_eq x] at ha
        exact (List.mem_filter.1 ha).1
      have hne : a ≠ cur := by
        rintro rfl
        apply hx
        rw [hadjcur, G.succ_iff]
        exact (G.pred_iff a x).1 ha0
      simpa using hne
  have hrev : ∀ x, SMap.getD (sortStep it ni no only st).rev x [] =
      (SMap.getD rev0 x []).filter (fun p => decide (p ∉
        st.sortedNodes.take st.sortedNodesIndex ++ [cur])) := by
    intro x
    rw [hu, I.rev_eq x, List.filter_filter]
    apply List.filter_congr
    intro a _
    simp only [List.mem_append, List.mem_singleton, not_or, Bool.decide_and, decide_not,
      Bool.and_comm]
  refine ⟨_, hS, ((hit _).nodup_iff.2 hnd).filter _, hidx, ?_, hrev, hadj, ?_⟩
  · rw [hS, List.take_append_of_le_length (by omega), htk]
  · intro e
    rw [List.mem_filter, (hit _).mem_iff, hadjcur, G.succ_iff]
    apply and_congr_right
    intro he
    have h1 : USet.erase (SMap.getD st.rev e []) cur =
        (SMap.getD rev0 e []).filter (fun p => decide (p ∉
          st.sortedNodes.take st.sortedNodesIndex ++ [cur])) := by
      rw [← hrev e, hu e]
      rfl
    unfold relaxPush
    rw [h1]
    simp only [Bool.and_eq_true, decide_eq_true_eq, Bool.or_eq_true, Bool.not_eq_true',
      Nat.le_zero, List.length_eq_zero, List.filter_eq_nil_iff, decide_not,
      Bool.not_eq_true', decide_eq_false_iff_not, not_not]
    constructor
    · rintro ⟨ha, hb⟩
      refine ⟨fun p hp => ha p ((G.pred_iff p e).2 hp), ?_⟩
      intro ho
      rcases hb with hb | hb
      · rw [ho] at hb
        cases hb
      · exact hb
    · rintro ⟨ha, hb⟩
      refine ⟨fun p hp => ha p ((G.pred_iff p e).1 hp), ?_⟩
      cases only
      · exact Or.inl rfl
      · exact Or.inr (hb rfl)

theorem getD_mem_drop (S : List Int) (i : Nat) (h : i < S.length) :
    S.getD i 0 ∈ S.drop i := by
  rw [List.getD_eq_getElem _ _ h, List.drop_eq_getElem_cons h]
  exact List.mem_cons_self _ _

theorem getD_append_left (S X : List Int) (j : Nat) (h : j < S.length) :
    (S ++ X).getD j 0 = S.getD j 0 := by
  rw [List.getD_eq_getElem _ _ h, List.getD_eq_getElem _ _ (by rw [List.length_append]; omega),
    List.getElem_append_left h]

theorem getD_append_right_mem (S X : List Int) (j : Nat) (h1 : S.length ≤ j)
    (h2 : j < (S ++ X).length) : (S ++ X).getD j 0 ∈ X := by
  rw [List.getD_eq_getElem _ _ h2, List.getElem_append_right h1]
  exact List.getElem_mem _

theorem sortStep_inv (it : List Int → List Int) (ni no : Int) (E : List (Int × Int))
    (adj rev0 : SMap Int (List Int)) (only : Bool) (st : SortState)
    (hit : ∀ l, (it l).Perm l) (G : GraphOK ni no E adj rev0)
    (I : SortInv ni no E adj rev0 only st)
    (hlt : st.sortedNodesIndex < st.sortedNodes.length) :
    SortInv ni no E adj rev0 only (sortStep it ni no only st) := by
  obtain ⟨X, hS, hXnd, hidx, htk, hrev, hadj, hX⟩ :=
    sortStep_facts it ni no E adj rev0 only st hit G I hlt
  have hcurdrop := getD_mem_drop st.sortedNodes st.sortedNodesIndex hlt
  have hcurnot := getD_not_mem_take st.sortedNodes I.nodup st.sortedNodesIndex hlt
  generalize st.sortedNodes.getD st.sortedNodesIndex 0 = cur at *
  have hXout : ∀ x ∈ X, IsOutputNode ni no x = !only := by
    intro x hx
    cases ho : only
    · have h1 := I.pending cur hcurdrop
      rw [ho] at h1
      have := G.outClosed (cur, x) ((hX x).1 hx).1 (by simpa using h1)
      simpa using this
    · simpa using ((hX x).1 hx).2.2 ho
  have htake_sub : ∀ x, x ∈ st.sortedNodes.take st.sortedNodesIndex ++ [cur] →
      x ∈ st.sortedNodes := by
    intro x hx
    rcases List.mem_append.1 hx with h | h
    · exact List.mem_of_mem_take h
    · rw [List.mem_singleton] at h
      rw [h]
      exact List.mem_of_mem_drop hcurdrop
  constructor
  · rw [hS, List.nodup_append]
    refine ⟨I.nodup, hXnd, ?_⟩
    intro a haS haX
    have hE := ((hX a).1 haX).1
    have hns := G.noSensorTarget (cur, a) hE
    exact hcurnot (I.done a haS hns cur hE)
  · rw [hidx, hS, List.length_append]
    omega
  · intro x
    rw [hidx, htk]
    exact hrev x
  · exact hadj
  · intro x hx
    rw [hS] at hx
    rcases List.mem_append.1 hx with h | h
    · exact I.sub x h
    · have hE := ((hX x).1 h).1
      have : x ∈ SMap.keys rev0 :=
        (G.keys_rev x).2 (Or.inr ((mem_endpoints E x).2 ⟨(cur, x), hE, Or.inr rfl⟩))
      unfold candidates
      simp [this]
  · intro x hx
    rw [hidx, htk, hS]
    rcases I.sensors x hx with h | ⟨h, ho⟩
    · exact Or.inl (List.mem_append_left _ h)
    · exact Or.inr ⟨List.mem_append_left _ h, ho⟩
  · intro x hx hns p hp
    rw [hidx, htk]
    rw [hS] at hx
    rcases List.mem_append.1 hx with h | h
    · exact List.mem_append_left _ (I.done x h hns p hp)
    · exact ((hX x).1 h).2.1 p hp
  · intro j hj hns p hp
    rw [hS] at hj hns hp ⊢
    by_cases hjS : j < st.sortedNodes.length
    · rw [getD_append_left _ _ _ hjS] at hns hp
      rw [List.take_append_of_le_length (by omega)]
      exact I.topo j hjS hns p hp
    · have hm := getD_append_right_mem st.sortedNodes X j (by omega) hj
      have hp1 := htake_sub p (((hX _).1 hm).2.1 p hp)
      rw [List.take_append_eq_append_take]
      apply List.mem_append_left
      rw [List.take_of_length_le (by omega)]
      exact hp1
  · intro x hd hall
    rw [hidx, htk] at hall
    rw [hS]
    by_cases hold : ∀ p, (p, x) ∈ E → p ∈ st.sortedNodes.take st.sortedNodesIndex
    · exact List.mem_append_left _ (I.complete x hd hold)
    · push_neg at hold
      obtain ⟨p, hp, hpn⟩ := hold
      have hpc : p = cur := by
        rcases List.mem_append.1 (hall p hp) with h | h
        · exact absurd h hpn
        · exact List.mem_singleton.1 h
      subst hpc
      apply List.mem_append_right
      rw [hX]
      refine ⟨hp, hall, ?_⟩
      intro ho
      unfold sortDuty at hd
      rw [if_pos ho] at hd
      exact hd.2.1
  · intro x hx
    rw [hidx, hS, List.drop_append_of_le_length (by omega)] at hx
    rcases List.mem_append.1 hx with h | h
    · apply I.pending
      have : st.sortedNodes.drop (st.sortedNodesIndex + 1) =
          (st.sortedNodes.drop st.sortedNodesIndex).drop 1 := by
        rw [List.drop_drop]
      rw [this] at h
      exact List.mem_of_mem_drop h
    · exact hXout x h
  · intro ho x hx
    rw [hS] at hx
    rcases List.mem_append.1 hx with h | h
    · exact I.nonOut ho x h
    · have := hXout x h
      simpa [ho] using this
  · intro j hj hno y hy
    rw [hS] at hj hno hy
    by_cases hjS : j < st.sortedNodes.length
    · rw [getD_append_left _ _ _ hjS] at hno
      rw [List.take_append_of_le_length (by omega)] at hy
      exact I.outputsLast j hjS hno y hy
    · have hm := getD_append_right_mem st.sortedNodes X j (by omega) hj
      have h1 := hXout _ hm
      rw [hno] at h1
      have ho : only = true := by
        cases only
        · simp at h1
        · rfl
      rcases List.mem_append.1 (List.mem_of_mem_take hy) with h | h
      · exact I.nonOut ho y h
      · have := hXout y h
        simpa [ho] using this

/-! ## The first loop of the topological sort -/

theorem IsInputNode_iff (ni x : Int) : IsInputNode ni x = true ↔ 0 ≤ x ∧ x < ni := by
  unfold IsInputNode
  simp only [Bool.not_eq_true', Bool.or_eq_false_iff, decide_eq_false_iff_not, not_lt, ge_iff_le,
    not_le]

theorem IsOutputNode_iff (ni no x : Int) :
    IsOutputNode ni no x = true ↔ ni ≤ x ∧ x < ni + no := by
  unfold IsOutputNode
  simp only [Bool.not_eq_true', Bool.or_eq_false_iff, decide_eq_false_iff_not, not_lt, ge_iff_le,
    not_le]

theorem mem_initialSorted (ni no : Int) (rev : SMap Int (List Int)) (hw : SMap.WF rev) (x : Int) :
    x ∈ initialSorted ni no rev ↔ IsInputNode ni x = true ∨
      (IsInputNode ni x = false ∧ IsOutputNode ni no x = false ∧ x ∈ SMap.keys rev ∧
        SMap.getD rev x [] = []) := by
  unfold initialSorted
  rw [List.mem_append, mem_countUp, ← IsInputNode_iff]
  apply or_congr_right
  simp only [List.mem_map, List.mem_filter, Bool.and_eq_true, Bool.not_eq_true',
    decide_eq_true_eq, List.length_eq_zero]
  constructor
  · rintro ⟨⟨k, l⟩, ⟨hm, ⟨h1, h2⟩, h3⟩, rfl⟩
    simp only at h1 h2 h3 ⊢
    refine ⟨h1, h2, List.mem_map.2 ⟨(k, l), hm, rfl⟩, ?_⟩
    rw [SMap.getD_of_find _ _ _ _ (SMap.find_of_mem rev hw k l hm)]
    exact h3
  · rintro ⟨h1, h2, h3, h4⟩
    rw [← SMap.find_isSome_iff_mem_keys, Option.isSome_iff_exists] at h3
    obtain ⟨l, hl⟩ := h3
    refine ⟨(x, l), ⟨SMap.mem_of_find rev x l hl, ⟨h1, h2⟩, ?_⟩, rfl⟩
    rw [SMap.getD_of_find _ _ _ _ hl] at h4
    exact h4

theorem nodup_initialSorted (ni no : Int) (rev : SMap Int (List Int)) (hw : SMap.WF rev) :
    (initialSorted ni no rev).Nodup := by
  unfold initialSorted
  rw [List.nodup_append]
  refine ⟨nodup_countUp ni, ?_, ?_⟩
  · have hk := SMap.WF_nodup rev hw
    unfold SMap.keys at hk
    exact hk.sublist (List.Sublist.map _ (List.filter_sublist _))
  · intro a h1 h2
    rw [mem_countUp, ← IsInputNode_iff] at h1
    simp only [List.mem_map, List.mem_filter, Bool.and_eq_true, Bool.not_eq_true'] at h2
    obtain ⟨⟨k, l⟩, ⟨_, ⟨h3, _⟩, _⟩, rfl⟩ := h2
    simp only at h3
    rw [h1] at h3
    cases h3

theorem getD_mem (S : List Int) (j : Nat) (h : j < S.length) : S.getD j 0 ∈ S := by
  rw [List.getD_eq_getElem _ _ h]
  exact List.getElem_mem _

theorem IsOutputNode_of_input (ni no x : Int) (h : IsInputNode ni x = true) :
    IsOutputNode ni no x = false := by
  rw [IsInputNode_iff] at h
  exact IsOutputNode_false_of_lt ni no x h.2

theorem sortInv_initial (ni no : Int) (E : List (Int × Int)) (adj rev0 : SMap Int (List Int))
    (G : GraphOK ni no E adj rev0) :
    SortInv ni no E adj rev0 true
      { sortedNodes := initialSorted ni no rev0, sortedNodesIndex := 0, adj := adj,
        rev := rev0 } := by
  have hmem := mem_initialSorted ni no rev0 G.wf_rev
  have hnopred : ∀ x, x ∈ initialSorted ni no rev0 → IsInputNode ni x = false →
      ∀ p, (p, x) ∈ E → False := by
    intro x hx hns p hp
    rcases (hmem x).1 hx with h | ⟨_, _, _, h⟩
    · rw [h] at hns
      cases hns
    · have := (G.pred_iff p x).2 hp
      rw [h] at this
      cases this
  have hno : ∀ x ∈ initialSorted ni no rev0, IsOutputNode ni no x = false := by
    intro x hx
    rcases (hmem x).1 hx with h | ⟨_, h, _⟩
    · exact IsOutputNode_of_input ni no x h
    · exact h
  constructor
  · exact nodup_initialSorted ni no rev0 G.wf_rev
  · exact Nat.zero_le _
  · intro x
    simp
  · intro x
    rfl
  · intro x hx
    unfold candidates
    rcases (hmem x).1 hx with h | ⟨_, _, h, _⟩
    · rw [IsInputNode_iff, ← mem_countUp] at h
      simp [h]
    · simp [h]
  · intro x hx
    exact Or.inr ⟨(hmem x).2 (Or.inl hx), rfl⟩
  · intro x hx hns p hp
    exact (hnopred x hx hns p hp).elim
  · intro j hj hns p hp
    exact (hnopred _ (getD_mem _ j hj) hns p hp).elim
  · intro x hd hall
    unfold sortDuty at hd
    rw [if_pos rfl] at hd
    apply (hmem x).2
    refine Or.inr ⟨hd.1, hd.2.1, hd.2.2, ?_⟩
    rw [List.eq_nil_iff_forall_not_mem]
    intro p hp
    have := hall p ((G.pred_iff p x).1 hp)
    simp at this
  · intro x hx
    simpa using hno x hx
  · intro _ x hx
    exact hno x hx
  · intro j hj _ y hy
    exact hno y (List.mem_of_mem_take hy)

theorem sortInv_length_le (ni no : Int) (E : List (Int × Int)) (adj rev0 : SMap Int (List Int))
    (only : Bool) (st : SortState) (I : SortInv ni no E adj rev0 only st) :
    st.sortedNodes.length ≤ (candidates ni no rev0).length :=
  (List.subperm_of_subset I.nodup I.sub).length_le

theorem sortLoop1_succ (it : List Int → List Int) (ni no : Int) (fuel : Nat) (st : SortState) :
    sortLoop1 it ni no (fuel + 1) st =
      if st.sortedNodesIndex < st.sortedNodes.length then
        sortLoop1 it ni no fuel (sortStep it ni no true st)
      else some st := rfl

/-- With enough fuel the first loop returns, with the invariant and every
entry of `sortedNodes` processed; it only appended to `sortedNodes`. -/
theorem sortLoop1_run (it : List Int → List Int) (ni no : Int) (E : List (Int × Int))
    (adj rev0 : SMap Int (List Int)) (hit : ∀ l, (it l).Perm l) (G : GraphOK ni no E adj rev0)
    (fuel : Nat) (st : SortState) (I : SortInv ni no E adj rev0 true st)
    (hf : (candidates ni no rev0).length + 1 - st.sortedNodesIndex ≤ fuel) :
    ∃ st1, sortLoop1 it ni no fuel st = some st1 ∧ SortInv ni no E adj rev0 true st1 ∧
      st1.sortedNodesIndex = st1.sortedNodes.length := by
  induction fuel generalizing st with
  | zero =>
    have h1 := sortInv_length_le ni no E adj rev0 true st I
    have h2 := I.idx_le
    omega
  | succ k ih =>
    rw [sortLoop1_succ]
    by_cases hlt : st.sortedNodesIndex < st.sortedNodes.length
    · rw [if_pos hlt]
      apply ih _ (sortStep_inv it ni no E adj rev0 true st hit G I hlt)
      have : (sortStep it ni no true st).sortedNodesIndex = st.sortedNodesIndex + 1 := rfl
      rw [this]
      omega
    · rw [if_neg hlt]
      exact ⟨st, rfl, I, by have := I.idx_le; omega⟩

/-- After the first loop every key that is neither a sensor nor an output is
in `sortedNodes`. -/
theorem sortLoop1_complete (ni no : Int) (E : List (Int × Int)) (adj rev0 : SMap Int (List Int))
    (G : GraphOK ni no E adj rev0) (st : SortState) (I : SortInv ni no E adj rev0 true st)
    (hend : st.sortedNodesIndex = st.sortedNodes.length) (x : Int)
    (h1 : IsInputNode ni x = false) (h2 : IsOutputNode ni no x = false)
    (h3 : x ∈ SMap.keys rev0) : x ∈ st.sortedNodes := by
  have htake : st.sortedNodes.take st.sortedNodesIndex = st.sortedNodes := by
    rw [hend, List.take_length]
  induction x using (wellFounded_of_acyclic E G.acyclic).induction with
  | _ x ih =>
    apply I.complete x
    · unfold sortDuty
      rw [if_pos rfl]
      exact ⟨h1, h2, h3⟩
    · intro p hp
      rw [htake]
      cases hpi : IsInputNode ni p
      · apply ih p hp hpi
        · cases hpo : IsOutputNode ni no p
          · rfl
          · have := G.outClosed (p, x) hp hpo
            simp only at this
            rw [h2] at this
            cases this
        · exact (G.keys_rev p).2 (Or.inr ((mem_endpoints E p).2 ⟨(p, x), hp, Or.inl rfl⟩))
      · rcases I.sensors p hpi with h | ⟨h, _⟩
        · exact List.mem_of_mem_take h
        · exact h

/-! ## The second loop of the topological sort -/

theorem pushOutputSources_eq (ni no : Int) (rev : SMap Int (List Int)) (S : List Int) :
    pushOutputSources ni no rev S = S ++ outputSources ni no rev := by
  unfold pushOutputSources outputSources
  generalize countUp no = l
  induction l generalizing S with
  | nil => simp
  | cons a tl ih =>
    simp only [List.foldl_cons, List.map_cons, List.filter_cons]
    rw [ih]
    by_cases h : (SMap.getD rev (ni + a) []).length ≤ 0
    · simp [h]
    · simp [h]

theorem mem_outputs (ni no x : Int) :
    x ∈ (countUp no).map (fun i => ni + i) ↔ IsOutputNode ni no x = true := by
  rw [IsOutputNode_iff]
  simp only [List.mem_map, mem_countUp]
  constructor
  · rintro ⟨i, hi, rfl⟩
    omega
  · intro h
    exact ⟨x - ni, by omega, by omega⟩

theorem nodup_outputs (ni no : Int) : ((countUp no).map (fun i => ni + i)).Nodup := by
  apply List.Nodup.map
  · intro a b h
    simpa using h
  · exact nodup_countUp no

theorem sortInv_second (ni no : Int) (E : List (Int × Int)) (adj rev0 : SMap Int (List Int))
    (G : GraphOK ni no E adj rev0)
    (st : SortState) (I : SortInv ni no E adj rev0 true st)
    (hend : st.sortedNodesIndex = st.sortedNodes.length) :
    SortInv ni no E adj rev0 false
      { st with sortedNodes := pushOutputSources ni no st.rev st.sortedNodes } := by
  have htake : st.sortedNodes.take st.sortedNodesIndex = st.sortedNodes := by
    rw [hend, List.take_length]
  rw [pushOutputSources_eq]
  have hX : ∀ x, x ∈ outputSources ni no st.rev ↔ IsOutputNode ni no x = true ∧
      ∀ p, (p, x) ∈ E → p ∈ st.sortedNodes := by
    intro x
    unfold outputSources
    rw [List.mem_filter, mem_outputs]
    apply and_congr_right
    intro _
    rw [I.rev_eq x, htake]
    simp only [decide_eq_true_eq, Nat.le_zero, List.length_eq_zero, List.filter_eq_nil_iff,
      decide_not, Bool.not_eq_true', decide_eq_false_iff_not, not_not]
    constructor
    · intro h p hp
      exact h p ((G.pred_iff p x).2 hp)
    · intro h p hp
      exact h p ((G.pred_iff p x).1 hp)
  have htake2 : (st.sortedNodes ++ outputSources ni no st.rev).take st.sortedNodesIndex =
      st.sortedNodes := by
    rw [hend, List.take_left']
    rfl
  have hdrop2 : (st.sortedNodes ++ outputSources ni no st.rev).drop st.sortedNodesIndex =
      outputSources ni no st.rev := by
    rw [hend, List.drop_left']
    rfl
  constructor
  · show (st.sortedNodes ++ outputSources ni no st.rev).Nodup
    rw [List.nodup_append]
    refine ⟨I.nodup, (nodup_outputs ni no).filter _, ?_⟩
    intro a h1 h2
    have := I.nonOut rfl a h1
    rw [((hX a).1 h2).1] at this
    cases this
  · show st.sortedNodesIndex ≤ (st.sortedNodes ++ outputSources ni no st.rev).length
    rw [List.length_append]
    omega
  · intro x
    show SMap.getD st.rev x [] = _
    rw [I.rev_eq x]
    show _ = List.filter (fun p => decide (p ∉
      (st.sortedNodes ++ outputSources ni no st.rev).take st.sortedNodesIndex)) _
    rw [htake2, htake]
  · exact I.adj_eq
  · intro x hx
    rcases List.mem_append.1 hx with h | h
    · exact I.sub x h
    · unfold candidates
      apply List.mem_append_right
      rw [mem_outputs]
      exact ((hX x).1 h).1
  · intro x hx
    left
    show x ∈ (st.sortedNodes ++ outputSources ni no st.rev).take st.sortedNodesIndex
    rw [htake2]
    rcases I.sensors x hx with h | ⟨h, _⟩
    · exact List.mem_of_mem_take h
    · exact h
  · intro x hx hns p hp
    show p ∈ (st.sortedNodes ++ outputSources ni no st.rev).take st.sortedNodesIndex
    rw [htake2]
    rcases List.mem_append.1 hx with h | h
    · have := I.done x h hns p hp
      exact List.mem_of_mem_take this
    · exact ((hX x).1 h).2 p hp
  · intro j hj hns p hp
    change j < (st.sortedNodes ++ outputSources ni no st.rev).length at hj
    change IsInputNode ni ((st.sortedNodes ++ outputSources ni no st.rev).getD j 0) = false
      at hns
    change (p, (st.sortedNodes ++ outputSources ni no st.rev).getD j 0) ∈ E at hp
    show p ∈ (st.sortedNodes ++ outputSources ni no st.rev).take j
    by_cases hjS : j < st.sortedNodes.length
    · rw [getD_append_left _ _ _ hjS] at hns hp
      rw [List.take_append_of_le_length (by omega)]
      exact I.topo j hjS hns p hp
    · have hm := getD_append_right_mem st.sortedNodes _ j (by omega) hj
      have hp1 := ((hX _).1 hm).2 p hp
      rw [List.take_append_eq_append_take]
      apply List.mem_append_left
      rw [List.take_of_length_le (by omega)]
      exact hp1
  · intro x hd hall
    change ∀ p, (p, x) ∈ E →
      p ∈ (st.sortedNodes ++ outputSources ni no st.rev).take st.sortedNodesIndex at hall
    rw [htake2] at hall
    apply List.mem_append_right
    rw [hX]
    unfold sortDuty at hd
    simp only [Bool.false_eq_true, if_false] at hd
    exact ⟨hd, hall⟩
  · intro x hx
    change x ∈ (st.sortedNodes ++ outputSources ni no st.rev).drop st.sortedNodesIndex at hx
    rw [hdrop2] at hx
    simpa using ((hX x).1 hx).1
  · intro h
    cases h
  · intro j hj hno y hy
    change j < (st.sortedNodes ++ outputSources ni no st.rev).length at hj
    change IsOutputNode ni no ((st.sortedNodes ++ outputSources ni no st.rev).getD j 0) = false
      at hno
    change y ∈ (st.sortedNodes ++ outputSources ni no st.rev).take j at hy
    by_cases hjS : j < st.sortedNodes.length
    · rw [List.take_append_of_le_length (by omega)] at hy
      exact I.nonOut rfl y (List.mem_of_mem_take hy)
    · have hm := getD_append_right_mem st.sortedNodes _ j (by omega) hj
      rw [((hX _).1 hm).1] at hno
      cases hno

theorem sortLoop2_succ (it : List Int → List Int) (ni no : Int) (fuel : Nat) (st : SortState) :
    sortLoop2 it ni no (fuel + 1) st =
      if st.sortedNodesIndex < st.sortedNodes.length then
        if (!IsOutputNode ni no (st.sortedNodes.getD st.sortedNodesIndex 0)) = true then
          some (.error st.adj)
        else sortLoop2 it ni no fuel (sortStep it ni no false st)
      else some (.ok st) := rfl

/-- With enough fuel the second loop returns without the early `return`, with
the invariant and every entry of `sortedNodes` processed; it only appended to
`sortedNodes`. -/
theorem sortLoop2_run (it : List Int → List Int) (ni no : Int) (E : List (Int × Int))
    (adj rev0 : SMap Int (List Int)) (hit : ∀ l, (it l).Perm l) (G : GraphOK ni no E adj rev0)
    (fuel : Nat) (st : SortState) (I : SortInv ni no E adj rev0 false st)
    (hf : (candidates ni no rev0).length + 1 - st.sortedNodesIndex ≤ fuel) :
    ∃ st2, sortLoop2 it ni no fuel st = some (.ok st2) ∧ SortInv ni no E adj rev0 false st2 ∧
      st2.sortedNodesIndex = st2.sortedNodes.length ∧
      ∀ x ∈ st.sortedNodes, x ∈ st2.sortedNodes := by
  induction fuel generalizing st with
  | zero =>
    have h1 := sortInv_length_le ni no E adj rev0 false st I
    have h2 := I.idx_le
    omega
  | succ k ih =>
    rw [sortLoop2_succ]
    by_cases hlt : st.sortedNodesIndex < st.sortedNodes.length
    · rw [if_pos hlt]
      have hout := I.pending _ (getD_mem_drop st.sortedNodes st.sortedNodesIndex hlt)
      simp only [Bool.not_false] at hout
      rw [hout]
      simp only [Bool.not_true, Bool.false_eq_true, if_false]
      obtain ⟨st2, h1, h2, h3, h4⟩ :=
        ih _ (sortStep_inv it ni no E adj rev0 false st hit G I hlt) (by
          have : (sortStep it ni no false st).sortedNodesIndex = st.sortedNodesIndex + 1 := rfl
          rw [this]
          omega)
      refine ⟨st2, h1, h2, h3, ?_⟩
      intro x hx
      apply h4
      obtain ⟨X, hS, _⟩ := sortStep_facts it ni no E adj rev0 false st hit G I hlt
      rw [hS]
      exact List.mem_append_left _ hx
    · rw [if_neg hlt]
      exact ⟨st, rfl, I, by have := I.idx_le; omega, fun x hx => hx⟩

/-- After the second loop every output is in `sortedNodes`. -/
theorem sortLoop2_complete (ni no : Int) (E : List (Int × Int)) (adj rev0 : SMap Int (List Int))
    (G : GraphOK ni no E adj rev0) (st : SortState) (I : SortInv ni no E adj rev0 false st)
    (hend : st.sortedNodesIndex = st.sortedNodes.length)
    (hhid : ∀ x, IsInputNode ni x = false → IsOutputNode ni no x = false →
      x ∈ SMap.keys rev0 → x ∈ st.sortedNodes)
    (x : Int) (h1 : IsOutputNode ni no x = true) : x ∈ st.sortedNodes := by
  have htake : st.sortedNodes.take st.sortedNodesIndex = st.sortedNodes := by
    rw [hend, List.take_length]
  induction x using (wellFounded_of_acyclic E G.acyclic).induction with
  | _ x ih =>
    apply I.complete x
    · unfold sortDuty
      simp only [Bool.false_eq_true, if_false]
      exact h1
    · intro p hp
      rw [htake]
      cases hpi : IsInputNode ni p
      · cases hpo : IsOutputNode ni no p
        · exact hhid p hpi hpo
            ((G.keys_rev p).2 (Or.inr ((mem_endpoints E p).2 ⟨(p, x), hp, Or.inl rfl⟩)))
        · exact ih p hp hpo
      · rcases I.sensors p hpi with h | ⟨_, h⟩
        · exact List.mem_of_mem_take h
        · cases h

theorem sortDone_of_inv (ni no : Int) (E : List (Int × Int)) (adj rev0 : SMap Int (List Int))
    (G : GraphOK ni no E adj rev0) (st : SortState) (I : SortInv ni no E adj rev0 false st)
    (hend : st.sortedNodesIndex = st.sortedNodes.length)
    (hhid : ∀ x, IsInputNode ni x = false → IsOutputNode ni no x = false →
      x ∈ SMap.keys rev0 → x ∈ st.sortedNodes) :
    SortDone ni no E rev0 st.sortedNodes := by
  refine ⟨I.nodup, ?_, I.topo, I.outputsLast⟩
  intro x
  constructor
  · intro hx
    have := I.sub x hx
    unfold candidates at this
    rw [List.mem_append, List.mem_append, mem_countUp, ← IsInputNode_iff, mem_outputs] at this
    tauto
  · intro hx
    cases hpi : IsInputNode ni x
    · cases hpo : IsOutputNode ni no x
      · rcases hx with h | h | h
        · rw [h] at hpi
          cases hpi
        · rw [h] at hpo
          cases hpo
        · exact hhid x hpi hpo h
      · exact sortLoop2_complete ni no E adj rev0 G st I hend hhid x hpo
    · rcases I.sensors x hpi with h | ⟨_, h⟩
      · exact List.mem_of_mem_take h
      · cases h

/-! ## The topological sort of the constructor -/

theorem graphOK_of_read (ni no : Int) (fe : SMap (Int × Int) ℚ)
    (h : ForwardOK ni no (SMap.keys fe)) :
    ∃ adj rev, readForward ni no fe (initAdjacency (ni + no)) (initAdjacency (ni + no)) =
        .ok (adj, rev) ∧ GraphOK ni no (SMap.keys fe) adj rev := by
  obtain ⟨adj, rev, hrf, hA, hR, hAn, hRn, hAk, hRk⟩ :=
    readForward_ok ni no fe (initAdjacency (ni + no)) (initAdjacency (ni + no)) (by
      intro k hk hc
      have := h.outClosed k hk hc.1
      rw [hc.2] at this
      cases this)
  have hwf := readForward_WF ni no fe _ _ adj rev (WF_initAdjacency _) (WF_initAdjacency _) hrf
  refine ⟨adj, rev, hrf, ?_⟩
  constructor
  · intro a b
    rw [hA, initAdjacency_getD]
    simp
  · intro a b
    rw [hR, initAdjacency_getD]
    simp
  · apply hAn
    intro a
    rw [initAdjacency_getD]
    exact List.nodup_nil
  · apply hRn
    intro a
    rw [initAdjacency_getD]
    exact List.nodup_nil
  · intro x
    rw [hAk, initAdjacency_keys, mem_endpoints]
  · intro x
    rw [hRk, initAdjacency_keys, mem_endpoints]
  · exact hwf.1
  · exact hwf.2
  · exact h.noSensorTarget
  · exact h.outClosed
  · exact h.acyclic

theorem candidates_length_le (ni no : Int) (E : List (Int × Int))
    (adj rev : SMap Int (List Int)) (G : GraphOK ni no E adj rev) :
    (candidates ni no rev).length + 1 ≤ sortFuel ni no E.length := by
  have hk : (SMap.keys rev).length ≤ (countUp (ni + no) ++ endpoints E).length := by
    apply (List.subperm_of_subset (SMap.WF_nodup rev G.wf_rev) _).length_le
    intro x hx
    rw [List.mem_append, mem_countUp]
    exact (G.keys_rev x).1 hx
  unfold candidates sortFuel
  simp only [List.length_append, List.length_map, countUp, List.length_range, endpoints] at hk ⊢
  omega

/-- Under `ForwardOK` and with enough fuel, the reading of the edges and the
two loops of the topological sort return, and the final `sortedNodes`
satisfies `SortDone`. -/
theorem sortStep_keys (it : List Int → List Int) (ni no : Int) (only : Bool) (st : SortState)
    (x : Int) (hx : x ∈ SMap.keys st.adj) : x ∈ SMap.keys (sortStep it ni no only st).adj := by
  unfold sortStep
  simp only
  rw [SMap.mem_keys_touch]
  exact Or.inr hx

theorem sortLoop1_keys (it : List Int → List Int) (ni no : Int) (fuel : Nat) :
    ∀ st st1, sortLoop1 it ni no fuel st = some st1 →
      ∀ x ∈ SMap.keys st.adj, x ∈ SMap.keys st1.adj := by
  induction fuel with
  | zero =>
    intro st st1 h
    simp [sortLoop1] at h
  | succ fuel ih =>
    intro st st1 h x hx
    rw [sortLoop1_succ] at h
    split at h
    · exact ih _ _ h x (sortStep_keys it ni no true st x hx)
    · injection h with h
      rw [← h]
      exact hx

theorem sortLoop2_keys (it : List Int → List Int) (ni no : Int) (fuel : Nat) :
    ∀ st st2, sortLoop2 it ni no fuel st = some (.ok st2) →
      ∀ x ∈ SMap.keys st.adj, x ∈ SMap.keys st2.adj := by
  induction fuel with
  | zero =>
    intro st st2 h
    simp [sortLoop2] at h
  | succ fuel ih =>
    intro st st2 h x hx
    rw [sortLoop2_succ] at h
    split at h
    · split at h
      · injection h with h
        injection h
      · exact ih _ _ h x (sortStep_keys it ni no false st x hx)
    · injection h with h
      injection h with h
      rw [← h]
      exact hx

theorem sortPhase (it : List Int → List Int) (ni no : Int) (fe : SMap (Int × Int) ℚ)
    (hit : ∀ l, (it l).Perm l) (h : ForwardOK ni no (SMap.keys fe)) (fuel : Nat)
    (hf : sortFuel ni no fe.length ≤ fuel) :
    ∃ adj rev st1 st2,
      readForward ni no fe (initAdjacency (ni + no)) (initAdjacency (ni + no)) =
        .ok (adj, rev) ∧
      GraphOK ni no (SMap.keys fe) adj rev ∧
      sortLoop1 it ni no fuel
        { sortedNodes := initialSorted ni no rev, sortedNodesIndex := 0, adj := adj,
          rev := rev } = some st1 ∧
      sortLoop2 it ni no fuel
        { st1 with sortedNodes := pushOutputSources ni no st1.rev st1.sortedNodes } =
        some (.ok st2) ∧
      SortDone ni no (SMap.keys fe) rev st2.sortedNodes ∧
      (∀ x, SMap.getD st2.adj x [] = SMap.getD adj x []) ∧
      (∀ x ∈ SMap.keys adj, x ∈ SMap.keys st2.adj) := by
  obtain ⟨adj, rev, hrf, G⟩ := graphOK_of_read ni no fe h
  have hc := candidates_length_le ni no _ adj rev G
  have hlen : (SMap.keys fe).length = fe.length := by simp [SMap.keys]
  rw [hlen] at hc
  obtain ⟨st1, hl1, I1, hend1⟩ := sortLoop1_run it ni no _ adj rev hit G fuel _
    (sortInv_initial ni no _ adj rev G) (by simp only; omega)
  have I2 := sortInv_second ni no _ adj rev G st1 I1 hend1
  obtain ⟨st2, hl2, I3, hend2, hsub⟩ := sortLoop2_run it ni no _ adj rev hit G fuel _ I2
    (by simp only; omega)
  refine ⟨adj, rev, st1, st2, hrf, G, hl1, hl2, ?_, I3.adj_eq, ?_⟩
  rotate_left
  · intro x hx
    exact sortLoop2_keys it ni no fuel _ st2 hl2 x
      (sortLoop1_keys it ni no fuel _ st1 hl1 x hx)
  apply sortDone_of_inv ni no _ adj rev G st2 I3 hend2
  intro x h1 h2 h3
  apply hsub
  rw [pushOutputSources_eq]
  exact List.mem_append_left _ (sortLoop1_complete ni no _ adj rev G st1 I1 hend1 x h1 h2 h3)

/-! ## The depth loop -/

theorem depthEdge_eq (st : SMap Int Int × Int) (e : Int) :
    depthEdge st e = (SMap.touch st.1 e 0,
      if SMap.getD st.1 e 0 + 1 > st.2 then SMap.getD st.1 e 0 + 1 else st.2) := by
  unfold depthEdge
  simp only [SMap.getD_touch]
  split <;> rfl

theorem depth_foldl (l : List Int) (st : SMap Int Int × Int) :
    (∀ y, SMap.getD (l.foldl depthEdge st).1 y 0 = SMap.getD st.1 y 0) ∧
    (∀ y, y ∈ SMap.keys (l.foldl depthEdge st).1 ↔ y ∈ l ∨ y ∈ SMap.keys st.1) ∧
    (SMap.WF st.1 → SMap.WF (l.foldl depthEdge st).1) ∧
    st.2 ≤ (l.foldl depthEdge st).2 ∧
    (∀ e ∈ l, SMap.getD st.1 e 0 + 1 ≤ (l.foldl depthEdge st).2) := by
  induction l generalizing st with
  | nil => simp
  | cons a tl ih =>
    obtain ⟨h1, h2, h3, h4, h5⟩ := ih (depthEdge st a)
    have hg : ∀ y, SMap.getD (depthEdge st a).1 y 0 = SMap.getD st.1 y 0 := by
      intro y
      rw [depthEdge_eq]
      exact SMap.getD_touch _ _ _ _
    have hs : st.2 ≤ (depthEdge st a).2 ∧ SMap.getD st.1 a 0 + 1 ≤ (depthEdge st a).2 := by
      rw [depthEdge_eq]
      simp only
      split <;> omega
    simp only [List.foldl_cons]
    refine ⟨?_, ?_, ?_, ?_, ?_⟩
    · intro y
      rw [h1, hg]
    · intro y
      rw [h2, depthEdge_eq, SMap.mem_keys_touch, List.mem_cons]
      tauto
    · intro hw
      apply h3
      rw [depthEdge_eq]
      exact SMap.WF_touch _ _ _ hw
    · omega
    · intro e he
      rcases List.mem_cons.1 he with rfl | he
      · omega
      · have := h5 e he
        rw [hg] at this
        exact this

theorem foldl_take_succ {β : Type} (f : β → Int → β) (a : β) (S : List Int) (k : Nat)
    (h : k < S.length) :
    (S.take (k + 1)).foldl f a = f ((S.take k).foldl f a) (S.getD k 0) := by
  rw [take_succ_getD S k h, List.foldl_append]
  rfl

theorem sortDone_preds_before (ni no : Int) (E : List (Int × Int)) (rev0 : SMap Int (List Int))
    (S : List Int) (hS : SortDone ni no E rev0 S) (k : Nat) (y : Int) (hy : y ∈ S.take k)
    (hns : IsInputNode ni y = false) (p : Int) (hp : (p, y) ∈ E) : p ∈ S.take k := by
  obtain ⟨j, hj, hje⟩ := List.getElem_of_mem hy
  rw [List.length_take] at hj
  rw [List.getElem_take] at hje
  have hjl : j < S.length := by omega
  have hget : S.getD j 0 = y := by
    rw [List.getD_eq_getElem _ _ hjl]
    exact hje
  have := hS.topo j hjl (by rw [hget]; exact hns) p (by rw [hget]; exact hp)
  have hsub : List.Sublist (S.take j) (S.take k) := by
    have : S.take j = (S.take k).take j := by
      rw [List.take_take]
      congr 1
      omega
    rw [this]
    exact List.take_sublist _ _
  exact hsub.subset this

theorem depthNode_sensor (it : List Int → List Int) (ni no : Int)
    (rev0 : SMap Int (List Int)) (st : SMap Int Int × Int) (x : Int)
    (h : IsInputNode ni x = true) :
    depthNode it ni no rev0 st x = (SMap.set st.1 x 0, st.2) := by
  unfold depthNode
  rw [if_pos h]

theorem depthNode_other (it : List Int → List Int) (ni no : Int)
    (rev0 : SMap Int (List Int)) (st : SMap Int Int × Int) (x : Int)
    (h : IsInputNode ni x = false) :
    depthNode it ni no rev0 st x =
      (SMap.set ((it (SMap.getD rev0 x [])).foldl depthEdge
          (st.1, if IsOutputNode ni no x = true then st.2 + 1 else 1)).1 x
        ((it (SMap.getD rev0 x [])).foldl depthEdge
          (st.1, if IsOutputNode ni no x = true then st.2 + 1 else 1)).2,
       if IsOutputNode ni no x = false ∧
          ((it (SMap.getD rev0 x [])).foldl depthEdge
            (st.1, if IsOutputNode ni no x = true then st.2 + 1 else 1)).2 > st.2 then
         ((it (SMap.getD rev0 x [])).foldl depthEdge
            (st.1, if IsOutputNode ni no x = true then st.2 + 1 else 1)).2
       else st.2) := by
  unfold depthNode
  rw [h]
  simp only [Bool.false_eq_true, if_false, Bool.and_eq_true, Bool.not_eq_true',
    decide_eq_true_eq]
  split_ifs <;> rfl

theorem depthNode_inv (it : List Int → List Int) (ni no : Int) (E : List (Int × Int))
    (adj rev0 : SMap Int (List Int)) (S : List Int) (hit : ∀ l, (it l).Perm l)
    (G : GraphOK ni no E adj rev0) (hS : SortDone ni no E rev0 S) (k : Nat)
    (hk : k < S.length) (st : SMap Int Int × Int) (I : DepthInv ni no E S k st) :
    DepthInv ni no E S (k + 1) (depthNode it ni no rev0 st (S.getD k 0)) := by
  have hxnot := getD_not_mem_take S hS.nodup k hk
  have hxin := getD_mem S k hk
  have htk := take_succ_getD S k hk
  have houtlast := hS.outputsLast k hk
  have hpredx : ∀ p, IsInputNode ni (S.getD k 0) = false → (p, S.getD k 0) ∈ E →
      p ∈ S.take k := fun p h1 h2 => hS.topo k hk h1 p h2
  generalize S.getD k 0 = x at *
  have hmem : ∀ y, y ∈ S.take (k + 1) ↔ y ∈ S.take k ∨ y = x := by
    intro y
    rw [htk, List.mem_append, List.mem_singleton]
  have hne : ∀ y ∈ S.take k, y ≠ x := fun y hy h => hxnot (h ▸ hy)
  have hpb := sortDone_preds_before ni no E rev0 S hS k
  cases hxi : IsInputNode ni x
  · -- a node that is not a sensor
    rw [depthNode_other it ni no rev0 st x hxi]
    obtain ⟨f1, f2, f3, f4, f5⟩ := depth_foldl (it (SMap.getD rev0 x []))
      (st.1, if IsOutputNode ni no x = true then st.2 + 1 else 1)
    generalize (it (SMap.getD rev0 x [])).foldl depthEdge
      (st.1, if IsOutputNode ni no x = true then st.2 + 1 else 1) = r at *
    simp only at f1 f2 f3 f4 f5
    have hl : ∀ p, p ∈ it (SMap.getD rev0 x []) ↔ (p, x) ∈ E := by
      intro p
      rw [(hit _).mem_iff, G.pred_iff]
    have hstart : 1 ≤ r.2 := by
      have := I.odNonneg
      split at f4 <;> omega
    have hgx : SMap.getD (SMap.set r.1 x r.2) x 0 = r.2 := SMap.getD_set_self _ _ _ _
    have hgy : ∀ y, y ≠ x → SMap.getD (SMap.set r.1 x r.2) y 0 = SMap.getD st.1 y 0 := by
      intro y hy
      rw [SMap.getD_set_ne _ _ _ _ _ hy, f1]
    constructor
    · exact SMap.WF_set _ _ _ (f3 I.wf)
    · intro y hy
      rcases (SMap.mem_keys_set _ _ _ _).1 hy with rfl | hy
      · exact hxin
      · rcases (f2 y).1 hy with h | h
        · exact List.mem_of_mem_take (hpredx y hxi ((hl y).1 h))
        · exact I.keys_sub y h
    · intro y hy
      rw [SMap.mem_keys_set]
      rcases (hmem y).1 hy with h | h
      · exact Or.inr ((f2 y).2 (Or.inr (I.keys_sup y h)))
      · exact Or.inl h
    · intro y hy hyi
      rcases (hmem y).1 hy with h | h
      · rw [hgy y (hne y h)]
        exact I.sensor0 y h hyi
      · rw [h, hxi] at hyi
        cases hyi
    · intro y hy hyi
      rcases (hmem y).1 hy with h | h
      · rw [hgy y (hne y h)]
        exact I.pos y h hyi
      · rw [h, hgx]
        exact hstart
    · intro y hy hyi p hp
      rcases (hmem y).1 hy with h | h
      · rw [hgy y (hne y h), hgy p (hne p (hpb y h hyi p hp))]
        exact I.edge y h hyi p hp
      · subst h
        rw [hgx, hgy p (hne p (hpredx p hyi hp))]
        exact f5 p ((hl p).2 hp)
    · simp only
      have := I.odNonneg
      split <;> omega
    · intro y hy hyi hyo
      simp only
      rcases (hmem y).1 hy with h | h
      · rw [hgy y (hne y h)]
        have := I.odBound y h hyi hyo
        split <;> omega
      · subst h
        rw [hgx]
        split
        · exact le_refl _
        · rename_i hc
          simp only [hyo, true_and, not_lt] at hc
          exact hc
    · intro y hy hyo
      simp only
      cases hxo : IsOutputNode ni no x
      · rcases (hmem y).1 hy with h | h
        · have := houtlast hxo y h
          rw [hyo] at this
          cases this
        · rw [h, hxo] at hyo
          cases hyo
      · simp only [Bool.true_eq_false, false_and, if_false]
        rcases (hmem y).1 hy with h | h
        · rw [hgy y (hne y h)]
          exact I.outAbove y h hyo
        · subst h
          rw [hgx]
          rw [hxo] at f4
          simpa using f4
  · -- a sensor
    rw [depthNode_sensor it ni no rev0 st x hxi]
    have hgy : ∀ y, y ≠ x → SMap.getD (SMap.set st.1 x 0) y 0 = SMap.getD st.1 y 0 :=
      fun y hy => SMap.getD_set_ne _ _ _ _ _ hy
    have hgx : SMap.getD (SMap.set st.1 x (0 : Int)) x 0 = 0 := SMap.getD_set_self _ _ _ _
    have hxo : IsOutputNode ni no x = false := IsOutputNode_of_input ni no x hxi
    have hold : ∀ y, y ∈ S.take (k + 1) → IsInputNode ni y = false → y ∈ S.take k := by
      intro y hy hyi
      rcases (hmem y).1 hy with h | h
      · exact h
      · rw [h, hxi] at hyi
        cases hyi
    constructor
    · exact SMap.WF_set _ _ _ I.wf
    · intro y hy
      rcases (SMap.mem_keys_set _ _ _ _).1 hy with rfl | hy
      · exact hxin
      · exact I.keys_sub y hy
    · intro y hy
      rw [SMap.mem_keys_set]
      rcases (hmem y).1 hy with h | h
      · exact Or.inr (I.keys_sup y h)
      · exact Or.inl h
    · intro y hy hyi
      rcases (hmem y).1 hy with h | h
      · rw [hgy y (hne y h)]
        exact I.sensor0 y h hyi
      · rw [h, hgx]
    · intro y hy hyi
      have h := hold y hy hyi
      rw [hgy y (hne y h)]
      exact I.pos y h hyi
    · intro y hy hyi p hp
      have h := hold y hy hyi
      rw [hgy y (hne y h), hgy p (hne p (hpb y h hyi p hp))]
      exact I.edge y h hyi p hp
    · exact I.odNonneg
    · intro y hy hyi hyo
      have h := hold y hy hyi
      rw [hgy y (hne y h)]
      exact I.odBound y h hyi hyo
    · intro y hy hyo
      rcases (hmem y).1 hy with h | h
      · rw [hgy y (hne y h)]
        exact I.outAbove y h hyo
      · rw [h, hxo] at hyo
        cases hyo

theorem depthInv_zero (ni no : Int) (E : List (Int × Int)) (S : List Int) :
    DepthInv ni no E S 0 ([], 0) := by
  constructor <;> simp [SMap.WF_nil, SMap.keys]

theorem depthInv_all (it : List Int → List Int) (ni no : Int) (E : List (Int × Int))
    (adj rev0 : SMap Int (List Int)) (S : List Int) (hit : ∀ l, (it l).Perm l)
    (G : GraphOK ni no E adj rev0) (hS : SortDone ni no E rev0 S) (k : Nat)
    (hk : k ≤ S.length) :
    DepthInv ni no E S k ((S.take k).foldl (depthNode it ni no rev0) ([], 0)) := by
  induction k with
  | zero => exact depthInv_zero ni no E S
  | succ j ih =>
    rw [foldl_take_succ _ _ S j (by omega)]
    exact depthNode_inv it ni no E adj rev0 S hit G hS j (by omega) _ (ih (by omega))

/-- The depths the constructor computes satisfy `DepthOK`. -/
theorem computeDepths_ok (it : List Int → List Int) (ni no : Int) (E : List (Int × Int))
    (adj rev0 : SMap Int (List Int)) (S : List Int) (hit : ∀ l, (it l).Perm l)
    (G : GraphOK ni no E adj rev0) (hS : SortDone ni no E rev0 S) :
    DepthOK ni no E S (computeDepths it ni no rev0 S) := by
  have I := depthInv_all it ni no E adj rev0 S hit G hS S.length (le_refl _)
  have htl : S.take S.length = S := List.take_length S
  have h_wf := I.wf
  have h_sub := I.keys_sub
  have h_sup := I.keys_sup
  have h_s0 := I.sensor0
  have h_pos := I.pos
  have h_edge := I.edge
  have h_odn := I.odNonneg
  have h_odb := I.odBound
  have h_out := I.outAbove
  rw [htl] at h_wf h_sub h_sup h_s0 h_pos h_edge h_odn h_odb h_out
  clear I
  unfold computeDepths
  generalize S.foldl (depthNode it ni no rev0) ([], 0) = st at *
  have hinS : ∀ x, (∃ k ∈ E, x = k.1 ∨ x = k.2) → x ∈ S := by
    intro x hx
    exact (hS.mem_iff x).2 (Or.inr (Or.inr ((G.keys_rev x).2
      (Or.inr ((mem_endpoints E x).2 hx)))))
  constructor
  · exact h_wf
  · intro y
    exact ⟨h_sub y, h_sup y⟩
  · intro y hy
    exact h_s0 y ((hS.mem_iff y).2 (Or.inl hy)) hy
  · exact h_pos
  · intro p y hp
    have hy : y ∈ S := hinS y ⟨(p, y), hp, Or.inr rfl⟩
    have := h_edge y hy (G.noSensorTarget (p, y) hp) p hp
    omega
  · intro x hx y hy hxo hyo
    have h1 := h_out x hx hxo
    cases hyi : IsInputNode ni y
    · have := h_odb y hy hyi hyo
      omega
    · have := h_s0 y hy hyi
      omega

/-! ## The order of `id_depth_pair` -/

theorem NeuronIdDepth.le_total (a b : NeuronIdDepth) : a.le b ∨ b.le a := by
  unfold NeuronIdDepth.le
  omega

theorem NeuronIdDepth.le_trans (a b c : NeuronIdDepth) (h1 : a.le b) (h2 : b.le c) :
    a.le c := by
  unfold NeuronIdDepth.le at *
  omega

theorem NeuronIdDepth.le_antisymm (a b : NeuronIdDepth) (h1 : a.le b) (h2 : b.le a) :
    a = b := by
  unfold NeuronIdDepth.le at *
  cases a
  cases b
  simp only [NeuronIdDepth.mk.injEq] at *
  omega

theorem sortedIdDepth_perm (D : SMap Int Int) :
    (sortedIdDepth D).Perm (D.map (fun e => NeuronIdDepth.mk e.1 e.2)) :=
  List.perm_insertionSort _ _

theorem sortedIdDepth_sorted (D : SMap Int Int) :
    (sortedIdDepth D).Sorted NeuronIdDepth.le := by
  haveI : IsTotal NeuronIdDepth NeuronIdDepth.le := ⟨NeuronIdDepth.le_total⟩
  haveI : IsTrans NeuronIdDepth NeuronIdDepth.le := ⟨NeuronIdDepth.le_trans⟩
  exact List.sorted_insertionSort _ _

theorem idsOf_perm (D : SMap Int Int) : (idsOf (sortedIdDepth D)).Perm (SMap.keys D) := by
  unfold idsOf SMap.keys
  have := (sortedIdDepth_perm D).map (fun e => e.id)
  simpa [List.map_map, Function.comp_def] using this

theorem idsOf_nodup (D : SMap Int Int) (h : SMap.WF D) : (idsOf (sortedIdDepth D)).Nodup :=
  ((idsOf_perm D).nodup_iff).2 (SMap.WF_nodup D h)

theorem mem_idsOf (D : SMap Int Int) (x : Int) :
    x ∈ idsOf (sortedIdDepth D) ↔ x ∈ SMap.keys D :=
  (idsOf_perm D).mem_iff

theorem sortedIdDepth_depth (D : SMap Int Int) (h : SMap.WF D) (e : NeuronIdDepth)
    (he : e ∈ sortedIdDepth D) : e.depth = SMap.getD D e.id 0 := by
  have h1 := ((sortedIdDepth_perm D).mem_iff).1 he
  rw [List.mem_map] at h1
  obtain ⟨⟨k, v⟩, hkv, rfl⟩ := h1
  simp only
  rw [SMap.getD_of_find _ _ _ _ (SMap.find_of_mem D h k v hkv)]

theorem idsOf_getD (L : List NeuronIdDepth) (i : Nat) (h : i < L.length) :
    (idsOf L).getD i 0 = (L.getD i ⟨0, 0⟩).id := by
  unfold idsOf
  rw [List.getD_eq_getElem _ _ (by simpa using h), List.getD_eq_getElem _ _ h,
    List.getElem_map]

theorem sorted_getD (L : List NeuronIdDepth) (h : L.Sorted NeuronIdDepth.le) (i j : Nat)
    (hij : i < j) (hj : j < L.length) :
    (L.getD i ⟨0, 0⟩).le (L.getD j ⟨0, 0⟩) := by
  have hi : i < L.length := by omega
  rw [List.getD_eq_getElem _ _ hi, List.getD_eq_getElem _ _ hj]
  exact List.pairwise_iff_getElem.1 h i j hi hj hij

theorem getD_indexOf (l : List Int) (x : Int) (h : x ∈ l) : l.getD (l.indexOf x) 0 = x := by
  have hi := List.indexOf_lt_length.2 h
  rw [List.getD_eq_getElem _ _ hi]
  exact List.getElem_indexOf hi

theorem getD_mem_of_lt (L : List NeuronIdDepth) (i : Nat) (h : i < L.length) :
    L.getD i ⟨0, 0⟩ ∈ L := by
  rw [List.getD_eq_getElem _ _ h]
  exact List.getElem_mem _

/-- In `id_depth_pair` the node `x` stands before the node `y` exactly when
`(depth x, x)` is lexicographically smaller than `(depth y, y)`. -/
theorem indexOf_lt_iff (D : SMap Int Int) (h : SMap.WF D) (x y : Int)
    (hx : x ∈ SMap.keys D) (hy : y ∈ SMap.keys D) :
    (idsOf (sortedIdDepth D)).indexOf x < (idsOf (sortedIdDepth D)).indexOf y ↔
      SMap.getD D x 0 < SMap.getD D y 0 ∨ (SMap.getD D x 0 = SMap.getD D y 0 ∧ x < y) := by
  have hsorted := sortedIdDepth_sorted D
  have hdep := sortedIdDepth_depth D h
  have hxm := (mem_idsOf D x).2 hx
  have hym := (mem_idsOf D y).2 hy
  generalize sortedIdDepth D = L at *
  have hlen : (idsOf L).length = L.length := by simp [idsOf]
  have hix : (idsOf L).indexOf x < L.length := by
    rw [← hlen]
    exact List.indexOf_lt_length.2 hxm
  have hiy : (idsOf L).indexOf y < L.length := by
    rw [← hlen]
    exact List.indexOf_lt_length.2 hym
  have hgx : (L.getD ((idsOf L).indexOf x) ⟨0, 0⟩).id = x := by
    rw [← idsOf_getD L _ hix]
    exact getD_indexOf _ _ hxm
  have hgy : (L.getD ((idsOf L).indexOf y) ⟨0, 0⟩).id = y := by
    rw [← idsOf_getD L _ hiy]
    exact getD_indexOf _ _ hym
  have hdx := hdep _ (getD_mem_of_lt L _ hix)
  have hdy := hdep _ (getD_mem_of_lt L _ hiy)
  rw [hgx] at hdx
  rw [hgy] at hdy
  constructor
  · intro hlt
    have := sorted_getD L hsorted _ _ hlt hiy
    unfold NeuronIdDepth.le at this
    rw [hgx, hgy, hdx, hdy] at this
    rcases this with h1 | ⟨h1, h2⟩
    · exact Or.inl h1
    · right
      refine ⟨h1, lt_of_le_of_ne h2 ?_⟩
      rintro rfl
      omega
  · intro hlex
    by_contra hnlt
    rcases Nat.lt_or_eq_of_le (Nat.le_of_not_lt hnlt) with hgt | heq
    · have := sorted_getD L hsorted _ _ hgt hix
      unfold NeuronIdDepth.le at this
      rw [hgx, hgy, hdx, hdy] at this
      omega
    · have hxy : x = y := by
        rw [← hgx, ← hgy, heq]
      subst hxy
      omega

theorem sortedIdDepth_mem (D : SMap Int Int) (h : SMap.WF D) (e : NeuronIdDepth) :
    e ∈ sortedIdDepth D ↔ e.id ∈ SMap.keys D ∧ e.depth = SMap.getD D e.id 0 := by
  constructor
  · intro he
    refine ⟨?_, sortedIdDepth_depth D h e he⟩
    rw [← mem_idsOf]
    exact List.mem_map.2 ⟨e, he, rfl⟩
  · rintro ⟨h1, h2⟩
    rw [(sortedIdDepth_perm D).mem_iff, List.mem_map]
    rw [← SMap.find_isSome_iff_mem_keys, Option.isSome_iff_exists] at h1
    obtain ⟨v, hv⟩ := h1
    refine ⟨(e.id, v), SMap.mem_of_find D _ _ hv, ?_⟩
    rw [SMap.getD_of_find _ _ _ _ hv] at h2
    cases e
    simp only [NeuronIdDepth.mk.injEq, true_and] at h2 ⊢
    exact h2.symm

theorem countUp_pairwise (n : Int) : (countUp n).Pairwise (fun a b => a < b) := by
  unfold countUp
  rw [List.pairwise_map]
  exact (List.pairwise_lt_range _).imp (fun h => by exact_mod_cast h)

/-- The sensors head `id_depth_pair`, in the order of their ids: the ids of
the sorted vector are `0, .., ni - 1` followed by ids that are not sensors. -/
theorem idsOf_sensors_first (ni no : Int) (E : List (Int × Int)) (rev0 : SMap Int (List Int))
    (S : List Int) (D : SMap Int Int) (hS : SortDone ni no E rev0 S)
    (hD : DepthOK ni no E S D) :
    ∃ rest, idsOf (sortedIdDepth D) = countUp ni ++ rest ∧
      ∀ x ∈ rest, IsInputNode ni x = false := by
  haveI : IsAntisymm NeuronIdDepth NeuronIdDepth.le := ⟨NeuronIdDepth.le_antisymm⟩
  have hsorted := sortedIdDepth_sorted D
  have hmem := sortedIdDepth_mem D hD.wf
  have hndL : (sortedIdDepth D).Nodup := List.Nodup.of_map _ (idsOf_nodup D hD.wf)
  generalize sortedIdDepth D = L at *
  have hA : ∀ e, e ∈ L.filter (fun e => IsInputNode ni e.id) ↔
      e ∈ (countUp ni).map (fun k => NeuronIdDepth.mk k 0) := by
    intro e
    rw [List.mem_filter, hmem, List.mem_map]
    constructor
    · rintro ⟨⟨_, h2⟩, h3⟩
      refine ⟨e.id, ?_, ?_⟩
      · rw [mem_countUp, ← IsInputNode_iff]
        exact h3
      · rw [hD.sensor0 _ h3] at h2
        cases e
        simp only [NeuronIdDepth.mk.injEq, true_and] at h2 ⊢
        exact h2.symm
    · rintro ⟨k, hk, rfl⟩
      rw [mem_countUp, ← IsInputNode_iff] at hk
      simp only
      refine ⟨⟨?_, ?_⟩, hk⟩
      · rw [hD.keys_iff, hS.mem_iff]
        exact Or.inl hk
      · rw [hD.sensor0 _ hk]
  have hperm : ((countUp ni).map (fun k => NeuronIdDepth.mk k 0) ++
      L.filter (fun e => !IsInputNode ni e.id)).Perm L := by
    refine List.Perm.trans ?_ (List.filter_append_perm (fun e => IsInputNode ni e.id) L)
    apply List.Perm.append_right
    apply (List.perm_ext_iff_of_nodup ?_ (hndL.filter _)).2
    · intro e
      exact (hA e).symm
    · apply List.Nodup.map
      · intro a b hab
        simpa using hab
      · exact nodup_countUp ni
  have hs2 : ((countUp ni).map (fun k => NeuronIdDepth.mk k 0) ++
      L.filter (fun e => !IsInputNode ni e.id)).Sorted NeuronIdDepth.le := by
    unfold List.Sorted
    rw [List.pairwise_append]
    refine ⟨?_, hsorted.sublist (List.filter_sublist _), ?_⟩
    · rw [List.pairwise_map]
      apply (countUp_pairwise ni).imp
      intro a b hab
      right
      exact ⟨rfl, le_of_lt hab⟩
    · intro a ha b hb
      rw [List.mem_map] at ha
      obtain ⟨k, _, rfl⟩ := ha
      rw [List.mem_filter, hmem] at hb
      left
      simp only
      have hns : IsInputNode ni b.id = false := by simpa using hb.2
      have := hD.pos b.id ((hD.keys_iff _).1 hb.1.1) hns
      rw [hb.1.2]
      omega
  have heq := List.eq_of_perm_of_sorted hperm hs2 hsorted
  refine ⟨idsOf (L.filter (fun e => !IsInputNode ni e.id)), ?_, ?_⟩
  · rw [← heq]
    unfold idsOf
    rw [List.map_append, List.map_map]
    congr 1
    · simp [Function.comp_def]
    · rw [heq]
  · intro x hx
    unfold idsOf at hx
    rw [List.mem_map] at hx
    obtain ⟨e, he, rfl⟩ := hx
    rw [List.mem_filter] at he
    simpa using he.2

/-! ## `visual_info`, `internal_index_map`, `input_info` and `run_info` -/

theorem layerStep_labels (ni no : Int) (st : LayerState) (e : NeuronIdDepth) :
    (layerStep ni no st e).visual_info.map (fun v => v.label) =
      st.visual_info.map (fun v => v.label) ++ [e.id] := by
  unfold layerStep
  split <;> simp

theorem layer_foldl_labels (ni no : Int) (L : List NeuronIdDepth) (st : LayerState) :
    (L.foldl (layerStep ni no) st).visual_info.map (fun v => v.label) =
      st.visual_info.map (fun v => v.label) ++ idsOf L := by
  induction L generalizing st with
  | nil => simp [idsOf]
  | cons e tl ih =>
    simp only [List.foldl_cons]
    rw [ih, layerStep_labels]
    simp [idsOf]

theorem layerInfo_labels (ni no : Int) (L : List NeuronIdDepth) :
    (layerInfo ni no L).visual_info.map (fun v => v.label) = idsOf L := by
  unfold layerInfo
  simp only
  rw [layer_foldl_labels]
  simp

theorem indexMapFrom_find (L : List NeuronIdDepth) (i : Nat) (m : SMap Int Nat)
    (hnd : (idsOf L).Nodup) (x : Int) :
    SMap.find (indexMapFrom i L m) x =
      if x ∈ idsOf L then some (i + (idsOf L).indexOf x) else SMap.find m x := by
  induction L generalizing i m with
  | nil => simp [indexMapFrom, idsOf]
  | cons e tl ih =>
    have hnd2 : e.id ∉ idsOf tl ∧ (idsOf tl).Nodup := by
      unfold idsOf at hnd ⊢
      simpa using hnd
    have hids : idsOf (e :: tl) = e.id :: idsOf tl := rfl
    rw [indexMapFrom, ih (i + 1) _ hnd2.2, hids]
    by_cases hx : x = e.id
    · subst hx
      simp [hnd2.1, SMap.find_set_self]
    · by_cases hxt : x ∈ idsOf tl
      · have hne : e.id ≠ x := fun h => hx h.symm
        simp only [hxt, if_true, List.mem_cons, or_true, List.indexOf_cons_ne _ hne]
        congr 1
        omega
      · simp [hxt, hx, SMap.find_set_ne _ _ _ _ hx]

theorem indexMap_getD (L : List NeuronIdDepth) (hnd : (idsOf L).Nodup) (x : Int)
    (hx : x ∈ idsOf L) :
    SMap.getD (indexMapFrom 0 L []) x 0 = (idsOf L).indexOf x := by
  unfold SMap.getD
  rw [indexMapFrom_find L 0 [] hnd x, if_pos hx]
  simp

theorem readRecurrent_getD (edges : List ((Int × Int) × ℚ)) (m : SMap Int (List Int))
    (a b : Int) :
    (a ∈ SMap.getD (readRecurrent edges m) b [] ↔
      a ∈ SMap.getD m b [] ∨ (a, b) ∈ SMap.keys edges) ∧
    ((∀ x, (SMap.getD m x []).Nodup) → ∀ x, (SMap.getD (readRecurrent edges m) x []).Nodup) := by
  induction edges generalizing m with
  | nil => simp [readRecurrent, SMap.keys]
  | cons hd tl ih =>
    obtain ⟨⟨f, t⟩, w⟩ := hd
    obtain ⟨h1, h2⟩ := ih (SMap.touch (adjInsert m t f) f [])
    constructor
    · rw [readRecurrent, h1, SMap.getD_touch, getD_adjInsert]
      simp only [SMap.keys, List.map_cons, List.mem_cons, Prod.mk.injEq]
      by_cases hb : b = t
      · subst hb
        simp only [if_true, USet.mem_insert, and_true]
        clear * -
        tauto
      · simp only [hb, if_false, and_false, false_or]
    · intro h0
      rw [readRecurrent]
      apply h2
      intro x
      rw [SMap.getD_touch, getD_adjInsert]
      split
      · exact USet.nodup_insert _ _ (h0 t)
      · exact h0 x

/-- What the emission loop appends: one `run_info` entry and one block per
entry of `id_depth_pair`; the reads of `adjacency_list_recurrent_rev` only
create keys. -/
theorem emitFrom_spec (it : List Int → List Int) (ni no : Int)
    (fe re : SMap (Int × Int) ℚ) (revCopy : SMap Int (List Int)) (indexMap : SMap Int Nat)
    (L : List NeuronIdDepth) (i : Nat) (st : EmitState) :
    (emitFrom it ni no fe re revCopy indexMap i L st).run_info =
      st.run_info ++ L.map (fun e => NeuronRunInfo.mk 0
        ((SMap.getD revCopy e.id []).length + (SMap.getD st.recRev e.id []).length)) ∧
    (emitFrom it ni no fe re revCopy indexMap i L st).input_info =
      st.input_info ++ (L.map (emitBlock it fe re revCopy st.recRev indexMap)).flatten ∧
    (∀ x, SMap.getD (emitFrom it ni no fe re revCopy indexMap i L st).recRev x [] =
      SMap.getD st.recRev x []) := by
  induction L generalizing i st with
  | nil => simp [emitFrom]
  | cons e tl ih =>
    obtain ⟨h1, h2, h3⟩ := ih (i + 1)
      { output_indices := if IsOutputNode ni no e.id then
            st.output_indices.set (e.id - ni).toNat i
          else st.output_indices
        input_info := st.input_info ++
          blockOf fe indexMap e.id (it (SMap.getD revCopy e.id [])) ++
          blockOf re indexMap e.id (it (SMap.getD (SMap.touch st.recRev e.id []) e.id []))
        run_info := st.run_info ++
          [{ output_val := 0, input_info_block_size := (SMap.getD revCopy e.id []).length +
              (SMap.getD (SMap.touch st.recRev e.id []) e.id []).length }]
        recRev := SMap.touch st.recRev e.id [] }
    have hblock : emitBlock it fe re revCopy (SMap.touch st.recRev e.id []) indexMap =
        emitBlock it fe re revCopy st.recRev indexMap := by
      funext e1
      unfold emitBlock
      rw [SMap.getD_touch]
    refine ⟨?_, ?_, ?_⟩
    · rw [emitFrom, h1]
      simp only [SMap.getD_touch, List.map_cons, List.append_assoc, List.singleton_append]
    · rw [emitFrom, h2]
      simp only [SMap.getD_touch, List.map_cons, List.flatten_cons, List.append_assoc, hblock]
      unfold emitBlock
      simp only [List.append_assoc]
    · intro x
      rw [emitFrom, h3]
      exact SMap.getD_touch _ _ _ _

theorem emitFrom_outputs (it : List Int → List Int) (ni no : Int)
    (fe re : SMap (Int × Int) ℚ) (revCopy : SMap Int (List Int)) (indexMap : SMap Int Nat)
    (L : List NeuronIdDepth) (i : Nat) (st : EmitState) (hnd : (idsOf L).Nodup) (k : Nat)
    (hk : (k : Int) < no) (hlen : k < st.output_indices.length) :
    (emitFrom it ni no fe re revCopy indexMap i L st).output_indices.getD k 0 =
      (if ni + (k : Int) ∈ idsOf L then i + (idsOf L).indexOf (ni + (k : Int))
       else st.output_indices.getD k 0) ∧
    (emitFrom it ni no fe re revCopy indexMap i L st).output_indices.length =
      st.output_indices.length := by
  induction L generalizing i st with
  | nil => simp [emitFrom, idsOf]
  | cons e tl ih =>
    have hnd2 : e.id ∉ idsOf tl ∧ (idsOf tl).Nodup := by
      unfold idsOf at hnd ⊢
      simpa using hnd
    have hids : idsOf (e :: tl) = e.id :: idsOf tl := rfl
    have hout : IsOutputNode ni no (ni + (k : Int)) = true := by
      rw [IsOutputNode_iff]
      omega
    rw [emitFrom]
    generalize hst : (if IsOutputNode ni no e.id = true then
        st.output_indices.set (e.id - ni).toNat i else st.output_indices) = outs
    have hlen2 : outs.length = st.output_indices.length := by
      rw [← hst]
      split <;> simp
    obtain ⟨h1, h2⟩ := ih (i + 1)
      { output_indices := outs
        input_info := st.input_info ++
          blockOf fe indexMap e.id (it (SMap.getD revCopy e.id [])) ++
          blockOf re indexMap e.id (it (SMap.getD (SMap.touch st.recRev e.id []) e.id []))
        run_info := st.run_info ++
          [{ output_val := 0, input_info_block_size := (SMap.getD revCopy e.id []).length +
              (SMap.getD (SMap.touch st.recRev e.id []) e.id []).length }]
        recRev := SMap.touch st.recRev e.id [] } hnd2.2 (by simp only; omega)
    refine ⟨?_, by rw [h2]; exact hlen2⟩
    rw [h1, hids]
    by_cases hx : ni + (k : Int) = e.id
    · rw [← hx] at hnd2 hst
      rw [hout] at hst
      simp only [if_true] at hst
      simp only [hnd2.1, if_false, hx, List.mem_cons, true_or, if_true, List.indexOf_cons_self,
        Nat.add_zero]
      rw [← hst]
      have : (ni + (k : Int) - ni).toNat = k := by omega
      rw [this, List.getD_eq_getElem _ _ (by simpa using hlen)]
      simp only [List.getElem_set_self, ite_eq_right_iff]
      intro hc
      rw [← hx] at hc
      exact absurd hc hnd2.1
    · have hne : e.id ≠ ni + (k : Int) := fun h => hx h.symm
      by_cases hxt : ni + (k : Int) ∈ idsOf tl
      · simp only [hxt, if_true, List.mem_cons, or_true, List.indexOf_cons_ne _ hne]
        omega
      · simp only [hxt, if_false, List.mem_cons, hx, or_false]
        rw [← hst]
        split
        · rename_i ho
          rw [IsOutputNode_iff] at ho
          have hk2 : (e.id - ni).toNat ≠ k := by omega
          simp only [List.getD_eq_getElem?_getD]
          rw [List.getElem?_set_ne hk2]
        · rfl

/-- Under `ForwardOK` and with enough fuel the constructor returns a fully
built network, described by `Compiled`. -/
theorem Network.build_ok (it : List Int → List Int) (hit : ∀ l, (it l).Perm l) (ni no : Int)
    (fe re : SMap (Int × Int) ℚ) (h : ForwardOK ni no (SMap.keys fe)) (fuel : Nat)
    (hf : sortFuel ni no fe.length ≤ fuel) :
    ∃ rev S D net, Network.build it fuel ni no fe re = some net ∧
      Compiled it ni no fe re rev S D net := by
  obtain ⟨adj, rev, st1, st2, hrf, G, hl1, hl2, hS, hadj, hkeys⟩ :=
    sortPhase it ni no fe hit h fuel hf
  have hD := computeDepths_ok it ni no _ adj rev st2.sortedNodes hit G hS
  obtain ⟨e1, e2, e3⟩ := emitFrom_spec it ni no fe re rev
    (indexMapFrom 0 (sortedIdDepth (computeDepths it ni no rev st2.sortedNodes)) [])
    (sortedIdDepth (computeDepths it ni no rev st2.sortedNodes)) 0
    { output_indices := List.replicate no.toNat 0, input_info := [], run_info := [],
      recRev := readRecurrent re [] }
  have e4 := fun k hk hlen => emitFrom_outputs it ni no fe re rev
    (indexMapFrom 0 (sortedIdDepth (computeDepths it ni no rev st2.sortedNodes)) [])
    (sortedIdDepth (computeDepths it ni no rev st2.sortedNodes)) 0
    { output_indices := List.replicate no.toNat 0, input_info := [], run_info := [],
      recRev := readRecurrent re [] } (idsOf_nodup _ hD.wf) k hk hlen
  have hb : Network.build it fuel ni no fe re =
      some (Network.assemble it ni no fe re rev st2) := by
    unfold Network.build
    simp only [hrf, hl1, hl2]
    rfl
  refine ⟨rev, st2.sortedNodes, computeDepths it ni no rev st2.sortedNodes, _, hb, ?_⟩
  unfold Network.assemble
  simp only
  · generalize computeDepths it ni no rev st2.sortedNodes = D at *
    generalize hem : emitFrom it ni no fe re rev (indexMapFrom 0 (sortedIdDepth D) [])
      0 (sortedIdDepth D)
      { output_indices := List.replicate no.toNat 0, input_info := [], run_info := [],
        recRev := readRecurrent re [] } = em at *
    simp only at e1 e2 e3 e4
    have hrec : ∀ e : NeuronIdDepth, SMap.getD em.recRev e.id [] =
        SMap.getD (readRecurrent re []) e.id [] := fun e => e3 e.id
    constructor
    · rfl
    · rfl
    · exact G.pred_iff
    · exact G.rev_nodup
    · exact hS
    · exact G.keys_rev
    · exact hD
    · exact layerInfo_labels ni no _
    · intro a b
      show b ∈ SMap.getD st2.adj a [] ↔ _
      rw [hadj, G.succ_iff]
    · intro a b
      show a ∈ SMap.getD em.recRev b [] ↔ _
      rw [e3, (readRecurrent_getD re [] a b).1]
      simp [SMap.getD, SMap.find]
    · intro b
      show (SMap.getD em.recRev b []).Nodup
      rw [e3]
      apply (readRecurrent_getD re [] 0 0).2
      intro x
      simp [SMap.getD, SMap.find]
    · show setOutputVal em.run_info _ _ = _
      rw [e1]
      simp only [List.nil_append]
      congr 1
      apply List.map_congr_left
      intro e _
      show _ = NeuronRunInfo.mk 0 (_ + (SMap.getD em.recRev e.id []).length)
      rw [hrec]
    · show em.input_info = _
      rw [e2]
      simp only [List.nil_append]
      congr 1
      apply List.map_congr_left
      intro e _
      unfold emitBlock
      show _ = _ ++ blockOf re _ e.id (it (SMap.getD em.recRev e.id []))
      rw [hrec]
    · intro k hk
      show em.output_indices.getD k 0 = _
      have hlen : k < (List.replicate no.toNat 0).length := by
        rw [List.length_replicate]
        omega
      rw [(e4 k hk hlen).1]
      have hm : ni + (k : Int) ∈ idsOf (sortedIdDepth D) := by
        rw [mem_idsOf, hD.keys_iff, hS.mem_iff]
        right
        left
        rw [IsOutputNode_iff]
        omega
      rw [if_pos hm]
      omega
    · exact h
    · intro x hx
      exact hkeys x ((G.keys_adj x).2 hx)

/-! ## C8: the index order is a topological order -/

theorem transGen_rank (E : List (Int × Int)) (rank : Int → Int)
    (h : ∀ k ∈ E, rank k.1 < rank k.2) (x y : Int)
    (hxy : Relation.TransGen (EdgeRel E) x y) : rank x < rank y := by
  induction hxy with
  | single hab => exact h (_, _) hab
  | tail _ hbc ih => exact lt_trans ih (h (_, _) hbc)

theorem acyclic_of_rank (E : List (Int × Int)) (rank : Int → Int)
    (h : ∀ k ∈ E, rank k.1 < rank k.2) : Acyclic E := by
  intro x hx
  exact lt_irrefl _ (transGen_rank E rank h x x hx)

theorem Compiled.mem_labels {it : List Int → List Int} {ni no : Int}
    {fe re : SMap (Int × Int) ℚ} {rev : SMap Int (List Int)} {S : List Int} {D : SMap Int Int}
    {net : Network} (C : Compiled it ni no fe re rev S D net) (x : Int) :
    x ∈ net.labels ↔ IsInputNode ni x = true ∨ IsOutputNode ni no x = true ∨
      x ∈ endpoints (SMap.keys fe) := by
  rw [C.labels_eq, mem_idsOf, C.depth.keys_iff, C.sortDone.mem_iff, C.keys_rev]
  constructor
  · rintro (h | h | h | h)
    · exact Or.inl h
    · exact Or.inr (Or.inl h)
    · by_cases hx : x < ni
      · exact Or.inl ((IsInputNode_iff ni x).2 ⟨h.1, hx⟩)
      · exact Or.inr (Or.inl ((IsOutputNode_iff ni no x).2 ⟨by omega, h.2⟩))
    · exact Or.inr (Or.inr h)
  · rintro (h | h | h)
    · exact Or.inl h
    · exact Or.inr (Or.inl h)
    · exact Or.inr (Or.inr (Or.inr h))

theorem Compiled.nodeIndex_lt {it : List Int → List Int} {ni no : Int}
    {fe re : SMap (Int × Int) ℚ} {rev : SMap Int (List Int)} {S : List Int} {D : SMap Int Int}
    {net : Network} (C : Compiled it ni no fe re rev S D net) (a b : Int)
    (ha : a ∈ net.labels) (hb : b ∈ net.labels)
    (hd : SMap.getD D a 0 < SMap.getD D b 0) :
    ∃ ia ib, net.nodeIndex a = some ia ∧ net.nodeIndex b = some ib ∧ ia < ib := by
  refine ⟨net.labels.indexOf a, net.labels.indexOf b, ?_, ?_, ?_⟩
  · unfold Network.nodeIndex
    rw [if_pos ha]
  · unfold Network.nodeIndex
    rw [if_pos hb]
  · rw [C.labels_eq] at ha hb ⊢
    rw [mem_idsOf] at ha hb
    exact (indexOf_lt_iff D C.depth.wf a b ha hb).2 (Or.inl hd)

theorem Compiled.run_info_length {it : List Int → List Int} {ni no : Int}
    {fe re : SMap (Int × Int) ℚ} {rev : SMap Int (List Int)} {S : List Int} {D : SMap Int Int}
    {net : Network} (C : Compiled it ni no fe re rev S D net) :
    net.run_info.length = net.labels.length := by
  rw [C.run_info_eq, C.labels_eq]
  simp [setOutputVal, idsOf]

/-- C8: for every genome whose enabled forward edges are acyclic, enter no
sensor and never lead from an output to a non-output, `GenerateNetwork`
returns (for every iteration order of the unordered sets, with enough fuel for
the two sort loops) a network with one `run_info` slot per label, in which
both ends of every forward edge have an internal index and the index of the
source is strictly smaller than the index of the target. -/
theorem GenerateNetwork_topological (it : List Int → List Int) (hit : ∀ l, (it l).Perm l)
    (g : Genome)
    (hok : ForwardOK g.num_input_nodes g.num_output_nodes (SMap.keys g.forward_edges))
    (fuel : Nat)
    (hf : sortFuel g.num_input_nodes g.num_output_nodes g.forward_edges.length ≤ fuel) :
    ∃ net, GenerateNetwork it fuel g = some net ∧
      net.run_info.length = net.labels.length ∧
      ∀ a b, (a, b) ∈ SMap.keys g.forward_edges →
        ∃ ia ib, net.nodeIndex a = some ia ∧ net.nodeIndex b = some ib ∧ ia < ib := by
  obtain ⟨rev, S, D, net, hb, C⟩ := Network.build_ok it hit g.num_input_nodes g.num_output_nodes
    g.forward_edges g.recurrent_edges hok fuel hf
  refine ⟨net, hb, C.run_info_length, ?_⟩
  intro a b hab
  apply C.nodeIndex_lt a b
  · rw [C.mem_labels, mem_endpoints]
    exact Or.inr (Or.inr ⟨(a, b), hab, Or.inl rfl⟩)
  · rw [C.mem_labels, mem_endpoints]
    exact Or.inr (Or.inr ⟨(a, b), hab, Or.inr rfl⟩)
  · exact C.depth.edge a b hab

theorem genomeB_forwardOK : ForwardOK 2 1 (SMap.keys genomeB.forward_edges) := by
  have hk : SMap.keys genomeB.forward_edges = [(0, 3), (3, 2)] := by decide
  rw [hk]
  refine ⟨by decide, by decide, acyclic_of_rank _ rankB (by decide)⟩

/-- C8, witness: the genome `0 → 3 → 2`. -/
theorem GenerateNetwork_topological_witness :
    ∃ net, GenerateNetwork id 11 genomeB = some net ∧
      net.run_info.length = net.labels.length ∧
      ∀ a b, (a, b) ∈ SMap.keys genomeB.forward_edges →
        ∃ ia ib, net.nodeIndex a = some ia ∧ net.nodeIndex b = some ib ∧ ia < ib :=
  GenerateNetwork_topological id (fun l => List.Perm.refl l) genomeB genomeB_forwardOK 11
    (by decide)

/-! ## `Run`: the slots of `run_info` -/

theorem setOutputVal_length (ri : List NeuronRunInfo) (i : Nat) (x : ℚ) :
    (setOutputVal ri i x).length = ri.length := by
  simp [setOutputVal]

theorem setOutputVal_getD (ri : List NeuronRunInfo) (i j : Nat) (x : ℚ) :
    (setOutputVal ri i x).getD j ⟨0, 0⟩ =
      if j = i ∧ i < ri.length then { ri.getD j ⟨0, 0⟩ with output_val := x }
      else ri.getD j ⟨0, 0⟩ := by
  unfold setOutputVal
  simp only [List.getD_eq_getElem?_getD, List.getElem?_modify]
  by_cases hji : j = i
  · subst hji
    by_cases hlt : j < ri.length
    · simp [hlt, List.getElem?_eq_getElem hlt]
    · simp [hlt, List.getElem?_eq_none (Nat.le_of_not_lt hlt)]
  · have : ¬ i = j := fun h => hji h.symm
    simp [hji, this]

theorem sizeAt_setOutputVal (ri : List NeuronRunInfo) (i j : Nat) (x : ℚ) :
    sizeAt (setOutputVal ri i x) j = sizeAt ri j := by
  unfold sizeAt
  rw [setOutputVal_getD]
  split <;> rfl

theorem valAt_setOutputVal_ne (ri : List NeuronRunInfo) (i j : Nat) (x : ℚ) (h : j ≠ i) :
    valAt (setOutputVal ri i x) j = valAt ri j := by
  unfold valAt
  rw [setOutputVal_getD]
  simp [h]

theorem valAt_setOutputVal_self (ri : List NeuronRunInfo) (i : Nat) (x : ℚ)
    (h : i < ri.length) : valAt (setOutputVal ri i x) i = x := by
  unfold valAt
  rw [setOutputVal_getD]
  simp [h]

theorem copyInputs_length (inp : List ℚ) (i : Nat) (ri : List NeuronRunInfo) :
    (copyInputs i inp ri).length = ri.length := by
  induction inp generalizing i ri with
  | nil => rfl
  | cons x tl ih => rw [copyInputs, ih, setOutputVal_length]

theorem sizeAt_copyInputs (inp : List ℚ) (i : Nat) (ri : List NeuronRunInfo) (j : Nat) :
    sizeAt (copyInputs i inp ri) j = sizeAt ri j := by
  induction inp generalizing i ri with
  | nil => rfl
  | cons x tl ih => rw [copyInputs, ih, sizeAt_setOutputVal]

theorem valAt_copyInputs (inp : List ℚ) (i : Nat) (ri : List NeuronRunInfo) (j : Nat) :
    valAt (copyInputs i inp ri) j =
      if i ≤ j ∧ j < i + inp.length ∧ j < ri.length then inp.getD (j - i) 0 else valAt ri j := by
  induction inp generalizing i ri with
  | nil =>
    have : ¬ (i ≤ j ∧ j < i + ([] : List ℚ).length ∧ j < ri.length) := by
      simp only [List.length_nil]
      omega
    rw [if_neg this]
    rfl
  | cons x tl ih =>
    rw [copyInputs, ih, setOutputVal_length]
    by_cases hji : j = i
    · subst hji
      by_cases hlt : j < ri.length
      · simp [hlt, valAt_setOutputVal_self _ _ _ hlt]
      · have : valAt (setOutputVal ri j x) j = valAt ri j := by
          unfold valAt
          rw [setOutputVal_getD]
          simp [hlt]
        simp [hlt, this]
    · rw [valAt_setOutputVal_ne _ _ _ _ hji]
      by_cases hc : i + 1 ≤ j ∧ j < i + 1 + tl.length ∧ j < ri.length
      · have hc2 : i ≤ j ∧ j < i + (x :: tl).length ∧ j < ri.length := by
          simp only [List.length_cons]
          omega
        rw [if_pos hc, if_pos hc2]
        have : j - i = (j - (i + 1)) + 1 := by omega
        rw [this, List.getD_cons_succ]
      · have hc2 : ¬ (i ≤ j ∧ j < i + (x :: tl).length ∧ j < ri.length) := by
          simp only [List.length_cons]
          omega
        rw [if_neg hc, if_neg hc2]

theorem runNodes_length (act : ℚ → ℚ) (info : List NeuronInputInfo) (c i s : Nat)
    (ri : List NeuronRunInfo) : (runNodes act info c i s ri).length = ri.length := by
  induction c generalizing i s ri with
  | zero => rfl
  | succ k ih => rw [runNodes, ih, setOutputVal_length]

theorem sizeAt_runNodes (act : ℚ → ℚ) (info : List NeuronInputInfo) (c i s : Nat)
    (ri : List NeuronRunInfo) (j : Nat) :
    sizeAt (runNodes act info c i s ri) j = sizeAt ri j := by
  induction c generalizing i s ri with
  | zero => rfl
  | succ k ih => rw [runNodes, ih, sizeAt_setOutputVal]

/-- `runNodes` leaves every slot outside `i, .., i + c - 1` as it was. -/
theorem valAt_runNodes_outside (act : ℚ → ℚ) (info : List NeuronInputInfo) (c i s : Nat)
    (ri : List NeuronRunInfo) (j : Nat) (h : j < i ∨ i + c ≤ j) :
    valAt (runNodes act info c i s ri) j = valAt ri j := by
  induction c generalizing i s ri with
  | zero => rfl
  | succ k ih =>
    rw [runNodes, ih _ _ _ (by omega), valAt_setOutputVal_ne _ _ _ _ (by omega)]

theorem sizeSum_congr (ri ri1 : List NeuronRunInfo) (h : ∀ j, sizeAt ri1 j = sizeAt ri j)
    (i k : Nat) : sizeSum ri1 i k = sizeSum ri i k := by
  induction k with
  | zero => rfl
  | succ k ih => rw [sizeSum, sizeSum, ih, h]

theorem sizeSum_succ_left (ri : List NeuronRunInfo) (i k : Nat) :
    sizeSum ri i (k + 1) = sizeAt ri i + sizeSum ri (i + 1) k := by
  induction k with
  | zero => simp [sizeSum]
  | succ k ih =>
    rw [sizeSum, ih, sizeSum]
    have : i + 1 + k = i + (k + 1) := by omega
    rw [this]
    omega

theorem runNodes_succ (act : ℚ → ℚ) (info : List NeuronInputInfo) (c i s : Nat)
    (ri : List NeuronRunInfo) :
    runNodes act info (c + 1) i s ri =
      runNodes act info c (i + 1) (s + sizeAt ri i)
        (setOutputVal ri i (act (blockSum info ri s (sizeAt ri i)))) := rfl

/-- The first `k` iterations of the loop, followed by the other `c`. -/
theorem runNodes_add (act : ℚ → ℚ) (info : List NeuronInputInfo) (k c i s : Nat)
    (ri : List NeuronRunInfo) :
    runNodes act info (k + c) i s ri =
      runNodes act info c (i + k) (s + sizeSum ri i k) (runNodes act info k i s ri) := by
  induction k generalizing i s ri with
  | zero => simp [runNodes, sizeSum]
  | succ k ih =>
    have h1 : k + 1 + c = (k + c) + 1 := by omega
    have h4 := sizeSum_congr ri (setOutputVal ri i (act (blockSum info ri s (sizeAt ri i))))
      (fun j => sizeAt_setOutputVal ri i j _) (i + 1) k
    rw [h1, runNodes_succ, ih, runNodes_succ, sizeSum_succ_left, h4]
    have h2 : i + 1 + k = i + (k + 1) := by omega
    have h3 : s + sizeAt ri i + sizeSum ri (i + 1) k = s + (sizeAt ri i + sizeSum ri (i + 1) k) := by
      omega
    rw [h2, h3]

/-- The value `Run` leaves in the slot `i + k`: the activation of the block sum
over the state the loop had reached before that slot. -/
theorem valAt_runNodes_inside (act : ℚ → ℚ) (info : List NeuronInputInfo) (c i s : Nat)
    (ri : List NeuronRunInfo) (k : Nat) (hk : k < c) (hlen : i + k < ri.length) :
    valAt (runNodes act info c i s ri) (i + k) =
      act (blockSum info (runNodes act info k i s ri) (s + sizeSum ri i k)
        (sizeAt ri (i + k))) := by
  have hc : c = k + ((c - k - 1) + 1) := by omega
  rw [hc, runNodes_add, runNodes_succ]
  rw [valAt_runNodes_outside _ _ _ _ _ _ _ (by omega)]
  rw [valAt_setOutputVal_self _ _ _ (by rw [runNodes_length]; exact hlen)]
  rw [sizeAt_runNodes]

/-! ## `Run`: the blocks of `input_info` -/

theorem offsetOf_succ (B : List (List NeuronInputInfo)) (j : Nat) (h : j < B.length) :
    offsetOf B (j + 1) = offsetOf B j + (B.getD j []).length := by
  unfold offsetOf
  rw [List.take_succ, List.getD_eq_getElem _ _ h, List.getElem?_eq_getElem h, List.map_append,
    List.sum_append]
  rfl

theorem drop_take_flatten (B : List (List NeuronInputInfo)) (j : Nat) (h : j < B.length) :
    (B.flatten.drop (offsetOf B j)).take (B.getD j []).length = B.getD j [] := by
  have hsplit : B = B.take j ++ B.getD j [] :: B.drop (j + 1) := by
    rw [List.getD_eq_getElem _ _ h, ← List.drop_eq_getElem_cons h, List.take_append_drop]
  have hoff : offsetOf B j = (B.take j).flatten.length := by
    unfold offsetOf
    rw [List.length_flatten]
  generalize B.getD j [] = b at *
  generalize hP : B.take j = P at *
  generalize B.drop (j + 1) = Q at *
  rw [hoff]
  subst hsplit
  simp only [List.flatten_append, List.flatten_cons]
  rw [List.drop_left, List.take_left]

theorem blockSum_eq (info : List NeuronInputInfo) (ri : List NeuronRunInfo) (s n : Nat) :
    blockSum info ri s n = ((info.drop s).take n).foldl (blockTerm ri) 0 := rfl

theorem foldl_blockTerm_congr (ri ri1 : List NeuronRunInfo) (b : List NeuronInputInfo)
    (h : ∀ p ∈ b, valAt ri1 p.input_index = valAt ri p.input_index) (sum : ℚ) :
    b.foldl (blockTerm ri1) sum = b.foldl (blockTerm ri) sum := by
  induction b generalizing sum with
  | nil => rfl
  | cons p tl ih =>
    simp only [List.foldl_cons]
    rw [ih (fun q hq => h q (List.mem_cons_of_mem _ hq))]
    unfold blockTerm
    rw [h p (List.mem_cons_self _ _)]

theorem foldl_add_eq_sum {α : Type} (f : α → ℚ) (l : List α) (a : ℚ) :
    l.foldl (fun s x => s + f x) a = a + (l.map f).sum := by
  induction l generalizing a with
  | nil => simp
  | cons x tl ih =>
    simp only [List.foldl_cons, List.map_cons, List.sum_cons]
    rw [ih]
    ring

theorem foldl_blockOf (ri : List NeuronRunInfo) (edges : SMap (Int × Int) ℚ)
    (indexMap : SMap Int Nat) (x : Int) (l : List Int) (sum : ℚ) :
    (blockOf edges indexMap x l).foldl (blockTerm ri) sum =
      sum + (l.map (fun q => valAt ri (SMap.getD indexMap q 0) *
        SMap.getD edges (q, x) 0)).sum := by
  unfold blockOf
  rw [List.foldl_map]
  exact foldl_add_eq_sum _ l sum

theorem sizeSum_offset (B : List (List NeuronInputInfo)) (ri : List NeuronRunInfo) (i k : Nat)
    (hs : ∀ j, j < B.length → sizeAt ri j = (B.getD j []).length) (hik : i + k ≤ B.length) :
    offsetOf B (i + k) = offsetOf B i + sizeSum ri i k := by
  induction k with
  | zero => rfl
  | succ k ih =>
    have h1 : i + (k + 1) = (i + k) + 1 := by omega
    rw [h1, offsetOf_succ B (i + k) (by omega), ih (by omega), sizeSum, hs (i + k) (by omega)]
    omega

theorem getD_map_of_lt {α β : Type} (f : α → β) (l : List α) (j : Nat) (h : j < l.length)
    (d : α) (d1 : β) : (l.map f).getD j d1 = f (l.getD j d) := by
  rw [List.getD_eq_getElem _ _ (by simpa using h), List.getD_eq_getElem _ _ h]
  simp

theorem offsetOf_zero_of_empty (B : List (List NeuronInputInfo)) (k : Nat) (hk : k ≤ B.length)
    (h : ∀ j, j < k → B.getD j [] = []) : offsetOf B k = 0 := by
  induction k with
  | zero => simp [offsetOf]
  | succ k ih =>
    rw [offsetOf_succ B k (by omega), ih (by omega) (fun j hj => h j (by omega)), h k (by omega)]
    rfl

theorem countUp_length (n : Int) : (countUp n).length = n.toNat := by
  simp [countUp]

theorem countUp_getD (n : Int) (j : Nat) (h : j < n.toNat) : (countUp n).getD j 0 = (j : Int) := by
  unfold countUp
  rw [getD_map_of_lt _ _ _ (by simpa using h) 0]
  rw [List.getD_eq_getElem _ _ (by simpa using h)]
  simp

theorem blockOf_length (edges : SMap (Int × Int) ℚ) (indexMap : SMap Int Nat) (x : Int)
    (l : List Int) : (blockOf edges indexMap x l).length = l.length := by
  simp [blockOf]

theorem Compiled.sensor_block {it : List Int → List Int} {ni no : Int}
    {fe re : SMap (Int × Int) ℚ} {rev : SMap Int (List Int)} {S : List Int} {D : SMap Int Int}
    {net : Network} (C : Compiled it ni no fe re rev S D net)
    (hrec : ∀ k ∈ SMap.keys re, IsInputNode ni k.2 = false) (x : Int)
    (hx : IsInputNode ni x = true) :
    SMap.getD rev x [] = [] ∧ SMap.getD net.adjacency_list_recurrent_rev x [] = [] := by
  constructor
  · apply List.eq_nil_iff_forall_not_mem.2
    intro a ha
    have := C.forwardOK.noSensorTarget (a, x) ((C.pred_iff a x).1 ha)
    simp [hx] at this
  · apply List.eq_nil_iff_forall_not_mem.2
    intro a ha
    have := hrec (a, x) ((C.rec_iff a x).1 ha)
    simp [hx] at this

theorem Compiled.labels_split {it : List Int → List Int} {ni no : Int}
    {fe re : SMap (Int × Int) ℚ} {rev : SMap Int (List Int)} {S : List Int} {D : SMap Int Int}
    {net : Network} (C : Compiled it ni no fe re rev S D net) :
    ∃ rest, net.labels = countUp ni ++ rest ∧ (∀ x ∈ rest, IsInputNode ni x = false) ∧
      net.labels.Nodup := by
  obtain ⟨rest, h1, h2⟩ := idsOf_sensors_first ni no _ rev S D C.sortDone C.depth
  refine ⟨rest, by rw [C.labels_eq, h1], h2, ?_⟩
  rw [C.labels_eq]
  exact idsOf_nodup D C.depth.wf

theorem Compiled.index_ge {it : List Int → List Int} {ni no : Int}
    {fe re : SMap (Int × Int) ℚ} {rev : SMap Int (List Int)} {S : List Int} {D : SMap Int Int}
    {net : Network} (C : Compiled it ni no fe re rev S D net) (x : Int)
    (hx : x ∈ net.labels) (hxs : IsInputNode ni x = false) :
    ni.toNat ≤ net.labels.indexOf x ∧ net.labels.indexOf x < net.labels.length := by
  obtain ⟨rest, h1, h2, h3⟩ := C.labels_split
  refine ⟨?_, List.indexOf_lt_length.2 hx⟩
  by_contra hlt
  push_neg at hlt
  have hg := getD_indexOf net.labels x hx
  rw [h1, getD_append_left _ _ _ (by rw [countUp_length]; rw [h1] at hlt; exact hlt)] at hg
  have hm : x ∈ countUp ni := by
    rw [← hg]
    rw [List.getD_eq_getElem _ _ (by rw [countUp_length]; rw [h1] at hlt; exact hlt)]
    exact List.getElem_mem _
  rw [mem_countUp] at hm
  have := (IsInputNode_iff ni x).2 hm
  rw [this] at hxs
  exact Bool.noConfusion hxs

theorem Compiled.block_getD {it : List Int → List Int} {ni no : Int}
    {fe re : SMap (Int × Int) ℚ} {rev : SMap Int (List Int)} {S : List Int} {D : SMap Int Int}
    {net : Network} (C : Compiled it ni no fe re rev S D net) (hit : ∀ l, (it l).Perm l)
    (hrec : ∀ k ∈ SMap.keys re, IsInputNode ni k.2 = false) :
    ∃ B : List (List NeuronInputInfo), net.input_info = B.flatten ∧
      B.length = net.labels.length ∧ net.run_info.length = net.labels.length ∧
      (∀ j, j < B.length → B.getD j [] =
        emitBlock it fe re rev net.adjacency_list_recurrent_rev
          (indexMapFrom 0 (sortedIdDepth D) []) ⟨net.labels.getD j 0, 0⟩) ∧
      (∀ j, j < B.length → sizeAt net.run_info j = (B.getD j []).length) ∧
      offsetOf B ni.toNat = 0 := by
  have hL : net.labels.length = (sortedIdDepth D).length := by
    rw [C.labels_eq, idsOf, List.length_map]
  have hB : ∀ j, j < (sortedIdDepth D).length →
      ((sortedIdDepth D).map (emitBlock it fe re rev net.adjacency_list_recurrent_rev
        (indexMapFrom 0 (sortedIdDepth D) []))).getD j [] =
      emitBlock it fe re rev net.adjacency_list_recurrent_rev
          (indexMapFrom 0 (sortedIdDepth D) []) ⟨net.labels.getD j 0, 0⟩ := by
    intro j hj
    rw [getD_map_of_lt _ _ _ hj ⟨0, 0⟩, C.labels_eq, idsOf_getD _ _ hj]
    rfl
  have hsize : ∀ j, j < (sortedIdDepth D).length → sizeAt net.run_info j =
      (((sortedIdDepth D).map (emitBlock it fe re rev net.adjacency_list_recurrent_rev
        (indexMapFrom 0 (sortedIdDepth D) []))).getD j []).length := by
    intro j hj
    rw [hB j hj, C.run_info_eq, sizeAt_setOutputVal, sizeAt,
      getD_map_of_lt _ _ _ hj ⟨0, 0⟩]
    simp only [emitBlock, List.length_append, blockOf_length, (hit _).length_eq]
    rw [C.labels_eq, idsOf_getD _ _ hj]
  refine ⟨_, C.input_info_eq, by rw [List.length_map, hL], C.run_info_length, ?_, ?_, ?_⟩
  · intro j hj
    rw [List.length_map] at hj
    exact hB j hj
  · intro j hj
    rw [List.length_map] at hj
    exact hsize j hj
  · obtain ⟨rest, h1, h2, h3⟩ := C.labels_split
    have hle : ni.toNat ≤ (sortedIdDepth D).length := by
      rw [← hL, h1, List.length_append, countUp_length]
      omega
    apply offsetOf_zero_of_empty _ _ (by rw [List.length_map]; exact hle)
    intro j hj
    rw [hB j (by omega)]
    have hxj : net.labels.getD j 0 = (j : Int) := by
      rw [h1, getD_append_left _ _ _ (by rw [countUp_length]; exact hj), countUp_getD _ _ hj]
    have hs : IsInputNode ni (net.labels.getD j 0) = true := by
      rw [hxj, IsInputNode_iff]
      omega
    obtain ⟨e1, e2⟩ := C.sensor_block hrec _ hs
    simp only [emitBlock, e1, e2, (hit []).eq_nil, blockOf, List.map_nil, List.append_nil]

theorem Compiled.run_value {it : List Int → List Int} {ni no : Int}
    {fe re : SMap (Int × Int) ℚ} {rev : SMap Int (List Int)} {S : List Int} {D : SMap Int Int}
    {net : Network} (C : Compiled it ni no fe re rev S D net) (hit : ∀ l, (it l).Perm l)
    (hrec : ∀ k ∈ SMap.keys re, IsInputNode ni k.2 = false)
    (act : ℚ → ℚ) (ri : List NeuronRunInfo) (hlen : ri.length = net.run_info.length)
    (hsz : ∀ j, sizeAt ri j = sizeAt net.run_info j)
    (x : Int) (hx : x ∈ net.labels) (hxs : IsInputNode ni x = false) (c : Nat)
    (hc : net.labels.indexOf x - ni.toNat < c) :
    valAt (runNodes act net.input_info c ni.toNat 0 ri) (net.labels.indexOf x) =
      act (((it (SMap.getD rev x [])).map (fun q =>
          valAt (runBefore act net ri (net.labels.indexOf x))
            (SMap.getD (indexMapFrom 0 (sortedIdDepth D) []) q 0) * SMap.getD fe (q, x) 0)).sum +
        ((it (SMap.getD net.adjacency_list_recurrent_rev x [])).map (fun q =>
          valAt (runBefore act net ri (net.labels.indexOf x))
            (SMap.getD (indexMapFrom 0 (sortedIdDepth D) []) q 0) *
              SMap.getD re (q, x) 0)).sum) := by
  obtain ⟨B, hinfo, hBlen, hrlen, hBget, hBsize, hoff⟩ := C.block_getD hit hrec
  obtain ⟨hge, hlt⟩ := C.index_ge x hx hxs
  generalize hj : net.labels.indexOf x = j at *
  have hjk : j = ni.toNat + (j - ni.toNat) := by omega
  have hxj : net.labels.getD j 0 = x := by rw [← hj]; exact getD_indexOf _ _ hx
  have hsz2 : ∀ i, i < B.length → sizeAt ri i = (B.getD i []).length := by
    intro i hi
    rw [hsz, hBsize i hi]
  have h1 := valAt_runNodes_inside act net.input_info c ni.toNat 0 ri (j - ni.toNat) hc
    (by rw [hlen, hrlen]; omega)
  rw [← hjk] at h1
  rw [h1]
  have h2 := sizeSum_offset B ri ni.toNat (j - ni.toNat) hsz2 (by rw [← hjk, hBlen]; omega)
  rw [← hjk, hoff] at h2
  rw [← h2, hsz2 j (by rw [hBlen]; exact hlt), blockSum_eq, hinfo,
    drop_take_flatten B j (by rw [hBlen]; exact hlt), hBget j (by rw [hBlen]; exact hlt), hxj]
  unfold emitBlock
  rw [List.foldl_append, foldl_blockOf, foldl_blockOf, zero_add]
  unfold runBefore
  rw [C.sizeIn, hinfo]

theorem SMap.getD_of_mem_nodup {K V : Type} [DecidableEq K] (m : SMap K V)
    (h : (SMap.keys m).Nodup) (k : K) (v d : V) (hm : (k, v) ∈ m) : SMap.getD m k d = v := by
  induction m with
  | nil => simp at hm
  | cons hd tl ih =>
    obtain ⟨k1, v1⟩ := hd
    simp only [SMap.keys, List.map_cons, List.nodup_cons, List.mem_map, not_exists,
      not_and] at h
    rcases List.mem_cons.1 hm with h1 | h1
    · injection h1 with h2 h3
      subst h2 h3
      simp [SMap.getD, SMap.find]
    · have hne : k1 ≠ k := by
        intro he
        exact h.1 (k, v) h1 he.symm
      have := ih h.2 h1
      simp only [SMap.getD, SMap.find, hne, if_false] at this ⊢
      exact this

theorem sum_preds_eq (it : List Int → List Int) (hit : ∀ l, (it l).Perm l)
    (fe : SMap (Int × Int) ℚ) (hnd : (SMap.keys fe).Nodup) (rev : SMap Int (List Int))
    (hpred : ∀ a b, a ∈ SMap.getD rev b [] ↔ (a, b) ∈ SMap.keys fe)
    (hpnd : ∀ b, (SMap.getD rev b []).Nodup) (f : Int → ℚ) (x : Int) :
    ((it (SMap.getD rev x [])).map (fun q => f q * SMap.getD fe (q, x) 0)).sum =
      ((fe.filter (fun e => decide (e.1.2 = x))).map (fun e => e.2 * f e.1.1)).sum := by
  have hfe : fe.Nodup := List.Nodup.of_map _ hnd
  have hinj : ∀ e1 ∈ fe, ∀ e2 ∈ fe, e1.1 = e2.1 → e1 = e2 :=
    fun e1 h1 e2 h2 h => List.inj_on_of_nodup_map hnd h1 h2 h
  have h1 : ((fe.filter (fun e => decide (e.1.2 = x))).map (fun e => e.2 * f e.1.1)) =
      (((fe.filter (fun e => decide (e.1.2 = x))).map (fun e => e.1.1)).map
        (fun q => f q * SMap.getD fe (q, x) 0)) := by
    rw [List.map_map]
    apply List.map_congr_left
    intro e he
    rw [List.mem_filter] at he
    obtain ⟨⟨a, b⟩, w⟩ := e
    have hb : b = x := by simpa using he.2
    subst hb
    simp only [Function.comp]
    rw [SMap.getD_of_mem_nodup fe hnd (a, b) w 0 he.1, mul_comm]
  rw [h1]
  apply List.Perm.sum_eq
  apply List.Perm.map
  apply (hit _).trans
  apply (List.perm_ext_iff_of_nodup (hpnd x) ?_).2
  · intro a
    rw [hpred]
    simp only [SMap.keys, List.mem_map, List.mem_filter, decide_eq_true_eq]
    constructor
    · rintro ⟨e, he, hk⟩
      exact ⟨e, ⟨he, by rw [hk]⟩, by rw [hk]⟩
    · rintro ⟨e, ⟨he, hx⟩, ha⟩
      exact ⟨e, he, by rw [← hx, ← ha]⟩
  · apply List.Nodup.map_on _ (hfe.filter _)
    intro e1 h1 e2 h2 h
    rw [List.mem_filter] at h1 h2
    apply hinj e1 h1.1 e2 h2.1
    have a1 : e1.1.2 = x := by simpa using h1.2
    have a2 : e2.1.2 = x := by simpa using h2.2
    exact Prod.ext h (by rw [a1, a2])

theorem runStart_length (ni : Int) (inp : List ℚ) (ri : List NeuronRunInfo) :
    (runStart ni inp ri).length = ri.length := by
  unfold runStart
  rw [setOutputVal_length, copyInputs_length]

theorem sizeAt_runStart (ni : Int) (inp : List ℚ) (ri : List NeuronRunInfo) (j : Nat) :
    sizeAt (runStart ni inp ri) j = sizeAt ri j := by
  unfold runStart
  rw [sizeAt_setOutputVal, sizeAt_copyInputs]

theorem valAt_runStart (ni : Int) (inp : List ℚ) (ri : List NeuronRunInfo) (j : Nat)
    (hni : 1 ≤ ni) (hin : (inp.length : Int) = ni - 1) (hlen : ni.toNat ≤ ri.length) :
    valAt (runStart ni inp ri) j =
      if j = (ni - 1).toNat then 1
      else if (j : Int) < ni - 1 then inp.getD j 0 else valAt ri j := by
  unfold runStart
  by_cases h : j = (ni - 1).toNat
  · rw [if_pos h, h, valAt_setOutputVal_self]
    rw [copyInputs_length]
    omega
  · rw [if_neg h, valAt_setOutputVal_ne _ _ _ _ h, valAt_copyInputs]
    by_cases h2 : (j : Int) < ni - 1
    · rw [if_pos h2, if_pos ⟨Nat.zero_le _, by omega, by omega⟩, Nat.sub_zero]
    · rw [if_neg h2, if_neg]
      intro hc
      omega

theorem runInfoAfter_eq (act : ℚ → ℚ) (net : Network) (ri0 : List NeuronRunInfo)
    (inp : List ℚ) :
    runInfoAfter act { net with run_info := ri0 } inp =
      runNodes act net.input_info (ri0.length - net.num_input_nodes.toNat)
        net.num_input_nodes.toNat 0 (runStart net.num_input_nodes inp ri0) := by
  unfold runInfoAfter
  simp only
  rw [← runStart, runStart_length]

theorem valAt_runBefore (act : ℚ → ℚ) (net : Network) (ri : List NeuronRunInfo) (j c i : Nat)
    (hj : net.num_input_nodes.toNat ≤ j) (hc : j - net.num_input_nodes.toNat ≤ c) :
    (i < j → valAt (runNodes act net.input_info c net.num_input_nodes.toNat 0 ri) i =
      valAt (runBefore act net ri j) i) ∧
    (j ≤ i → valAt (runBefore act net ri j) i = valAt ri i) := by
  constructor
  · intro hi
    have : c = (j - net.num_input_nodes.toNat) + (c - (j - net.num_input_nodes.toNat)) := by
      omega
    rw [this, runNodes_add, valAt_runNodes_outside _ _ _ _ _ _ _ (Or.inl (by omega))]
    rfl
  · intro hi
    unfold runBefore
    rw [valAt_runNodes_outside _ _ _ _ _ _ _ (Or.inr (by omega))]

theorem indexOf_of_getD (l : List Int) (hnd : l.Nodup) (j : Nat) (hj : j < l.length) (x : Int)
    (h : l.getD j 0 = x) : l.indexOf x = j := by
  rw [List.getD_eq_getElem _ _ hj] at h
  rw [← h]
  exact List.indexOf_getElem hnd j hj

theorem Compiled.indexOf_sensor {it : List Int → List Int} {ni no : Int}
    {fe re : SMap (Int × Int) ℚ} {rev : SMap Int (List Int)} {S : List Int} {D : SMap Int Int}
    {net : Network} (C : Compiled it ni no fe re rev S D net) (i : Nat) (hi : (i : Int) < ni) :
    net.labels.indexOf (i : Int) = i ∧ ni.toNat ≤ net.labels.length := by
  obtain ⟨rest, h1, h2, h3⟩ := C.labels_split
  have hlen : ni.toNat ≤ net.labels.length := by
    rw [h1, List.length_append, countUp_length]
    omega
  refine ⟨?_, hlen⟩
  apply indexOf_of_getD _ h3 _ (by omega)
  rw [h1, getD_append_left _ _ _ (by rw [countUp_length]; omega), countUp_getD _ _ (by omega)]

theorem Compiled.final_sensor {it : List Int → List Int} {ni no : Int}
    {fe re : SMap (Int × Int) ℚ} {rev : SMap Int (List Int)} {S : List Int} {D : SMap Int Int}
    {net : Network} (C : Compiled it ni no fe re rev S D net) (act : ℚ → ℚ)
    (ri0 : List NeuronRunInfo) (hlen : ri0.length = net.run_info.length) (inp : List ℚ)
    (hni : 1 ≤ ni) (hin : (inp.length : Int) = ni - 1) (i : Nat) (hi : (i : Int) < ni) :
    valAt (runInfoAfter act { net with run_info := ri0 } inp) i =
      if (i : Int) = ni - 1 then 1 else inp.getD i 0 := by
  rw [runInfoAfter_eq, C.sizeIn, valAt_runNodes_outside _ _ _ _ _ _ _ (Or.inl (by omega)),
    valAt_runStart ni inp ri0 i hni hin
      (by rw [hlen, C.run_info_length]; exact (C.indexOf_sensor 0 (by omega)).2)]
  by_cases h : (i : Int) = ni - 1
  · rw [if_pos h, if_pos (by omega)]
  · rw [if_neg h, if_neg (by omega), if_pos (by omega)]

theorem Compiled.final_node {it : List Int → List Int} {ni no : Int}
    {fe : SMap (Int × Int) ℚ} {rev : SMap Int (List Int)} {S : List Int} {D : SMap Int Int}
    {net : Network} (C : Compiled it ni no fe [] rev S D net) (hit : ∀ l, (it l).Perm l)
    (act : ℚ → ℚ) (ri0 : List NeuronRunInfo) (hlen : ri0.length = net.run_info.length)
    (hsz : ∀ j, sizeAt ri0 j = sizeAt net.run_info j) (inp : List ℚ)
    (x : Int) (hx : x ∈ net.labels) (hxs : IsInputNode ni x = false) :
    valAt (runInfoAfter act { net with run_info := ri0 } inp) (net.labels.indexOf x) =
      act ((it (SMap.getD rev x [])).map (fun q =>
        valAt (runInfoAfter act { net with run_info := ri0 } inp) (net.labels.indexOf q) *
          SMap.getD fe (q, x) 0)).sum := by
  have hrec : ∀ k ∈ SMap.keys ([] : SMap (Int × Int) ℚ), IsInputNode ni k.2 = false := by
    intro k hk
    simp [SMap.keys] at hk
  obtain ⟨hge, hlt⟩ := C.index_ge x hx hxs
  rw [runInfoAfter_eq, C.sizeIn]
  rw [C.run_value hit hrec act (runStart ni inp ri0) (by rw [runStart_length, hlen])
    (fun j => by rw [sizeAt_runStart, hsz]) x hx hxs _
    (by rw [hlen, C.run_info_length]; omega)]
  have hre : SMap.getD net.adjacency_list_recurrent_rev x [] = [] := by
    apply List.eq_nil_iff_forall_not_mem.2
    intro a ha
    have := (C.rec_iff a x).1 ha
    simp [SMap.keys] at this
  rw [hre, (hit []).eq_nil, List.map_nil, List.sum_nil, add_zero]
  congr 2
  apply List.map_congr_left
  intro q hq
  have hqx : (q, x) ∈ SMap.keys fe := (C.pred_iff q x).1 ((hit _).mem_iff.1 hq)
  have hql : q ∈ net.labels := by
    rw [C.mem_labels]
    right; right
    rw [mem_endpoints]
    exact ⟨(q, x), hqx, Or.inl rfl⟩
  have hxl : x ∈ SMap.keys D := by
    rw [← mem_idsOf, ← C.labels_eq]; exact hx
  have hqk : q ∈ SMap.keys D := by
    rw [← mem_idsOf, ← C.labels_eq]; exact hql
  have hidx : net.labels.indexOf q < net.labels.indexOf x := by
    rw [C.labels_eq, indexOf_lt_iff D C.depth.wf q x hqk hxl]
    exact Or.inl (C.depth.edge q x hqx)
  rw [indexMap_getD _ (idsOf_nodup D C.depth.wf) q (by rw [← C.labels_eq]; exact hql),
    ← C.labels_eq]
  have h1 := (valAt_runBefore act net (runStart ni inp ri0) (net.labels.indexOf x)
    (ri0.length - ni.toNat) (net.labels.indexOf q) (by rw [C.sizeIn]; exact hge)
    (by rw [C.sizeIn, hlen, C.run_info_length]; omega)).1 hidx
  rw [C.sizeIn] at h1
  rw [h1]

theorem Compiled.depth_nonneg {it : List Int → List Int} {ni no : Int}
    {fe re : SMap (Int × Int) ℚ} {rev : SMap Int (List Int)} {S : List Int} {D : SMap Int Int}
    {net : Network} (C : Compiled it ni no fe re rev S D net) (x : Int) (hx : x ∈ net.labels) :
    0 ≤ SMap.getD D x 0 := by
  have hxS : x ∈ S := by
    rw [← C.depth.keys_iff, ← mem_idsOf, ← C.labels_eq]; exact hx
  cases h : IsInputNode ni x
  · have := C.depth.pos x hxS h
    omega
  · rw [C.depth.sensor0 x h]

theorem Compiled.final_eq_reference {it : List Int → List Int} {ni no : Int}
    {fe : SMap (Int × Int) ℚ} {rev : SMap Int (List Int)} {S : List Int} {D : SMap Int Int}
    {net : Network} (C : Compiled it ni no fe [] rev S D net) (hit : ∀ l, (it l).Perm l)
    (hnd : (SMap.keys fe).Nodup)
    (act : ℚ → ℚ) (ri0 : List NeuronRunInfo) (hlen : ri0.length = net.run_info.length)
    (hsz : ∀ j, sizeAt ri0 j = sizeAt net.run_info j) (inp : List ℚ)
    (hni : 1 ≤ ni) (hin : (inp.length : Int) = ni - 1) (val : Int → ℚ)
    (hv : ReferenceValue act ni fe inp val) (d : Nat) :
    ∀ x ∈ net.labels, SMap.getD D x 0 < (d : Int) →
      valAt (runInfoAfter act { net with run_info := ri0 } inp) (net.labels.indexOf x) =
        val x := by
  induction d with
  | zero =>
    intro x hx hd
    have := C.depth_nonneg x hx
    simp only [Nat.cast_zero] at hd
    omega
  | succ d ih =>
    intro x hx hd
    cases hs : IsInputNode ni x
    · rw [C.final_node hit act ri0 hlen hsz inp x hx hs, hv.node x hs,
        ← sum_preds_eq it hit fe hnd rev C.pred_iff C.pred_nodup val x]
      congr 2
      apply List.map_congr_left
      intro q hq
      have hqx : (q, x) ∈ SMap.keys fe := (C.pred_iff q x).1 ((hit _).mem_iff.1 hq)
      have hql : q ∈ net.labels := by
        rw [C.mem_labels]
        right; right
        rw [mem_endpoints]
        exact ⟨(q, x), hqx, Or.inl rfl⟩
      have := C.depth.edge q x hqx
      rw [ih q hql (by push_cast at hd; omega)]
    · rw [IsInputNode_iff] at hs
      have hxn : x = ((x.toNat : Nat) : Int) := by omega
      rw [hxn, (C.indexOf_sensor x.toNat (by omega)).1,
        C.final_sensor act ri0 hlen inp hni hin x.toNat (by omega)]
      by_cases hb : x = ni - 1
      · rw [if_pos (by omega), ← hxn, hb, hv.bias]
      · rw [if_neg (by omega), hv.sensor x.toNat (by omega)]

theorem range_getD (n k : Nat) (h : k < n) : (List.range n).getD k 0 = k := by
  rw [List.getD_eq_getElem _ _ (by rw [List.length_range]; exact h), List.getElem_range]

theorem Compiled.reference_exists {it : List Int → List Int} {ni no : Int}
    {fe : SMap (Int × Int) ℚ} {rev : SMap Int (List Int)} {S : List Int} {D : SMap Int Int}
    {net : Network} (C : Compiled it ni no fe [] rev S D net) (hit : ∀ l, (it l).Perm l)
    (hnd : (SMap.keys fe).Nodup) (act : ℚ → ℚ) (inp : List ℚ)
    (hni : 1 ≤ ni) (hin : (inp.length : Int) = ni - 1) :
    ∃ val, ReferenceValue act ni fe inp val := by
  have key : ∀ V : Int → ℚ,
      (∀ x, x ∈ net.labels → V x =
        valAt (runInfoAfter act { net with run_info := net.run_info } inp)
          (net.labels.indexOf x)) →
      (∀ x, x ∉ net.labels → V x = act 0) → ReferenceValue act ni fe inp V := by
    intro V hV hV2
    refine ⟨?_, ?_, ?_⟩
    · intro i hi
      have hm : (i : Int) ∈ net.labels := by
        rw [C.mem_labels, IsInputNode_iff]
        left; omega
      rw [hV _ hm, (C.indexOf_sensor i (by omega)).1,
        C.final_sensor act _ rfl inp hni hin i (by omega), if_neg (by omega)]
    · have hm : (ni - 1) ∈ net.labels := by
        rw [C.mem_labels, IsInputNode_iff]
        left; omega
      rw [hV _ hm]
      have hxn : ni - 1 = (((ni - 1).toNat : Nat) : Int) := by omega
      rw [hxn, (C.indexOf_sensor (ni - 1).toNat (by omega)).1,
        C.final_sensor act _ rfl inp hni hin (ni - 1).toNat (by omega), if_pos (by omega)]
    · intro n hn
      by_cases hm : n ∈ net.labels
      · rw [hV _ hm, C.final_node hit act _ rfl (fun _ => rfl) inp n hm hn,
          ← sum_preds_eq it hit fe hnd rev C.pred_iff C.pred_nodup V n]
        congr 2
        apply List.map_congr_left
        intro q hq
        have hqx : (q, n) ∈ SMap.keys fe := (C.pred_iff q n).1 ((hit _).mem_iff.1 hq)
        have hql : q ∈ net.labels := by
          rw [C.mem_labels]
          right; right
          rw [mem_endpoints]
          exact ⟨(q, n), hqx, Or.inl rfl⟩
        rw [hV _ hql]
      · rw [hV2 _ hm]
        have he : fe.filter (fun e => decide (e.1.2 = n)) = [] := by
          apply List.eq_nil_iff_forall_not_mem.2
          intro e he
          rw [List.mem_filter] at he
          apply hm
          rw [C.mem_labels]
          right; right
          rw [mem_endpoints]
          exact ⟨e.1, List.mem_map_of_mem _ he.1, Or.inr (of_decide_eq_true he.2).symm⟩
        rw [he, List.map_nil, List.sum_nil]
  exact ⟨fun x => if x ∈ net.labels then
    valAt (runInfoAfter act { net with run_info := net.run_info } inp) (net.labels.indexOf x)
    else act 0, key _ (fun x hx => if_pos hx) (fun x hx => if_neg hx)⟩

/-- C9, amended: for a genome with at least one input besides the bias and at
least one output, without recurrent edges, whose forward edges have no cycle,
do not enter a sensor and do not lead from an output to a non-output, the
compiled network exists, a graph-recursive reference value `val` exists, and
`Run` on an input vector of `num_inputs - 1` entries and an output vector of
`num_outputs` entries returns `true` and writes `val (num_inputs + k)` to
`out[k]`, whatever output values `ri0` earlier runs left in `run_info`. -/
theorem Run_computes_reference (it : List Int → List Int) (hit : ∀ l, (it l).Perm l)
    (act : ℚ → ℚ) (g : Genome) (hre : g.recurrent_edges = [])
    (hnd : (SMap.keys g.forward_edges).Nodup)
    (hok : ForwardOK g.num_input_nodes g.num_output_nodes (SMap.keys g.forward_edges))
    (hni : 2 ≤ g.num_input_nodes) (hno : 1 ≤ g.num_output_nodes) (fuel : Nat)
    (hf : sortFuel g.num_input_nodes g.num_output_nodes g.forward_edges.length ≤ fuel)
    (inp out : List ℚ) (hin : (inp.length : Int) = g.num_input_nodes - 1)
    (hout : (out.length : Int) = g.num_output_nodes) :
    ∃ net, GenerateNetwork it fuel g = some net ∧
      (∃ val, ReferenceValue act g.num_input_nodes g.forward_edges inp val) ∧
      ∀ ri0 : List NeuronRunInfo, ri0.length = net.run_info.length →
        (∀ j, sizeAt ri0 j = sizeAt net.run_info j) →
        (Run act { net with run_info := ri0 } inp out).1 = true ∧
        ∀ val, ReferenceValue act g.num_input_nodes g.forward_edges inp val →
          ∀ k : Nat, (k : Int) < g.num_output_nodes →
            (Run act { net with run_info := ri0 } inp out).2.2.getD k 0 =
              val (g.num_input_nodes + (k : Int)) := by
  obtain ⟨rev, S, D, net, hb, C⟩ := Network.build_ok it hit g.num_input_nodes
    g.num_output_nodes g.forward_edges g.recurrent_edges hok fuel hf
  rw [hre] at C
  refine ⟨net, hb, C.reference_exists hit hnd act inp (by omega) hin, ?_⟩
  intro ri0 hlen hsz
  have hrun : Run act { net with run_info := ri0 } inp out =
      (true, { net with run_info := runInfoAfter act { net with run_info := ri0 } inp },
        readOutputs { net with run_info := ri0 }
          (runInfoAfter act { net with run_info := ri0 } inp)) := by
    unfold Run
    have h1 : Network.IsInvalid { net with run_info := ri0 } = false := by
      simp only [Network.IsInvalid, C.sizeIn, C.sizeOut, Bool.or_eq_false_iff,
        decide_eq_false_iff_not, not_lt]
      exact ⟨hni, hno⟩
    rw [h1]
    simp only [Bool.false_eq_true, if_false, C.sizeIn, C.sizeOut, hin, hout, ne_eq,
      not_true_eq_false]
  rw [hrun]
  refine ⟨rfl, ?_⟩
  intro val hv k hk
  simp only [readOutputs, C.sizeOut]
  rw [getD_map_of_lt _ _ _ (by rw [List.length_range]; omega) 0 0,
    range_getD _ _ (by omega), C.output_indices_eq k hk, ← C.labels_eq]
  have hm : g.num_input_nodes + (k : Int) ∈ net.labels := by
    rw [C.mem_labels, IsOutputNode_iff]
    right; left; omega
  exact C.final_eq_reference hit hnd act ri0 hlen hsz inp (by omega) hin val hv
    ((SMap.getD D (g.num_input_nodes + (k : Int)) 0).toNat + 1) _ hm
    (by have := C.depth_nonneg _ hm; push_cast; omega)

/-- C9, witness: the genome `0 → 3 → 2` on the input `3`. -/
theorem Run_computes_reference_witness :
    ∃ net, GenerateNetwork id 11 genomeB = some net ∧
      (∃ val, ReferenceValue halve 2 genomeB.forward_edges [3] val) ∧
      ∀ ri0 : List NeuronRunInfo, ri0.length = net.run_info.length →
        (∀ j, sizeAt ri0 j = sizeAt net.run_info j) →
        (Run halve { net with run_info := ri0 } [3] [0]).1 = true ∧
        ∀ val, ReferenceValue halve 2 genomeB.forward_edges [3] val →
          ∀ k : Nat, (k : Int) < 1 →
            (Run halve { net with run_info := ri0 } [3] [0]).2.2.getD k 0 =
              val (2 + (k : Int)) :=
  Run_computes_reference id (fun l => List.Perm.refl l) halve genomeB rfl (by decide)
    genomeB_forwardOK (by decide) (by decide) 11 (by decide) [3] [0] (by decide) (by decide)

/-- C9 as stated fails: the genome `genomeNoInput` has only the enabled forward
edge `(0,1)` from the bias to the output, which closes no cycle, enters no
sensor and leaves no output; the empty input vector has `num_inputs - 1 = 0`
entries; yet `Run` on the compiled network returns `false` and leaves `out`
as it was. -/
theorem Run_rejects_genome_without_input :
    genomeNoInput.recurrent_edges = [] ∧
    ForwardOK genomeNoInput.num_input_nodes genomeNoInput.num_output_nodes
      (SMap.keys genomeNoInput.forward_edges) ∧
    ((([] : List ℚ).length : Int) = genomeNoInput.num_input_nodes - 1) ∧
    ∃ net, GenerateNetwork id 11 genomeNoInput = some net ∧
      net.run_info.length = 2 ∧
      (Run halve net [] [7]).1 = false ∧ (Run halve net [] [7]).2.2 = [7] := by
  refine ⟨rfl, ⟨by decide, by decide, acyclic_of_rank _ (fun x => x) (by decide)⟩, by decide,
    _, rfl, by decide, by decide, by decide⟩

/-! ## The breadth-first search of `CheckRecurrent` -/

theorem bfsVisit_foldl (l : List Int) (st : List Int × List Int) :
    (∀ x, x ∈ (l.foldl bfsVisit st).1 ↔ x ∈ st.1 ∨ x ∈ l) ∧
    (∀ x, x ∈ (l.foldl bfsVisit st).2 → x ∈ st.2 ∨ x ∈ l) ∧
    (∀ x, x ∈ st.2 → x ∈ (l.foldl bfsVisit st).2) ∧
    (∀ x, x ∈ l → x ∉ st.1 → x ∈ (l.foldl bfsVisit st).2) := by
  induction l generalizing st with
  | nil => simp
  | cons e tl ih =>
    obtain ⟨h1, h2, h3, h4⟩ := ih (bfsVisit st e)
    simp only [List.foldl_cons]
    have hv1 : ∀ x, x ∈ (bfsVisit st e).1 ↔ x ∈ st.1 ∨ x = e := by
      intro x
      unfold bfsVisit
      split
      · constructor
        · exact Or.inl
        · rintro (h | rfl)
          · exact h
          · assumption
      · simp only [USet.mem_insert]
        tauto
    have hv2 : ∀ x, x ∈ (bfsVisit st e).2 ↔ x ∈ st.2 ∨ (x = e ∧ e ∉ st.1) := by
      intro x
      unfold bfsVisit
      split
      · constructor
        · exact Or.inl
        · rintro (h | ⟨_, h⟩)
          · exact h
          · contradiction
      · simp only [List.mem_append, List.mem_singleton]
        tauto
    refine ⟨?_, ?_, ?_, ?_⟩
    · intro x
      rw [h1, hv1, List.mem_cons]
      tauto
    · intro x hx
      rcases h2 x hx with h | h
      · rw [hv2] at h
        rw [List.mem_cons]
        tauto
      · exact Or.inr (List.mem_cons_of_mem _ h)
    · intro x hx
      exact h3 x ((hv2 x).2 (Or.inl hx))
    · intro x hx hn
      rcases List.mem_cons.1 hx with rfl | hx
      · exact h3 x ((hv2 x).2 (Or.inr ⟨rfl, hn⟩))
      · by_cases hxe : x = e
        · subst hxe
          exact h3 x ((hv2 x).2 (Or.inr ⟨rfl, hn⟩))
        · apply h4 x hx
          rw [hv1]
          tauto

/-- When the search answers `true`, the target is reachable from the start
node along the adjacency map, or a reachable node is no key of the map. -/
theorem bfsLoop_true (it : List Int → List Int) (hit : ∀ l, (it l).Perm l)
    (adj : SMap Int (List Int)) (tgt b : Int) (fuel : Nat) :
    ∀ disc front, (∀ x ∈ front, Relation.ReflTransGen (AdjRel adj) b x) →
      bfsLoop it adj tgt fuel disc front = some true →
      Relation.ReflTransGen (AdjRel adj) b tgt ∨
        ∃ x, Relation.ReflTransGen (AdjRel adj) b x ∧ SMap.find adj x = none := by
  induction fuel with
  | zero =>
    intro disc front _ h
    simp [bfsLoop] at h
  | succ fuel ih =>
    intro disc front hf h
    cases front with
    | nil => simp [bfsLoop] at h
    | cons cur rest =>
      have hcur := hf cur (List.mem_cons_self _ _)
      by_cases hc : cur = tgt
      · left
        rw [← hc]
        exact hcur
      · cases hfind : SMap.find adj cur with
        | none => exact Or.inr ⟨cur, hcur, hfind⟩
        | some succs =>
          simp only [bfsLoop, hc, if_false, hfind] at h
          apply ih _ _ _ h
          intro x hx
          rcases (bfsVisit_foldl (it succs) (disc, rest)).2.1 x hx with hx1 | hx1
          · exact hf x (List.mem_cons_of_mem _ hx1)
          · apply Relation.ReflTransGen.tail hcur
            unfold AdjRel
            rw [SMap.getD_of_find adj cur succs [] hfind]
            exact (hit succs).mem_iff.1 hx1

/-- When the search answers `false`, a set of nodes holds every discovered
node, is closed under the adjacency map and misses the target. -/
theorem bfsLoop_false (it : List Int → List Int) (hit : ∀ l, (it l).Perm l)
    (adj : SMap Int (List Int)) (tgt : Int) (fuel : Nat) :
    ∀ disc front,
      (∀ x ∈ disc, x ∈ front ∨ (x ≠ tgt ∧ ∀ y, AdjRel adj x y → y ∈ disc)) →
      bfsLoop it adj tgt fuel disc front = some false →
      ∃ C : List Int, (∀ x ∈ disc, x ∈ C) ∧ tgt ∉ C ∧
        ∀ x ∈ C, ∀ y, AdjRel adj x y → y ∈ C := by
  induction fuel with
  | zero =>
    intro disc front _ h
    simp [bfsLoop] at h
  | succ fuel ih =>
    intro disc front hinv h
    cases front with
    | nil =>
      refine ⟨disc, fun x hx => hx, ?_, ?_⟩
      · intro ht
        rcases hinv tgt ht with h1 | h1
        · simp at h1
        · exact h1.1 rfl
      · intro x hx y hy
        rcases hinv x hx with h1 | h1
        · simp at h1
        · exact h1.2 y hy
    | cons cur rest =>
      by_cases hc : cur = tgt
      · simp [bfsLoop, hc] at h
      · cases hfind : SMap.find adj cur with
        | none => simp [bfsLoop, hc, hfind] at h
        | some succs =>
          simp only [bfsLoop, hc, if_false, hfind] at h
          obtain ⟨f1, f2, f3, f4⟩ := bfsVisit_foldl (it succs) (disc, rest)
          obtain ⟨C, hC1, hC2, hC3⟩ := ih _ _ (by
            intro x hx
            rw [f1] at hx
            by_cases hxd : x ∈ disc
            · rcases hinv x hxd with h1 | h1
              · rcases List.mem_cons.1 h1 with h2 | h2
                · right
                  rw [h2]
                  refine ⟨hc, ?_⟩
                  intro y hy
                  rw [f1]
                  right
                  unfold AdjRel at hy
                  rw [SMap.getD_of_find adj cur succs [] hfind] at hy
                  exact (hit succs).mem_iff.2 hy
                · exact Or.inl (f3 x h2)
              · right
                refine ⟨h1.1, ?_⟩
                intro y hy
                rw [f1]
                exact Or.inl (h1.2 y hy)
            · rcases hx with hx | hx
              · exact absurd hx hxd
              · exact Or.inl (f4 x hx hxd)) h
          refine ⟨C, ?_, hC2, hC3⟩
          intro x hx
          exact hC1 x ((f1 x).2 (Or.inl hx))

/-- After the answer `false` of `CheckRecurrent it net a b` no path of the
adjacency list leads from `b` to `a`. -/
theorem CheckRecurrent_false_no_path (it : List Int → List Int) (hit : ∀ l, (it l).Perm l)
    (net : Network) (a b : Int) (h : CheckRecurrent it net a b = some false) :
    a ≠ b ∧ ¬ Relation.ReflTransGen (AdjRel net.adjacency_list) b a := by
  obtain ⟨h1, _, h3⟩ := CheckRecurrent_false it net a b h
  refine ⟨h1, ?_⟩
  obtain ⟨C, hC1, hC2, hC3⟩ := bfsLoop_false it hit net.adjacency_list a _ [b] [b]
    (by intro x hx; exact Or.inl hx) h3
  intro hp
  have : ∀ y, Relation.ReflTransGen (AdjRel net.adjacency_list) b y → y ∈ C := by
    intro y hy
    induction hy with
    | refl => exact hC1 b (List.mem_singleton_self b)
    | tail _ hbc ih => exact hC3 _ ih _ hbc
  exact hC2 (this a hp)

/-- After the answer `true` of `CheckRecurrent it net a b`: `a = b`, or `a`
is an output and `b` is not, or a path of the adjacency list leads from `b` to
`a`, or a node on such a path is no key of the adjacency list. -/
theorem CheckRecurrent_true (it : List Int → List Int) (hit : ∀ l, (it l).Perm l)
    (net : Network) (a b : Int) (h : CheckRecurrent it net a b = some true) :
    a = b ∨
    (IsOutputNode net.num_input_nodes net.num_output_nodes a = true ∧
      IsOutputNode net.num_input_nodes net.num_output_nodes b = false) ∨
    Relation.ReflTransGen (AdjRel net.adjacency_list) b a ∨
    ∃ x, Relation.ReflTransGen (AdjRel net.adjacency_list) b x ∧
      SMap.find net.adjacency_list x = none := by
  unfold CheckRecurrent at h
  by_cases h1 : a = b
  · exact Or.inl h1
  · by_cases h2 : (IsOutputNode net.num_input_nodes net.num_output_nodes a &&
        !IsOutputNode net.num_input_nodes net.num_output_nodes b) = true
    · right; left
      simpa using h2
    · simp only [h1, h2, if_false] at h
      right; right
      apply bfsLoop_true it hit net.adjacency_list a b _ [b] [b] _ h
      intro x hx
      rw [List.mem_singleton.1 hx]

/-! ## C10: recurrent edges read the value of the previous run -/

theorem Network.build_forward_part (it : List Int → List Int) (fuel : Nat) (ni no : Int)
    (fe re re2 : SMap (Int × Int) ℚ) :
    (Network.build it fuel ni no fe re).map (fun n => (n.visual_info, n.adjacency_list)) =
      (Network.build it fuel ni no fe re2).map (fun n => (n.visual_info, n.adjacency_list)) := by
  unfold Network.build
  simp only
  cases readForward ni no fe (initAdjacency (ni + no)) (initAdjacency (ni + no)) with
  | error adj => rfl
  | ok p =>
    obtain ⟨adj, rev⟩ := p
    simp only
    cases sortLoop1 it ni no fuel
        { sortedNodes := initialSorted ni no rev, sortedNodesIndex := 0, adj := adj,
          rev := rev } with
    | none => rfl
    | some st1 =>
      simp only
      cases sortLoop2 it ni no fuel
          { st1 with sortedNodes := pushOutputSources ni no st1.rev st1.sortedNodes } with
      | none => rfl
      | some r =>
        cases r with
        | error adj2 => rfl
        | ok st2 => rfl

theorem path_rank (adj : SMap Int (List Int)) (E : List (Int × Int)) (rank : Int → Int)
    (hadj : ∀ a b, AdjRel adj a b → (a, b) ∈ E) (hrank : ∀ k ∈ E, rank k.1 < rank k.2)
    (b a : Int) (h : Relation.ReflTransGen (AdjRel adj) b a) : b = a ∨ rank b < rank a := by
  induction h with
  | refl => exact Or.inl rfl
  | tail _ hbc ih =>
    right
    have := hrank _ (hadj _ _ hbc)
    rcases ih with h1 | h1
    · rw [h1]; exact this
    · exact lt_trans h1 this

theorem Compiled.path_label {it : List Int → List Int} {ni no : Int}
    {fe re : SMap (Int × Int) ℚ} {rev : SMap Int (List Int)} {S : List Int} {D : SMap Int Int}
    {net : Network} (C : Compiled it ni no fe re rev S D net) (b x : Int)
    (hb : b ∈ net.labels) (h : Relation.ReflTransGen (AdjRel net.adjacency_list) b x) :
    x ∈ net.labels := by
  induction h with
  | refl => exact hb
  | tail _ hbc _ =>
    rw [C.mem_labels, mem_endpoints]
    exact Or.inr (Or.inr ⟨_, (C.adj_iff _ _).1 hbc, Or.inr rfl⟩)

theorem Compiled.label_key {it : List Int → List Int} {ni no : Int}
    {fe re : SMap (Int × Int) ℚ} {rev : SMap Int (List Int)} {S : List Int} {D : SMap Int Int}
    {net : Network} (C : Compiled it ni no fe re rev S D net) (hni : 0 ≤ ni) (hno : 0 ≤ no)
    (x : Int) (hx : x ∈ net.labels) : x ∈ SMap.keys net.adjacency_list := by
  apply C.adj_keys
  rw [C.mem_labels, IsInputNode_iff, IsOutputNode_iff] at hx
  rcases hx with h | h | h
  · left; omega
  · left; omega
  · exact Or.inr h

theorem Compiled.recurrent_order {it : List Int → List Int} {ni no : Int}
    {fe re re2 : SMap (Int × Int) ℚ} {rev rev2 : SMap Int (List Int)} {S S2 : List Int}
    {D D2 : SMap Int Int} {net net2 : Network} (C : Compiled it ni no fe re rev S D net)
    (C2 : Compiled it ni no fe re2 rev2 S2 D2 net2) (hit : ∀ l, (it l).Perm l)
    (hni : 0 ≤ ni) (hno : 0 ≤ no) (a b : Int) (ha : a ∈ net.labels) (hb : b ∈ net.labels)
    (h : CheckRecurrent it net a b = some true) :
    net2.labels.indexOf b ≤ net2.labels.indexOf a := by
  have hl : ∀ x, x ∈ net.labels → x ∈ SMap.keys D2 := by
    intro x hx
    rw [← mem_idsOf, ← C2.labels_eq, C2.mem_labels, ← C.mem_labels]
    exact hx
  have hlt : SMap.getD D2 b 0 < SMap.getD D2 a 0 →
      net2.labels.indexOf b ≤ net2.labels.indexOf a := by
    intro hd
    rw [C2.labels_eq]
    exact le_of_lt ((indexOf_lt_iff D2 C2.depth.wf b a (hl b hb) (hl a ha)).2 (Or.inl hd))
  rcases CheckRecurrent_true it hit net a b h with h1 | h1 | h1 | h1
  · rw [h1]
  · rw [C.sizeIn, C.sizeOut] at h1
    apply hlt
    apply C2.depth.outAbove a _ b _ h1.1 h1.2
    · rw [← C2.depth.keys_iff]; exact hl a ha
    · rw [← C2.depth.keys_iff]; exact hl b hb
  · rcases path_rank net.adjacency_list (SMap.keys fe) (fun x => SMap.getD D2 x 0)
      (fun x y hxy => (C.adj_iff x y).1 hxy) (fun k hk => C2.depth.edge k.1 k.2 hk) b a h1
      with h2 | h2
    · rw [h2]
    · exact hlt h2
  · obtain ⟨x, hx1, hx2⟩ := h1
    exfalso
    rw [SMap.find_eq_none_iff] at hx2
    exact hx2 (C.label_key hni hno x (C.path_label b x hb hx1))

/-- C10, amended: let the forward edges of a genome with at least one input and
one output have no cycle, enter no sensor and leave no output for a
non-output. If `CheckRecurrent` classifies the pair `(a, b)` of nodes of the
compiled network as recurrent, then in the network compiled after `(a, b)` is
inserted into `recurrent_edges` the node order is unchanged, the index of `a`
is at least the index of `b`, `a` is a recurrent predecessor of `b`, and, when
`b` is no sensor, the slot of `a` still holds the output value `ri0` had
before the call at the moment `Run` turns to the slot of `b`. -/
theorem recurrent_edge_reads_previous (it : List Int → List Int) (hit : ∀ l, (it l).Perm l)
    (act : ℚ → ℚ) (g : Genome)
    (hok : ForwardOK g.num_input_nodes g.num_output_nodes (SMap.keys g.forward_edges))
    (hni : 2 ≤ g.num_input_nodes) (hno : 1 ≤ g.num_output_nodes) (fuel : Nat)
    (hf : sortFuel g.num_input_nodes g.num_output_nodes g.forward_edges.length ≤ fuel)
    (a b : Int) (w : ℚ) (inp : List ℚ) (hin : (inp.length : Int) = g.num_input_nodes - 1) :
    ∃ net net2, GenerateNetwork it fuel g = some net ∧
      GenerateNetwork it fuel
        { g with recurrent_edges := SMap.set g.recurrent_edges (a, b) w } = some net2 ∧
      net2.labels = net.labels ∧
      (a ∈ net.labels → b ∈ net.labels → CheckRecurrent it net a b = some true →
        net2.labels.indexOf b ≤ net2.labels.indexOf a ∧
        a ∈ SMap.getD net2.adjacency_list_recurrent_rev b [] ∧
        (IsInputNode g.num_input_nodes b = false →
          ∀ ri0 : List NeuronRunInfo, ri0.length = net2.run_info.length →
            valAt (runBefore act net2 (runStart g.num_input_nodes inp ri0)
              (net2.labels.indexOf b)) (net2.labels.indexOf a) =
              valAt ri0 (net2.labels.indexOf a))) := by
  obtain ⟨rev, S, D, net, hb, C⟩ := Network.build_ok it hit g.num_input_nodes
    g.num_output_nodes g.forward_edges g.recurrent_edges hok fuel hf
  obtain ⟨rev2, S2, D2, net2, hb2, C2⟩ := Network.build_ok it hit g.num_input_nodes
    g.num_output_nodes g.forward_edges (SMap.set g.recurrent_edges (a, b) w) hok fuel hf
  have hfp := Network.build_forward_part it fuel g.num_input_nodes g.num_output_nodes
    g.forward_edges g.recurrent_edges (SMap.set g.recurrent_edges (a, b) w)
  rw [hb, hb2] at hfp
  simp only [Option.map_some', Option.some.injEq, Prod.mk.injEq] at hfp
  have hlab : net2.labels = net.labels := by
    unfold Network.labels
    rw [hfp.1]
  refine ⟨net, net2, hb, hb2, hlab, ?_⟩
  intro ha hbl hc
  have hord := C.recurrent_order C2 hit (by omega) (by omega) a b ha hbl hc
  refine ⟨hord, ?_, ?_⟩
  · rw [C2.rec_iff, ← SMap.find_isSome_iff_mem_keys, SMap.find_set_self]
    rfl
  · intro hbs ri0 hlen
    obtain ⟨hge, hlt⟩ := C2.index_ge b (by rw [hlab]; exact hbl) hbs
    have h1 := (valAt_runBefore act net2 (runStart g.num_input_nodes inp ri0)
      (net2.labels.indexOf b) (net2.labels.indexOf b - net2.num_input_nodes.toNat)
      (net2.labels.indexOf a) (by rw [C2.sizeIn]; exact hge) (le_refl _)).2 hord
    rw [h1, valAt_runStart _ inp ri0 _ (by omega) hin
      (by rw [hlen, C2.run_info_length]; omega), if_neg (by omega), if_neg (by omega)]

/-- C10, witness: the genome `0 → 3 → 2` and the pair `(2, 3)`, which
`CheckRecurrent` classifies as recurrent. -/
theorem recurrent_edge_reads_previous_witness :
    (∃ net, GenerateNetwork id 11 genomeB = some net ∧ 2 ∈ net.labels ∧ 3 ∈ net.labels ∧
      CheckRecurrent id net 2 3 = some true) ∧
    ∃ net net2, GenerateNetwork id 11 genomeB = some net ∧
      GenerateNetwork id 11
        { genomeB with recurrent_edges := SMap.set genomeB.recurrent_edges (2, 3) 4 } =
        some net2 ∧
      net2.labels = net.labels ∧
      (2 ∈ net.labels → 3 ∈ net.labels → CheckRecurrent id net 2 3 = some true →
        net2.labels.indexOf 3 ≤ net2.labels.indexOf 2 ∧
        2 ∈ SMap.getD net2.adjacency_list_recurrent_rev 3 [] ∧
        (IsInputNode genomeB.num_input_nodes 3 = false →
          ∀ ri0 : List NeuronRunInfo, ri0.length = net2.run_info.length →
            valAt (runBefore halve net2 (runStart genomeB.num_input_nodes [10] ri0)
              (net2.labels.indexOf 3)) (net2.labels.indexOf 2) =
              valAt ri0 (net2.labels.indexOf 2))) :=
  ⟨⟨_, rfl, by decide, by decide, by decide⟩,
    recurrent_edge_reads_previous id (fun l => List.Perm.refl l) halve genomeB
      genomeB_forwardOK (by decide) (by decide) 11 (by decide) 2 3 4 [10] (by decide)⟩

/-- C10 as stated fails: the forward graph of `genomeIntoSensor`, the single
edge `(3,0)`, has no cycle, and `CheckRecurrent` classifies the pair `(0, 3)`
of nodes of its network as recurrent; in the network compiled after `(0,3)` is
inserted into `recurrent_edges` the node `0` has the index `0` and the node
`3` the index `2`, and when `Run` on the input `10` turns to the slot of `3`
the slot of `0` holds the input `10` of this run, not the value `0` it held
before. -/
theorem recurrent_source_before_target :
    Acyclic (SMap.keys genomeIntoSensor.forward_edges) ∧
    ∃ net net2, GenerateNetwork id 9 genomeIntoSensor = some net ∧
      GenerateNetwork id 9 genomeIntoSensor2 = some net2 ∧
      0 ∈ net.labels ∧ 3 ∈ net.labels ∧ CheckRecurrent id net 0 3 = some true ∧
      net2.labels = net.labels ∧
      net2.labels.indexOf 0 = 0 ∧ net2.labels.indexOf 3 = 2 ∧
      valAt net2.run_info 0 = 0 ∧
      valAt (runBefore halve net2 (runStart 2 [10] net2.run_info) 2) 0 = 10 := by
  refine ⟨acyclic_of_rank _ (fun x => -x) (by decide), _, _, rfl, rfl, by decide, by decide,
    by decide, by decide, by decide, by decide, by rfl, by rfl⟩

/-! ## Paths and cycles -/

theorem transGen_add_edge (r r1 : Int → Int → Prop) (a b : Int)
    (hno : ¬ Relation.ReflTransGen r b a)
    (hsub : ∀ x y, r1 x y → (x = a ∧ y = b) ∨ r x y) (x y : Int)
    (h : Relation.TransGen r1 x y) :
    Relation.TransGen r x y ∨
      (Relation.ReflTransGen r x a ∧ Relation.ReflTransGen r b y) := by
  induction h with
  | single hxy =>
    rcases hsub _ _ hxy with ⟨h1, h2⟩ | h1
    · right
      rw [h1, h2]
      exact ⟨Relation.ReflTransGen.refl, Relation.ReflTransGen.refl⟩
    · exact Or.inl (Relation.TransGen.single h1)
  | tail _ hmy ih =>
    rcases hsub _ _ hmy with ⟨h1, h2⟩ | h1
    · rcases ih with h3 | h3
      · right
        rw [h2]
        rw [h1] at h3
        exact ⟨h3.to_reflTransGen, Relation.ReflTransGen.refl⟩
      · exfalso
        rw [h1] at h3
        exact hno h3.2
    · rcases ih with h3 | h3
      · exact Or.inl (Relation.TransGen.tail h3 h1)
      · exact Or.inr ⟨h3.1, Relation.ReflTransGen.tail h3.2 h1⟩

/-- An edge `(a, b)` closes no cycle when no path leads from `b` to `a`. -/
theorem acyclic_add_edge (r r1 : Int → Int → Prop) (a b : Int)
    (hac : ∀ x, ¬ Relation.TransGen r x x) (hno : ¬ Relation.ReflTransGen r b a)
    (hsub : ∀ x y, r1 x y → (x = a ∧ y = b) ∨ r x y) :
    ∀ x, ¬ Relation.TransGen r1 x x := by
  intro x hx
  rcases transGen_add_edge r r1 a b hno hsub x x hx with h | h
  · exact hac x h
  · exact hno (h.2.trans h.1)

theorem reflTransGen_from_sink (r : Int → Int → Prop) (h x : Int) (hs : ∀ c, ¬ r h c)
    (hp : Relation.ReflTransGen r h x) : x = h := by
  induction hp with
  | refl => rfl
  | tail _ hbc ih =>
    rw [ih] at hbc
    exact absurd hbc (hs _)

/-- A hidden node `h` that is new to the graph, put on the edge `(u, v)`,
closes no cycle. -/
theorem acyclic_split (r r1 : Int → Int → Prop) (u v h : Int)
    (hac : ∀ x, ¬ Relation.TransGen r x x) (huv : r u v)
    (hnew : ∀ c, ¬ r h c ∧ ¬ r c h)
    (hsub : ∀ x y, r1 x y → (x = u ∧ y = h) ∨ (x = h ∧ y = v) ∨ r x y) :
    ∀ x, ¬ Relation.TransGen r1 x x := by
  have hu : u ≠ h := fun hc => (hnew v).1 (hc ▸ huv)
  have hv : v ≠ h := fun hc => (hnew u).2 (hc ▸ huv)
  have hac2 : ∀ x, ¬ Relation.TransGen (fun x y => (x = u ∧ y = h) ∨ r x y) x x := by
    apply acyclic_add_edge r _ u h hac
    · intro hp
      exact hu (reflTransGen_from_sink r h u (fun c => (hnew c).1) hp)
    · intro x y hxy
      exact hxy
  apply acyclic_add_edge _ r1 h v hac2
  · intro hp
    have hrestr : ∀ y, Relation.ReflTransGen (fun x y => (x = u ∧ y = h) ∨ r x y) v y →
        y ≠ h → Relation.ReflTransGen r v y := by
      intro y hy
      induction hy with
      | refl => intro _; exact Relation.ReflTransGen.refl
      | @tail m y _ hmy ih =>
        intro hyh
        rcases hmy with ⟨_, h2⟩ | h2
        · exact absurd h2 hyh
        · have hm : m ≠ h := fun hc => (hnew y).1 (hc ▸ h2)
          exact Relation.ReflTransGen.tail (ih hm) h2
    rcases Relation.ReflTransGen.cases_tail hp with h1 | ⟨m, hm1, hm2⟩
    · exact hv h1.symm
    · rcases hm2 with ⟨h2, _⟩ | h2
      · rw [h2] at hm1
        have := hrestr u hm1 hu
        exact hac u (Relation.TransGen.head' huv this)
      · exact (hnew m).2 h2
  · intro x y hxy
    rcases hsub x y hxy with h1 | h1 | h1
    · exact Or.inr (Or.inl h1)
    · exact Or.inl h1
    · exact Or.inr (Or.inr h1)

/-! ## The invariant of the key sets under each operation -/

theorem KeyInv.registry {ni ctr ctr1 : Int} {regd regd1 : Int × Int → Bool → Int → Prop}
    {F Fd R Rd : Int × Int → Prop} (I : KeyInv ni ctr regd F Fd R Rd) (hctr : ctr ≤ ctr1)
    (hreg : ∀ e r x, regd1 e r x → regd e r x ∨ ctr < x) :
    KeyInv ni ctr1 regd1 F Fd R Rd := by
  have hocc : ∀ x, Occurs (fun k => F k ∨ Fd k ∨ R k ∨ Rd k) x → x ≤ ctr := by
    rintro x ⟨k, hk, h1 | h1⟩
    · rw [← h1]; exact (I.bound k hk).1
    · rw [← h1]; exact (I.bound k hk).2
  refine ⟨?_, ?_, ?_, I.acyclic, I.detour, I.noSensor⟩
  · intro k hk
    have := I.bound k hk
    omega
  · intro e h hr ho
    rcases hreg e false h hr with h1 | h1
    · exact I.regF e h h1 ho
    · have := hocc h ho
      omega
  · intro e h hr ho
    rcases hreg e true h hr with h1 | h1
    · exact I.regR e h h1 ho
    · have := hocc h ho
      omega

theorem KeyInv.splitForward {ni ctr : Int} {regd : Int × Int → Bool → Int → Prop}
    {F Fd R Rd : Int × Int → Prop} (I : KeyInv ni ctr regd F Fd R Rd) (u v h : Int)
    (huv : F (u, v)) (hreg : regd (u, v) false h)
    (hinj : ∀ e1 r1 e2 r2 x, regd e1 r1 x → regd e2 r2 x → e1 = e2 ∧ r1 = r2)
    (hh : ni ≤ h) (hctr : h ≤ ctr) (F1 Fd1 : Int × Int → Prop)
    (hF1 : ∀ k, F1 k ↔ k = (h, v) ∨ k = (u, h) ∨ (k ≠ (u, v) ∧ F k))
    (hFd1 : ∀ k, Fd1 k ↔ k = (u, v) ∨ Fd k) :
    KeyInv ni ctr regd F1 Fd1 R Rd := by
  have hmono : ∀ k, F k ∨ Fd k → F1 k ∨ Fd1 k := by
    intro k hk
    by_cases hkuv : k = (u, v)
    · exact Or.inr ((hFd1 k).2 (Or.inl hkuv))
    · rcases hk with hk | hk
      · exact Or.inl ((hF1 k).2 (Or.inr (Or.inr ⟨hkuv, hk⟩)))
      · exact Or.inr ((hFd1 k).2 (Or.inr hk))
  have hou : Occurs (fun k => F k ∨ Fd k ∨ R k ∨ Rd k) u := ⟨(u, v), Or.inl huv, Or.inl rfl⟩
  have hov : Occurs (fun k => F k ∨ Fd k ∨ R k ∨ Rd k) v := ⟨(u, v), Or.inl huv, Or.inr rfl⟩
  have hocc : ∀ x, Occurs (fun k => F1 k ∨ Fd1 k ∨ R k ∨ Rd k) x →
      x = h ∨ Occurs (fun k => F k ∨ Fd k ∨ R k ∨ Rd k) x := by
    rintro x ⟨k, hk, hx⟩
    rw [hF1, hFd1] at hk
    rcases hk with (hk | hk | hk) | (hk | hk) | hk
    · rw [hk] at hx
      rcases hx with hx | hx
      · exact Or.inl hx.symm
      · right; rw [← hx]; exact hov
    · rw [hk] at hx
      rcases hx with hx | hx
      · right; rw [← hx]; exact hou
      · exact Or.inl hx.symm
    · exact Or.inr ⟨k, Or.inl hk.2, hx⟩
    · rw [hk] at hx
      rcases hx with hx | hx
      · right; rw [← hx]; exact hou
      · right; rw [← hx]; exact hov
    · exact Or.inr ⟨k, Or.inr (Or.inl hk), hx⟩
    · exact Or.inr ⟨k, Or.inr (Or.inr hk), hx⟩
  have hsub : ∀ x y, F1 (x, y) ∨ Fd1 (x, y) →
      (x = u ∧ y = h) ∨ (x = h ∧ y = v) ∨ (F (x, y) ∨ Fd (x, y)) := by
    intro x y hxy
    rw [hF1, hFd1] at hxy
    rcases hxy with (hk | hk | hk) | (hk | hk)
    · injection hk with h1 h2
      exact Or.inr (Or.inl ⟨h1, h2⟩)
    · injection hk with h1 h2
      exact Or.inl ⟨h1, h2⟩
    · exact Or.inr (Or.inr (Or.inl hk.2))
    · rw [hk]
      exact Or.inr (Or.inr (Or.inl huv))
    · exact Or.inr (Or.inr (Or.inr hk))
  refine ⟨?_, ?_, ?_, ?_, ?_, ?_⟩
  · intro k hk
    have hbuv := I.bound (u, v) (Or.inl huv)
    simp only at hbuv
    rw [hF1, hFd1] at hk
    rcases hk with (hk | hk | hk) | (hk | hk) | hk
    · rw [hk]; exact ⟨hctr, hbuv.2⟩
    · rw [hk]; exact ⟨hbuv.1, hctr⟩
    · exact I.bound k (Or.inl hk.2)
    · rw [hk]; exact hbuv
    · exact I.bound k (Or.inr (Or.inl hk))
    · exact I.bound k (Or.inr (Or.inr hk))
  · intro e h1 hr ho
    by_cases hh1 : h1 = h
    · rw [hh1] at hr ⊢
      have he := (hinj _ _ _ _ _ hr hreg).1
      rw [he]
      exact ⟨Or.inl ((hF1 _).2 (Or.inr (Or.inl rfl))), Or.inl ((hF1 _).2 (Or.inl rfl))⟩
    · rcases hocc h1 ho with h2 | h2
      · exact absurd h2 hh1
      · have := I.regF e h1 hr h2
        exact ⟨hmono _ this.1, hmono _ this.2⟩
  · intro e h1 hr ho
    by_cases hh1 : h1 = h
    · rw [hh1] at hr
      have he := (hinj _ _ _ _ _ hr hreg).2
      exact absurd he (by decide)
    · rcases hocc h1 ho with h2 | h2
      · exact absurd h2 hh1
      · exact hmono _ (I.regR e h1 hr h2)
  · by_cases ho : Occurs (fun k => F k ∨ Fd k ∨ R k ∨ Rd k) h
    · have hr := I.regF (u, v) h hreg ho
      intro x hx
      apply I.acyclic x
      apply Relation.TransGen.mono _ hx
      intro a b hab
      rcases hsub a b hab with ⟨h1, h2⟩ | ⟨h1, h2⟩ | h1
      · rw [h1, h2]; exact hr.1
      · rw [h1, h2]; exact hr.2
      · exact h1
    · apply acyclic_split (fun a b => F (a, b) ∨ Fd (a, b)) _ u v h I.acyclic (Or.inl huv)
      · intro c
        constructor
        · intro hc
          apply ho
          rcases hc with hc | hc
          · exact ⟨(h, c), Or.inl hc, Or.inl rfl⟩
          · exact ⟨(h, c), Or.inr (Or.inl hc), Or.inl rfl⟩
        · intro hc
          apply ho
          rcases hc with hc | hc
          · exact ⟨(c, h), Or.inl hc, Or.inr rfl⟩
          · exact ⟨(c, h), Or.inr (Or.inl hc), Or.inr rfl⟩
      · exact hsub
  · have hlift : ∀ a b, F (a, b) → Relation.TransGen (fun a b => F1 (a, b)) a b := by
      intro a b hab
      by_cases hk : (a, b) = (u, v)
      · injection hk with h1 h2
        rw [h1, h2]
        exact Relation.TransGen.tail
          (Relation.TransGen.single ((hF1 _).2 (Or.inr (Or.inl rfl))))
          ((hF1 _).2 (Or.inl rfl))
      · exact Relation.TransGen.single ((hF1 _).2 (Or.inr (Or.inr ⟨hk, hab⟩)))
    intro k hk
    rw [hFd1] at hk
    have hold : Relation.TransGen (fun a b => F (a, b)) k.1 k.2 := by
      rcases hk with hk | hk
      · rw [hk]
        exact Relation.TransGen.single huv
      · exact I.detour k hk
    exact Relation.TransGen.lift' (fun x => x) hlift hold
  · intro k hk
    have hsv := I.noSensor (u, v) (Or.inl huv)
    simp only at hsv
    rw [hF1, hFd1] at hk
    rcases hk with (hk | hk | hk) | (hk | hk) | hk
    · rw [hk]; exact hsv
    · rw [hk]
      simp only [IsInputNode, Bool.not_eq_false', Bool.or_eq_true, decide_eq_true_eq]
      right; omega
    · exact I.noSensor k (Or.inl hk.2)
    · rw [hk]; exact hsv
    · exact I.noSensor k (Or.inr (Or.inl hk))
    · exact I.noSensor k (Or.inr (Or.inr hk))

theorem KeyInv.splitRecurrent {ni ctr : Int} {regd : Int × Int → Bool → Int → Prop}
    {F Fd R Rd : Int × Int → Prop} (I : KeyInv ni ctr regd F Fd R Rd) (u v h : Int)
    (huv : R (u, v)) (hreg : regd (u, v) true h)
    (hinj : ∀ e1 r1 e2 r2 x, regd e1 r1 x → regd e2 r2 x → e1 = e2 ∧ r1 = r2)
    (hh : ni ≤ h) (hctr : h ≤ ctr) (F1 R1 Rd1 : Int × Int → Prop)
    (hF1 : ∀ k, F1 k ↔ k = (u, h) ∨ F k)
    (hR1 : ∀ k, R1 k ↔ k = (h, v) ∨ (k ≠ (u, v) ∧ R k))
    (hRd1 : ∀ k, Rd1 k ↔ k = (u, v) ∨ Rd k) :
    KeyInv ni ctr regd F1 Fd R1 Rd1 := by
  have hmono : ∀ k, F k ∨ Fd k → F1 k ∨ Fd k := by
    rintro k (hk | hk)
    · exact Or.inl ((hF1 k).2 (Or.inr hk))
    · exact Or.inr hk
  have hou : Occurs (fun k => F k ∨ Fd k ∨ R k ∨ Rd k) u :=
    ⟨(u, v), Or.inr (Or.inr (Or.inl huv)), Or.inl rfl⟩
  have hov : Occurs (fun k => F k ∨ Fd k ∨ R k ∨ Rd k) v :=
    ⟨(u, v), Or.inr (Or.inr (Or.inl huv)), Or.inr rfl⟩
  have hocc : ∀ x, Occurs (fun k => F1 k ∨ Fd k ∨ R1 k ∨ Rd1 k) x →
      x = h ∨ Occurs (fun k => F k ∨ Fd k ∨ R k ∨ Rd k) x := by
    rintro x ⟨k, hk, hx⟩
    rw [hF1, hR1, hRd1] at hk
    rcases hk with (hk | hk) | hk | (hk | hk) | (hk | hk)
    · rw [hk] at hx
      rcases hx with hx | hx
      · right; rw [← hx]; exact hou
      · exact Or.inl hx.symm
    · exact Or.inr ⟨k, Or.inl hk, hx⟩
    · exact Or.inr ⟨k, Or.inr (Or.inl hk), hx⟩
    · rw [hk] at hx
      rcases hx with hx | hx
      · exact Or.inl hx.symm
      · right; rw [← hx]; exact hov
    · exact Or.inr ⟨k, Or.inr (Or.inr (Or.inl hk.2)), hx⟩
    · rw [hk] at hx
      rcases hx with hx | hx
      · right; rw [← hx]; exact hou
      · right; rw [← hx]; exact hov
    · exact Or.inr ⟨k, Or.inr (Or.inr (Or.inr hk)), hx⟩
  have hbuv := I.bound (u, v) (Or.inr (Or.inr (Or.inl huv)))
  have hsv := I.noSensor (u, v) (Or.inr (Or.inr (Or.inl huv)))
  simp only at hbuv hsv
  refine ⟨?_, ?_, ?_, ?_, ?_, ?_⟩
  · intro k hk
    rw [hF1, hR1, hRd1] at hk
    rcases hk with (hk | hk) | hk | (hk | hk) | (hk | hk)
    · rw [hk]; exact ⟨hbuv.1, hctr⟩
    · exact I.bound k (Or.inl hk)
    · exact I.bound k (Or.inr (Or.inl hk))
    · rw [hk]; exact ⟨hctr, hbuv.2⟩
    · exact I.bound k (Or.inr (Or.inr (Or.inl hk.2)))
    · rw [hk]; exact hbuv
    · exact I.bound k (Or.inr (Or.inr (Or.inr hk)))
  · intro e h1 hr ho
    by_cases hh1 : h1 = h
    · rw [hh1] at hr
      have he := (hinj _ _ _ _ _ hr hreg).2
      exact absurd he (by decide)
    · rcases hocc h1 ho with h2 | h2
      · exact absurd h2 hh1
      · have := I.regF e h1 hr h2
        exact ⟨hmono _ this.1, hmono _ this.2⟩
  · intro e h1 hr ho
    by_cases hh1 : h1 = h
    · rw [hh1] at hr ⊢
      have he := (hinj _ _ _ _ _ hr hreg).1
      rw [he]
      exact Or.inl ((hF1 _).2 (Or.inl rfl))
    · rcases hocc h1 ho with h2 | h2
      · exact absurd h2 hh1
      · exact hmono _ (I.regR e h1 hr h2)
  · by_cases ho : Occurs (fun k => F k ∨ Fd k ∨ R k ∨ Rd k) h
    · have hr := I.regR (u, v) h hreg ho
      intro x hx
      apply I.acyclic x
      apply Relation.TransGen.mono _ hx
      intro a b hab
      rw [hF1] at hab
      rcases hab with (hab | hab) | hab
      · injection hab with h1 h2
        rw [h1, h2]; exact hr
      · exact Or.inl hab
      · exact Or.inr hab
    · apply acyclic_add_edge (fun a b => F (a, b) ∨ Fd (a, b)) _ u h I.acyclic
      · intro hp
        have hs : ∀ c, ¬ (F (h, c) ∨ Fd (h, c)) := by
          intro c hc
          apply ho
          rcases hc with hc | hc
          · exact ⟨(h, c), Or.inl hc, Or.inl rfl⟩
          · exact ⟨(h, c), Or.inr (Or.inl hc), Or.inl rfl⟩
        have := reflTransGen_from_sink _ h u hs hp
        apply ho
        rw [← this]
        exact hou
      · intro a b hab
        rw [hF1] at hab
        rcases hab with (hab | hab) | hab
        · injection hab with h1 h2
          exact Or.inl ⟨h1, h2⟩
        · exact Or.inr (Or.inl hab)
        · exact Or.inr (Or.inr hab)
  · intro k hk
    apply Relation.TransGen.mono _ (I.detour k hk)
    intro a b hab
    exact (hF1 _).2 (Or.inr hab)
  · intro k hk
    rw [hF1, hR1, hRd1] at hk
    rcases hk with (hk | hk) | hk | (hk | hk) | (hk | hk)
    · rw [hk]
      simp only [IsInputNode, Bool.not_eq_false', Bool.or_eq_true, decide_eq_true_eq]
      right; omega
    · exact I.noSensor k (Or.inl hk)
    · exact I.noSensor k (Or.inr (Or.inl hk))
    · rw [hk]; exact hsv
    · exact I.noSensor k (Or.inr (Or.inr (Or.inl hk.2)))
    · rw [hk]; exact hsv
    · exact I.noSensor k (Or.inr (Or.inr (Or.inr hk)))

theorem KeyInv.forward_path {ni ctr : Int} {regd : Int × Int → Bool → Int → Prop}
    {F Fd R Rd : Int × Int → Prop} (I : KeyInv ni ctr regd F Fd R Rd) (x y : Int)
    (h : Relation.ReflTransGen (fun a b => F (a, b) ∨ Fd (a, b)) x y) :
    Relation.ReflTransGen (fun a b => F (a, b)) x y := by
  induction h with
  | refl => exact Relation.ReflTransGen.refl
  | tail _ hbc ih =>
    rcases hbc with hbc | hbc
    · exact Relation.ReflTransGen.tail ih hbc
    · exact ih.trans (I.detour _ hbc).to_reflTransGen

theorem KeyInv.addForward {ni ctr : Int} {regd : Int × Int → Bool → Int → Prop}
    {F Fd R Rd : Int × Int → Prop} (I : KeyInv ni ctr regd F Fd R Rd) (a b : Int)
    (hab : ¬ Relation.ReflTransGen (fun x y => F (x, y)) b a)
    (ha : a ≤ ctr) (hb : b ≤ ctr) (hbs : IsInputNode ni b = false)
    (hka : ∀ e r, regd e r a → Occurs (fun k => F k ∨ Fd k ∨ R k ∨ Rd k) a)
    (hkb : ∀ e r, regd e r b → Occurs (fun k => F k ∨ Fd k ∨ R k ∨ Rd k) b)
    (F1 Fd1 : Int × Int → Prop) (hF1 : ∀ k, F1 k ↔ k = (a, b) ∨ F k)
    (hFd1 : ∀ k, Fd1 k ↔ k ≠ (a, b) ∧ Fd k) :
    KeyInv ni ctr regd F1 Fd1 R Rd := by
  have hmono : ∀ k, F k ∨ Fd k → F1 k ∨ Fd1 k := by
    intro k hk
    by_cases hkab : k = (a, b)
    · exact Or.inl ((hF1 k).2 (Or.inl hkab))
    · rcases hk with hk | hk
      · exact Or.inl ((hF1 k).2 (Or.inr hk))
      · exact Or.inr ((hFd1 k).2 ⟨hkab, hk⟩)
  have hocc : ∀ x e r, regd e r x → Occurs (fun k => F1 k ∨ Fd1 k ∨ R k ∨ Rd k) x →
      Occurs (fun k => F k ∨ Fd k ∨ R k ∨ Rd k) x := by
    rintro x e r hr ⟨k, hk, hx⟩
    rw [hF1, hFd1] at hk
    rcases hk with (hk | hk) | hk | hk
    · rw [hk] at hx
      rcases hx with hx | hx
      · rw [← hx] at hr ⊢; exact hka e r hr
      · rw [← hx] at hr ⊢; exact hkb e r hr
    · exact ⟨k, Or.inl hk, hx⟩
    · exact ⟨k, Or.inr (Or.inl hk.2), hx⟩
    · exact ⟨k, Or.inr (Or.inr hk), hx⟩
  refine ⟨?_, ?_, ?_, ?_, ?_, ?_⟩
  · intro k hk
    rw [hF1, hFd1] at hk
    rcases hk with (hk | hk) | hk | hk
    · rw [hk]; exact ⟨ha, hb⟩
    · exact I.bound k (Or.inl hk)
    · exact I.bound k (Or.inr (Or.inl hk.2))
    · exact I.bound k (Or.inr (Or.inr hk))
  · intro e h1 hr ho
    have := I.regF e h1 hr (hocc h1 e false hr ho)
    exact ⟨hmono _ this.1, hmono _ this.2⟩
  · intro e h1 hr ho
    exact hmono _ (I.regR e h1 hr (hocc h1 e true hr ho))
  · apply acyclic_add_edge (fun a b => F (a, b) ∨ Fd (a, b)) _ a b I.acyclic
    · intro hp
      exact hab (I.forward_path b a hp)
    · intro x y hxy
      rw [hF1, hFd1] at hxy
      rcases hxy with (h1 | h1) | h1
      · injection h1 with h2 h3
        exact Or.inl ⟨h2, h3⟩
      · exact Or.inr (Or.inl h1)
      · exact Or.inr (Or.inr h1.2)
  · intro k hk
    rw [hFd1] at hk
    apply Relation.TransGen.mono _ (I.detour k hk.2)
    intro x y hxy
    exact (hF1 _).2 (Or.inr hxy)
  · intro k hk
    rw [hF1, hFd1] at hk
    rcases hk with (hk | hk) | hk | hk
    · rw [hk]; exact hbs
    · exact I.noSensor k (Or.inl hk)
    · exact I.noSensor k (Or.inr (Or.inl hk.2))
    · exact I.noSensor k (Or.inr (Or.inr hk))

theorem KeyInv.addRecurrent {ni ctr : Int} {regd : Int × Int → Bool → Int → Prop}
    {F Fd R Rd : Int × Int → Prop} (I : KeyInv ni ctr regd F Fd R Rd) (a b : Int)
    (ha : a ≤ ctr) (hb : b ≤ ctr) (hbs : IsInputNode ni b = false)
    (hka : ∀ e r, regd e r a → Occurs (fun k => F k ∨ Fd k ∨ R k ∨ Rd k) a)
    (hkb : ∀ e r, regd e r b → Occurs (fun k => F k ∨ Fd k ∨ R k ∨ Rd k) b)
    (R1 Rd1 : Int × Int → Prop) (hR1 : ∀ k, R1 k ↔ k = (a, b) ∨ R k)
    (hRd1 : ∀ k, Rd1 k ↔ k ≠ (a, b) ∧ Rd k) :
    KeyInv ni ctr regd F Fd R1 Rd1 := by
  have hocc : ∀ x e r, regd e r x → Occurs (fun k => F k ∨ Fd k ∨ R1 k ∨ Rd1 k) x →
      Occurs (fun k => F k ∨ Fd k ∨ R k ∨ Rd k) x := by
    rintro x e r hr ⟨k, hk, hx⟩
    rw [hR1, hRd1] at hk
    rcases hk with hk | hk | (hk | hk) | hk
    · exact ⟨k, Or.inl hk, hx⟩
    · exact ⟨k, Or.inr (Or.inl hk), hx⟩
    · rw [hk] at hx
      rcases hx with hx | hx
      · rw [← hx] at hr ⊢; exact hka e r hr
      · rw [← hx] at hr ⊢; exact hkb e r hr
    · exact ⟨k, Or.inr (Or.inr (Or.inl hk)), hx⟩
    · exact ⟨k, Or.inr (Or.inr (Or.inr hk.2)), hx⟩
  refine ⟨?_, ?_, ?_, I.acyclic, I.detour, ?_⟩
  · intro k hk
    rw [hR1, hRd1] at hk
    rcases hk with hk | hk | (hk | hk) | hk
    · exact I.bound k (Or.inl hk)
    · exact I.bound k (Or.inr (Or.inl hk))
    · rw [hk]; exact ⟨ha, hb⟩
    · exact I.bound k (Or.inr (Or.inr (Or.inl hk)))
    · exact I.bound k (Or.inr (Or.inr (Or.inr hk.2)))
  · intro e h1 hr ho
    exact I.regF e h1 hr (hocc h1 e false hr ho)
  · intro e h1 hr ho
    exact I.regR e h1 hr (hocc h1 e true hr ho)
  · intro k hk
    rw [hR1, hRd1] at hk
    rcases hk with hk | hk | (hk | hk) | hk
    · exact I.noSensor k (Or.inl hk)
    · exact I.noSensor k (Or.inr (Or.inl hk))
    · rw [hk]; exact hbs
    · exact I.noSensor k (Or.inr (Or.inr (Or.inl hk)))
    · exact I.noSensor k (Or.inr (Or.inr (Or.inr hk.2)))

theorem KeyInv.congr {ni ctr : Int} {regd : Int × Int → Bool → Int → Prop}
    {F Fd R Rd F1 Fd1 R1 Rd1 : Int × Int → Prop} (I : KeyInv ni ctr regd F Fd R Rd)
    (hF : ∀ k, F1 k ↔ F k) (hFd : ∀ k, Fd1 k ↔ Fd k) (hR : ∀ k, R1 k ↔ R k)
    (hRd : ∀ k, Rd1 k ↔ Rd k) : KeyInv ni ctr regd F1 Fd1 R1 Rd1 := by
  have e1 : F1 = F := funext (fun k => propext (hF k))
  have e2 : Fd1 = Fd := funext (fun k => propext (hFd k))
  have e3 : R1 = R := funext (fun k => propext (hR k))
  have e4 : Rd1 = Rd := funext (fun k => propext (hRd k))
  rw [e1, e2, e3, e4]
  exact I

theorem KeyInv.empty (ni ctr : Int) :
    KeyInv ni ctr (fun _ _ _ => False) (fun _ => False) (fun _ => False) (fun _ => False)
      (fun _ => False) := by
  refine ⟨?_, ?_, ?_, ?_, ?_, ?_⟩
  · intro k hk; simp at hk
  · intro e h hr; exact absurd hr id
  · intro e h hr; exact absurd hr id
  · intro x hx
    rcases Relation.TransGen.head'_iff.1 hx with ⟨c, hc, _⟩
    simp at hc
  · intro k hk; exact absurd hk id
  · intro k hk; simp at hk

/-! ## More fuel does not change the compiled network -/

theorem sortLoop1_mono (it : List Int → List Int) (ni no : Int) (fuel : Nat) :
    ∀ st r, sortLoop1 it ni no fuel st = some r →
      ∀ k, sortLoop1 it ni no (fuel + k) st = some r := by
  induction fuel with
  | zero =>
    intro st r h
    simp [sortLoop1] at h
  | succ fuel ih =>
    intro st r h k
    rw [Nat.add_right_comm, sortLoop1_succ]
    rw [sortLoop1_succ] at h
    split
    · rename_i hlt
      rw [if_pos hlt] at h
      exact ih _ _ h k
    · rename_i hlt
      rw [if_neg hlt] at h
      exact h

theorem sortLoop2_mono (it : List Int → List Int) (ni no : Int) (fuel : Nat) :
    ∀ st r, sortLoop2 it ni no fuel st = some r →
      ∀ k, sortLoop2 it ni no (fuel + k) st = some r := by
  induction fuel with
  | zero =>
    intro st r h
    simp [sortLoop2] at h
  | succ fuel ih =>
    intro st r h k
    rw [Nat.add_right_comm, sortLoop2_succ]
    rw [sortLoop2_succ] at h
    split
    · rename_i hlt
      rw [if_pos hlt] at h
      split
      · rename_i ho
        rw [if_pos ho] at h
        exact h
      · rename_i ho
        rw [if_neg ho] at h
        exact ih _ _ h k
    · rename_i hlt
      rw [if_neg hlt] at h
      exact h

theorem Network.build_mono (it : List Int → List Int) (fuel : Nat) (ni no : Int)
    (fe re : SMap (Int × Int) ℚ) (net : Network)
    (h : Network.build it fuel ni no fe re = some net) (k : Nat) :
    Network.build it (fuel + k) ni no fe re = some net := by
  unfold Network.build at h ⊢
  simp only at h ⊢
  cases hr : readForward ni no fe (initAdjacency (ni + no)) (initAdjacency (ni + no)) with
  | error adj =>
    rw [hr] at h
    exact h
  | ok p =>
    obtain ⟨adj, rev⟩ := p
    rw [hr] at h
    simp only at h ⊢
    cases h1 : sortLoop1 it ni no fuel
        { sortedNodes := initialSorted ni no rev, sortedNodesIndex := 0, adj := adj,
          rev := rev } with
    | none =>
      rw [h1] at h
      cases h
    | some st1 =>
      rw [h1] at h
      rw [sortLoop1_mono it ni no fuel _ _ h1 k]
      simp only at h ⊢
      cases h2 : sortLoop2 it ni no fuel
          { st1 with sortedNodes := pushOutputSources ni no st1.rev st1.sortedNodes } with
      | none =>
        rw [h2] at h
        cases h
      | some r =>
        rw [h2] at h
        rw [sortLoop2_mono it ni no fuel _ _ h2 k]
        exact h

/-- Whatever fuel the constructor returned within, the network it returns for
well-formed forward edges is the compiled one. -/
theorem Compiled.of_build (it : List Int → List Int) (hit : ∀ l, (it l).Perm l) (ni no : Int)
    (fe re : SMap (Int × Int) ℚ) (hok : ForwardOK ni no (SMap.keys fe)) (fuel : Nat)
    (net : Network) (h : Network.build it fuel ni no fe re = some net) :
    ∃ rev S D, Compiled it ni no fe re rev S D net := by
  obtain ⟨rev, S, D, net1, hb, C⟩ := Network.build_ok it hit ni no fe re hok
    (fuel + sortFuel ni no fe.length) (by omega)
  rw [Network.build_mono it fuel ni no fe re net h] at hb
  injection hb with hb
  rw [← hb] at C
  exact ⟨rev, S, D, C⟩

/-! ## The nodes `FindNewPossibleConnection` draws -/

theorem labelAt_some (net : Network) (i : Int) (a : Int)
    (h : labelAt net.visual_info i = some a) :
    0 ≤ i ∧ i.toNat < net.labels.length ∧ net.labels.getD i.toNat 0 = a := by
  unfold labelAt at h
  by_cases hi : i < 0
  · simp [hi] at h
  · simp only [hi, if_false] at h
    have h0 : ∃ v, net.visual_info[i.toNat]? = some v ∧ v.label = a := by
      simpa using h
    obtain ⟨v, hg, hva⟩ := h0
    obtain ⟨hlt, hv⟩ := List.getElem?_eq_some_iff.1 hg
    have hlt2 : i.toNat < net.labels.length := by
      unfold Network.labels
      rw [List.length_map]
      exact hlt
    refine ⟨by omega, hlt2, ?_⟩
    rw [List.getD_eq_getElem _ _ hlt2]
    unfold Network.labels
    rw [List.getElem_map, hv, hva]

theorem Compiled.try_nodes {it : List Int → List Int} {ni no : Int}
    {fe re : SMap (Int × Int) ℚ} {rev : SMap Int (List Int)} {S : List Int} {D : SMap Int Int}
    {net : Network} (C : Compiled it ni no fe re rev S D net) (hno : 1 ≤ no)
    (d : Nat × Nat) (a b : Int) (r : Bool) (T : TryResult it net d a b r) :
    a ∈ net.labels ∧ b ∈ net.labels ∧ IsInputNode ni b = false := by
  obtain ⟨ha1, ha2, ha3⟩ := labelAt_some net _ a T.labelIn
  obtain ⟨hb1, hb2, hb3⟩ := labelAt_some net _ b T.labelOut
  obtain ⟨rest, h1, h2, h3⟩ := C.labels_split
  have hmem : ∀ j, j < net.labels.length → net.labels.getD j 0 ∈ net.labels := by
    intro j hj
    rw [List.getD_eq_getElem _ _ hj]
    exact List.getElem_mem _
  refine ⟨by rw [← ha3]; exact hmem _ ha2, by rw [← hb3]; exact hmem _ hb2, ?_⟩
  have hout : ni ∈ rest := by
    have hm : ni ∈ net.labels := by
      rw [C.mem_labels, IsOutputNode_iff]
      right; left; omega
    rw [h1, List.mem_append, mem_countUp] at hm
    rcases hm with hm | hm
    · omega
    · exact hm
  have hlen : ni.toNat + 1 ≤ net.labels.length := by
    rw [h1, List.length_append, countUp_length]
    have := List.length_pos_of_mem hout
    omega
  have hge : ni ≤ rand_int2 net.num_input_nodes ((net.run_info.length : Int) - 1) d.2 := by
    unfold rand_int2
    rw [C.sizeIn, C.run_info_length]
    have := rand_int_bounds ((net.labels.length : Int) - 1 - ni) d.2 (by omega)
    omega
  apply h2
  rw [← hb3]
  have hj : (countUp ni).length ≤
      (rand_int2 net.num_input_nodes ((net.run_info.length : Int) - 1) d.2).toNat := by
    rw [countUp_length]
    omega
  have := getD_append_right_mem (countUp ni) rest _ hj (by rw [← h1]; exact hb2)
  rw [← h1] at this
  exact this

/-! ## The invariant of reachable genomes -/

theorem FullInv_registry (ni : Int) (n : NEAT) (g : Genome) (e : Int × Int) (r : Bool)
    (I : FullInv ni n g) : FullInv ni (GetAddNodeNumber n e r).2 g := by
  cases hf : SMap.find (n.connectNode r) e with
  | some x =>
    rw [GetAddNodeNumber_of_registered n e r x hf]
    exact I
  | none =>
    obtain ⟨_, hctr, hreg⟩ := GetAddNodeNumber_unregistered n e r hf
    apply KeyInv.registry I (by omega)
    intro e1 r1 x hx
    rcases hreg e1 r1 x hx with h1 | ⟨_, _, h1⟩
    · exact Or.inl h1
    · right; omega

theorem FullInv_addNode (ni no : Int) (hno : 1 ≤ no) (n : NEAT) (g : Genome) (draw : Nat)
    (B : BasicInv ni no n g) (I : FullInv ni n g) (hs : (AddNodeMutation g n draw).1 = true) :
    FullInv ni (AddNodeMutation g n draw).2.2 (AddNodeMutation g n draw).2.1 := by
  rw [AddNodeMutation_fst] at hs
  have hl : 1 ≤ g.possibleEdges.length := of_decide_eq_true hs
  have hR := RegInv_step _ _ (g.splitEdge draw) (g.splitRecurrent draw) B.reg
  have hreg := newNode_registered g n draw
  have hb := hR.2.1 _ _ _ hreg
  have I1 := FullInv_registry ni n g (g.splitEdge draw) (g.splitRecurrent draw) I
  have hmem := (g.splitEdge_mem draw hl).1
  rw [AddNodeMutation_engine _ _ _ hl, AddNodeMutation_genome g n draw hl]
  have hpair : g.splitEdge draw = ((g.splitEdge draw).1, (g.splitEdge draw).2) := rfl
  cases hr : g.splitRecurrent draw
  · rw [hr] at hreg hmem I1 hb
    simp only [Bool.false_eq_true, if_false]
    simp only [Genome.enabledMap, Bool.false_eq_true, if_false] at hmem
    rw [hpair] at hreg hmem
    apply KeyInv.splitForward I1 (g.splitEdge draw).1 (g.splitEdge draw).2 (g.newNode n draw)
      hmem hreg (by rw [← hr]; exact hR.2.2) (by omega) hb.2
    · intro k
      simp only [SMap.mem_keys_set, SMap.mem_keys_del]
    · intro k
      simp only [SMap.mem_keys_set]
  · rw [hr] at hreg hmem I1 hb
    simp only [if_true]
    simp only [Genome.enabledMap, if_true] at hmem
    rw [hpair] at hreg hmem
    apply KeyInv.splitRecurrent I1 (g.splitEdge draw).1 (g.splitEdge draw).2
      (g.newNode n draw) hmem hreg (by rw [← hr]; exact hR.2.2) (by omega) hb.2
    · intro k
      simp only [SMap.mem_keys_set]
    · intro k
      simp only [SMap.mem_keys_set, SMap.mem_keys_del]
    · intro k
      simp only [SMap.mem_keys_set]

theorem FullInv.forwardOK {ni no : Int} {n : NEAT} {g : Genome} (I : FullInv ni n g)
    (B : BasicInv ni no n g) :
    ForwardOK ni no (SMap.keys g.forward_edges) := by
  refine ⟨fun k hk => I.noSensor k (Or.inl hk), ?_, ?_⟩
  · intro k hk h1
    have := B.src k (by simp [Genome.forwardKeys, hk])
    simp only [Genome.IsOutputNode, B.sizeIn, B.sizeOut, h1, true_and,
      Bool.not_eq_false] at this
    exact this
  · intro x hx
    apply I.acyclic x
    apply Relation.TransGen.mono _ hx
    intro a b hab
    exact Or.inl hab

theorem FullInv_addEdge (ni no : Int) (hno : 1 ≤ no) (n : NEAT) (g g1 : Genome)
    (it : List Int → List Int) (hit : ∀ l, (it l).Perm l) (fuel : Nat) (net : Network)
    (sd : ℚ) (tries : Nat) (draws : Nat → Nat × Nat) (z : ℚ)
    (B : BasicInv ni no n g) (I : FullInv ni n g)
    (hnet : GenerateNetwork it fuel g = some net)
    (hadd : AddEdgeMutation it g net sd tries draws z = some (true, g1)) :
    FullInv ni n g1 := by
  obtain ⟨d, a, b, r, T, hg1⟩ := AddEdgeMutation_some it g g1 net sd tries draws z hadd
  unfold GenerateNetwork at hnet
  rw [B.sizeIn, B.sizeOut] at hnet
  obtain ⟨rev, S, D, C⟩ := Compiled.of_build it hit ni no g.forward_edges g.recurrent_edges
    (I.forwardOK B) fuel net hnet
  obtain ⟨ha, hb, hbs⟩ := C.try_nodes hno d a b r T
  have hR := B.reg
  have hnode : ∀ x, x ∈ net.labels →
      x ≤ n.node_ctr ∧ ∀ e r, n.registered e r x →
        Occurs (fun k => k ∈ SMap.keys g.forward_edges ∨
          k ∈ SMap.keys g.disabled_forward_edges ∨ k ∈ SMap.keys g.recurrent_edges ∨
          k ∈ SMap.keys g.disabled_recurrent_edges) x := by
    intro x hx
    rw [C.mem_labels, IsInputNode_iff, IsOutputNode_iff, mem_endpoints] at hx
    have h0 := hR.1
    constructor
    · rcases hx with hx | hx | ⟨k, hk, hx⟩
      · omega
      · omega
      · have := I.bound k (Or.inl hk)
        rcases hx with hx | hx
        · rw [hx]; exact this.1
        · rw [hx]; exact this.2
    · intro e r hr
      have := hR.2.1 e r x hr
      rcases hx with hx | hx | ⟨k, hk, hx⟩
      · omega
      · omega
      · exact ⟨k, Or.inl hk, by rcases hx with hx | hx <;> simp [hx]⟩
  cases r
  · simp only [Bool.false_eq_true, if_false] at hg1
    rw [hg1]
    have hnp := (CheckRecurrent_false_no_path it hit net a b T.check).2
    apply KeyInv.addForward I a b _ (hnode a ha).1 (hnode b hb).1 hbs (hnode a ha).2
      (hnode b hb).2
    · intro k
      simp only [SMap.mem_keys_set]
    · intro k
      simp only [SMap.mem_keys_del]
    · intro hp
      apply hnp
      apply Relation.ReflTransGen.mono _ hp
      intro x y hxy
      exact (C.adj_iff x y).2 hxy
  · simp only [if_true] at hg1
    rw [hg1]
    apply KeyInv.addRecurrent I a b (hnode a ha).1 (hnode b hb).1 hbs (hnode a ha).2
      (hnode b hb).2
    · intro k
      simp only [SMap.mem_keys_set]
    · intro k
      simp only [SMap.mem_keys_del]

theorem FullInv_of_reachable (ni no : Int) (hno : 1 ≤ no) (n : NEAT) (g : Genome)
    (h : Reachable ni no n g) : FullInv ni n g := by
  have hempty : FullInv ni (NEAT.new (ni - 1) no) (Genome.new ni no) := by
    apply KeyInv.congr (KeyInv.registry (KeyInv.empty ni (ni - 1 + no)) (le_refl _) _)
    · intro k; simp [Genome.new, SMap.keys]
    · intro k; simp [Genome.new, SMap.keys]
    · intro k; simp [Genome.new, SMap.keys]
    · intro k; simp [Genome.new, SMap.keys]
    · intro e r x hx
      cases r <;> simp [NEAT.registered, NEAT.new, NEAT.connectNode, SMap.find] at hx
  induction h with
  | empty => exact hempty
  | seed drawIn drawOut weight =>
    have h1 := rand_int_le (ni - 1) drawIn
    have h2 := rand_int_bounds (ni + no - 1 - ni) drawOut (by omega)
    have hn : ∀ e r x, ¬ (NEAT.new (ni - 1) no).registered e r x := by
      intro e r x hx
      cases r <;> simp [NEAT.registered, NEAT.new, NEAT.connectNode, SMap.find] at hx
    apply KeyInv.addForward hempty (rand_int (ni - 1) drawIn)
      (rand_int2 ni (ni + no - 1) drawOut)
    · intro hp
      rcases Relation.ReflTransGen.cases_head hp with h3 | ⟨c, hc, _⟩
      · unfold rand_int2 at h3
        omega
      · simp [Genome.new, SMap.keys] at hc
    · simp only [NEAT.new]
      omega
    · simp only [NEAT.new]
      unfold rand_int2
      omega
    · simp only [IsInputNode, Bool.not_eq_false', Bool.or_eq_true, decide_eq_true_eq]
      right
      unfold rand_int2
      omega
    · intro e r hr
      exact absurd hr (hn e r _)
    · intro e r hr
      exact absurd hr (hn e r _)
    · intro k
      simp only [AddInputOutputEdge, Genome.new, SMap.mem_keys_set]
    · intro k
      simp [AddInputOutputEdge, Genome.new, SMap.keys]
  | registry e r _ ih => exact FullInv_registry ni _ _ e r ih
  | @addNode n g draw hreach hs ih =>
    exact FullInv_addNode ni no hno n g draw (BasicInv_of_reachable ni no n g hreach) ih hs
  | @addEdge n g g1 it fuel net sd tries draws z hreach hit hnet hadd ih =>
    exact FullInv_addEdge ni no hno n g g1 it hit fuel net sd tries draws z
      (BasicInv_of_reachable ni no n g hreach) ih hnet hadd
  | weights a b c u z _ ih =>
    apply KeyInv.congr ih
    · intro k; simp only [MutateWeights, keys_mutateMap]
    · intro k; simp only [MutateWeights]
    · intro k; simp only [MutateWeights, keys_mutateMap]
    · intro k; simp only [MutateWeights]
  | crossover parent1 draws _ ih =>
    apply KeyInv.congr ih
    · intro k; simp only [Crossover, keys_crossMap]
    · intro k; simp only [Crossover]
    · intro k; simp only [Crossover, keys_crossMap]
    · intro k; simp only [Crossover]

/-! ## C5 and C6: the forward graph of a reachable genome -/

theorem AddEdgeMutation_forwardKeys (it : List Int → List Int) (g g1 : Genome) (net : Network)
    (sd : ℚ) (tries : Nat) (draws : Nat → Nat × Nat) (z : ℚ)
    (h : AddEdgeMutation it g net sd tries draws z = some (true, g1)) :
    ∀ k ∈ g.forwardKeys, k ∈ g1.forwardKeys := by
  obtain ⟨d, a, b, r, _, hg1⟩ := AddEdgeMutation_some it g g1 net sd tries draws z h
  intro k hk
  cases r
  · simp only [Bool.false_eq_true, if_false] at hg1
    rw [hg1]
    simp only [Genome.forwardKeys, List.mem_append, SMap.mem_keys_set, SMap.mem_keys_del] at hk ⊢
    by_cases hkab : k = (a, b)
    · exact Or.inl (Or.inl hkab)
    · rcases hk with hk | hk
      · exact Or.inl (Or.inr hk)
      · exact Or.inr ⟨hkab, hk⟩
  · simp only [if_true] at hg1
    rw [hg1]
    exact hk

theorem FullInv.acyclic_forwardKeys {ni : Int} {n : NEAT} {g : Genome} (I : FullInv ni n g) :
    Acyclic g.forwardKeys := by
  intro x hx
  apply I.acyclic x
  apply Relation.TransGen.mono _ hx
  intro a b hab
  unfold EdgeRel Genome.forwardKeys at hab
  exact List.mem_append.1 hab

/-- C5: in an engine with at least one output, the keys of `forward_edges`
and `disabled_forward_edges` of every reachable genome have no directed
cycle; in particular, when `AddEdgeMutation` on a reachable genome puts a new
key `(in, out)` into `forward_edges`, no path of forward keys led from `out`
to `in`. -/
theorem reachable_forward_acyclic (ni no : Int) (hno : 1 ≤ no) (n : NEAT) (g : Genome)
    (h : Reachable ni no n g) :
    Acyclic g.forwardKeys ∧
    ∀ (it : List Int → List Int) (fuel : Nat) (net : Network) (sd : ℚ) (tries : Nat)
      (draws : Nat → Nat × Nat) (z : ℚ) (g1 : Genome),
      (∀ l, (it l).Perm l) → GenerateNetwork it fuel g = some net →
      AddEdgeMutation it g net sd tries draws z = some (true, g1) →
      ∀ k ∈ SMap.keys g1.forward_edges, k ∉ SMap.keys g.forward_edges →
        ¬ Relation.ReflTransGen (EdgeRel g.forwardKeys) k.2 k.1 := by
  refine ⟨(FullInv_of_reachable ni no hno n g h).acyclic_forwardKeys, ?_⟩
  intro it fuel net sd tries draws z g1 hit hnet hadd k hk _ hp
  have h1 : Reachable ni no n g1 :=
    Reachable.addEdge it fuel net sd tries draws z h hit hnet hadd
  have hac := (FullInv_of_reachable ni no hno n g1 h1).acyclic_forwardKeys
  apply hac k.1
  apply Relation.TransGen.head'
  · show (k.1, k.2) ∈ g1.forwardKeys
    unfold Genome.forwardKeys
    exact List.mem_append_left _ hk
  · apply Relation.ReflTransGen.mono _ hp
    intro a b hab
    exact AddEdgeMutation_forwardKeys it g g1 net sd tries draws z hadd _ hab

/-- C5, witness: the genome reached by four mutations from the edge `(0,2)`. -/
theorem reachable_forward_acyclic_witness :
    Reachable 2 1 engineB2 genomeB4 ∧
    (Acyclic genomeB4.forwardKeys ∧
    ∀ (it : List Int → List Int) (fuel : Nat) (net : Network) (sd : ℚ) (tries : Nat)
      (draws : Nat → Nat × Nat) (z : ℚ) (g1 : Genome),
      (∀ l, (it l).Perm l) → GenerateNetwork it fuel genomeB4 = some net →
      AddEdgeMutation it genomeB4 net sd tries draws z = some (true, g1) →
      ∀ k ∈ SMap.keys g1.forward_edges, k ∉ SMap.keys genomeB4.forward_edges →
        ¬ Relation.ReflTransGen (EdgeRel genomeB4.forwardKeys) k.2 k.1) :=
  ⟨genomeB4_reachable,
    reachable_forward_acyclic 2 1 (by decide) engineB2 genomeB4 genomeB4_reachable⟩

/-- C6: in an engine with at least one output, no key of the four maps of a
reachable genome has a sensor (an id in `0 .. num_input_nodes - 1`, the bias
included) as its target. -/
theorem reachable_no_sensor_target (ni no : Int) (hno : 1 ≤ no) (n : NEAT) (g : Genome)
    (h : Reachable ni no n g) :
    ∀ k ∈ g.allKeys, IsInputNode g.num_input_nodes k.2 = false := by
  intro k hk
  rw [(BasicInv_of_reachable ni no n g h).sizeIn]
  apply (FullInv_of_reachable ni no hno n g h).noSensor k
  simp only [Genome.allKeys, Genome.forwardKeys, List.mem_append] at hk
  rcases hk with (hk | hk) | hk | hk
  · exact Or.inl hk
  · exact Or.inr (Or.inl hk)
  · exact Or.inr (Or.inr (Or.inl hk))
  · exact Or.inr (Or.inr (Or.inr hk))

/-- C6, witness: the genome reached by four mutations from the edge `(0,2)`. -/
theorem reachable_no_sensor_target_witness :
    Reachable 2 1 engineB2 genomeB4 ∧
    ∀ k ∈ genomeB4.allKeys, IsInputNode genomeB4.num_input_nodes k.2 = false :=
  ⟨genomeB4_reachable,
    reachable_no_sensor_target 2 1 (by decide) engineB2 genomeB4 genomeB4_reachable⟩

/-! ## C16: when `AddNodeMutation` fails -/

/-- C16: `AddNodeMutation` returns `false` exactly when no key of
`forward_edges` and no key of `recurrent_edges` has a source that is not an
output node, as for the empty genome; and when it returns `false`, the genome
(its four maps) and the engine (both registry maps and the node counter) are
the ones it was called with. -/
theorem AddNodeMutation_false_iff (g : Genome) (n : NEAT) (draw : Nat) :
    ((AddNodeMutation g n draw).1 = false ↔
      (∀ k ∈ SMap.keys g.forward_edges, g.IsOutputNode k.1 = true) ∧
      (∀ k ∈ SMap.keys g.recurrent_edges, g.IsOutputNode k.1 = true)) ∧
    ((AddNodeMutation g n draw).1 = false → (AddNodeMutation g n draw).2 = (g, n)) ∧
    (∀ ni no : Int, (AddNodeMutation (Genome.new ni no) n draw).1 = false) := by
  have hiff : ∀ g : Genome, g.possibleEdges.length < 1 ↔
      (∀ k ∈ SMap.keys g.forward_edges, g.IsOutputNode k.1 = true) ∧
      (∀ k ∈ SMap.keys g.recurrent_edges, g.IsOutputNode k.1 = true) := by
    intro g
    rw [Nat.lt_one_iff, List.length_eq_zero]
    unfold Genome.possibleEdges Genome.normalEdges
    rw [List.append_eq_nil, List.filter_eq_nil_iff, List.filter_eq_nil_iff]
    simp only [Bool.not_eq_true', Bool.not_eq_false]
  have hfst : ∀ g : Genome, (AddNodeMutation g n draw).1 = false ↔
      g.possibleEdges.length < 1 := by
    intro g
    rw [AddNodeMutation_fst]
    simp only [decide_eq_false_iff_not, not_le]
  refine ⟨(hfst g).trans (hiff g), ?_, ?_⟩
  · intro h
    have hl := (hfst g).1 h
    unfold AddNodeMutation
    rw [if_pos hl]
  · intro ni no
    rw [hfst, hiff]
    constructor <;> intro k hk <;> simp [Genome.new, SMap.keys] at hk

/-! ## C17: what `Crossover` changes -/

theorem find_crossMap (other : SMap (Int × Int) ℚ) (draws : Nat → Nat)
    (m : SMap (Int × Int) ℚ) (i : Nat) (k : Int × Int) (w : ℚ)
    (h : SMap.find (crossMap other draws i m) k = some w) :
    SMap.find m k = some w ∨ SMap.find other k = some w := by
  induction m generalizing i with
  | nil => simp [crossMap, SMap.find] at h
  | cons hd tl ih =>
    obtain ⟨e, w0⟩ := hd
    simp only [crossMap, SMap.find] at h ⊢
    by_cases hek : e = k
    · rw [if_pos hek] at h ⊢
      subst hek
      cases ho : SMap.find other e with
      | none =>
        rw [ho] at h
        exact Or.inl h
      | some w1 =>
        rw [ho] at h
        simp only at h
        split at h
        · exact Or.inr h
        · exact Or.inl h
    · rw [if_neg hek] at h ⊢
      exact ih _ h

/-- C17: `Crossover` keeps the keys of `forward_edges` and `recurrent_edges`
(in their order), leaves both disabled maps and the node counts as they are,
and the weight it leaves under an enabled key is the weight the key had or the
weight `parent1` holds for the key in its enabled map of the same kind. The
other genome is an argument that is only read. -/
theorem Crossover_frame (g parent1 : Genome) (draws : Nat → Nat) :
    SMap.keys (Crossover g parent1 draws).forward_edges = SMap.keys g.forward_edges ∧
    SMap.keys (Crossover g parent1 draws).recurrent_edges = SMap.keys g.recurrent_edges ∧
    (Crossover g parent1 draws).disabled_forward_edges = g.disabled_forward_edges ∧
    (Crossover g parent1 draws).disabled_recurrent_edges = g.disabled_recurrent_edges ∧
    (Crossover g parent1 draws).num_input_nodes = g.num_input_nodes ∧
    (Crossover g parent1 draws).num_output_nodes = g.num_output_nodes ∧
    (∀ k w, SMap.find (Crossover g parent1 draws).forward_edges k = some w →
      SMap.find g.forward_edges k = some w ∨ SMap.find parent1.forward_edges k = some w) ∧
    (∀ k w, SMap.find (Crossover g parent1 draws).recurrent_edges k = some w →
      SMap.find g.recurrent_edges k = some w ∨
        SMap.find parent1.recurrent_edges k = some w) := by
  refine ⟨keys_crossMap _ _ _ _, keys_crossMap _ _ _ _, rfl, rfl, rfl, rfl, ?_, ?_⟩
  · intro k w h
    exact find_crossMap _ _ _ _ k w h
  · intro k w h
    exact find_crossMap _ _ _ _ k w h

/-! ## C11 and C12: the checks of `Run`, and the run of a single bias edge -/

theorem Run_of_checks (act : ℚ → ℚ) (net : Network) (inp out : List ℚ)
    (h1 : net.IsInvalid = false) (h2 : (inp.length : Int) = net.num_input_nodes - 1)
    (h3 : (out.length : Int) = net.num_output_nodes) :
    Run act net inp out =
      (true, { net with run_info := runInfoAfter act net inp },
        readOutputs net (runInfoAfter act net inp)) := by
  unfold Run
  rw [h1]
  simp only [Bool.false_eq_true, if_false, h2, h3, ne_eq, not_true_eq_false]

theorem Run_of_reject (act : ℚ → ℚ) (net : Network) (inp out : List ℚ)
    (h : net.IsInvalid = true ∨ (inp.length : Int) ≠ net.num_input_nodes - 1 ∨
      (out.length : Int) ≠ net.num_output_nodes) :
    Run act net inp out = (false, net, out) := by
  unfold Run
  by_cases h1 : net.IsInvalid = true
  · rw [if_pos h1]
  · rw [if_neg h1]
    by_cases h2 : (inp.length : Int) ≠ net.num_input_nodes - 1
    · rw [if_pos h2]
    · rw [if_neg h2]
      by_cases h3 : (out.length : Int) ≠ net.num_output_nodes
      · rw [if_pos h3]
      · rcases h with h | h | h
        · exact absurd h h1
        · exact absurd h h2
        · exact absurd h h3

theorem runInfoAfter_shape (act : ℚ → ℚ) (net : Network) (inp : List ℚ) :
    (runInfoAfter act net inp).length = net.run_info.length ∧
    ∀ j, sizeAt (runInfoAfter act net inp) j = sizeAt net.run_info j := by
  have h := runInfoAfter_eq act net net.run_info inp
  have e : ({ net with run_info := net.run_info } : Network) = net := rfl
  rw [e] at h
  rw [h]
  constructor
  · rw [runNodes_length, runStart_length]
  · intro j
    rw [sizeAt_runNodes, sizeAt_runStart]

theorem readOutputs_length (net : Network) (ri : List NeuronRunInfo) :
    (readOutputs net ri).length = net.num_output_nodes.toNat := by
  simp [readOutputs]

/-- C11: `Run` returns `false` and hands back the network (so every
`output_val` of `run_info`) and `out` as they were when the network is invalid
(`num_input_nodes < 2` or `num_output_nodes < 1`, as for the default
constructed network), or `in` has not `num_input_nodes - 1` entries, or `out`
has not `num_output_nodes` entries; and on the network compiled from a genome
with at least one input besides the bias and one output, whose forward edges
have no cycle, enter no sensor and leave no output for a non-output, with
vectors of matching lengths, `Run` returns `true` and `out` keeps its
length. -/
theorem Run_checks (act : ℚ → ℚ) (inp out : List ℚ) :
    (∀ net : Network,
      (net.IsInvalid = true ↔ net.num_input_nodes < 2 ∨ net.num_output_nodes < 1) ∧
      (net.IsInvalid = true ∨ (inp.length : Int) ≠ net.num_input_nodes - 1 ∨
        (out.length : Int) ≠ net.num_output_nodes →
        Run act net inp out = (false, net, out))) ∧
    Run act NetworkBase.new inp out = (false, NetworkBase.new, out) ∧
    (∀ (it : List Int → List Int) (g : Genome) (fuel : Nat), (∀ l, (it l).Perm l) →
      ForwardOK g.num_input_nodes g.num_output_nodes (SMap.keys g.forward_edges) →
      2 ≤ g.num_input_nodes → 1 ≤ g.num_output_nodes →
      sortFuel g.num_input_nodes g.num_output_nodes g.forward_edges.length ≤ fuel →
      (inp.length : Int) = g.num_input_nodes - 1 →
      (out.length : Int) = g.num_output_nodes →
      ∃ net, GenerateNetwork it fuel g = some net ∧
        (Run act net inp out).1 = true ∧ (Run act net inp out).2.2.length = out.length) := by
  refine ⟨?_, ?_, ?_⟩
  · intro net
    refine ⟨?_, Run_of_reject act net inp out⟩
    simp [Network.IsInvalid]
  · apply Run_of_reject
    left
    rfl
  · intro it g fuel hit hok hni hno hf hin hout
    obtain ⟨rev, S, D, net, hb, C⟩ := Network.build_ok it hit g.num_input_nodes
      g.num_output_nodes g.forward_edges g.recurrent_edges hok fuel hf
    refine ⟨net, hb, ?_⟩
    have hv : net.IsInvalid = false := by
      simp only [Network.IsInvalid, C.sizeIn, C.sizeOut, Bool.or_eq_false_iff,
        decide_eq_false_iff_not, not_lt]
      exact ⟨hni, hno⟩
    rw [Run_of_checks act net inp out hv (by rw [C.sizeIn]; exact hin)
      (by rw [C.sizeOut]; exact hout)]
    refine ⟨rfl, ?_⟩
    simp only [readOutputs_length, C.sizeOut]
    omega

/-- C11, witness: the genome `0 → 3 → 2` with the input `3`, and the same
network with an input vector that is too long. -/
theorem Run_checks_witness :
    (∃ net, GenerateNetwork id 11 genomeB = some net ∧
      (Run halve net [3] [7]).1 = true ∧ (Run halve net [3] [7]).2.2.length = 1) ∧
    (∃ net, GenerateNetwork id 11 genomeB = some net ∧
      Run halve net [3, 4] [7] = (false, net, [7])) :=
  ⟨(Run_checks halve [3] [7]).2.2 id genomeB 11 (fun l => List.Perm.refl l)
      genomeB_forwardOK (by decide) (by decide) (by decide) (by decide) (by decide),
    ⟨_, rfl, ((Run_checks halve [3, 4] [7]).1 _).2 (Or.inr (Or.inl (by decide)))⟩⟩


theorem biasGenome_forwardOK (w : ℚ) :
    ForwardOK 2 1 (SMap.keys (biasGenome w).forward_edges) := by
  have hk : SMap.keys (biasGenome w).forward_edges = [(1, 2)] := rfl
  rw [hk]
  exact ⟨by decide, by decide, acyclic_of_rank _ (fun x => x) (by decide)⟩

theorem biasGenome_reference (act : ℚ → ℚ) (w x : ℚ) :
    ReferenceValue act 2 (biasGenome w).forward_edges [x]
      (fun n => if n = 0 then x else if n = 1 then 1 else if n = 2 then act w else act 0) := by
  refine ⟨?_, ?_, ?_⟩
  · intro i hi
    have : i = 0 := by omega
    subst this
    simp
  · simp
  · intro n hn
    have hn2 : ¬ (0 ≤ n ∧ n < 2) := by
      intro hc
      have := (IsInputNode_iff 2 n).2 hc
      rw [this] at hn
      exact Bool.noConfusion hn
    have h0 : n ≠ 0 := by omega
    have h1 : n ≠ 1 := by omega
    simp only [h0, h1, if_false]
    by_cases h2 : n = 2
    · subst h2
      simp [biasGenome, Genome.new]
    · have h3 : ¬ (2 : Int) = n := fun h => h2 h.symm
      simp [biasGenome, Genome.new, h2, h3]

/-- C12: on the network compiled from the genome whose only edge is the
enabled forward edge from the bias to the output, with weight `w`,
`Run([x], out)` returns `true` with `out = [act w]` (`act` in the place of
`tanh`), whatever output values `ri0` an earlier run left in `run_info`; the
network it leaves differs from the compiled one in the output values of
`run_info` only, so the same holds for every later invocation. -/
theorem Run_bias_edge (it : List Int → List Int) (hit : ∀ l, (it l).Perm l) (act : ℚ → ℚ)
    (w x : ℚ) (fuel : Nat) (hf : 9 ≤ fuel) (out : List ℚ) (hout : out.length = 1) :
    ∃ net, GenerateNetwork it fuel (biasGenome w) = some net ∧
      ∀ ri0 : List NeuronRunInfo, ri0.length = net.run_info.length →
        (∀ j, sizeAt ri0 j = sizeAt net.run_info j) →
        ∃ ri1 : List NeuronRunInfo,
          Run act { net with run_info := ri0 } [x] out =
            (true, { net with run_info := ri1 }, [act w]) ∧
          ri1.length = net.run_info.length ∧
          ∀ j, sizeAt ri1 j = sizeAt net.run_info j := by
  obtain ⟨rev, S, D, net, hb, C⟩ := Network.build_ok it hit 2 1
    (biasGenome w).forward_edges [] (biasGenome_forwardOK w) fuel hf
  refine ⟨net, hb, ?_⟩
  intro ri0 hlen hsz
  have hv : Network.IsInvalid { net with run_info := ri0 } = false := by
    simp [Network.IsInvalid, C.sizeIn, C.sizeOut]
  obtain ⟨s1, s2⟩ := runInfoAfter_shape act { net with run_info := ri0 } [x]
  refine ⟨runInfoAfter act { net with run_info := ri0 } [x], ?_, by rw [s1]; exact hlen,
    fun j => by rw [s2]; exact hsz j⟩
  rw [Run_of_checks act _ [x] out hv (by simp [C.sizeIn]) (by simp [C.sizeOut, hout])]
  congr 2
  have hnd : (SMap.keys (biasGenome w).forward_edges).Nodup := by
    show ([(1, 2)] : List (Int × Int)).Nodup
    decide
  have hval := C.final_eq_reference hit hnd act ri0 hlen hsz [x] (by decide)
    (by simp) _ (biasGenome_reference act w x)
    ((SMap.getD D 2 0).toNat + 1) 2
    (by rw [C.mem_labels]; right; left; decide)
    (by
      have := C.depth_nonneg 2 (by rw [C.mem_labels]; right; left; decide)
      push_cast
      omega)
  have hro : readOutputs { net with run_info := ri0 }
      (runInfoAfter act { net with run_info := ri0 } [x]) =
      (List.range net.num_output_nodes.toNat).map (fun i =>
        valAt (runInfoAfter act { net with run_info := ri0 } [x])
          (net.output_indices.getD i 0)) := rfl
  have hr : List.range net.num_output_nodes.toNat = [0] := by rw [C.sizeOut]; rfl
  have ho := C.output_indices_eq 0 (by decide)
  simp only [Nat.cast_zero, add_zero] at ho
  rw [hro, hr, List.map_cons, List.map_nil, ho, ← C.labels_eq, hval]
  simp

/-- C12, witness: weight `5`, input `3`, on a `run_info` holding the output
values of a run on the input `8`. -/
theorem Run_bias_edge_witness :
    ∃ net, GenerateNetwork id 9 (biasGenome 5) = some net ∧
      ∀ ri0 : List NeuronRunInfo, ri0.length = net.run_info.length →
        (∀ j, sizeAt ri0 j = sizeAt net.run_info j) →
        ∃ ri1 : List NeuronRunInfo,
          Run halve { net with run_info := ri0 } [3] [0] =
            (true, { net with run_info := ri1 }, [halve 5]) ∧
          ri1.length = net.run_info.length ∧
          ∀ j, sizeAt ri1 j = sizeAt net.run_info j :=
  Run_bias_edge id (fun l => List.Perm.refl l) halve 5 3 9 (by decide) [0] (by decide)

/-! ## C18, C19, C20: the compatibility distance -/

theorem SMap.find_append {K V : Type} [DecidableEq K] (m1 m2 : SMap K V) (k : K) :
    SMap.find (m1 ++ m2) k =
      match SMap.find m1 k with
      | some w => some w
      | none => SMap.find m2 k := by
  induction m1 with
  | nil => rfl
  | cons hd tl ih =>
    obtain ⟨k1, v1⟩ := hd
    simp only [List.cons_append, SMap.find]
    by_cases h : k1 = k
    · simp [h]
    · simp only [h, if_false]
      exact ih

theorem compatEntry_eq (en dis : SMap (Int × Int) ℚ) (st : Int × ℚ) (e : (Int × Int) × ℚ) :
    compatEntry en dis st e =
      if e.1 ∈ SMap.keys (en ++ dis) then
        (st.1 + 1, st.2 + |e.2 - SMap.getD (en ++ dis) e.1 0|)
      else st := by
  have hm : e.1 ∈ SMap.keys (en ++ dis) ↔ (SMap.find (en ++ dis) e.1).isSome = true :=
    (SMap.find_isSome_iff_mem_keys _ _).symm
  have hg : SMap.getD (en ++ dis) e.1 0 = (SMap.find (en ++ dis) e.1).getD 0 := rfl
  have hf := SMap.find_append en dis e.1
  unfold compatEntry
  cases h1 : SMap.find en e.1 with
  | some w =>
    rw [h1] at hf
    simp only at hf
    rw [if_pos (hm.2 (by rw [hf]; rfl)), hg, hf]
    rfl
  | none =>
    rw [h1] at hf
    simp only at hf
    cases h2 : SMap.find dis e.1 with
    | some w =>
      rw [h2] at hf
      rw [if_pos (hm.2 (by rw [hf]; rfl)), hg, hf]
      rfl
    | none =>
      rw [h2] at hf
      rw [if_neg]
      intro hc
      rw [hm, hf] at hc
      exact Bool.noConfusion hc

theorem compat_foldl (en dis A : SMap (Int × Int) ℚ) (st : Int × ℚ) :
    A.foldl (compatEntry en dis) st =
      (st.1 + ((A.filter (fun e => decide (e.1 ∈ SMap.keys (en ++ dis)))).length : Int),
       st.2 + ((A.filter (fun e => decide (e.1 ∈ SMap.keys (en ++ dis)))).map
         (fun e => |e.2 - SMap.getD (en ++ dis) e.1 0|)).sum) := by
  induction A generalizing st with
  | nil => simp
  | cons hd tl ih =>
    rw [List.foldl_cons, ih, compatEntry_eq]
    by_cases h : hd.1 ∈ SMap.keys (en ++ dis)
    · rw [if_pos h, List.filter_cons_of_pos (by simpa using h)]
      simp only [List.length_cons, List.map_cons, List.sum_cons, Nat.cast_add, Nat.cast_one]
      refine Prod.ext ?_ ?_
      · simp only
        ring
      · simp only
        ring
    · rw [if_neg h, List.filter_cons_of_neg (by simpa using h)]


theorem filter_keys_toFinset (A : SMap (Int × Int) ℚ) (K : List (Int × Int)) :
    ((SMap.keys A).filter (fun k => decide (k ∈ K))).toFinset =
      (SMap.keys A).toFinset ∩ K.toFinset := by
  ext k
  simp only [List.mem_toFinset, List.mem_filter, decide_eq_true_eq, Finset.mem_inter]

theorem filter_fst (A : SMap (Int × Int) ℚ) (K : List (Int × Int)) :
    (A.filter (fun e => decide (e.1 ∈ K))).map Prod.fst =
      (SMap.keys A).filter (fun k => decide (k ∈ K)) := by
  unfold SMap.keys
  rw [List.filter_map]
  rfl

theorem matched_count (A : SMap (Int × Int) ℚ) (K : List (Int × Int))
    (hnd : (SMap.keys A).Nodup) :
    (A.filter (fun e => decide (e.1 ∈ K))).length =
      ((SMap.keys A).toFinset ∩ K.toFinset).card := by
  rw [← filter_keys_toFinset, List.toFinset_card_of_nodup (hnd.filter _), ← filter_fst,
    List.length_map]

theorem matched_sum (A B : SMap (Int × Int) ℚ) (K : List (Int × Int))
    (hnd : (SMap.keys A).Nodup) :
    ((A.filter (fun e => decide (e.1 ∈ K))).map
      (fun e => |e.2 - SMap.getD B e.1 0|)).sum =
      ((SMap.keys A).toFinset ∩ K.toFinset).sum
        (fun k => |SMap.getD A k 0 - SMap.getD B k 0|) := by
  rw [← filter_keys_toFinset, List.sum_toFinset _ (hnd.filter _), ← filter_fst, List.map_map]
  congr 1
  apply List.map_congr_left
  intro e he
  have hm : (e.1, e.2) ∈ A := (List.mem_filter.1 he).1
  simp only [Function.comp]
  rw [SMap.getD_of_mem_nodup A hnd e.1 e.2 0 hm]

theorem keys_append {V : Type} (m1 m2 : SMap (Int × Int) V) :
    SMap.keys (m1 ++ m2) = SMap.keys m1 ++ SMap.keys m2 := by
  simp [SMap.keys]

/-- What `GetCompatibilityDistInfo` returns when the forward keys of `g1`
(enabled and disabled together) are distinct and so are its recurrent keys:
keys are matched within their kind. -/
theorem GetCompatibilityDistInfo_eq (g1 g2 : Genome) (hF : g1.forwardKeys.Nodup)
    (hR : g1.recurrentKeys.Nodup) :
    GetCompatibilityDistInfo g1 g2 =
      ((g1.allKeys.length : Int) + g2.allKeys.length - 2 * matchingKeys g1 g2,
       (g1.allKeys.length : Int) + g2.allKeys.length - 2 * matchingKeys g1 g2 +
         matchingKeys g1 g2,
       if matchingKeys g1 g2 = 0 then 0
       else weightDiffSum g1 g2 / (matchingKeys g1 g2 : ℚ)) := by
  have hF1 : (SMap.keys (g1.forward_edges ++ g1.disabled_forward_edges)).Nodup := by
    rw [keys_append]; exact hF
  have hR1 : (SMap.keys (g1.recurrent_edges ++ g1.disabled_recurrent_edges)).Nodup := by
    rw [keys_append]; exact hR
  have hfold : (g1.disabled_recurrent_edges.foldl
      (compatEntry g2.recurrent_edges g2.disabled_recurrent_edges)
      (g1.recurrent_edges.foldl
        (compatEntry g2.recurrent_edges g2.disabled_recurrent_edges)
        (g1.disabled_forward_edges.foldl
          (compatEntry g2.forward_edges g2.disabled_forward_edges)
          (g1.forward_edges.foldl
            (compatEntry g2.forward_edges g2.disabled_forward_edges) (0, 0))))) =
      ((matchingKeys g1 g2 : Int), weightDiffSum g1 g2) := by
    rw [← List.foldl_append, ← List.foldl_append, compat_foldl, compat_foldl,
      matched_count _ _ hF1, matched_count _ _ hR1, matched_sum _ _ _ hF1,
      matched_sum _ _ _ hR1, keys_append, keys_append, keys_append, keys_append]
    unfold matchingKeys weightDiffSum sharedForward sharedRecurrent Genome.forwardKeys
      Genome.recurrentKeys Genome.forwardWeight Genome.recurrentWeight
    refine Prod.ext ?_ ?_
    · simp only
      push_cast
      ring
    · simp only
      ring
  unfold GetCompatibilityDistInfo
  simp only
  rw [hfold]
  simp only [Genome.allKeys, Genome.forwardKeys, SMap.keys, List.length_append,
    List.length_map, Nat.cast_add, Nat.cast_eq_zero, Int.cast_natCast]
  refine Prod.ext ?_ (Prod.ext ?_ ?_)
  · simp only
    ring
  · simp only
    ring
  · simp only [Int.natCast_eq_zero]


theorem matchingKeys_comm (g1 g2 : Genome) : matchingKeys g1 g2 = matchingKeys g2 g1 := by
  unfold matchingKeys sharedForward sharedRecurrent
  rw [Finset.inter_comm, Finset.inter_comm g1.recurrentKeys.toFinset]

theorem weightDiffSum_comm (g1 g2 : Genome) : weightDiffSum g1 g2 = weightDiffSum g2 g1 := by
  unfold weightDiffSum sharedForward sharedRecurrent
  rw [Finset.inter_comm, Finset.inter_comm g1.recurrentKeys.toFinset]
  congr 1
  · apply Finset.sum_congr rfl
    intro k _
    exact abs_sub_comm _ _
  · apply Finset.sum_congr rfl
    intro k _
    exact abs_sub_comm _ _

/-- C18, amended: when the forward keys of `g1` (enabled and disabled
together) are pairwise distinct and so are its recurrent keys,
`g1.GetCompatibilityDistInfo(g2)` returns
`non_matching = total_keys(g1) + total_keys(g2) - 2 * m`,
`genome_size = non_matching + m` and
`avg_weight_diff = (sum of |w1 - w2| over the matching keys) / m` (`0` when
`m = 0`), where `m` counts the keys present in both genomes in maps of the
same kind: a forward key (enabled or disabled) matches a forward key (enabled
or disabled), and a recurrent key a recurrent key. -/
theorem GetCompatibilityDistInfo_matching (g1 g2 : Genome) (hF : g1.forwardKeys.Nodup)
    (hR : g1.recurrentKeys.Nodup) :
    GetCompatibilityDistInfo g1 g2 =
      ((g1.allKeys.length : Int) + g2.allKeys.length - 2 * matchingKeys g1 g2,
       (g1.allKeys.length : Int) + g2.allKeys.length - 2 * matchingKeys g1 g2 +
         matchingKeys g1 g2,
       if matchingKeys g1 g2 = 0 then 0
       else weightDiffSum g1 g2 / (matchingKeys g1 g2 : ℚ)) :=
  GetCompatibilityDistInfo_eq g1 g2 hF hR

/-- C18, witness: the genome `0 → 3 → 2` with the disabled edge `(0,2)`
against the genome with the edges `(0,2)` and `(1,2)`. -/
theorem GetCompatibilityDistInfo_matching_witness :
    GetCompatibilityDistInfo genomeB genomeC =
      ((genomeB.allKeys.length : Int) + genomeC.allKeys.length -
          2 * matchingKeys genomeB genomeC,
       (genomeB.allKeys.length : Int) + genomeC.allKeys.length -
          2 * matchingKeys genomeB genomeC + matchingKeys genomeB genomeC,
       if matchingKeys genomeB genomeC = 0 then 0
       else weightDiffSum genomeB genomeC / (matchingKeys genomeB genomeC : ℚ)) :=
  GetCompatibilityDistInfo_matching genomeB genomeC (by decide) (by decide)

/-- C18 as stated fails: the four maps of `compatX` are pairwise key-disjoint,
and so are those of `compatY`; the key `(3,4)` is in a map of both (a forward
key of `compatX`, a recurrent key of `compatY`) and is the only such key, so
the stated `non_matching` is `3 + 4 - 2 * 1 = 5`; the code looks a forward key
up in the forward maps only and returns `non_matching = 7`,
`genome_size = 7`. -/
theorem GetCompatibilityDistInfo_kinds_apart :
    compatX.allKeys.Nodup ∧ compatY.allKeys.Nodup ∧
    compatX.allKeys.length = 3 ∧ compatY.allKeys.length = 4 ∧
    (compatX.allKeys.toFinset ∩ compatY.allKeys.toFinset) = {(3, 4)} ∧
    GetCompatibilityDistInfo compatX compatY = (7, 7, 0) := by
  refine ⟨by decide, by decide, by decide, by decide, by decide, by rfl⟩

/-- C19: when in each of two genomes the forward keys (enabled and disabled
together) are pairwise distinct and so are the recurrent keys,
`GetCompatibilityDistInfo` returns the same three values in both directions,
hence the compatibility distance and `WithinCompatibilityThresh` are
symmetric, for all coefficients and thresholds. -/
theorem GetCompatibilityDistInfo_symm (g1 g2 : Genome) (hF1 : g1.forwardKeys.Nodup)
    (hR1 : g1.recurrentKeys.Nodup) (hF2 : g2.forwardKeys.Nodup)
    (hR2 : g2.recurrentKeys.Nodup) :
    GetCompatibilityDistInfo g1 g2 = GetCompatibilityDistInfo g2 g1 ∧
    (∀ c1_c2 c3 : ℚ, compatibilityDist c1_c2 c3 g1 g2 = compatibilityDist c1_c2 c3 g2 g1) ∧
    (∀ c1_c2 c3 compatibility_thresh : ℚ,
      WithinCompatibilityThresh c1_c2 c3 compatibility_thresh g1 g2 =
        WithinCompatibilityThresh c1_c2 c3 compatibility_thresh g2 g1) := by
  have h : GetCompatibilityDistInfo g1 g2 = GetCompatibilityDistInfo g2 g1 := by
    rw [GetCompatibilityDistInfo_eq g1 g2 hF1 hR1, GetCompatibilityDistInfo_eq g2 g1 hF2 hR2,
      matchingKeys_comm g2 g1, weightDiffSum_comm g2 g1, add_comm (g2.allKeys.length : Int)]
  have hd : ∀ c1_c2 c3 : ℚ,
      compatibilityDist c1_c2 c3 g1 g2 = compatibilityDist c1_c2 c3 g2 g1 := by
    intro c1_c2 c3
    unfold compatibilityDist
    rw [h]
  refine ⟨h, hd, ?_⟩
  intro c1_c2 c3 t
  unfold WithinCompatibilityThresh
  rw [hd]

/-- C19, witness: the genome `0 → 3 → 2` with the disabled edge `(0,2)` and
the genome with the edges `(0,2)` and `(1,2)`. -/
theorem GetCompatibilityDistInfo_symm_witness :
    GetCompatibilityDistInfo genomeB genomeC = GetCompatibilityDistInfo genomeC genomeB ∧
    (∀ c1_c2 c3 : ℚ,
      compatibilityDist c1_c2 c3 genomeB genomeC = compatibilityDist c1_c2 c3 genomeC genomeB) ∧
    (∀ c1_c2 c3 compatibility_thresh : ℚ,
      WithinCompatibilityThresh c1_c2 c3 compatibility_thresh genomeB genomeC =
        WithinCompatibilityThresh c1_c2 c3 compatibility_thresh genomeC genomeB) :=
  GetCompatibilityDistInfo_symm genomeB genomeC (by decide) (by decide) (by decide)
    (by decide)

theorem genomeB5_reachable : Reachable 2 1 engineB2 genomeB5 :=
  Reachable.weights (1 / 10) 2 (1 / 10) (fun _ => 1) (fun _ => 1) genomeB4_reachable

theorem genomeB5_eq :
    genomeB5 =
      { num_input_nodes := 2
        num_output_nodes := 1
        forward_edges := [((0, 3), 11 / 10), ((0, 4), 11 / 10), ((3, 2), 21 / 10),
          ((4, 3), 11 / 10)]
        recurrent_edges := []
        disabled_forward_edges := [((0, 2), 2), ((0, 3), 1)]
        disabled_recurrent_edges := [] } := by
  have h4 : genomeB4 =
      { num_input_nodes := 2
        num_output_nodes := 1
        forward_edges := [((0, 3), 1), ((0, 4), 1), ((3, 2), randomGaussian 2 1),
          ((4, 3), 1)]
        recurrent_edges := []
        disabled_forward_edges := [((0, 2), randomGaussian 2 1), ((0, 3), 1)]
        disabled_recurrent_edges := [] } := by rfl
  unfold genomeB5
  rw [h4]
  simp only [MutateWeights, mutateMap, randomGaussian]
  norm_num

/-- C20 (evaluation at the failing input): the genome `genomeB5` is reachable
(four mutations from the edge `(0,2)`, then `MutateWeights`); its key `(0,3)`
is in `forward_edges` with weight `11/10` and in `disabled_forward_edges` with
weight `1`; `GetCompatibilityDistInfo` of the genome against itself returns
`non_matching = 0`, `genome_size = 6` and `avg_weight_diff = 1/60`, and the
distance with `c1_c2 = 1`, `c3 = 2/5` is `1/150`, not `0`. -/
theorem compatibility_self_nonzero :
    Reachable 2 1 engineB2 genomeB5 ∧
    SMap.find genomeB5.forward_edges (0, 3) = some (11 / 10) ∧
    SMap.find genomeB5.disabled_forward_edges (0, 3) = some 1 ∧
    GetCompatibilityDistInfo genomeB5 genomeB5 = (0, 6, 1 / 60) ∧
    compatibilityDist 1 (2 / 5) genomeB5 genomeB5 = 1 / 150 := by
  have hinfo : GetCompatibilityDistInfo genomeB5 genomeB5 = (0, 6, 1 / 60) := by
    rw [genomeB5_eq]
    simp only [GetCompatibilityDistInfo, List.foldl_cons, List.foldl_nil, compatEntry,
      SMap.find]
    norm_num [abs_of_nonneg]
  refine ⟨genomeB5_reachable, ?_, ?_, hinfo, ?_⟩
  · rw [genomeB5_eq]
    simp [SMap.find]
  · rw [genomeB5_eq]
    simp [SMap.find]
  · unfold compatibilityDist
    rw [hinfo]
    norm_num

/-! ## C14 and C15: `AddEdgeMutation` -/

theorem labelAt_of_index (net : Network) (i : Int) (h0 : 0 ≤ i)
    (h1 : i.toNat < net.labels.length) :
    labelAt net.visual_info i = some (net.labels.getD i.toNat 0) := by
  have hlt : i.toNat < net.visual_info.length := by
    unfold Network.labels at h1
    rw [List.length_map] at h1
    exact h1
  unfold labelAt
  rw [if_neg (by omega), List.getD_eq_getElem _ _ h1]
  unfold Network.labels
  rw [List.getElem_map, List.get?_eq_getElem?, List.getElem?_eq_getElem hlt]
  rfl

theorem Compiled.draw_nodes {it : List Int → List Int} {ni no : Int}
    {fe re : SMap (Int × Int) ℚ} {rev : SMap Int (List Int)} {S : List Int} {D : SMap Int Int}
    {net : Network} (C : Compiled it ni no fe re rev S D net) (hni : 0 ≤ ni) (hno : 1 ≤ no)
    (d : Nat × Nat) :
    ∃ a b, labelAt net.visual_info (rand_int ((net.run_info.length : Int) - 1) d.1) = some a ∧
      labelAt net.visual_info
        (rand_int2 net.num_input_nodes ((net.run_info.length : Int) - 1) d.2) = some b ∧
      a ∈ net.labels ∧ b ∈ net.labels ∧ IsInputNode ni b = false := by
  obtain ⟨rest, h1, h2, h3⟩ := C.labels_split
  have hmem : ∀ j, j < net.labels.length → net.labels.getD j 0 ∈ net.labels := by
    intro j hj
    rw [List.getD_eq_getElem _ _ hj]
    exact List.getElem_mem _
  have hout : ni ∈ rest := by
    have hm : ni ∈ net.labels := by
      rw [C.mem_labels, IsOutputNode_iff]
      right; left; omega
    rw [h1, List.mem_append, mem_countUp] at hm
    rcases hm with hm | hm
    · omega
    · exact hm
  have hlen : ni.toNat + 1 ≤ net.labels.length := by
    rw [h1, List.length_append, countUp_length]
    have := List.length_pos_of_mem hout
    omega
  have ha := rand_int_bounds ((net.run_info.length : Int) - 1) d.1
    (by rw [C.run_info_length]; omega)
  have hb : ni ≤ rand_int2 net.num_input_nodes ((net.run_info.length : Int) - 1) d.2 ∧
      rand_int2 net.num_input_nodes ((net.run_info.length : Int) - 1) d.2 ≤
        (net.labels.length : Int) - 1 := by
    unfold rand_int2
    rw [C.sizeIn, C.run_info_length]
    have := rand_int_bounds ((net.labels.length : Int) - 1 - ni) d.2 (by omega)
    omega
  rw [C.run_info_length] at ha
  have hai : (rand_int ((net.run_info.length : Int) - 1) d.1).toNat < net.labels.length := by
    rw [C.run_info_length]
    omega
  have hbi : (rand_int2 net.num_input_nodes ((net.run_info.length : Int) - 1) d.2).toNat <
      net.labels.length := by omega
  refine ⟨_, _, labelAt_of_index net _ (by rw [C.run_info_length]; exact ha.1) hai,
    labelAt_of_index net _ (by omega) hbi, hmem _ hai, hmem _ hbi, ?_⟩
  apply h2
  have hj : (countUp ni).length ≤
      (rand_int2 net.num_input_nodes ((net.run_info.length : Int) - 1) d.2).toNat := by
    rw [countUp_length]
    omega
  have := getD_append_right_mem (countUp ni) rest _ hj (by rw [← h1]; exact hbi)
  rw [← h1] at this
  exact this

theorem Compiled.known_edge {it : List Int → List Int} {ni no : Int}
    {fe re : SMap (Int × Int) ℚ} {rev : SMap Int (List Int)} {S : List Int} {D : SMap Int Int}
    {net : Network} (C : Compiled it ni no fe re rev S D net) (a b : Int) :
    ((∃ succs, SMap.find net.adjacency_list a = some succs ∧ b ∉ succs) →
      (a, b) ∉ SMap.keys fe) ∧
    ((∀ preds, SMap.find net.adjacency_list_recurrent_rev b = some preds → a ∉ preds) →
      (a, b) ∉ SMap.keys re) := by
  constructor
  · rintro ⟨succs, h1, h2⟩ hk
    have := (C.adj_iff a b).2 hk
    rw [SMap.getD_of_find _ _ _ _ h1] at this
    exact h2 this
  · intro h hk
    have hm := (C.rec_iff a b).2 hk
    cases hf : SMap.find net.adjacency_list_recurrent_rev b with
    | none =>
      simp [SMap.getD, hf] at hm
    | some preds =>
      rw [SMap.getD_of_find _ _ _ _ hf] at hm
      exact h preds hf hm

theorem AddEdgeMutation_false (it : List Int → List Int) (g g1 : Genome) (net : Network)
    (sd : ℚ) (tries : Nat) (draws : Nat → Nat × Nat) (z : ℚ)
    (h : AddEdgeMutation it g net sd tries draws z = some (false, g1)) : g1 = g := by
  unfold AddEdgeMutation at h
  cases hf : FindNewPossibleConnection it net draws tries with
  | none => simp [hf] at h
  | some r =>
    cases r with
    | none =>
      simp only [hf, Option.some.injEq, Prod.mk.injEq, true_and] at h
      exact h.symm
    | some p =>
      obtain ⟨a, b, r⟩ := p
      simp only [hf] at h
      split at h <;> simp at h


/-- C15, amended: let the forward edges of a genome with at least one output
have no cycle, enter no sensor and leave no output for a non-output, and let
`net` be the network compiled from it. When `AddEdgeMutation` returns `false`
the genome is unchanged. When it returns `true`, it chose a pair `(a, b)`
with `b` no sensor that was a key of neither `forward_edges` nor
`recurrent_edges`; with `r` the answer of `CheckRecurrent(a, b)`: if `r` the
pair is a key of `recurrent_edges` (with the Gaussian sample as weight) and no
key of `disabled_recurrent_edges`, both recurrent maps are unchanged at every
other key and both forward maps are unchanged; if not `r` the same holds with
the forward and the recurrent maps exchanged. -/
theorem AddEdgeMutation_post (it : List Int → List Int) (hit : ∀ l, (it l).Perm l)
    (g : Genome)
    (hok : ForwardOK g.num_input_nodes g.num_output_nodes (SMap.keys g.forward_edges))
    (hno : 1 ≤ g.num_output_nodes) (fuel : Nat) (net : Network)
    (hnet : GenerateNetwork it fuel g = some net) (sd : ℚ) (max_tries : Nat)
    (draws : Nat → Nat × Nat) (z : ℚ) (ok : Bool) (g1 : Genome)
    (h : AddEdgeMutation it g net sd max_tries draws z = some (ok, g1)) :
    (ok = false → g1 = g) ∧
    (ok = true → ∃ a b r, CheckRecurrent it net a b = some r ∧
      IsInputNode g.num_input_nodes b = false ∧
      (a, b) ∉ SMap.keys g.forward_edges ∧ (a, b) ∉ SMap.keys g.recurrent_edges ∧
      g1.num_input_nodes = g.num_input_nodes ∧ g1.num_output_nodes = g.num_output_nodes ∧
      (r = true →
        SMap.find g1.recurrent_edges (a, b) = some (randomGaussian sd z) ∧
        SMap.find g1.disabled_recurrent_edges (a, b) = none ∧
        (∀ k, k ≠ (a, b) →
          SMap.find g1.recurrent_edges k = SMap.find g.recurrent_edges k ∧
          SMap.find g1.disabled_recurrent_edges k =
            SMap.find g.disabled_recurrent_edges k) ∧
        g1.forward_edges = g.forward_edges ∧
        g1.disabled_forward_edges = g.disabled_forward_edges) ∧
      (r = false →
        SMap.find g1.forward_edges (a, b) = some (randomGaussian sd z) ∧
        SMap.find g1.disabled_forward_edges (a, b) = none ∧
        (∀ k, k ≠ (a, b) →
          SMap.find g1.forward_edges k = SMap.find g.forward_edges k ∧
          SMap.find g1.disabled_forward_edges k = SMap.find g.disabled_forward_edges k) ∧
        g1.recurrent_edges = g.recurrent_edges ∧
        g1.disabled_recurrent_edges = g.disabled_recurrent_edges)) := by
  constructor
  · intro hf
    rw [hf] at h
    exact AddEdgeMutation_false it g g1 net sd max_tries draws z h
  · intro ht
    rw [ht] at h
    obtain ⟨d, a, b, r, T, hg1⟩ := AddEdgeMutation_some it g g1 net sd max_tries draws z h
    obtain ⟨rev, S, D, C⟩ := Compiled.of_build it hit g.num_input_nodes g.num_output_nodes
      g.forward_edges g.recurrent_edges hok fuel net hnet
    obtain ⟨_, _, hbs⟩ := C.try_nodes hno d a b r T
    obtain ⟨k1, k2⟩ := C.known_edge a b
    refine ⟨a, b, r, T.check, hbs, k1 T.known, k2 T.notRec, ?_, ?_, ?_, ?_⟩
    · rw [hg1]; split <;> rfl
    · rw [hg1]; split <;> rfl
    · intro hr
      rw [hg1, if_pos hr]
      refine ⟨SMap.find_set_self _ _ _, SMap.find_del_self _ _, ?_, rfl, rfl⟩
      intro k hk
      exact ⟨SMap.find_set_ne _ _ _ _ hk, SMap.find_del_ne _ _ _ hk⟩
    · intro hr
      rw [hg1, if_neg (by rw [hr]; exact Bool.false_ne_true)]
      refine ⟨SMap.find_set_self _ _ _, SMap.find_del_self _ _, ?_, rfl, rfl⟩
      intro k hk
      exact ⟨SMap.find_set_ne _ _ _ _ hk, SMap.find_del_ne _ _ _ hk⟩

theorem genomeB2_forwardOK : ForwardOK 2 1 (SMap.keys genomeB2.forward_edges) := by
  have hk : SMap.keys genomeB2.forward_edges = [(0, 4), (3, 2), (4, 3)] := by decide
  rw [hk]
  exact ⟨by decide, by decide,
    acyclic_of_rank _ (fun x => if x = 0 then 0 else if x = 4 then 1 else if x = 3 then 2 else 3)
      (by decide)⟩

/-- C15, witness: on the genome `0 → 4 → 3 → 2` with the disabled edges
`(0,2)` and `(0,3)` the draws `(0, 2)` choose the pair `(0, 2)`. -/
theorem AddEdgeMutation_post_witness :
    AddEdgeMutation id genomeB2 netB2 2 3 (fun _ => (0, 2)) 1 = some (true, genomeB3) ∧
    ((true = false → genomeB3 = genomeB2) ∧
    (true = true → ∃ a b r, CheckRecurrent id netB2 a b = some r ∧
      IsInputNode genomeB2.num_input_nodes b = false ∧
      (a, b) ∉ SMap.keys genomeB2.forward_edges ∧
      (a, b) ∉ SMap.keys genomeB2.recurrent_edges ∧
      genomeB3.num_input_nodes = genomeB2.num_input_nodes ∧
      genomeB3.num_output_nodes = genomeB2.num_output_nodes ∧
      (r = true →
        SMap.find genomeB3.recurrent_edges (a, b) = some (randomGaussian 2 1) ∧
        SMap.find genomeB3.disabled_recurrent_edges (a, b) = none ∧
        (∀ k, k ≠ (a, b) →
          SMap.find genomeB3.recurrent_edges k = SMap.find genomeB2.recurrent_edges k ∧
          SMap.find genomeB3.disabled_recurrent_edges k =
            SMap.find genomeB2.disabled_recurrent_edges k) ∧
        genomeB3.forward_edges = genomeB2.forward_edges ∧
        genomeB3.disabled_forward_edges = genomeB2.disabled_forward_edges) ∧
      (r = false →
        SMap.find genomeB3.forward_edges (a, b) = some (randomGaussian 2 1) ∧
        SMap.find genomeB3.disabled_forward_edges (a, b) = none ∧
        (∀ k, k ≠ (a, b) →
          SMap.find genomeB3.forward_edges k = SMap.find genomeB2.forward_edges k ∧
          SMap.find genomeB3.disabled_forward_edges k =
            SMap.find genomeB2.disabled_forward_edges k) ∧
        genomeB3.recurrent_edges = genomeB2.recurrent_edges ∧
        genomeB3.disabled_recurrent_edges = genomeB2.disabled_recurrent_edges))) :=
  ⟨by rfl, AddEdgeMutation_post id (fun l => List.Perm.refl l) genomeB2 genomeB2_forwardOK
    (by decide) 10 netB2 (by rfl) 2 3 (fun _ => (0, 2)) 1 true genomeB3 (by rfl)⟩

/-- C15 as stated fails: in `genomeCycle` the output `2` waits for the cycle
`3 → 4 → 3`, so the compiled network has the two sensors as its only nodes;
`FindNewPossibleConnection` then draws the bias `1` as `out`, and
`AddEdgeMutation` returns `true` with the new forward edge `(0, 1)` into a
sensor. -/
theorem AddEdgeMutation_into_sensor :
    ∃ net g1, GenerateNetwork id 3 genomeCycle = some net ∧ net.labels = [0, 1] ∧
      AddEdgeMutation id genomeCycle net 2 3 (fun _ => (0, 0)) 1 = some (true, g1) ∧
      (0, 1) ∈ SMap.keys g1.forward_edges ∧
      (0, 1) ∉ SMap.keys genomeCycle.forward_edges ∧
      IsInputNode genomeCycle.num_input_nodes 1 = true :=
  ⟨_, _, rfl, by decide, rfl, by decide, by decide, by decide⟩


theorem allSuccs_length (adj : SMap Int (List Int)) :
    (allSuccs adj).length + 2 = bfsFuel adj := by
  unfold allSuccs bfsFuel
  rw [List.length_flatten, List.map_map]
  rfl

theorem mem_allSuccs (adj : SMap Int (List Int)) (k : Int) (succs : List Int)
    (h : SMap.find adj k = some succs) (x : Int) (hx : x ∈ succs) : x ∈ allSuccs adj := by
  unfold allSuccs
  rw [List.mem_flatten]
  exact ⟨succs, List.mem_map.2 ⟨(k, succs), SMap.mem_of_find adj k succs h, rfl⟩, hx⟩

theorem undiscovered_insert (adj : SMap Int (List Int)) (disc : List Int) (e : Int)
    (he : e ∈ allSuccs adj) (hd : e ∉ disc) :
    undiscovered adj (USet.insert disc e) + 1 ≤ undiscovered adj disc := by
  unfold undiscovered
  have h1 : (allSuccs adj).filter (fun x => decide (x ∉ USet.insert disc e)) =
      ((allSuccs adj).filter (fun x => decide (x ∉ disc))).filter
        (fun x => decide (x ≠ e)) := by
    rw [List.filter_filter]
    apply List.filter_congr
    intro x _
    simp only [USet.mem_insert, not_or, Bool.decide_and, ne_eq, Bool.and_comm]
  rw [h1]
  have h2 := List.length_filter_lt_length_iff_exists
    (l := (allSuccs adj).filter (fun x => decide (x ∉ disc)))
    (p := fun x => decide (x ≠ e))
  have h3 := h2.2 ⟨e, List.mem_filter.2 ⟨he, by simpa using hd⟩, by simp⟩
  omega

theorem bfsVisit_potential (adj : SMap Int (List Int)) (l : List Int)
    (st : List Int × List Int) (hl : ∀ x ∈ l, x ∈ allSuccs adj) :
    (l.foldl bfsVisit st).2.length + undiscovered adj (l.foldl bfsVisit st).1 ≤
      st.2.length + undiscovered adj st.1 := by
  induction l generalizing st with
  | nil => exact le_refl _
  | cons e tl ih =>
    rw [List.foldl_cons]
    refine le_trans (ih _ (fun x hx => hl x (List.mem_cons_of_mem _ hx))) ?_
    unfold bfsVisit
    split
    · exact le_refl _
    · rename_i hd
      have := undiscovered_insert adj st.1 e (hl e (List.mem_cons_self _ _)) hd
      simp only [List.length_append, List.length_singleton]
      omega

/-- The breadth-first loop returns within the fuel, whatever the adjacency
map (cycles included): every iteration pops a node, and every pushed node is a
newly discovered entry of an adjacency set. -/
theorem bfsLoop_terminates (it : List Int → List Int) (hit : ∀ l, (it l).Perm l)
    (adj : SMap Int (List Int)) (tgt : Int) (fuel : Nat) :
    ∀ disc front, front.length + undiscovered adj disc + 1 ≤ fuel →
      ∃ r, bfsLoop it adj tgt fuel disc front = some r := by
  induction fuel with
  | zero =>
    intro disc front h
    omega
  | succ fuel ih =>
    intro disc front h
    cases front with
    | nil => exact ⟨false, rfl⟩
    | cons cur rest =>
      by_cases hc : cur = tgt
      · exact ⟨true, by simp [bfsLoop, hc]⟩
      · cases hfind : SMap.find adj cur with
        | none => exact ⟨true, by simp [bfsLoop, hc, hfind]⟩
        | some succs =>
          simp only [bfsLoop, hc, if_false, hfind]
          apply ih
          have := bfsVisit_potential adj (it succs) (disc, rest)
            (fun x hx => mem_allSuccs adj cur succs hfind x ((hit succs).mem_iff.1 hx))
          simp only [List.length_cons] at h
          simp only at this
          omega

theorem CheckRecurrent_terminates (it : List Int → List Int) (hit : ∀ l, (it l).Perm l)
    (net : Network) (a b : Int) : ∃ r, CheckRecurrent it net a b = some r := by
  unfold CheckRecurrent
  split
  · exact ⟨true, rfl⟩
  · split
    · exact ⟨true, rfl⟩
    · apply bfsLoop_terminates it hit
      have h1 := allSuccs_length net.adjacency_list
      have h2 : undiscovered net.adjacency_list [b] ≤ (allSuccs net.adjacency_list).length :=
        List.length_filter_le _ _
      simp only [List.length_singleton]
      omega

/-- On a network in which every member of an adjacency set is a key of the
adjacency list, for a start node `b` that is a key: `CheckRecurrent(a, b)`
returns, and answers `true` exactly when `a = b`, or `a` is an output and `b`
is not, or a path of the adjacency list leads from `b` to `a`. -/
theorem CheckRecurrent_closed (it : List Int → List Int) (hit : ∀ l, (it l).Perm l)
    (net : Network) (a b : Int)
    (hclosed : ∀ x y, AdjRel net.adjacency_list x y → y ∈ SMap.keys net.adjacency_list)
    (hb : b ∈ SMap.keys net.adjacency_list) :
    ∃ r, CheckRecurrent it net a b = some r ∧
      (r = true ↔ a = b ∨
        (IsOutputNode net.num_input_nodes net.num_output_nodes a = true ∧
          IsOutputNode net.num_input_nodes net.num_output_nodes b = false) ∨
        Relation.TransGen (AdjRel net.adjacency_list) b a) := by
  obtain ⟨r, hr⟩ := CheckRecurrent_terminates it hit net a b
  refine ⟨r, hr, ?_⟩
  cases r
  · have h1 := CheckRecurrent_false it net a b hr
    have h2 := CheckRecurrent_false_no_path it hit net a b hr
    constructor
    · intro h
      exact Bool.noConfusion h
    · rintro (h | h | h)
      · exact absurd h h1.1
      · exact absurd h h1.2.1
      · exact absurd h.to_reflTransGen h2.2
  · constructor
    · intro _
      rcases CheckRecurrent_true it hit net a b hr with h | h | h | ⟨x, hx1, hx2⟩
      · exact Or.inl h
      · exact Or.inr (Or.inl h)
      · rcases Relation.reflTransGen_iff_eq_or_transGen.1 h with h1 | h1
        · exact Or.inl h1
        · exact Or.inr (Or.inr h1)
      · exfalso
        rw [SMap.find_eq_none_iff] at hx2
        apply hx2
        rcases Relation.ReflTransGen.cases_tail hx1 with h1 | ⟨c, _, hc⟩
        · rw [h1]; exact hb
        · exact hclosed c x hc
    · intro _
      rfl


theorem sortStep_getD (it : List Int → List Int) (ni no : Int) (only : Bool) (st : SortState)
    (x : Int) : SMap.getD (sortStep it ni no only st).adj x [] = SMap.getD st.adj x [] := by
  unfold sortStep
  simp only
  rw [SMap.getD_touch]

theorem sortLoop1_getD (it : List Int → List Int) (ni no : Int) (fuel : Nat) :
    ∀ st st1, sortLoop1 it ni no fuel st = some st1 →
      ∀ x, SMap.getD st1.adj x [] = SMap.getD st.adj x [] := by
  induction fuel with
  | zero =>
    intro st st1 h
    simp [sortLoop1] at h
  | succ fuel ih =>
    intro st st1 h x
    rw [sortLoop1_succ] at h
    split at h
    · rw [ih _ _ h x, sortStep_getD]
    · injection h with h
      rw [← h]

theorem sortLoop2_adj (it : List Int → List Int) (ni no : Int) (fuel : Nat) :
    ∀ st r, sortLoop2 it ni no fuel st = some r →
      (∀ x, SMap.getD (sortAdj r) x [] = SMap.getD st.adj x []) ∧
      (∀ x ∈ SMap.keys st.adj, x ∈ SMap.keys (sortAdj r)) := by
  induction fuel with
  | zero =>
    intro st r h
    simp [sortLoop2] at h
  | succ fuel ih =>
    intro st r h
    rw [sortLoop2_succ] at h
    split at h
    · split at h
      · injection h with h
        rw [← h]
        exact ⟨fun _ => rfl, fun _ hx => hx⟩
      · obtain ⟨h1, h2⟩ := ih _ _ h
        constructor
        · intro x
          rw [h1, sortStep_getD]
        · intro x hx
          exact h2 x (sortStep_keys it ni no false st x hx)
    · injection h with h
      rw [← h]
      exact ⟨fun _ => rfl, fun _ hx => hx⟩

/-- The adjacency list of every network the constructor returns after it has
read all forward edges (none of them leads from an output to a non-output):
its sets are the forward edges, and its keys hold every sensor, every output
and every node a forward edge mentions. -/
theorem Network.build_adjacency (it : List Int → List Int) (fuel : Nat) (ni no : Int)
    (fe re : SMap (Int × Int) ℚ) (net : Network)
    (hP2 : ∀ k ∈ SMap.keys fe,
      ¬ (IsOutputNode ni no k.1 = true ∧ IsOutputNode ni no k.2 = false))
    (h : Network.build it fuel ni no fe re = some net) :
    (∀ x y, AdjRel net.adjacency_list x y ↔ (x, y) ∈ SMap.keys fe) ∧
    (∀ x, (0 ≤ x ∧ x < ni + no) ∨ x ∈ endpoints (SMap.keys fe) →
      x ∈ SMap.keys net.adjacency_list) := by
  obtain ⟨adj, rev, hrf, hA, _, _, _, hAk, _⟩ :=
    readForward_ok ni no fe (initAdjacency (ni + no)) (initAdjacency (ni + no)) hP2
  have hA1 : ∀ x y, y ∈ SMap.getD adj x [] ↔ (x, y) ∈ SMap.keys fe := by
    intro x y
    rw [hA, initAdjacency_getD]
    simp
  have hAk1 : ∀ x, (0 ≤ x ∧ x < ni + no) ∨ x ∈ endpoints (SMap.keys fe) →
      x ∈ SMap.keys adj := by
    intro x hx
    rw [hAk, initAdjacency_keys]
    rcases hx with hx | hx
    · exact Or.inl hx
    · exact Or.inr ((mem_endpoints _ _).1 hx)
  have key : ∀ A : SMap Int (List Int), (∀ x, SMap.getD A x [] = SMap.getD adj x []) →
      (∀ x ∈ SMap.keys adj, x ∈ SMap.keys A) → net.adjacency_list = A →
      (∀ x y, AdjRel net.adjacency_list x y ↔ (x, y) ∈ SMap.keys fe) ∧
      (∀ x, (0 ≤ x ∧ x < ni + no) ∨ x ∈ endpoints (SMap.keys fe) →
        x ∈ SMap.keys net.adjacency_list) := by
    intro A h1 h2 h3
    rw [h3]
    constructor
    · intro x y
      unfold AdjRel
      rw [h1, hA1]
    · intro x hx
      exact h2 x (hAk1 x hx)
  unfold Network.build at h
  simp only [hrf] at h
  cases hl1 : sortLoop1 it ni no fuel
      { sortedNodes := initialSorted ni no rev, sortedNodesIndex := 0, adj := adj,
        rev := rev } with
  | none =>
    rw [hl1] at h
    cases h
  | some st1 =>
    rw [hl1] at h
    simp only at h
    have g1 := sortLoop1_getD it ni no fuel _ st1 hl1
    have k1 := sortLoop1_keys it ni no fuel _ st1 hl1
    cases hl2 : sortLoop2 it ni no fuel
        { st1 with sortedNodes := pushOutputSources ni no st1.rev st1.sortedNodes } with
    | none =>
      rw [hl2] at h
      cases h
    | some r =>
      rw [hl2] at h
      obtain ⟨g2, k2⟩ := sortLoop2_adj it ni no fuel _ r hl2
      apply key (sortAdj r)
      · intro x
        rw [g2]
        exact g1 x
      · intro x hx
        exact k2 x (k1 x hx)
      · cases r with
        | error adj2 =>
          simp only [Option.some.injEq] at h
          rw [← h]
          rfl
        | ok st2 =>
          simp only [Option.some.injEq] at h
          rw [← h]
          rfl

/-- C13: on every network `GenerateNetwork` returns for a genome whose
forward edges the constructor read to the end (none leads from an output to a
non-output), also one whose forward edges contain a cycle, and for every
start node `b` of the network (a sensor, an output, or an endpoint of a forward
edge), `CheckRecurrent(a, b)` returns, and it returns `true` exactly when
`a = b`, or `a` is an output and `b` is not, or a path of enabled forward edges
leads from `b` to `a`. -/
theorem CheckRecurrent_iff (it : List Int → List Int) (hit : ∀ l, (it l).Perm l) (g : Genome)
    (hP2 : ∀ k ∈ SMap.keys g.forward_edges,
      ¬ (g.IsOutputNode k.1 = true ∧ g.IsOutputNode k.2 = false))
    (fuel : Nat) (net : Network) (hnet : GenerateNetwork it fuel g = some net) (a b : Int)
    (hb : (0 ≤ b ∧ b < g.num_input_nodes + g.num_output_nodes) ∨
      b ∈ endpoints (SMap.keys g.forward_edges)) :
    ∃ r, CheckRecurrent it net a b = some r ∧
      (r = true ↔ a = b ∨ (g.IsOutputNode a = true ∧ g.IsOutputNode b = false) ∨
        Relation.TransGen (EdgeRel (SMap.keys g.forward_edges)) b a) := by
  obtain ⟨hadj, hkeys⟩ := Network.build_adjacency it fuel g.num_input_nodes g.num_output_nodes
    g.forward_edges g.recurrent_edges net hP2 hnet
  obtain ⟨hni, hno⟩ := Network.build_sizes it fuel g.num_input_nodes g.num_output_nodes
    g.forward_edges g.recurrent_edges net hnet
  have hrel : AdjRel net.adjacency_list = EdgeRel (SMap.keys g.forward_edges) := by
    funext x y
    exact propext (hadj x y)
  have hclosed : ∀ x y, AdjRel net.adjacency_list x y → y ∈ SMap.keys net.adjacency_list := by
    intro x y hxy
    apply hkeys y
    right
    rw [mem_endpoints]
    exact ⟨(x, y), (hadj x y).1 hxy, Or.inr rfl⟩
  obtain ⟨r, hr, hiff⟩ := CheckRecurrent_closed it hit net a b hclosed (hkeys b hb)
  refine ⟨r, hr, ?_⟩
  rw [hiff, hrel, hni, hno]
  rfl

/-- C13, witness: the path `0 → 3 → 2` of `genomeB` (input `0`, bias `1`,
output `2`, hidden `3`): the pair `(2,3)` is recurrent, the pair `(0,2)` is
forward, and the draw of the pair `(0,3)` is rejected as an existing edge; and
the call returns on `genomeCycle`, whose forward edges hold the cycle
`3 → 4 → 3`. -/
theorem CheckRecurrent_iff_witness :
    GenerateNetwork id 11 genomeB = some netB ∧
    SMap.keys genomeB.forward_edges = [(0, 3), (3, 2)] ∧
    (∃ r, CheckRecurrent id netB 2 3 = some r ∧
      (r = true ↔ (2 : Int) = 3 ∨
        (genomeB.IsOutputNode 2 = true ∧ genomeB.IsOutputNode 3 = false) ∨
        Relation.TransGen (EdgeRel (SMap.keys genomeB.forward_edges)) 3 2)) ∧
    CheckRecurrent id netB 2 3 = some true ∧
    CheckRecurrent id netB 0 2 = some false ∧
    labelAt netB.visual_info (rand_int ((netB.run_info.length : Int) - 1) 0) = some 0 ∧
    labelAt netB.visual_info
      (rand_int2 netB.num_input_nodes ((netB.run_info.length : Int) - 1) 0) = some 3 ∧
    tryConnection id netB (0, 0) = some none ∧
    (∃ net, GenerateNetwork id 3 genomeCycle = some net ∧
      CheckRecurrent id net 3 4 = some true ∧ CheckRecurrent id net 2 4 = some true ∧
      CheckRecurrent id net 0 4 = some false) :=
  ⟨by decide, by decide,
    CheckRecurrent_iff id (fun _ => List.Perm.refl _) genomeB (by decide) 11 netB (by decide)
      2 3 (Or.inr (by decide)),
    by decide, by decide, by decide, by decide, by decide, ⟨_, rfl, by decide⟩⟩

/-! ## C26: construction with a non-positive size -/

theorem specieEntries_nil (it : List Int → List Int) (fuel ptr i : Nat) :
    specieEntries it fuel ptr i [] = some [] := rfl

/-- C26: the constructor called with a non-positive `input_size`,
`output_size` or `pop_size` returns from one of its three guards with the
state of the member initialisers: there is no specie and no organism,
`GetNumSpecies()` is `0` and `GenerateNetworks()` returns the empty vector. -/
theorem Engine.create_rejected (input_size output_size pop_size_in : Int) (p : Params)
    (draws : Nat → Nat × Nat × ℚ)
    (h : input_size ≤ 0 ∨ output_size ≤ 0 ∨ pop_size_in ≤ 0) :
    Engine.create input_size output_size pop_size_in p draws =
      some (Engine.init input_size output_size pop_size_in p) ∧
    (Engine.init input_size output_size pop_size_in p).species = [] ∧
    (Engine.init input_size output_size pop_size_in p).numOrganisms = 0 ∧
    (Engine.init input_size output_size pop_size_in p).GetNumSpecies = 0 ∧
    ∀ (it : List Int → List Int) (fuel : Nat),
      GenerateNetworks it fuel (Engine.init input_size output_size pop_size_in p) = some [] := by
  refine ⟨?_, rfl, rfl, rfl, fun it fuel => rfl⟩
  unfold Engine.create
  by_cases h1 : input_size ≤ 0
  · simp [h1]
  · by_cases h2 : output_size ≤ 0
    · simp [h1, h2]
    · have h3 : pop_size_in ≤ 0 := by
        rcases h with h | h | h
        · exact absurd h h1
        · exact absurd h h2
        · exact h
      simp [h1, h2, h3]

/-- C26, witness: `input_size = 0` with the default population size, and
`output_size = 0`. -/
theorem Engine.create_rejected_witness :
    (Engine.create 0 1 150 Params.default (fun _ => (0, 0, 1)) =
      some (Engine.init 0 1 150 Params.default) ∧
    (Engine.init 0 1 150 Params.default).species = [] ∧
    (Engine.init 0 1 150 Params.default).numOrganisms = 0 ∧
    (Engine.init 0 1 150 Params.default).GetNumSpecies = 0 ∧
    ∀ (it : List Int → List Int) (fuel : Nat),
      GenerateNetworks it fuel (Engine.init 0 1 150 Params.default) = some []) ∧
    (Engine.create 3 0 150 Params.default (fun _ => (0, 0, 1))).map (fun e => e.species) =
      some [] :=
  ⟨Engine.create_rejected 0 1 150 Params.default (fun _ => (0, 0, 1)) (Or.inl (by decide)),
    by
      rw [(Engine.create_rejected 3 0 150 Params.default (fun _ => (0, 0, 1))
        (Or.inr (Or.inl (by decide)))).1]
      rfl⟩

/-! ## C25: `SetFitness` on a current handle -/

theorem getElem?_modify_some {α : Type} (f : α → α) (l : List α) (i n : Nat) (x : α)
    (h : l[n]? = some x) : (l.modify f i)[n]? = some (if i = n then f x else x) := by
  rw [List.getElem?_modify, h]
  rfl

theorem getElem?_modify_none {α : Type} (f : α → α) (l : List α) (i n : Nat)
    (h : l[n]? = none) : (l.modify f i)[n]? = none := by
  rw [List.getElem?_modify, h]
  rfl

theorem fitnessAt_writeFitness_self (e : Engine) (i j : Nat) (f f0 : ℚ)
    (h : e.fitnessAt i j = some f0) : (e.writeFitness i j f).fitnessAt i j = some f := by
  unfold Engine.fitnessAt at h ⊢
  unfold Engine.writeFitness
  simp only [List.get?_eq_getElem?] at h ⊢
  cases hs : e.species[i]? with
  | none => simp [hs] at h
  | some s =>
    rw [hs] at h
    simp only at h
    rw [getElem?_modify_some _ _ _ _ _ hs]
    simp only [if_true]
    cases ho : s.organisms[j]? with
    | none => simp [ho] at h
    | some o =>
      rw [getElem?_modify_some _ _ _ _ _ ho]
      simp

theorem fitnessAt_writeFitness_ne (e : Engine) (i j i1 j1 : Nat) (f : ℚ)
    (h : (i1, j1) ≠ (i, j)) : (e.writeFitness i j f).fitnessAt i1 j1 = e.fitnessAt i1 j1 := by
  unfold Engine.fitnessAt Engine.writeFitness
  simp only [List.get?_eq_getElem?]
  cases hs : e.species[i1]? with
  | none => rw [getElem?_modify_none _ _ _ _ hs]
  | some s =>
    rw [getElem?_modify_some _ _ _ _ _ hs]
    by_cases hi : i = i1
    · subst hi
      have hj : j ≠ j1 := by
        intro hj
        exact h (by rw [hj])
      simp only [if_true]
      rw [List.getElem?_modify_ne _ _ hj]
    · simp only [hi, if_false]

theorem genomes_writeFitness (e : Engine) (i j : Nat) (f : ℚ) :
    (e.writeFitness i j f).genomes = e.genomes := by
  unfold Engine.genomes Engine.writeFitness
  simp only
  apply List.ext_getElem?
  intro n
  simp only [List.getElem?_map]
  cases hs : e.species[n]? with
  | none => rw [getElem?_modify_none _ _ _ _ hs]
  | some s =>
    rw [getElem?_modify_some _ _ _ _ _ hs]
    simp only [Option.map_some', Option.some.injEq]
    by_cases hn : i = n
    · simp only [hn, if_true]
      apply List.ext_getElem?
      intro m
      simp only [List.getElem?_map]
      cases ho : s.organisms[m]? with
      | none => rw [getElem?_modify_none _ _ _ _ ho]
      | some o =>
        rw [getElem?_modify_some _ _ _ _ _ ho]
        simp only [Option.map_some', Option.some.injEq]
        split <;> rfl
    · simp only [hn, if_false]

/-- C25: on a handle that watches the object the engine still owns and whose
reference is bound to an organism of the engine, `SetFitness(f)` returns
`true` exactly when `0 ≤ f`; then the fitness of that organism is `f`, the
fitness of every other organism, every genome and every other member of the
engine are as before; and when `f < 0` it returns `false` and the engine is
as before. -/
theorem SetFitness_current (e : Engine) (h : FitnessInterface) (f f0 : ℚ)
    (hcur : h.fitness_valid_ptr = e.fitness_valid_ptr)
    (href : e.fitnessAt h.specie_index h.organism_index = some f0) :
    ((SetFitness e h f).1 = true ↔ 0 ≤ f) ∧
    (0 ≤ f →
      (SetFitness e h f).2.fitnessAt h.specie_index h.organism_index = some f ∧
      (∀ i j, (i, j) ≠ (h.specie_index, h.organism_index) →
        (SetFitness e h f).2.fitnessAt i j = e.fitnessAt i j) ∧
      (SetFitness e h f).2.genomes = e.genomes ∧
      { (SetFitness e h f).2 with species := e.species } = e) ∧
    (f < 0 → SetFitness e h f = (false, e)) := by
  have hne : ¬ (h.fitness_valid_ptr ≠ e.fitness_valid_ptr) := fun hn => hn hcur
  by_cases hf : f < 0
  · have hv : SetFitness e h f = (false, e) := by
      unfold SetFitness
      rw [if_neg hne, if_pos hf]
    rw [hv]
    refine ⟨⟨fun h1 => (by cases h1), fun h1 => absurd hf (not_lt.2 h1)⟩,
      fun h1 => absurd hf (not_lt.2 h1), fun _ => rfl⟩
  · have hv : SetFitness e h f = (true, e.writeFitness h.specie_index h.organism_index f) := by
      unfold SetFitness
      rw [if_neg hne, if_neg hf]
    rw [hv]
    refine ⟨⟨fun _ => not_lt.1 hf, fun _ => rfl⟩, fun _ => ⟨?_, ?_, ?_, rfl⟩,
      fun h1 => absurd h1 hf⟩
    · exact fitnessAt_writeFitness_self e _ _ f f0 href
    · intro i j hij
      exact fitnessAt_writeFitness_ne e _ _ i j f hij
    · exact genomes_writeFitness e _ _ f

/-- C25, witness: the second organism of `NEAT(1, 1, 2)`; `0` is accepted,
`-1` is refused. -/
theorem SetFitness_current_witness :
    engineTwo.fitnessAt 0 1 = some (-1) ∧
    (let h : FitnessInterface :=
      { fitness_valid_ptr := 0, specie_index := 0, organism_index := 1 }
    ((SetFitness engineTwo h 0).1 = true ↔ (0 : ℚ) ≤ 0) ∧
    ((0 : ℚ) ≤ 0 →
      (SetFitness engineTwo h 0).2.fitnessAt h.specie_index h.organism_index = some 0 ∧
      (∀ i j, (i, j) ≠ (h.specie_index, h.organism_index) →
        (SetFitness engineTwo h 0).2.fitnessAt i j = engineTwo.fitnessAt i j) ∧
      (SetFitness engineTwo h 0).2.genomes = engineTwo.genomes ∧
      { (SetFitness engineTwo h 0).2 with species := engineTwo.species } = engineTwo) ∧
    ((0 : ℚ) < 0 → SetFitness engineTwo h 0 = (false, engineTwo))) ∧
    (SetFitness engineTwo { fitness_valid_ptr := 0, specie_index := 0, organism_index := 1 }
      (-1)).1 = false :=
  ⟨by with_unfolding_all decide,
    SetFitness_current engineTwo { fitness_valid_ptr := 0, specie_index := 0, organism_index := 1 }
      0 (-1) (by with_unfolding_all decide) (by with_unfolding_all decide),
    by with_unfolding_all decide⟩

/-! ## C23: the parents of an offspring -/

theorem parentIndices_gt (a b : Int) (h : a > b) : parentIndices a b = (a, a) := by
  unfold parentIndices
  rw [if_pos h]

theorem parentIndices_le (a b : Int) (h : a ≤ b) : parentIndices a b = (a, b) := by
  unfold parentIndices
  rw [if_neg (by omega)]

/-- C23 (evaluation at the failing input): in the specie `specieCA` of three
organisms, sorted by decreasing fitness, the parents are drawn from the ranks
`0` and `1`, and the draws `1` and `0` select the ranks `a = 1` and `b = 0`;
the exchange leaves both indices at `1`, and the child is the genome of rank
`1`, the less fit parent, without any crossover; the claim asks for
the genome of rank `0` crossed over with the one of rank `1`. For every pair
`a > b` the indices after the exchange are `(a, a)`. -/
theorem parentIndices_keeps_larger :
    topOrganismsIndex specieCA.organisms.length (3 / 5) = 1 ∧
    rand_int (topOrganismsIndex specieCA.organisms.length (3 / 5)) 1 = 1 ∧
    rand_int (topOrganismsIndex specieCA.organisms.length (3 / 5)) 0 = 0 ∧
    parentIndices 1 0 = (1, 1) ∧
    (∀ cross : Nat → Nat, crossoverChild specieCA (parentIndices 1 0) cross = some genomeA) ∧
    (organismAt specieCA 0).map (fun o => o.genome) = some genomeC ∧
    (organismAt specieCA 1).map (fun o => o.genome) = some genomeA ∧
    Crossover genomeC genomeA (fun _ => 1) ≠ genomeA ∧
    ∀ a b : Int, a > b → parentIndices a b = (a, a) := by
  refine ⟨by with_unfolding_all decide, by with_unfolding_all decide,
    by with_unfolding_all decide, by decide, fun cross => ?_, by decide, by decide, by with_unfolding_all decide, parentIndices_gt⟩
  rw [parentIndices_gt 1 0 (by decide)]
  rfl

/-! ## The search for a compatible specie -/

theorem findSpecie_some (e : Engine) (rep : Nat → Option Genome) (g : Genome) :
    ∀ count j0 j, findSpecie e rep g count j0 = some (some j) →
      j0 ≤ j ∧ j < j0 + count ∧ (∃ r, rep j = some r ∧ e.within r g = true) ∧
      ∀ j1, j0 ≤ j1 → j1 < j → ∃ r, rep j1 = some r ∧ e.within r g = false := by
  intro count
  induction count with
  | zero =>
    intro j0 j h
    simp [findSpecie] at h
  | succ n ih =>
    intro j0 j h
    unfold findSpecie at h
    cases hr : rep j0 with
    | none => simp [hr] at h
    | some r =>
      simp only [hr] at h
      by_cases hw : e.within r g = true
      · simp only [hw, if_true, Option.some.injEq] at h
        subst h
        exact ⟨le_refl _, by omega, ⟨r, hr, hw⟩, fun j1 h1 h2 => by omega⟩
      · simp only [hw, if_false] at h
        obtain ⟨h1, h2, h3, h4⟩ := ih _ _ h
        refine ⟨by omega, by omega, h3, ?_⟩
        intro j1 hj1 hj2
        by_cases hj : j1 = j0
        · subst hj
          exact ⟨r, hr, by simpa using hw⟩
        · exact h4 j1 (by omega) hj2

theorem findSpecie_none (e : Engine) (rep : Nat → Option Genome) (g : Genome) :
    ∀ count j0, findSpecie e rep g count j0 = some none →
      ∀ j1, j0 ≤ j1 → j1 < j0 + count → ∃ r, rep j1 = some r ∧ e.within r g = false := by
  intro count
  induction count with
  | zero =>
    intro j0 _ j1 h1 h2
    omega
  | succ n ih =>
    intro j0 h j1 hj1 hj2
    unfold findSpecie at h
    cases hr : rep j0 with
    | none => simp [hr] at h
    | some r =>
      simp only [hr] at h
      by_cases hw : e.within r g = true
      · simp [hw] at h
      · simp only [hw, if_false] at h
        by_cases hj : j1 = j0
        · subst hj
          exact ⟨r, hr, by simpa using hw⟩
        · exact ih _ h j1 (by omega) (by omega)

theorem findSpecie_defined (e : Engine) (rep : Nat → Option Genome) (g : Genome) :
    ∀ count j0, (∀ j1, j0 ≤ j1 → j1 < j0 + count → ∃ r, rep j1 = some r) →
      ∃ x, findSpecie e rep g count j0 = some x := by
  intro count
  induction count with
  | zero =>
    intro j0 _
    exact ⟨none, rfl⟩
  | succ n ih =>
    intro j0 h
    obtain ⟨r, hr⟩ := h j0 (le_refl _) (by omega)
    unfold findSpecie
    simp only [hr]
    by_cases hw : e.within r g = true
    · exact ⟨some j0, by simp [hw]⟩
    · simp only [hw, if_false]
      exact ih _ (fun j1 h1 h2 => h j1 (by omega) (by omega))

/-! ## Adding an organism to a vector of species -/

theorem totalOrganisms_placeInto (g : Genome) :
    ∀ (species : List Specie) (j : Nat), j < species.length →
      totalOrganisms (placeInto species j g) = totalOrganisms species + 1 := by
  intro species
  induction species with
  | nil =>
    intro j h
    simp at h
  | cons s rest ih =>
    intro j h
    cases j with
    | zero =>
      simp only [placeInto, List.modify_zero_cons, totalOrganisms, List.map_cons, List.sum_cons,
        List.length_append, List.length_singleton]
      omega
    | succ j =>
      have := ih j (by simpa using h)
      simp only [placeInto, totalOrganisms, List.modify_succ_cons, List.map_cons,
        List.sum_cons] at this ⊢
      omega

theorem totalOrganisms_foundSpecie (species : List Specie) (c : Int) (g : Genome) :
    totalOrganisms (foundSpecie species c g) = totalOrganisms species + 1 := by
  simp [foundSpecie, totalOrganisms]

theorem representativeOf_eq (species : List Specie) (i : Nat) :
    representativeOf species i =
      (species[i]?).bind (fun s => (s.organisms[0]?).map (fun o => o.genome)) := by
  unfold representativeOf
  rw [List.get?_eq_getElem?]
  cases species[i]? with
  | none => rfl
  | some s =>
    simp only [Option.some_bind]
    rw [List.head?_eq_getElem?]

theorem representativeOf_placeInto (species : List Specie) (j : Nat) (g : Genome)
    (hne : ∀ s ∈ species, s.organisms ≠ []) (i : Nat) :
    representativeOf (placeInto species j g) i = representativeOf species i := by
  rw [representativeOf_eq, representativeOf_eq]
  unfold placeInto
  cases hs : species[i]? with
  | none => rw [getElem?_modify_none _ _ _ _ hs]
  | some s =>
    rw [getElem?_modify_some _ _ _ _ _ hs]
    simp only [Option.some_bind]
    by_cases hj : j = i
    · simp only [hj, if_true]
      have hmem : s ∈ species := List.getElem?_mem hs
      have hlen : 0 < s.organisms.length := List.length_pos.2 (hne s hmem)
      rw [List.getElem?_append_left hlen]
    · simp only [hj, if_false]

theorem representativeOf_foundSpecie (species : List Specie) (c : Int) (g : Genome) (i : Nat)
    (h : i < species.length) :
    representativeOf (foundSpecie species c g) i = representativeOf species i := by
  rw [representativeOf_eq, representativeOf_eq]
  unfold foundSpecie
  rw [List.getElem?_append_left h]

theorem representativeOf_defined (species : List Specie)
    (hne : ∀ s ∈ species, s.organisms ≠ []) (i : Nat) (h : i < species.length) :
    ∃ r, representativeOf species i = some r := by
  rw [representativeOf_eq]
  have hs : species[i]? = some species[i] := List.getElem?_eq_getElem h
  rw [hs]
  simp only [Option.some_bind]
  have hlen : 0 < species[i].organisms.length :=
    List.length_pos.2 (hne _ (List.getElem_mem h))
  rw [List.getElem?_eq_getElem hlen]
  exact ⟨_, rfl⟩

theorem Placed.placeInto {e : Engine} {species : List Specie} {i j : Nat} {g : Genome}
    (h : Placed e species i j g) (j0 : Nat) (g0 : Genome)
    (hne : ∀ s ∈ species, s.organisms ≠ []) : Placed e (placeInto species j0 g0) i j g := by
  unfold Placed at h ⊢
  simp only [representativeOf_placeInto species j0 g0 hne]
  exact h

theorem Placed.foundSpecie {e : Engine} {species : List Specie} {i j : Nat} {g : Genome}
    (h : Placed e species i j g) (c : Int) (g0 : Genome) (hi : i < species.length) :
    Placed e (foundSpecie species c g0) i j g := by
  unfold Placed at h ⊢
  constructor
  · intro i1 h1 r hr
    rw [representativeOf_foundSpecie species c g0 i1 (by omega)] at hr
    exact h.1 i1 h1 r hr
  · intro hj r hr
    rw [representativeOf_foundSpecie species c g0 i hi] at hr
    exact h.2 hj r hr

/-! ## C27: the initial population -/

theorem getElem?_placeInto (species : List Specie) (j : Nat) (g : Genome) (i : Nat)
    (s1 : Specie) (h : (placeInto species j g)[i]? = some s1) :
    ∃ s, species[i]? = some s ∧
      s1 = (if j = i then { s with organisms := s.organisms ++ [Organism.new g] } else s) := by
  unfold placeInto at h
  cases hs : species[i]? with
  | none =>
    rw [getElem?_modify_none _ _ _ _ hs] at h
    cases h
  | some s =>
    rw [getElem?_modify_some _ _ _ _ _ hs] at h
    injection h with h
    exact ⟨s, rfl, h.symm⟩

theorem getElem?_snoc {α : Type} (l : List α) (x y : α) (i : Nat)
    (h : (l ++ [x])[i]? = some y) : (i < l.length ∧ l[i]? = some y) ∨ (i = l.length ∧ y = x) := by
  by_cases hi : i < l.length
  · rw [List.getElem?_append_left hi] at h
    exact Or.inl ⟨hi, h⟩
  · rw [List.getElem?_append_right (by omega)] at h
    have h0 : i - l.length = 0 := by
      by_contra hne
      have : ([x] : List α)[i - l.length]? = none := by
        apply List.getElem?_eq_none
        simp only [List.length_singleton]
        omega
      rw [this] at h
      cases h
    rw [h0] at h
    simp only [List.getElem?_cons_zero, Option.some.injEq] at h
    exact Or.inr ⟨by omega, h.symm⟩

theorem Placed.of_found (e e0 : Engine) (hw : ∀ g1 g2, e.within g1 g2 = e0.within g1 g2)
    (species : List Specie) (g : Genome) (j : Nat)
    (h : findSpecie e (representativeOf species) g species.length 0 = some (some j)) (k : Nat) :
    Placed e0 species j k g := by
  obtain ⟨_, _, ⟨r, hr, hrw⟩, hbefore⟩ := findSpecie_some e _ g _ _ _ h
  constructor
  · intro i1 h1 r1 hr1
    obtain ⟨r2, hr2, hw2⟩ := hbefore i1 (Nat.zero_le _) h1
    rw [hr2] at hr1
    injection hr1 with hr1
    rw [← hr1, ← hw]
    exact hw2
  · intro _ r1 hr1
    rw [hr] at hr1
    injection hr1 with hr1
    rw [← hr1, ← hw]
    exact hrw

theorem Placed.of_not_found (e e0 : Engine) (hw : ∀ g1 g2, e.within g1 g2 = e0.within g1 g2)
    (species : List Specie) (g : Genome)
    (h : findSpecie e (representativeOf species) g species.length 0 = some none) :
    Placed e0 species species.length 0 g := by
  have hall := findSpecie_none e _ g _ _ h
  constructor
  · intro i1 h1 r1 hr1
    obtain ⟨r2, hr2, hw2⟩ := hall i1 (Nat.zero_le _) (by omega)
    rw [hr2] at hr1
    injection hr1 with hr1
    rw [← hr1, ← hw]
    exact hw2
  · intro h0
    exact absurd rfl h0

theorem SeedInv.place {ni no : Int} {e0 e : Engine} {k : Nat} (I : SeedInv ni no e0 e k)
    (child : Genome) (hseed : Seeded ni no child) :
    ∃ e1, placeChild e child = some e1 ∧ SeedInv ni no e0 e1 (k + 1) := by
  obtain ⟨rest0, restS, id0, hfirst⟩ := I.first
  have hlen : 1 ≤ e.species.length := by
    rw [hfirst]
    simp
  obtain ⟨x, hx⟩ := findSpecie_defined e (representativeOf e.species) child e.species.length 0
    (fun j1 _ h2 => representativeOf_defined e.species I.nonempty j1 (by omega))
  cases x with
  | some j =>
    refine ⟨{ e with species := placeInto e.species j child }, ?_, ?_⟩
    · unfold placeChild
      simp only [hx]
    · have hj := (findSpecie_some e _ _ _ _ _ hx).2.1
      have hP := Placed.of_found e e0 I.within_eq e.species _ j hx
      refine ⟨fun g1 g2 => I.within_eq g1 g2, ?_, ?_, ?_, ?_⟩
      · show totalOrganisms (placeInto e.species j child) = k + 1
        rw [totalOrganisms_placeInto _ _ _ (by omega), I.total]
      · show ∃ rest0 restS id, placeInto e.species j child = _
        rw [hfirst]
        cases j with
        | zero => exact ⟨_, _, _, rfl⟩
        | succ j => exact ⟨_, _, _, rfl⟩
      · intro s1 hs1
        obtain ⟨i, hi⟩ := List.mem_iff_getElem?.1 hs1
        obtain ⟨s, hs, heq⟩ := getElem?_placeInto _ _ _ _ _ hi
        rw [heq]
        split
        · simp
        · exact I.nonempty s (List.getElem?_mem hs)
      · intro i j1 s1 o hs1 ho
        obtain ⟨s, hs, heq⟩ := getElem?_placeInto _ _ _ _ _ hs1
        by_cases hji : j = i
        · rw [if_pos hji] at heq
          rw [heq] at ho
          simp only at ho
          rcases getElem?_snoc _ _ _ _ ho with ⟨_, hold⟩ | ⟨hj1, hnew⟩
          · obtain ⟨h1, h2⟩ := I.each i j1 s o hs hold
            exact ⟨h1, fun hne => ⟨(h2 hne).1, (h2 hne).2.placeInto _ _ I.nonempty⟩⟩
          · rw [hnew]
            refine ⟨rfl, fun _ => ⟨hseed, ?_⟩⟩
            rw [← hji]
            exact (hP j1).placeInto _ _ I.nonempty
        · rw [if_neg hji] at heq
          rw [heq] at ho
          obtain ⟨h1, h2⟩ := I.each i j1 s o hs ho
          exact ⟨h1, fun hne => ⟨(h2 hne).1, (h2 hne).2.placeInto _ _ I.nonempty⟩⟩
  | none =>
    refine ⟨{ e with species := foundSpecie e.species e.species_ctr child,
                     species_ctr := e.species_ctr + 1 }, ?_, ?_⟩
    · unfold placeChild
      simp only [hx]
    · have hP := Placed.of_not_found e e0 I.within_eq e.species _ hx
      refine ⟨fun g1 g2 => I.within_eq g1 g2, ?_, ?_, ?_, ?_⟩
      · show totalOrganisms (foundSpecie e.species e.species_ctr child) = k + 1
        rw [totalOrganisms_foundSpecie, I.total]
      · show ∃ rest0 restS id, foundSpecie e.species e.species_ctr child = _
        rw [hfirst]
        exact ⟨_, _, _, rfl⟩
      · intro s1 hs1
        simp only [foundSpecie, List.mem_append, List.mem_singleton] at hs1
        rcases hs1 with hs1 | hs1
        · exact I.nonempty s1 hs1
        · rw [hs1]
          simp
      · intro i j1 s1 o hs1 ho
        rcases getElem?_snoc _ _ _ _ hs1 with ⟨hi, hold⟩ | ⟨hi, hnew⟩
        · obtain ⟨h1, h2⟩ := I.each i j1 s1 o hold ho
          exact ⟨h1, fun hne => ⟨(h2 hne).1, (h2 hne).2.foundSpecie _ _ hi⟩⟩
        · rw [hnew] at ho
          simp only at ho
          have hj1 : j1 = 0 := by
            by_contra hne
            have : ([Organism.new child] : List Organism)[j1]? = none := by
              apply List.getElem?_eq_none
              simp only [List.length_singleton]
              omega
            rw [this] at ho
            cases ho
          rw [hj1] at ho ⊢
          simp only [List.getElem?_cons_zero, Option.some.injEq] at ho
          rw [← ho]
          refine ⟨rfl, fun _ => ⟨hseed, ?_⟩⟩
          rw [hi]
          constructor
          · intro i1 h1 r hr
            rw [representativeOf_foundSpecie _ _ _ _ h1] at hr
            exact hP.1 i1 h1 r hr
          · intro h0
            exact absurd rfl h0

theorem SeedInv.step {ni no : Int} {e0 e : Engine} {k : Nat} (I : SeedInv ni no e0 e k)
    (d : Nat × Nat × ℚ) :
    ∃ e1, seedOrganism ni no e d = some e1 ∧ SeedInv ni no e0 e1 (k + 1) :=
  I.place _ ⟨_, _, _, rfl⟩

theorem SeedInv.loop {ni no : Int} {e0 : Engine} (draws : Nat → Nat × Nat × ℚ) :
    ∀ (count oc k : Nat) (e : Engine), SeedInv ni no e0 e k →
      ∃ e1, seedLoop ni no draws count oc e = some e1 ∧ SeedInv ni no e0 e1 (k + count) := by
  intro count
  induction count with
  | zero =>
    intro oc k e I
    exact ⟨e, rfl, I⟩
  | succ n ih =>
    intro oc k e I
    obtain ⟨e1, h1, I1⟩ := I.step (draws oc)
    obtain ⟨e2, h2, I2⟩ := ih (oc + 1) (k + 1) e1 I1
    refine ⟨e2, ?_, ?_⟩
    · unfold seedLoop
      simp only [h1]
      exact h2
    · have : k + (n + 1) = k + 1 + n := by omega
      rw [this]
      exact I2

theorem Seeded.shape {ni no : Int} (hni : 1 ≤ ni) (hno : 1 ≤ no) {g : Genome}
    (h : Seeded ni no g) :
    ∃ a b w, 0 ≤ a ∧ a ≤ ni - 1 ∧ ni ≤ b ∧ b ≤ ni + no - 1 ∧
      g = { Genome.new ni no with forward_edges := [((a, b), w)] } := by
  obtain ⟨dIn, dOut, w, hg⟩ := h
  have h1 := rand_int_bounds (ni - 1) dIn (by omega)
  have h2 := rand_int_bounds (ni + no - 1 - ni) dOut (by omega)
  refine ⟨rand_int (ni - 1) dIn, rand_int2 ni (ni + no - 1) dOut, w, h1.1, h1.2, ?_, ?_, ?_⟩
  · unfold rand_int2
    omega
  · unfold rand_int2
    omega
  · rw [hg]
    rfl

theorem within_self_single (e : Engine) (ni no : Int) (k : Int × Int) (w : ℚ)
    (h : 0 < e.compatibility_thresh) :
    e.within { Genome.new ni no with forward_edges := [(k, w)] }
      { Genome.new ni no with forward_edges := [(k, w)] } = true := by
  have hinfo : GetCompatibilityDistInfo { Genome.new ni no with forward_edges := [(k, w)] }
      { Genome.new ni no with forward_edges := [(k, w)] } = (0, 1, 0) := by
    simp [GetCompatibilityDistInfo, compatEntry, SMap.find, Genome.new]
  unfold Engine.within WithinCompatibilityThresh compatibilityDist
  rw [hinfo]
  simpa using h

/-- C27, amended: the constructor called with positive sizes returns an
engine with `pop_size` organisms; the first organism of the first specie is
the empty genome; every organism has the fitness `-1`; the genome of every
other organism has the single edge `(a, b)` in `forward_edges`, from a sensor
`0 ≤ a ≤ input_size` to an output `input_size + 1 ≤ b ≤ input_size +
output_size`, and three empty maps; no representative of an earlier specie is
compatible with it, and the representative of its own specie is compatible
with it when the organism is not that representative itself or when the
compatibility threshold is positive. -/
theorem Engine.create_population (input_size output_size pop_size_in : Int) (p : Params)
    (draws : Nat → Nat × Nat × ℚ) (hi : 0 < input_size) (ho : 0 < output_size)
    (hp : 0 < pop_size_in) :
    ∃ e, Engine.create input_size output_size pop_size_in p draws = some e ∧
      (e.numOrganisms : Int) = pop_size_in ∧
      (∃ rest0 restS id, e.species =
        { organisms := Organism.new (Genome.new (input_size + 1) output_size) :: rest0,
          specie_id := id } :: restS) ∧
      ∀ (i j : Nat) (s : Specie) (o : Organism),
        e.species[i]? = some s → s.organisms[j]? = some o →
        o.fitness = -1 ∧
        ((i, j) ≠ (0, 0) →
          (∃ a b w, 0 ≤ a ∧ a ≤ input_size ∧ input_size + 1 ≤ b ∧
            b ≤ input_size + output_size ∧
            o.genome = { Genome.new (input_size + 1) output_size with
              forward_edges := [((a, b), w)] }) ∧
          (∀ i1 s1 o1, i1 < i → e.species[i1]? = some s1 → s1.organisms[0]? = some o1 →
            e.within o1.genome o.genome = false) ∧
          (j ≠ 0 ∨ 0 < p.compatibility_thresh →
            ∃ o0, s.organisms[0]? = some o0 ∧ e.within o0.genome o.genome = true)) := by
  have h1 : ¬ input_size ≤ 0 := by omega
  have h2 : ¬ output_size ≤ 0 := by omega
  have h3 : ¬ pop_size_in ≤ 0 := by omega
  obtain ⟨e0, he0⟩ : ∃ e0 : Engine, e0 =
      { Engine.init input_size output_size pop_size_in p with
        species := [{ organisms := [Organism.new (Genome.new (input_size + 1) output_size)],
                      specie_id := (Engine.init input_size output_size pop_size_in p).species_ctr
                        + 1 }]
        species_ctr := (Engine.init input_size output_size pop_size_in p).species_ctr + 1 } :=
    ⟨_, rfl⟩
  have hcreate : Engine.create input_size output_size pop_size_in p draws =
      seedLoop (input_size + 1) output_size draws (pop_size_in - 1).toNat 1 e0 := by
    unfold Engine.create
    simp only [h1, h2, h3, if_false]
    rw [he0]
  have I0 : SeedInv (input_size + 1) output_size e0 e0 1 := by
    refine ⟨fun _ _ => rfl, ?_, ?_, ?_, ?_⟩
    · rw [he0]
      rfl
    · rw [he0]
      exact ⟨_, _, _, rfl⟩
    · rw [he0]
      intro s hs
      simp only [List.mem_singleton] at hs
      rw [hs]
      simp
    · rw [he0]
      intro i j s o hs ho
      cases i with
      | succ i => simp at hs
      | zero =>
        simp only [List.getElem?_cons_zero, Option.some.injEq] at hs
        rw [← hs] at ho
        cases j with
        | succ j => simp at ho
        | zero =>
          simp only [List.getElem?_cons_zero, Option.some.injEq] at ho
          rw [← ho]
          exact ⟨rfl, fun hne => absurd rfl hne⟩
  obtain ⟨e, hloop, I⟩ := SeedInv.loop draws (pop_size_in - 1).toNat 1 1 e0 I0
  have hthr : e0.compatibility_thresh = p.compatibility_thresh := by
    rw [he0]
    rfl
  refine ⟨e, by rw [hcreate, hloop], ?_, I.first, ?_⟩
  · have := I.total
    unfold Engine.numOrganisms
    unfold totalOrganisms at this
    rw [this]
    omega
  · intro i j s o hs ho
    obtain ⟨hfit, hrest⟩ := I.each i j s o hs ho
    refine ⟨hfit, fun hne => ?_⟩
    obtain ⟨hseed, hplaced⟩ := hrest hne
    obtain ⟨a, b, w, ha0, ha1, hb0, hb1, hg⟩ := hseed.shape (by omega) (by omega)
    have hrep0 : ∀ i1 s1 o1, e.species[i1]? = some s1 → s1.organisms[0]? = some o1 →
        representativeOf e.species i1 = some o1.genome := by
      intro i1 s1 o1 hs1 ho1
      rw [representativeOf_eq, hs1]
      simp only [Option.some_bind]
      rw [ho1]
      rfl
    refine ⟨⟨a, b, w, ha0, by omega, hb0, by omega, hg⟩, ?_, ?_⟩
    · intro i1 s1 o1 hlt hs1 ho1
      rw [I.within_eq]
      exact hplaced.1 i1 hlt _ (hrep0 i1 s1 o1 hs1 ho1)
    · intro hor
      have hpos : 0 < s.organisms.length :=
        List.length_pos.2 (I.nonempty s (List.getElem?_mem hs))
      refine ⟨s.organisms[0], List.getElem?_eq_getElem hpos, ?_⟩
      by_cases hj : j = 0
      · rcases hor with hor | hor
        · exact absurd hj hor
        · subst hj
          rw [List.getElem?_eq_getElem hpos] at ho
          injection ho with ho
          rw [ho, I.within_eq, hg]
          exact within_self_single e0 _ _ _ w (by rw [hthr]; exact hor)
      · rw [I.within_eq]
        exact hplaced.2 hj _ (hrep0 i s _ hs (List.getElem?_eq_getElem hpos))

/-- C27, witness: `NEAT(1, 1, 2)` with the default parameters. -/
theorem Engine.create_population_witness :
    ∃ e, Engine.create 1 1 2 Params.default (fun _ => (0, 0, 1)) = some e ∧
      (e.numOrganisms : Int) = 2 ∧
      (∃ rest0 restS id, e.species =
        { organisms := Organism.new (Genome.new (1 + 1) 1) :: rest0,
          specie_id := id } :: restS) ∧
      ∀ (i j : Nat) (s : Specie) (o : Organism),
        e.species[i]? = some s → s.organisms[j]? = some o →
        o.fitness = -1 ∧
        ((i, j) ≠ (0, 0) →
          (∃ a b w, 0 ≤ a ∧ a ≤ 1 ∧ 1 + 1 ≤ b ∧ b ≤ 1 + 1 ∧
            o.genome = { Genome.new (1 + 1) 1 with forward_edges := [((a, b), w)] }) ∧
          (∀ i1 s1 o1, i1 < i → e.species[i1]? = some s1 → s1.organisms[0]? = some o1 →
            e.within o1.genome o.genome = false) ∧
          (j ≠ 0 ∨ 0 < Params.default.compatibility_thresh →
            ∃ o0, s.organisms[0]? = some o0 ∧ e.within o0.genome o.genome = true)) :=
  Engine.create_population 1 1 2 Params.default (fun _ => (0, 0, 1)) (by decide) (by decide)
    (by decide)

/-- C27 as stated fails: with the compatibility threshold `0` the second
organism of `NEAT(1, 1, 2)` founds the specie `1`; it is the representative of
its specie, and neither the representative of the specie `0` nor the one of
its own specie (the organism itself) is within the threshold of it: it sits
in no specie whose representative is compatible with it. -/
theorem Engine.create_founder_not_compatible :
    (Engine.create 1 1 2 paramsZeroThresh (fun _ => (0, 0, 1))).map (fun e => e.genomes) =
      some [[Genome.new 2 1], [seedGenome]] ∧
    (Engine.create 1 1 2 paramsZeroThresh (fun _ => (0, 0, 1))).map
      (fun e => (e.within (Genome.new 2 1) seedGenome, e.within seedGenome seedGenome)) =
      some (false, false) := by
  refine ⟨by with_unfolding_all decide, by with_unfolding_all decide⟩

/-! ## `AddEdgeMutation` returns on compiled networks -/

theorem tryConnection_defined {it : List Int → List Int} (hit : ∀ l, (it l).Perm l)
    {ni no : Int} {fe re : SMap (Int × Int) ℚ} {rev : SMap Int (List Int)} {S : List Int}
    {D : SMap Int Int} {net : Network} (C : Compiled it ni no fe re rev S D net)
    (hni : 0 ≤ ni) (hno : 1 ≤ no) (d : Nat × Nat) :
    ∃ r, tryConnection it net d = some r := by
  obtain ⟨a, b, ha, hb, _⟩ := C.draw_nodes hni hno d
  obtain ⟨c, hc⟩ := CheckRecurrent_terminates it hit net a b
  unfold tryConnection
  simp only [ha, hb]
  cases SMap.find net.adjacency_list a with
  | none => exact ⟨_, rfl⟩
  | some succs =>
    simp only
    by_cases h1 : b ∈ succs
    · exact ⟨_, if_pos h1⟩
    · rw [if_neg h1]
      cases SMap.find net.adjacency_list_recurrent_rev b with
      | none =>
        simp only [hc, Option.map_some']
        exact ⟨_, rfl⟩
      | some preds =>
        simp only
        by_cases h2 : a ∈ preds
        · exact ⟨_, if_pos h2⟩
        · rw [if_neg h2, hc]
          exact ⟨_, rfl⟩

theorem FindNewPossibleConnectionFrom_defined (it : List Int → List Int) (net : Network)
    (h : ∀ d, ∃ r, tryConnection it net d = some r) (draws : Nat → Nat × Nat) :
    ∀ tries t, ∃ r, FindNewPossibleConnectionFrom it net draws tries t = some r := by
  intro tries
  induction tries with
  | zero =>
    intro t
    exact ⟨none, rfl⟩
  | succ n ih =>
    intro t
    obtain ⟨r, hr⟩ := h (draws t)
    unfold FindNewPossibleConnectionFrom
    rw [hr]
    cases r with
    | none => exact ih (t + 1)
    | some x => exact ⟨_, rfl⟩

theorem AddEdgeMutation_defined (it : List Int → List Int) (g : Genome) (net : Network)
    (h : ∀ d, ∃ r, tryConnection it net d = some r) (sd : ℚ) (tries : Nat)
    (draws : Nat → Nat × Nat) (z : ℚ) :
    ∃ r, AddEdgeMutation it g net sd tries draws z = some r := by
  obtain ⟨x, hx⟩ := FindNewPossibleConnectionFrom_defined it net h draws tries 0
  unfold AddEdgeMutation FindNewPossibleConnection
  rw [hx]
  cases x with
  | none => exact ⟨_, rfl⟩
  | some res =>
    obtain ⟨a, b, r⟩ := res
    cases r
    · exact ⟨_, rfl⟩
    · exact ⟨_, rfl⟩

/-- On a genome the engine can hold, `GenerateNetwork` and `AddEdgeMutation`
return (with enough fuel), and the genome afterwards is one the engine can
hold. -/
theorem Reachable.addEdge_defined {ni no : Int} (hni : 0 ≤ ni) (hno : 1 ≤ no) {n : NEAT}
    {g : Genome} (hg : Reachable ni no n g) (it : List Int → List Int)
    (hit : ∀ l, (it l).Perm l) (fuel : Nat)
    (hf : sortFuel ni no g.forward_edges.length ≤ fuel) (sd : ℚ) (tries : Nat)
    (draws : Nat → Nat × Nat) (z : ℚ) :
    ∃ net r, GenerateNetwork it fuel g = some net ∧
      AddEdgeMutation it g net sd tries draws z = some r ∧ Reachable ni no n r.2 := by
  have B := BasicInv_of_reachable ni no n g hg
  have F := FullInv_of_reachable ni no hno n g hg
  have hok := F.forwardOK B
  obtain ⟨rev, S, D, net, hnet, C⟩ :=
    Network.build_ok it hit ni no g.forward_edges g.recurrent_edges hok fuel hf
  have hgen : GenerateNetwork it fuel g = some net := by
    unfold GenerateNetwork
    rw [B.sizeIn, B.sizeOut]
    exact hnet
  obtain ⟨r, hr⟩ := AddEdgeMutation_defined it g net
    (fun d => tryConnection_defined hit C hni hno d) sd tries draws z
  refine ⟨net, r, hgen, hr, ?_⟩
  obtain ⟨ok, g1⟩ := r
  cases ok
  · rw [AddEdgeMutation_false it g g1 net sd tries draws z hr]
    exact hg
  · exact Reachable.addEdge it fuel net sd tries draws z hg hit hgen hr

/-- `AddNodeMutation` on a genome the engine can hold leaves such a genome,
and every other genome of the engine stays one the engine can hold. -/
theorem Reachable.addNode_step {ni no : Int} {n : NEAT} {g : Genome}
    (hg : Reachable ni no n g) (draw : Nat) :
    Reachable ni no (AddNodeMutation g n draw).2.2 (AddNodeMutation g n draw).2.1 ∧
    ∀ g1, Reachable ni no n g1 → Reachable ni no (AddNodeMutation g n draw).2.2 g1 := by
  by_cases h : 1 ≤ g.possibleEdges.length
  · have hs : (AddNodeMutation g n draw).1 = true := by
      rw [AddNodeMutation_fst]
      simpa using h
    refine ⟨Reachable.addNode draw hg hs, ?_⟩
    intro g1 hg1
    rw [AddNodeMutation_engine g n draw h]
    exact Reachable.registry _ _ hg1
  · have hv : AddNodeMutation g n draw = (false, g, n) := by
      unfold AddNodeMutation
      rw [if_pos (by omega)]
    rw [hv]
    exact ⟨hg, fun g1 hg1 => hg1⟩

/-! ## `AddGenome` -/

theorem LoopInv.species_eq {ni no : Int} {e0 : Engine} {st : List Specie × Engine}
    (I : LoopInv ni no e0 st) : st.2.species = e0.species := by
  have h := congrArg Engine.species I.frame
  exact h

theorem mem_placeInto (species : List Specie) (j : Nat) (g : Genome) (s1 : Specie)
    (h : s1 ∈ placeInto species j g) :
    ∃ s ∈ species, s1 = s ∨ s1 = { s with organisms := s.organisms ++ [Organism.new g] } := by
  obtain ⟨i, hi⟩ := List.mem_iff_getElem?.1 h
  obtain ⟨s, hs, heq⟩ := getElem?_placeInto _ _ _ _ _ hi
  refine ⟨s, List.getElem?_mem hs, ?_⟩
  rw [heq]
  split
  · exact Or.inr rfl
  · exact Or.inl rfl

theorem length_placeInto (species : List Specie) (j : Nat) (g : Genome) :
    (placeInto species j g).length = species.length := by
  unfold placeInto
  rw [List.length_modify]

theorem LoopInv.addGenome {ni no : Int} {e0 : Engine} {st st1 : List Specie × Engine}
    (I : LoopInv ni no e0 st) (child : Genome) (hc : Reachable ni no st.2.registry child)
    (h : AddGenome st.2 st.1 child = some st1) :
    LoopInv ni no e0 st1 ∧ totalOrganisms st1.1 = totalOrganisms st.1 + 1 ∧
      st1.2.registry = st.2.registry := by
  unfold AddGenome at h
  simp only at h
  cases hf : findSpecie st.2
      (fun j => if j < st.2.species.length then representativeOf st.2.species j
        else representativeOf st.1 j) child st.1.length 0 with
  | none =>
    rw [hf] at h
    cases h
  | some x =>
    rw [hf] at h
    cases x with
    | some j =>
      simp only [Option.some.injEq] at h
      have hj := (findSpecie_some _ _ _ _ _ _ hf).2.1
      rw [← h]
      refine ⟨⟨I.frame, ?_, ?_, I.reachOld, ?_⟩, ?_, rfl⟩
      · show e0.species.length ≤ (placeInto st.1 j child).length
        rw [length_placeInto]
        exact I.lenLe
      · intro i s1 hi hs1
        obtain ⟨s, hs, heq⟩ := getElem?_placeInto _ _ _ _ _ hs1
        rw [heq]
        split
        · simp
        · exact I.newNonempty i s hi hs
      · intro s1 hs1 o ho
        obtain ⟨s, hs, heq⟩ := mem_placeInto _ _ _ _ hs1
        rcases heq with heq | heq
        · rw [heq] at ho
          exact I.reachNew s hs o ho
        · rw [heq] at ho
          simp only [List.mem_append, List.mem_singleton] at ho
          rcases ho with ho | ho
          · exact I.reachNew s hs o ho
          · rw [ho]
            exact hc
      · exact totalOrganisms_placeInto _ _ _ (by omega)
    | none =>
      simp only [Option.some.injEq] at h
      rw [← h]
      refine ⟨⟨I.frame, ?_, ?_, I.reachOld, ?_⟩, ?_, rfl⟩
      · show e0.species.length ≤ (foundSpecie st.1 st.2.species_ctr child).length
        simp only [foundSpecie, List.length_append, List.length_singleton]
        have := I.lenLe
        omega
      · intro i s1 hi hs1
        rcases getElem?_snoc _ _ _ _ hs1 with ⟨_, hold⟩ | ⟨_, hnew⟩
        · exact I.newNonempty i s1 hi hold
        · rw [hnew]
          simp
      · intro s1 hs1 o ho
        simp only [foundSpecie, List.mem_append, List.mem_singleton] at hs1
        rcases hs1 with hs1 | hs1
        · exact I.reachNew s1 hs1 o ho
        · rw [hs1] at ho
          simp only [List.mem_singleton] at ho
          rw [ho]
          exact hc
      · exact totalOrganisms_foundSpecie _ _ _

theorem LoopInv.addGenome_defined {ni no : Int} {e0 : Engine} {st : List Specie × Engine}
    (I : LoopInv ni no e0 st) (hne : ∀ s ∈ e0.species, s.organisms ≠ []) (child : Genome) :
    ∃ st1, AddGenome st.2 st.1 child = some st1 := by
  obtain ⟨x, hx⟩ := findSpecie_defined st.2
    (fun j => if j < st.2.species.length then representativeOf st.2.species j
      else representativeOf st.1 j) child st.1.length 0
    (by
      intro j _ hj
      simp only
      split
      · rename_i hlt
        rw [I.species_eq] at hlt ⊢
        exact representativeOf_defined _ hne j hlt
      · rename_i hge
        rw [I.species_eq] at hge
        rw [representativeOf_eq]
        have hj2 : j < st.1.length := by omega
        have hs : st.1[j]? = some st.1[j] := List.getElem?_eq_getElem hj2
        rw [hs]
        simp only [Option.some_bind]
        have hpos : 0 < st.1[j].organisms.length :=
          List.length_pos.2 (I.newNonempty j _ (by omega) hs)
        rw [List.getElem?_eq_getElem hpos]
        exact ⟨_, rfl⟩)
  unfold AddGenome
  simp only [hx]
  cases x with
  | none => exact ⟨_, rfl⟩
  | some j => exact ⟨_, rfl⟩

/-! ## The child genome -/

theorem organismAt_mem (specie : Specie) (i : Int) (o : Organism)
    (h : organismAt specie i = some o) : o ∈ specie.organisms := by
  unfold organismAt at h
  split at h
  · cases h
  · exact List.get?_mem h

theorem organismAt_defined (specie : Specie) (i : Int) (h0 : 0 ≤ i)
    (h1 : i < specie.organisms.length) : ∃ o, organismAt specie i = some o := by
  unfold organismAt
  rw [if_neg (by omega), List.get?_eq_getElem?]
  have : i.toNat < specie.organisms.length := by omega
  exact ⟨_, List.getElem?_eq_getElem this⟩

theorem length_crossMap (other : SMap (Int × Int) ℚ) (draws : Nat → Nat)
    (m : SMap (Int × Int) ℚ) (k : Nat) : (crossMap other draws k m).length = m.length := by
  have := congrArg List.length (keys_crossMap other draws m k)
  simpa [SMap.keys] using this

theorem crossoverChild_spec (specie : Specie) (p : Int × Int) (cross : Nat → Nat)
    (child : Genome) (h : crossoverChild specie p cross = some child) :
    ∃ o1 ∈ specie.organisms,
      child.forward_edges.length = o1.genome.forward_edges.length ∧
      (child = o1.genome ∨ ∃ g2, child = Crossover o1.genome g2 cross) := by
  unfold crossoverChild at h
  cases h1 : organismAt specie p.1 with
  | none => simp [h1] at h
  | some o1 =>
    simp only [h1] at h
    refine ⟨o1, organismAt_mem _ _ _ h1, ?_⟩
    by_cases hp : p.1 ≠ p.2
    · rw [if_pos hp] at h
      cases h2 : organismAt specie p.2 with
      | none => simp [h2] at h
      | some o2 =>
        simp only [h2, Option.some.injEq] at h
        rw [← h]
        exact ⟨length_crossMap _ _ _ _, Or.inr ⟨_, rfl⟩⟩
    · rw [if_neg hp] at h
      injection h with h
      rw [← h]
      exact ⟨rfl, Or.inl rfl⟩

theorem crossoverChild_defined (specie : Specie) (p : Int × Int) (cross : Nat → Nat)
    (h1 : 0 ≤ p.1 ∧ p.1 < specie.organisms.length)
    (h2 : 0 ≤ p.2 ∧ p.2 < specie.organisms.length) :
    ∃ child, crossoverChild specie p cross = some child := by
  obtain ⟨o1, ho1⟩ := organismAt_defined specie p.1 h1.1 h1.2
  obtain ⟨o2, ho2⟩ := organismAt_defined specie p.2 h2.1 h2.2
  unfold crossoverChild
  simp only [ho1, ho2]
  split
  · exact ⟨_, rfl⟩
  · exact ⟨_, rfl⟩

theorem parentIndices_bounds (a b top : Int) (ha : 0 ≤ a ∧ a ≤ top) (hb : 0 ≤ b ∧ b ≤ top) :
    (0 ≤ (parentIndices a b).1 ∧ (parentIndices a b).1 ≤ top) ∧
    (0 ≤ (parentIndices a b).2 ∧ (parentIndices a b).2 ≤ top) := by
  unfold parentIndices
  split
  · exact ⟨ha, ha⟩
  · exact ⟨ha, hb⟩

theorem topOrganismsIndex_bounds (size : Nat) (c : ℚ) (h : 1 ≤ size) :
    0 ≤ topOrganismsIndex size c ∧ topOrganismsIndex size c ≤ (size : Int) - 1 := by
  unfold topOrganismsIndex
  simp only
  split
  · omega
  · rename_i hn
    push_neg at hn
    omega

theorem Reachable.of_child {ni no : Int} {n : NEAT} {specie : Specie} {p : Int × Int}
    {cross : Nat → Nat} {child : Genome}
    (hr : ∀ o ∈ specie.organisms, Reachable ni no n o.genome)
    (h : crossoverChild specie p cross = some child) : Reachable ni no n child := by
  obtain ⟨o1, ho1, _, hc⟩ := crossoverChild_spec specie p cross child h
  rcases hc with hc | ⟨g2, hc⟩
  · rw [hc]
    exact hr o1 ho1
  · rw [hc]
    exact Reachable.crossover g2 cross (hr o1 ho1)

/-! ## The mutation of the child -/

theorem mutateChild_spec {ni no : Int} (it : List Int → List Int) (hit : ∀ l, (it l).Perm l)
    (fuel : Nat) (e : Engine) (child : Genome) (d : OffspringDraws) (c1 : Genome)
    (e1 : Engine) (hc : Reachable ni no e.registry child)
    (h : mutateChild it fuel e child d = some (c1, e1)) :
    Reachable ni no e1.registry c1 ∧
    (∀ g, Reachable ni no e.registry g → Reachable ni no e1.registry g) ∧
    ∃ reg, e1 = { e with registry := reg } := by
  unfold mutateChild at h
  by_cases h1 : d.u_node < e.add_node_mutation_prob
  · rw [if_pos h1] at h
    simp only [Option.some.injEq, Prod.mk.injEq] at h
    obtain ⟨hg, he⟩ := h
    have hstep := hc.addNode_step d.node
    rw [← hg, ← he]
    exact ⟨hstep.1, hstep.2, _, rfl⟩
  · rw [if_neg h1] at h
    by_cases h2 : d.u_edge < e.add_edge_mutation_prob
    · rw [if_pos h2] at h
      cases hnet : GenerateNetwork it fuel child with
      | none => simp [hnet] at h
      | some net =>
        simp only [hnet] at h
        cases hadd : AddEdgeMutation it child net 2 3 d.edge d.edge_z with
        | none => simp [hadd] at h
        | some r =>
          simp only [hadd, Option.some.injEq, Prod.mk.injEq] at h
          obtain ⟨hg, he⟩ := h
          rw [← hg, ← he]
          refine ⟨?_, fun g hg1 => hg1, e.registry, rfl⟩
          obtain ⟨ok, g1⟩ := r
          cases ok
          · rw [AddEdgeMutation_false it child g1 net 2 3 d.edge d.edge_z hadd]
            exact hc
          · exact Reachable.addEdge it fuel net 2 3 d.edge d.edge_z hc hit hnet hadd
    · rw [if_neg h2] at h
      by_cases h3 : d.u_weight < e.weight_mutation_prob
      · rw [if_pos h3] at h
        simp only [Option.some.injEq, Prod.mk.injEq] at h
        obtain ⟨hg, he⟩ := h
        rw [← hg, ← he]
        exact ⟨Reachable.weights _ _ _ _ _ hc, fun g hg1 => hg1, e.registry, rfl⟩
      · rw [if_neg h3] at h
        simp only [Option.some.injEq, Prod.mk.injEq] at h
        obtain ⟨hg, he⟩ := h
        rw [← hg, ← he]
        exact ⟨hc, fun g hg1 => hg1, e.registry, rfl⟩

theorem mutateChild_defined {ni no : Int} (hni : 0 ≤ ni) (hno : 1 ≤ no)
    (it : List Int → List Int) (hit : ∀ l, (it l).Perm l) (fuel : Nat) (e : Engine)
    (child : Genome) (d : OffspringDraws) (hc : Reachable ni no e.registry child)
    (hf : sortFuel ni no child.forward_edges.length ≤ fuel) :
    ∃ r, mutateChild it fuel e child d = some r := by
  unfold mutateChild
  by_cases h1 : d.u_node < e.add_node_mutation_prob
  · rw [if_pos h1]
    exact ⟨_, rfl⟩
  · rw [if_neg h1]
    by_cases h2 : d.u_edge < e.add_edge_mutation_prob
    · rw [if_pos h2]
      obtain ⟨net, r, hnet, hadd, _⟩ :=
        hc.addEdge_defined hni hno it hit fuel hf 2 3 d.edge d.edge_z
      simp only [hnet, hadd]
      exact ⟨_, rfl⟩
    · rw [if_neg h2]
      split
      · exact ⟨_, rfl⟩
      · exact ⟨_, rfl⟩

theorem LoopInv.mutate {ni no : Int} {e0 : Engine} {st : List Specie × Engine}
    (I : LoopInv ni no e0 st) (it : List Int → List Int) (hit : ∀ l, (it l).Perm l)
    (fuel : Nat) (child : Genome) (d : OffspringDraws) (c1 : Genome) (e1 : Engine)
    (hc : Reachable ni no st.2.registry child)
    (h : mutateChild it fuel st.2 child d = some (c1, e1)) :
    LoopInv ni no e0 (st.1, e1) ∧ Reachable ni no e1.registry c1 := by
  obtain ⟨hr, hall, reg, hreg⟩ := mutateChild_spec it hit fuel st.2 child d c1 e1 hc h
  refine ⟨⟨?_, I.lenLe, I.newNonempty, ?_, ?_⟩, hr⟩
  · rw [hreg]
    exact I.frame
  · intro s hs o ho
    exact hall _ (I.reachOld s hs o ho)
  · intro s hs o ho
    exact hall _ (I.reachNew s hs o ho)

/-! ## The loops that create the offspring -/

theorem offspringLoop_spec {ni no : Int} {e0 : Engine} (it : List Int → List Int)
    (hit : ∀ l, (it l).Perm l) (fuel : Nat) (specie : Specie) (hs : specie ∈ e0.species)
    (top : Int) (draws : Nat → OffspringDraws) :
    ∀ (count oc : Nat) (st st1 : List Specie × Engine), LoopInv ni no e0 st →
      offspringLoop it fuel specie top draws count oc st = some st1 →
      LoopInv ni no e0 st1 ∧ totalOrganisms st1.1 = totalOrganisms st.1 + count := by
  intro count
  induction count with
  | zero =>
    intro oc st st1 I h
    simp only [offspringLoop, Option.some.injEq] at h
    rw [← h]
    exact ⟨I, rfl⟩
  | succ n ih =>
    intro oc st st1 I h
    unfold offspringLoop at h
    simp only at h
    cases hch : crossoverChild specie
        (parentIndices (rand_int top (draws oc).parent1) (rand_int top (draws oc).parent2))
        (draws oc).cross with
    | none => simp [hch] at h
    | some child =>
      simp only [hch] at h
      have hc : Reachable ni no st.2.registry child :=
        Reachable.of_child (fun o ho => I.reachOld specie hs o ho) hch
      cases hm : mutateChild it fuel st.2 child (draws oc) with
      | none => simp [hm] at h
      | some r =>
        obtain ⟨c1, e1⟩ := r
        simp only [hm] at h
        obtain ⟨I1, hc1⟩ := I.mutate it hit fuel child (draws oc) c1 e1 hc hm
        cases ha : AddGenome e1 st.1 c1 with
        | none => simp [ha] at h
        | some st2 =>
          simp only [ha] at h
          obtain ⟨I2, ht2, _⟩ := I1.addGenome c1 hc1 ha
          have ht2a : totalOrganisms st2.1 = totalOrganisms st.1 + 1 := ht2
          obtain ⟨I3, ht3⟩ := ih (oc + 1) st2 st1 I2 h
          refine ⟨I3, ?_⟩
          rw [ht3, ht2a]
          omega

theorem offspringLoop_defined {ni no : Int} (hni : 0 ≤ ni) (hno : 1 ≤ no) {e0 : Engine}
    (it : List Int → List Int) (hit : ∀ l, (it l).Perm l) (fuel : Nat)
    (hne : ∀ s ∈ e0.species, s.organisms ≠ []) (specie : Specie) (hs : specie ∈ e0.species)
    (hf : ∀ o ∈ specie.organisms, sortFuel ni no o.genome.forward_edges.length ≤ fuel)
    (top : Int) (htop : 0 ≤ top ∧ top ≤ (specie.organisms.length : Int) - 1)
    (draws : Nat → OffspringDraws) :
    ∀ (count oc : Nat) (st : List Specie × Engine), LoopInv ni no e0 st →
      ∃ st1, offspringLoop it fuel specie top draws count oc st = some st1 := by
  intro count
  induction count with
  | zero =>
    intro oc st I
    exact ⟨st, rfl⟩
  | succ n ih =>
    intro oc st I
    have hb := parentIndices_bounds _ _ top
      (rand_int_bounds top (draws oc).parent1 htop.1)
      (rand_int_bounds top (draws oc).parent2 htop.1)
    obtain ⟨child, hch⟩ := crossoverChild_defined specie
      (parentIndices (rand_int top (draws oc).parent1) (rand_int top (draws oc).parent2))
      (draws oc).cross ⟨hb.1.1, by omega⟩ ⟨hb.2.1, by omega⟩
    have hc : Reachable ni no st.2.registry child :=
      Reachable.of_child (fun o ho => I.reachOld specie hs o ho) hch
    obtain ⟨o1, ho1, hlen, _⟩ := crossoverChild_spec _ _ _ _ hch
    obtain ⟨r, hm⟩ := mutateChild_defined hni hno it hit fuel st.2 child (draws oc) hc
      (by rw [hlen]; exact hf o1 ho1)
    obtain ⟨c1, e1⟩ := r
    obtain ⟨I1, hc1⟩ := I.mutate it hit fuel child (draws oc) c1 e1 hc hm
    obtain ⟨st2, ha⟩ := I1.addGenome_defined hne c1
    obtain ⟨I2, _, _⟩ := I1.addGenome c1 hc1 ha
    obtain ⟨st3, h3⟩ := ih (oc + 1) st2 I2
    refine ⟨st3, ?_⟩
    unfold offspringLoop
    simp only [hch, hm, ha]
    exact h3

theorem LoopInv.pop_size {ni no : Int} {e0 : Engine} {st : List Specie × Engine}
    (I : LoopInv ni no e0 st) : st.2.pop_size = e0.pop_size := by
  have h := congrArg Engine.pop_size I.frame
  exact h

theorem LoopInv.top_p_cutoff {ni no : Int} {e0 : Engine} {st : List Specie × Engine}
    (I : LoopInv ni no e0 st) : st.2.top_p_cutoff = e0.top_p_cutoff := by
  have h := congrArg Engine.top_p_cutoff I.frame
  exact h

theorem specieOffspring_spec {ni no : Int} {e0 : Engine} (it : List Int → List Int)
    (hit : ∀ l, (it l).Perm l) (fuel : Nat) (specie : Specie) (hs : specie ∈ e0.species)
    (f sum : ℚ) (draws : Nat → OffspringDraws) (st st1 : List Specie × Engine)
    (I : LoopInv ni no e0 st)
    (h : specieOffspring it fuel specie f sum draws st = some st1) :
    LoopInv ni no e0 st1 ∧
      totalOrganisms st1.1 = totalOrganisms st.1 + offspringCount e0 sum f := by
  unfold specieOffspring at h
  simp only at h
  rw [I.pop_size, I.species_eq, I.top_p_cutoff] at h
  unfold offspringCount
  by_cases h1 : numOffspringOf e0.pop_size e0.species.length f sum < 1
  · rw [if_pos h1] at h
    injection h with h
    rw [← h]
    refine ⟨I, ?_⟩
    have : (numOffspringOf e0.pop_size e0.species.length f sum).toNat = 0 := by omega
    rw [this]
    rfl
  · rw [if_neg h1] at h
    by_cases h5 : numOffspringOf e0.pop_size e0.species.length f sum > 5
    · rw [if_pos h5] at h
      cases hh : specie.organisms.head? with
      | none => simp [hh] at h
      | some champion =>
        simp only [hh] at h
        have hcm : champion ∈ specie.organisms := List.mem_of_mem_head? hh
        cases ha : AddGenome st.2 st.1 champion.genome with
        | none => simp [ha] at h
        | some st2 =>
          simp only [ha] at h
          obtain ⟨I2, ht2, _⟩ := I.addGenome champion.genome (I.reachOld specie hs _ hcm) ha
          obtain ⟨I3, ht3⟩ := offspringLoop_spec it hit fuel specie hs _ draws _ 0 st2 st1 I2 h
          refine ⟨I3, ?_⟩
          rw [ht3, ht2]
          omega
    · rw [if_neg h5] at h
      exact offspringLoop_spec it hit fuel specie hs _ draws _ 0 st st1 I h

theorem specieOffspring_defined {ni no : Int} (hni : 0 ≤ ni) (hno : 1 ≤ no) {e0 : Engine}
    (it : List Int → List Int) (hit : ∀ l, (it l).Perm l) (fuel : Nat)
    (hne : ∀ s ∈ e0.species, s.organisms ≠ []) (specie : Specie) (hs : specie ∈ e0.species)
    (hf : ∀ o ∈ specie.organisms, sortFuel ni no o.genome.forward_edges.length ≤ fuel)
    (f sum : ℚ) (draws : Nat → OffspringDraws) (st : List Specie × Engine)
    (I : LoopInv ni no e0 st) :
    ∃ st1, specieOffspring it fuel specie f sum draws st = some st1 := by
  have hpos : 1 ≤ specie.organisms.length := List.length_pos.2 (hne specie hs)
  have htop := topOrganismsIndex_bounds specie.organisms.length st.2.top_p_cutoff hpos
  unfold specieOffspring
  simp only
  split
  · exact ⟨st, rfl⟩
  · split
    · cases hh : specie.organisms.head? with
      | none =>
        rw [List.head?_eq_none_iff] at hh
        exact absurd hh (hne specie hs)
      | some champion =>
        simp only
        have hcm : champion ∈ specie.organisms := List.mem_of_mem_head? hh
        obtain ⟨st2, ha⟩ := I.addGenome_defined hne champion.genome
        obtain ⟨I2, _, _⟩ := I.addGenome champion.genome (I.reachOld specie hs _ hcm) ha
        simp only [ha]
        exact offspringLoop_defined hni hno it hit fuel hne specie hs hf _ htop draws _ 0 st2 I2
    · exact offspringLoop_defined hni hno it hit fuel hne specie hs hf _ htop draws _ 0 st I

theorem speciesLoop_spec {ni no : Int} {e0 : Engine} (it : List Int → List Int)
    (hit : ∀ l, (it l).Perm l) (fuel : Nat) (sum : ℚ) (draws : Nat → Nat → OffspringDraws) :
    ∀ (L : List (Specie × ℚ)) (i : Nat) (st st1 : List Specie × Engine),
      (∀ x ∈ L, x.1 ∈ e0.species) → LoopInv ni no e0 st →
      speciesLoop it fuel sum draws i L st = some st1 →
      LoopInv ni no e0 st1 ∧
        totalOrganisms st1.1 =
          totalOrganisms st.1 + (L.map (fun x => offspringCount e0 sum x.2)).sum := by
  intro L
  induction L with
  | nil =>
    intro i st st1 _ I h
    simp only [speciesLoop, Option.some.injEq] at h
    rw [← h]
    exact ⟨I, rfl⟩
  | cons x rest ih =>
    intro i st st1 hL I h
    obtain ⟨specie, f⟩ := x
    unfold speciesLoop at h
    cases hso : specieOffspring it fuel specie f sum (draws i) st with
    | none => simp [hso] at h
    | some st2 =>
      simp only [hso] at h
      obtain ⟨I2, ht2⟩ := specieOffspring_spec it hit fuel specie
        (hL (specie, f) (List.mem_cons_self _ _)) f sum (draws i) st st2 I hso
      obtain ⟨I3, ht3⟩ := ih (i + 1) st2 st1
        (fun y hy => hL y (List.mem_cons_of_mem _ hy)) I2 h
      refine ⟨I3, ?_⟩
      rw [ht3, ht2]
      simp only [List.map_cons, List.sum_cons]
      omega

theorem speciesLoop_defined {ni no : Int} (hni : 0 ≤ ni) (hno : 1 ≤ no) {e0 : Engine}
    (it : List Int → List Int) (hit : ∀ l, (it l).Perm l) (fuel : Nat)
    (hne : ∀ s ∈ e0.species, s.organisms ≠ []) (hf : e0.FuelOK ni no fuel) (sum : ℚ)
    (draws : Nat → Nat → OffspringDraws) :
    ∀ (L : List (Specie × ℚ)) (i : Nat) (st : List Specie × Engine),
      (∀ x ∈ L, x.1 ∈ e0.species) → LoopInv ni no e0 st →
      ∃ st1, speciesLoop it fuel sum draws i L st = some st1 := by
  intro L
  induction L with
  | nil =>
    intro i st _ I
    exact ⟨st, rfl⟩
  | cons x rest ih =>
    intro i st hL I
    obtain ⟨specie, f⟩ := x
    have hs : specie ∈ e0.species := hL (specie, f) (List.mem_cons_self _ _)
    obtain ⟨st2, hso⟩ := specieOffspring_defined hni hno it hit fuel hne specie hs
      (hf specie hs) f sum (draws i) st I
    obtain ⟨I2, _⟩ := specieOffspring_spec it hit fuel specie hs f sum (draws i) st st2 I hso
    obtain ⟨st3, h3⟩ := ih (i + 1) st2 (fun y hy => hL y (List.mem_cons_of_mem _ hy)) I2
    refine ⟨st3, ?_⟩
    unfold speciesLoop
    simp only [hso]
    exact h3

/-! ## The fitness check of `UpdateGeneration` -/

theorem sumFitness_none_iff (l : List Organism) :
    ∀ acc, sumFitness l acc = none ↔ ∃ o ∈ l, o.fitness < 0 := by
  induction l with
  | nil =>
    intro acc
    simp [sumFitness]
  | cons o rest ih =>
    intro acc
    unfold sumFitness
    by_cases h : o.fitness < 0
    · simp [h]
    · simp only [h, if_false, List.mem_cons, exists_eq_or_imp, false_or]
      exact ih _

theorem sumFitness_some (l : List Organism) :
    ∀ acc x, sumFitness l acc = some x → x = floatSum (l.map (fun o => o.fitness)) acc := by
  induction l with
  | nil =>
    intro acc x h
    simp only [sumFitness, Option.some.injEq] at h
    rw [← h]
    rfl
  | cons o rest ih =>
    intro acc x h
    unfold sumFitness at h
    by_cases hf : o.fitness < 0
    · simp [hf] at h
    · simp only [hf, if_false] at h
      rw [ih _ _ h]
      rfl

theorem fitnessLoop_none_iff (species : List Specie) :
    ∀ fs sum, fitnessLoop species fs sum = none ↔
      ∃ s ∈ species, ∃ o ∈ s.organisms, o.fitness < 0 := by
  induction species with
  | nil =>
    intro fs sum
    simp [fitnessLoop]
  | cons s rest ih =>
    intro fs sum
    unfold fitnessLoop
    cases hs : sumFitness s.organisms 0 with
    | none =>
      simp only [List.mem_cons, exists_eq_or_imp, true_iff]
      exact Or.inl ((sumFitness_none_iff _ _).1 hs)
    | some f =>
      have hno : ¬ ∃ o ∈ s.organisms, o.fitness < 0 := by
        intro hex
        rw [← sumFitness_none_iff s.organisms 0, hs] at hex
        cases hex
      simp only [List.mem_cons, exists_eq_or_imp, hno, false_or]
      exact ih _ _

theorem fitnessLoop_some (species : List Specie) :
    ∀ fs sum fs1 sum1, fitnessLoop species fs sum = some (fs1, sum1) →
      fs1 = fs ++ species.map specieFitness ∧
        sum1 = floatSum (species.map specieFitness) sum := by
  induction species with
  | nil =>
    intro fs sum fs1 sum1 h
    simp only [fitnessLoop, Option.some.injEq, Prod.mk.injEq] at h
    simp [h.1, h.2, floatSum_nil]
  | cons s rest ih =>
    intro fs sum fs1 sum1 h
    unfold fitnessLoop at h
    cases hs : sumFitness s.organisms 0 with
    | none => simp [hs] at h
    | some f =>
      simp only [hs] at h
      obtain ⟨h1, h2⟩ := ih _ _ _ _ h
      have hf : roundFloat (f / roundFloat (s.organisms.length : ℚ)) = specieFitness s := by
        unfold specieFitness
        rw [sumFitness_some _ _ _ hs]
      rw [hf] at h1 h2
      constructor
      · rw [h1]
        simp
      · rw [h2]
        rfl

theorem totalOrganisms_filter (species : List Specie) :
    totalOrganisms (species.filter (fun s => decide (0 < s.organisms.length))) =
      totalOrganisms species := by
  induction species with
  | nil => rfl
  | cons s rest ih =>
    unfold totalOrganisms at ih ⊢
    by_cases h : 0 < s.organisms.length
    · rw [List.filter_cons_of_pos (by simpa using h)]
      simp only [List.map_cons, List.sum_cons]
      rw [ih]
    · rw [List.filter_cons_of_neg (by simpa using h)]
      simp only [List.map_cons, List.sum_cons]
      rw [ih]
      omega

theorem totalOrganisms_emptied (species : List Specie) :
    totalOrganisms
      (species.map (fun s => ({ organisms := [], specie_id := s.specie_id } : Specie))) = 0 := by
  induction species with
  | nil => rfl
  | cons s rest ih =>
    unfold totalOrganisms at ih ⊢
    simp only [List.map_cons, List.sum_cons, List.length_nil, zero_add]
    exact ih

/-! ## `UpdateGeneration` -/

theorem UpdateGeneration_unset (it : List Int → List Int) (srt : List Organism → List Organism)
    (fuel : Nat) (draws : Nat → Nat → OffspringDraws) (e : Engine) (h : e.hasUnset) :
    UpdateGeneration it srt fuel draws e = some (false, e) := by
  unfold UpdateGeneration
  simp only
  rw [(fitnessLoop_none_iff e.species [] 0).2 h]

theorem UpdateGeneration_eq (it : List Int → List Int) (srt : List Organism → List Organism)
    (fuel : Nat) (draws : Nat → Nat → OffspringDraws) (e : Engine) (h : ¬ e.hasUnset) :
    UpdateGeneration it srt fuel draws e =
      if e.species.any (fun s => s.organisms.isEmpty) then none
      else
        (speciesLoop it fuel e.fitnessSum draws 0
          ((e.sortSpecies srt).species.zip (e.species.map specieFitness))
          (emptiedSpecies e.species, e.sortSpecies srt)).map (fun st => (true, turnover st)) := by
  unfold UpdateGeneration
  simp only
  cases hf : fitnessLoop e.species [] 0 with
  | none => exact absurd ((fitnessLoop_none_iff e.species [] 0).1 hf) h
  | some r =>
    obtain ⟨fs, sum⟩ := r
    obtain ⟨h1, h2⟩ := fitnessLoop_some _ _ _ _ _ hf
    simp only [List.nil_append] at h1
    simp only
    rw [h1, h2]
    split
    · rfl
    · unfold Engine.fitnessSum Engine.sortSpecies emptiedSpecies
      cases speciesLoop it fuel (floatSum (e.species.map specieFitness) 0) draws 0
          ((e.species.map (fun s => { s with organisms := srt s.organisms })).zip
            (e.species.map specieFitness))
          (e.species.map (fun s => ({ organisms := [], specie_id := s.specie_id } : Specie)),
            { e with species := e.species.map (fun s => { s with organisms := srt s.organisms }) })
        with
      | none => rfl
      | some st => rfl

theorem UpdateGeneration_result (it : List Int → List Int) (srt : List Organism → List Organism)
    (fuel : Nat) (draws : Nat → Nat → OffspringDraws) (e : Engine) (r : Bool × Engine)
    (h : UpdateGeneration it srt fuel draws e = some r) :
    (r.1 = false ↔ e.hasUnset) ∧ (r.1 = false → r.2 = e) := by
  by_cases hu : e.hasUnset
  · rw [UpdateGeneration_unset it srt fuel draws e hu] at h
    injection h with h
    rw [← h]
    exact ⟨⟨fun _ => hu, fun _ => rfl⟩, fun _ => rfl⟩
  · rw [UpdateGeneration_eq it srt fuel draws e hu] at h
    split at h
    · cases h
    · cases hl : speciesLoop it fuel e.fitnessSum draws 0
          ((e.sortSpecies srt).species.zip (e.species.map specieFitness))
          (emptiedSpecies e.species, e.sortSpecies srt) with
      | none =>
        rw [hl] at h
        cases h
      | some st =>
        rw [hl] at h
        simp only [Option.map_some', Option.some.injEq] at h
        rw [← h]
        refine ⟨⟨fun hc => ?_, fun hc => absurd hc hu⟩, fun hc => ?_⟩
        · cases hc
        · cases hc

theorem mem_sortSpecies (srt : List Organism → List Organism) (e : Engine) (s1 : Specie)
    (h : s1 ∈ (e.sortSpecies srt).species) :
    ∃ s ∈ e.species, s1 = { s with organisms := srt s.organisms } := by
  unfold Engine.sortSpecies at h
  simp only [List.mem_map] at h
  obtain ⟨s, hs, heq⟩ := h
  exact ⟨s, hs, heq.symm⟩

theorem LoopInv.start {ni no : Int} (srt : List Organism → List Organism)
    (hsrt : ∀ l, (srt l).Perm l) (e : Engine) (I : EngineInv ni no e) :
    LoopInv ni no (e.sortSpecies srt) (emptiedSpecies e.species, e.sortSpecies srt) ∧
    (∀ s ∈ (e.sortSpecies srt).species, s.organisms ≠ []) := by
  refine ⟨⟨rfl, ?_, ?_, ?_, ?_⟩, ?_⟩
  · simp [Engine.sortSpecies, emptiedSpecies]
  · intro j s hj hs
    have hs1 : (emptiedSpecies e.species)[j]? = some s := hs
    have hlt : j < (emptiedSpecies e.species).length := by
      by_contra hge
      rw [List.getElem?_eq_none (by omega)] at hs1
      cases hs1
    simp only [Engine.sortSpecies, emptiedSpecies, List.length_map] at hj hlt
    omega
  · intro s1 hs1 o ho
    obtain ⟨s, hs, heq⟩ := mem_sortSpecies srt e s1 hs1
    rw [heq] at ho
    exact I.reach s hs o ((hsrt _).mem_iff.1 ho)
  · intro s1 hs1 o ho
    simp only [emptiedSpecies, List.mem_map] at hs1
    obtain ⟨s, _, heq⟩ := hs1
    rw [← heq] at ho
    cases ho
  · intro s1 hs1 hempty
    obtain ⟨s, hs, heq⟩ := mem_sortSpecies srt e s1 hs1
    rw [heq] at hempty
    simp only at hempty
    have := (hsrt s.organisms).length_eq
    rw [hempty] at this
    exact I.nonempty s hs (List.length_eq_zero.1 this.symm)

theorem any_isEmpty_false {ni no : Int} (e : Engine) (I : EngineInv ni no e) :
    e.species.any (fun s => s.organisms.isEmpty) = false := by
  rw [List.any_eq_false]
  intro s hs
  have := I.nonempty s hs
  cases h : s.organisms with
  | nil => exact absurd h this
  | cons a l => simp

theorem sum_map_zip_snd {α β : Type} (f : β → Nat) :
    ∀ (l1 : List α) (l2 : List β), l1.length = l2.length →
      ((l1.zip l2).map (fun x => f x.2)).sum = (l2.map f).sum := by
  intro l1
  induction l1 with
  | nil =>
    intro l2 h
    cases l2 with
    | nil => rfl
    | cons b l2 => simp at h
  | cons a l1 ih =>
    intro l2 h
    cases l2 with
    | nil => simp at h
    | cons b l2 =>
      simp only [List.zip_cons_cons, List.map_cons, List.sum_cons]
      rw [ih l2 (by simpa using h)]

/-- What a successful `UpdateGeneration` leaves: an engine state whose
organisms are the offspring, `offspringCount` of them for every specie of the
last generation, with a new object behind `fitness_valid_ptr`. -/
theorem UpdateGeneration_success {ni no : Int} (it : List Int → List Int)
    (hit : ∀ l, (it l).Perm l) (srt : List Organism → List Organism)
    (hsrt : ∀ l, (srt l).Perm l) (fuel : Nat) (draws : Nat → Nat → OffspringDraws)
    (e e1 : Engine) (I : EngineInv ni no e)
    (h : UpdateGeneration it srt fuel draws e = some (true, e1)) :
    EngineInv ni no e1 ∧
    e1.numOrganisms =
      (e.species.map (fun s => offspringCount e e.fitnessSum (specieFitness s))).sum ∧
    e1.fitness_valid_ptr = e.fitness_valid_ptr + 1 ∧ e1.pop_size = e.pop_size := by
  have hu : ¬ e.hasUnset := by
    intro hu
    have := (UpdateGeneration_result it srt fuel draws e _ h).1.2 hu
    cases this
  rw [UpdateGeneration_eq it srt fuel draws e hu, any_isEmpty_false e I] at h
  simp only [Bool.false_eq_true, if_false] at h
  cases hl : speciesLoop it fuel e.fitnessSum draws 0
      ((e.sortSpecies srt).species.zip (e.species.map specieFitness))
      (emptiedSpecies e.species, e.sortSpecies srt) with
  | none =>
    rw [hl] at h
    cases h
  | some st =>
    rw [hl] at h
    simp only [Option.map_some', Option.some.injEq, Prod.mk.injEq, true_and] at h
    obtain ⟨I0, _⟩ := LoopInv.start srt hsrt e I
    obtain ⟨I1, ht⟩ := speciesLoop_spec it hit fuel e.fitnessSum draws _ 0 _ st
      (fun x hx => (List.of_mem_zip hx).1) I0 hl
    rw [← h]
    refine ⟨⟨?_, ?_⟩, ?_, ?_, ?_⟩
    · intro s hs
      simp only [turnover, List.mem_filter, decide_eq_true_eq] at hs
      exact List.length_pos.1 hs.2
    · intro s hs o ho
      simp only [turnover, List.mem_filter] at hs
      exact I1.reachNew s hs.1 o ho
    · show totalOrganisms (st.1.filter (fun s => decide (0 < s.organisms.length))) = _
      rw [totalOrganisms_filter, ht]
      have h0 : totalOrganisms (emptiedSpecies e.species) = 0 := totalOrganisms_emptied _
      simp only at h0 ⊢
      rw [h0, zero_add, sum_map_zip_snd (fun f => offspringCount (e.sortSpecies srt) e.fitnessSum f)
        _ _ (by simp [Engine.sortSpecies]), List.map_map]
      have hc : ∀ f, offspringCount (e.sortSpecies srt) e.fitnessSum f =
          offspringCount e e.fitnessSum f := by
        intro f
        simp [offspringCount, Engine.sortSpecies]
      simp only [hc]
      rfl
    · show st.2.fitness_valid_ptr + 1 = e.fitness_valid_ptr + 1
      have := congrArg Engine.fitness_valid_ptr I1.frame
      simp only [Engine.sortSpecies] at this
      rw [this]
    · show st.2.pop_size = e.pop_size
      exact I1.pop_size

/-- `UpdateGeneration` returns on every engine state, with enough fuel for
the constructors of the networks. -/
theorem UpdateGeneration_defined {ni no : Int} (hni : 0 ≤ ni) (hno : 1 ≤ no)
    (it : List Int → List Int) (hit : ∀ l, (it l).Perm l)
    (srt : List Organism → List Organism) (hsrt : ∀ l, (srt l).Perm l) (fuel : Nat)
    (draws : Nat → Nat → OffspringDraws) (e : Engine) (I : EngineInv ni no e)
    (hf : e.FuelOK ni no fuel) :
    ∃ r, UpdateGeneration it srt fuel draws e = some r := by
  by_cases hu : e.hasUnset
  · exact ⟨_, UpdateGeneration_unset it srt fuel draws e hu⟩
  · rw [UpdateGeneration_eq it srt fuel draws e hu, any_isEmpty_false e I]
    simp only [Bool.false_eq_true, if_false]
    obtain ⟨I0, hne⟩ := LoopInv.start srt hsrt e I
    have hf1 : (e.sortSpecies srt).FuelOK ni no fuel := by
      intro s1 hs1 o ho
      obtain ⟨s, hs, heq⟩ := mem_sortSpecies srt e s1 hs1
      rw [heq] at ho
      exact hf s hs o ((hsrt _).mem_iff.1 ho)
    obtain ⟨st, hl⟩ := speciesLoop_defined hni hno it hit fuel hne hf1 e.fitnessSum draws
      ((e.sortSpecies srt).species.zip (e.species.map specieFitness)) 0 _
      (fun x hx => (List.of_mem_zip hx).1) I0
    rw [hl]
    exact ⟨_, rfl⟩

/-! ## The engine states -/

theorem placeChild_registry (e e1 : Engine) (child : Genome)
    (h : placeChild e child = some e1) : e1.registry = e.registry ∧ e1.pop_size = e.pop_size := by
  unfold placeChild at h
  cases hf : findSpecie e (representativeOf e.species) child e.species.length 0 with
  | none => simp [hf] at h
  | some x =>
    cases x with
    | none =>
      simp only [hf, Option.some.injEq] at h
      rw [← h]
      exact ⟨rfl, rfl⟩
    | some j =>
      simp only [hf, Option.some.injEq] at h
      rw [← h]
      exact ⟨rfl, rfl⟩

theorem seedLoop_registry (ni no : Int) (draws : Nat → Nat × Nat × ℚ) :
    ∀ (count oc : Nat) (e e1 : Engine), seedLoop ni no draws count oc e = some e1 →
      e1.registry = e.registry ∧ e1.pop_size = e.pop_size := by
  intro count
  induction count with
  | zero =>
    intro oc e e1 h
    simp only [seedLoop, Option.some.injEq] at h
    rw [h]
    exact ⟨rfl, rfl⟩
  | succ n ih =>
    intro oc e e1 h
    unfold seedLoop at h
    cases hs : seedOrganism ni no e (draws oc) with
    | none => simp [hs] at h
    | some e2 =>
      simp only [hs] at h
      obtain ⟨h1, h2⟩ := ih _ _ _ h
      obtain ⟨h3, h4⟩ := placeChild_registry e e2 _ hs
      exact ⟨by rw [h1, h3], by rw [h2, h4]⟩

theorem SeedInv.initial (input_size output_size pop_size_in : Int) (p : Params) :
    SeedInv (input_size + 1) output_size
      { Engine.init input_size output_size pop_size_in p with
        species := [{ organisms := [Organism.new (Genome.new (input_size + 1) output_size)],
                      specie_id := (Engine.init input_size output_size pop_size_in p).species_ctr
                        + 1 }]
        species_ctr := (Engine.init input_size output_size pop_size_in p).species_ctr + 1 }
      { Engine.init input_size output_size pop_size_in p with
        species := [{ organisms := [Organism.new (Genome.new (input_size + 1) output_size)],
                      specie_id := (Engine.init input_size output_size pop_size_in p).species_ctr
                        + 1 }]
        species_ctr := (Engine.init input_size output_size pop_size_in p).species_ctr + 1 }
      1 := by
  refine ⟨fun _ _ => rfl, rfl, ⟨_, _, _, rfl⟩, ?_, ?_⟩
  · intro s hs
    simp only [List.mem_singleton] at hs
    rw [hs]
    simp
  · intro i j s o hs ho
    cases i with
    | succ i => simp at hs
    | zero =>
      simp only [List.getElem?_cons_zero, Option.some.injEq] at hs
      rw [← hs] at ho
      cases j with
      | succ j => simp at ho
      | zero =>
        simp only [List.getElem?_cons_zero, Option.some.injEq] at ho
        rw [← ho]
        exact ⟨rfl, fun hne => absurd rfl hne⟩

theorem Reachable.of_seeded {ni no : Int} {g : Genome} (h : Seeded ni no g) :
    Reachable ni no (NEAT.new (ni - 1) no) g := by
  obtain ⟨a, b, w, hg⟩ := h
  rw [hg]
  exact Reachable.seed a b w

theorem EngineInv.create (input_size output_size pop_size_in : Int) (p : Params)
    (draws : Nat → Nat × Nat × ℚ) (e : Engine) (hi : 0 < input_size) (ho : 0 < output_size)
    (hp : 0 < pop_size_in)
    (h : Engine.create input_size output_size pop_size_in p draws = some e) :
    EngineInv (input_size + 1) output_size e ∧ e.pop_size = pop_size_in := by
  have h1 : ¬ input_size ≤ 0 := by omega
  have h2 : ¬ output_size ≤ 0 := by omega
  have h3 : ¬ pop_size_in ≤ 0 := by omega
  unfold Engine.create at h
  simp only [h1, h2, h3, if_false] at h
  obtain ⟨e1, hloop, I⟩ := SeedInv.loop draws (pop_size_in - 1).toNat 1 1 _
    (SeedInv.initial input_size output_size pop_size_in p)
  rw [hloop] at h
  injection h with h
  rw [h] at hloop I
  obtain ⟨hreg, hpop⟩ := seedLoop_registry _ _ _ _ _ _ _ hloop
  have hn : NEAT.new (input_size + 1 - 1) output_size = e.registry := by
    rw [hreg]
    simp [Engine.init]
  refine ⟨⟨I.nonempty, ?_⟩, by rw [hpop]; rfl⟩
  intro s hs o ho
  obtain ⟨i, hi2⟩ := List.mem_iff_getElem?.1 hs
  obtain ⟨j, hj⟩ := List.mem_iff_getElem?.1 ho
  rw [← hn]
  by_cases hij : (i, j) = (0, 0)
  · simp only [Prod.mk.injEq] at hij
    obtain ⟨rest0, restS, id0, hfirst⟩ := I.first
    rw [hij.1, hfirst] at hi2
    simp only [List.getElem?_cons_zero, Option.some.injEq] at hi2
    rw [hij.2, ← hi2] at hj
    simp only [List.getElem?_cons_zero, Option.some.injEq] at hj
    rw [← hj]
    exact Reachable.empty
  · exact Reachable.of_seeded ((I.each i j s o hi2 hj).2 hij).1

theorem mem_modify {α : Type} (f : α → α) (l : List α) (i : Nat) (x : α)
    (h : x ∈ l.modify f i) : ∃ y ∈ l, x = y ∨ x = f y := by
  obtain ⟨n, hn⟩ := List.mem_iff_getElem?.1 h
  cases hl : l[n]? with
  | none =>
    rw [getElem?_modify_none _ _ _ _ hl] at hn
    cases hn
  | some y =>
    rw [getElem?_modify_some _ _ _ _ _ hl] at hn
    injection hn with hn
    refine ⟨y, List.getElem?_mem hl, ?_⟩
    rw [← hn]
    split
    · exact Or.inr rfl
    · exact Or.inl rfl

theorem EngineInv.writeFitness {ni no : Int} {e : Engine} (I : EngineInv ni no e)
    (i j : Nat) (f : ℚ) : EngineInv ni no (e.writeFitness i j f) := by
  constructor
  · intro s1 hs1
    obtain ⟨s, hs, heq⟩ := mem_modify _ _ _ _ hs1
    rcases heq with heq | heq
    · rw [heq]
      exact I.nonempty s hs
    · rw [heq]
      intro hempty
      have := congrArg List.length hempty
      simp only [List.length_modify, List.length_nil] at this
      exact I.nonempty s hs (List.length_eq_zero.1 this)
  · intro s1 hs1 o1 ho1
    obtain ⟨s, hs, heq⟩ := mem_modify _ _ _ _ hs1
    rcases heq with heq | heq
    · rw [heq] at ho1
      exact I.reach s hs o1 ho1
    · rw [heq] at ho1
      obtain ⟨o, ho, heq2⟩ := mem_modify _ _ _ _ ho1
      rcases heq2 with heq2 | heq2
      · rw [heq2]
        exact I.reach s hs o ho
      · rw [heq2]
        exact I.reach s hs o ho

theorem EngineInv.setFitness {ni no : Int} {e : Engine} (I : EngineInv ni no e)
    (h : FitnessInterface) (f : ℚ) : EngineInv ni no (SetFitness e h f).2 := by
  unfold SetFitness
  split
  · exact I
  · split
    · exact I
    · exact I.writeFitness _ _ f

theorem SetFitness_frame (e : Engine) (h : FitnessInterface) (f : ℚ) :
    (SetFitness e h f).2.fitness_valid_ptr = e.fitness_valid_ptr ∧
    (SetFitness e h f).2.pop_size = e.pop_size := by
  unfold SetFitness
  split
  · exact ⟨rfl, rfl⟩
  · split
    · exact ⟨rfl, rfl⟩
    · exact ⟨rfl, rfl⟩

/-- Every engine state satisfies the invariant, and its `pop_size` is
positive. -/
theorem EngineInv.of_live {input_size output_size : Int} {e : Engine}
    (h : Engine.Live input_size output_size e) :
    EngineInv (input_size + 1) output_size e ∧ 0 < e.pop_size ∧ 0 < input_size ∧
      0 < output_size := by
  induction h with
  | create pop_size_in p draws e hi ho hp hc =>
    obtain ⟨I, hpop⟩ := EngineInv.create input_size output_size pop_size_in p draws e hi ho hp hc
    exact ⟨I, by rw [hpop]; exact hp, hi, ho⟩
  | setFitness h f _ ih =>
    exact ⟨ih.1.setFitness h f, by rw [(SetFitness_frame _ h f).2]; exact ih.2.1, ih.2.2⟩
  | @update e it srt fuel draws r _ hit hsrt hupd ih =>
    obtain ⟨ok, e1⟩ := r
    cases ok
    · have := (UpdateGeneration_result it srt fuel draws e _ hupd).2 rfl
      simp only at this
      rw [this]
      exact ih
    · obtain ⟨I1, _, _, hpop⟩ := UpdateGeneration_success it hit srt hsrt fuel draws e e1 ih.1 hupd
      exact ⟨I1, by rw [hpop]; exact ih.2.1, ih.2.2⟩

theorem Engine.Live.steps {input_size output_size : Int} {e0 e : Engine}
    (h0 : Engine.Live input_size output_size e0) (h : Engine.Steps e0 e) :
    Engine.Live input_size output_size e ∧ e0.fitness_valid_ptr ≤ e.fitness_valid_ptr := by
  induction h with
  | refl => exact ⟨h0, le_refl _⟩
  | setFitness h f _ ih =>
    exact ⟨Engine.Live.setFitness h f ih.1, by rw [(SetFitness_frame _ h f).1]; exact ih.2⟩
  | @update e it srt fuel draws r _ hit hsrt hupd ih =>
    refine ⟨Engine.Live.update it srt fuel draws r ih.1 hit hsrt hupd, ?_⟩
    obtain ⟨ok, e1⟩ := r
    cases ok
    · have := (UpdateGeneration_result it srt fuel draws e _ hupd).2 rfl
      simp only at this
      rw [this]
      exact ih.2
    · obtain ⟨_, _, hptr, _⟩ := UpdateGeneration_success it hit srt hsrt fuel draws e e1
        (EngineInv.of_live ih.1).1 hupd
      simp only
      omega

/-! ## C21: `UpdateGeneration` and fitnesses that are not set -/

/-- C21: on every engine state `UpdateGeneration` returns (with enough fuel
for the constructors of the networks); it returns `false` exactly when some
organism has a fitness below `0`, and then the engine (species, order of the
organisms, fitnesses, registry, counters, `fitness_valid_ptr`) is the one it
was called on. -/
theorem UpdateGeneration_false_iff (input_size output_size : Int) (e : Engine)
    (hlive : Engine.Live input_size output_size e) (it : List Int → List Int)
    (hit : ∀ l, (it l).Perm l) (srt : List Organism → List Organism)
    (hsrt : ∀ l, (srt l).Perm l) (fuel : Nat)
    (hf : e.FuelOK (input_size + 1) output_size fuel) (draws : Nat → Nat → OffspringDraws) :
    ∃ r, UpdateGeneration it srt fuel draws e = some r ∧
      (r.1 = false ↔ ∃ s ∈ e.species, ∃ o ∈ s.organisms, o.fitness < 0) ∧
      (r.1 = false → r.2 = e) := by
  obtain ⟨I, _, hi, ho⟩ := EngineInv.of_live hlive
  obtain ⟨r, hr⟩ := UpdateGeneration_defined (by omega) (by omega) it hit srt hsrt fuel draws e I hf
  exact ⟨r, hr, UpdateGeneration_result it srt fuel draws e r hr⟩

theorem engineTwo_live : Engine.Live 1 1 engineTwo :=
  Engine.Live.create 2 Params.default (fun _ => (0, 0, 1)) engineTwo (by decide) (by decide)
    (by decide) (by with_unfolding_all decide)

/-- C21, witness: `NEAT(1, 1, 2)` right after construction, where no fitness
is set, and after `SetFitness(1)` on both organisms. -/
theorem UpdateGeneration_false_iff_witness :
    (∃ r, UpdateGeneration id id 9 (fun _ _ => plainDraws) engineTwo = some r ∧
      (r.1 = false ↔ ∃ s ∈ engineTwo.species, ∃ o ∈ s.organisms, o.fitness < 0) ∧
      (r.1 = false → r.2 = engineTwo)) ∧
    UpdateGeneration id id 9 (fun _ _ => plainDraws) engineTwo = some (false, engineTwo) ∧
    UpdateGeneration id id 9 (fun _ _ => plainDraws) engineTwoSet =
      some (true, engineTwoNext) :=
  ⟨UpdateGeneration_false_iff 1 1 engineTwo engineTwo_live id (fun _ => List.Perm.refl _) id
      (fun _ => List.Perm.refl _) 9
      (show ∀ s ∈ engineTwo.species, ∀ o ∈ s.organisms,
        sortFuel (1 + 1) 1 o.genome.forward_edges.length ≤ 9 from by with_unfolding_all decide)
      (fun _ _ => plainDraws),
    by with_unfolding_all decide, by with_unfolding_all decide⟩

/-! ## C24: fitness handles and the generation turnover -/

theorem organismEntries_spec (it : List Int → List Int) (fuel ptr i : Nat) (id : Int) :
    ∀ (l : List Organism) (j : Nat) (out : List (Network × FitnessInterface × Int)),
      organismEntries it fuel ptr i id j l = some out →
      ∀ t ∈ out, t.2.1.fitness_valid_ptr = ptr ∧ t.2.1.specie_index = i ∧
        j ≤ t.2.1.organism_index ∧ t.2.1.organism_index < j + l.length := by
  intro l
  induction l with
  | nil =>
    intro j out h t ht
    simp only [organismEntries, Option.some.injEq] at h
    rw [← h] at ht
    cases ht
  | cons o rest ih =>
    intro j out h t ht
    unfold organismEntries at h
    cases hn : GenerateNetwork it fuel o.genome with
    | none => simp [hn] at h
    | some net =>
      simp only [hn] at h
      cases hr : organismEntries it fuel ptr i id (j + 1) rest with
      | none => simp [hr] at h
      | some l2 =>
        simp only [hr, Option.map_some', Option.some.injEq] at h
        rw [← h] at ht
        simp only [List.mem_cons] at ht
        rcases ht with ht | ht
        · rw [ht]
          refine ⟨rfl, rfl, le_refl _, ?_⟩
          simp only [List.length_cons]
          omega
        · obtain ⟨h1, h2, h3, h4⟩ := ih (j + 1) l2 hr t ht
          simp only [List.length_cons]
          exact ⟨h1, h2, by omega, by omega⟩

theorem specieEntries_spec (it : List Int → List Int) (fuel ptr : Nat) :
    ∀ (species : List Specie) (i : Nat) (out : List (Network × FitnessInterface × Int)),
      specieEntries it fuel ptr i species = some out →
      ∀ t ∈ out, t.2.1.fitness_valid_ptr = ptr ∧ i ≤ t.2.1.specie_index ∧
        ∃ s, species[t.2.1.specie_index - i]? = some s ∧
          t.2.1.organism_index < s.organisms.length := by
  intro species
  induction species with
  | nil =>
    intro i out h t ht
    simp only [specieEntries, Option.some.injEq] at h
    rw [← h] at ht
    cases ht
  | cons s rest ih =>
    intro i out h t ht
    unfold specieEntries at h
    cases ho : organismEntries it fuel ptr i s.specie_id 0 s.organisms with
    | none => simp [ho] at h
    | some l =>
      simp only [ho] at h
      cases hr : specieEntries it fuel ptr (i + 1) rest with
      | none => simp [hr] at h
      | some l2 =>
        simp only [hr, Option.map_some', Option.some.injEq] at h
        rw [← h] at ht
        simp only [List.mem_append] at ht
        rcases ht with ht | ht
        · obtain ⟨h1, h2, _, h4⟩ := organismEntries_spec it fuel ptr i _ _ _ _ ho t ht
          refine ⟨h1, by omega, s, ?_, by omega⟩
          rw [h2]
          simp
        · obtain ⟨h1, h2, s1, h3, h4⟩ := ih (i + 1) l2 hr t ht
          refine ⟨h1, by omega, s1, ?_, h4⟩
          have : t.2.1.specie_index - i = (t.2.1.specie_index - (i + 1)) + 1 := by omega
          rw [this]
          simpa using h3

/-- A handle `GenerateNetworks` returns watches the object the engine owns,
and its reference is bound to an organism of the engine. -/
theorem GenerateNetworks_handle (it : List Int → List Int) (fuel : Nat) (e : Engine)
    (r : List (Network × FitnessInterface × Int)) (h : GenerateNetworks it fuel e = some r)
    (t : Network × FitnessInterface × Int) (ht : t ∈ r) :
    t.2.1.fitness_valid_ptr = e.fitness_valid_ptr ∧
    ∃ f0, e.fitnessAt t.2.1.specie_index t.2.1.organism_index = some f0 := by
  obtain ⟨h1, _, s, hs, hlt⟩ := specieEntries_spec it fuel _ _ 0 r h t ht
  refine ⟨h1, ?_⟩
  unfold Engine.fitnessAt
  simp only [Nat.sub_zero] at hs
  rw [List.get?_eq_getElem?, hs]
  simp only
  rw [List.get?_eq_getElem?, List.getElem?_eq_getElem hlt]
  exact ⟨_, rfl⟩

/-- C24: a handle that `GenerateNetworks` returned in an engine state `e0` is
refused by `SetFitness` after any later successful `UpdateGeneration`, for
every value, and the engine is left as it is; every handle that
`GenerateNetworks` returns after that update is accepted for every `f ≥ 0`
and writes the fitness of its organism. -/
theorem SetFitness_after_update (input_size output_size : Int) (e0 e e1 : Engine)
    (hlive : Engine.Live input_size output_size e0) (it0 : List Int → List Int) (fuel0 : Nat)
    (r0 : List (Network × FitnessInterface × Int))
    (hgen : GenerateNetworks it0 fuel0 e0 = some r0) (t : Network × FitnessInterface × Int)
    (ht : t ∈ r0) (hsteps : Engine.Steps e0 e) (it : List Int → List Int)
    (hit : ∀ l, (it l).Perm l) (srt : List Organism → List Organism)
    (hsrt : ∀ l, (srt l).Perm l) (fuel : Nat) (draws : Nat → Nat → OffspringDraws)
    (hupd : UpdateGeneration it srt fuel draws e = some (true, e1)) :
    (∀ f, SetFitness e1 t.2.1 f = (false, e1)) ∧
    ∀ (it2 : List Int → List Int) (fuel2 : Nat) (r2 : List (Network × FitnessInterface × Int))
      (t2 : Network × FitnessInterface × Int),
      GenerateNetworks it2 fuel2 e1 = some r2 → t2 ∈ r2 → ∀ f : ℚ, 0 ≤ f →
        (SetFitness e1 t2.2.1 f).1 = true ∧
        (SetFitness e1 t2.2.1 f).2.fitnessAt t2.2.1.specie_index t2.2.1.organism_index =
          some f := by
  obtain ⟨hl, hle⟩ := hlive.steps hsteps
  obtain ⟨_, _, hptr, _⟩ := UpdateGeneration_success it hit srt hsrt fuel draws e e1
    (EngineInv.of_live hl).1 hupd
  have h0 := (GenerateNetworks_handle it0 fuel0 e0 r0 hgen t ht).1
  constructor
  · intro f
    unfold SetFitness
    rw [if_pos (by omega)]
  · intro it2 fuel2 r2 t2 hgen2 ht2 f hf
    obtain ⟨h2, f0, hf0⟩ := GenerateNetworks_handle it2 fuel2 e1 r2 hgen2 t2 ht2
    have hv : SetFitness e1 t2.2.1 f =
        (true, e1.writeFitness t2.2.1.specie_index t2.2.1.organism_index f) := by
      unfold SetFitness
      rw [if_neg (fun hn => hn h2), if_neg (not_lt.2 hf)]
    rw [hv]
    exact ⟨rfl, fitnessAt_writeFitness_self e1 _ _ f f0 hf0⟩

theorem engineTwoSet_steps : Engine.Steps engineTwo engineTwoSet :=
  Engine.Steps.setFitness _ _ (Engine.Steps.setFitness _ _ Engine.Steps.refl)

/-- C24, witness: the handle of the second organism of `NEAT(1, 1, 2)`,
obtained before both fitnesses are set to `1` and the generation is
updated. -/
theorem SetFitness_after_update_witness :
    (GenerateNetworks id 9 engineTwo).map (fun r => r.map (fun t => t.2.1)) =
      some [{ fitness_valid_ptr := 0, specie_index := 0, organism_index := 0 },
        { fitness_valid_ptr := 0, specie_index := 0, organism_index := 1 }] ∧
    (GenerateNetworks id 9 engineTwoNext).map (fun r => r.map (fun t => t.2.1)) =
      some [{ fitness_valid_ptr := 1, specie_index := 0, organism_index := 0 },
        { fitness_valid_ptr := 1, specie_index := 0, organism_index := 1 }] ∧
    ((∀ f, SetFitness engineTwoNext
        (((GenerateNetworks id 9 engineTwo).getD []).getD 1
          (netB, { fitness_valid_ptr := 7, specie_index := 0, organism_index := 0 }, 0)).2.1 f =
        (false, engineTwoNext)) ∧
      ∀ (it2 : List Int → List Int) (fuel2 : Nat)
        (r2 : List (Network × FitnessInterface × Int)) (t2 : Network × FitnessInterface × Int),
        GenerateNetworks it2 fuel2 engineTwoNext = some r2 → t2 ∈ r2 → ∀ f : ℚ, 0 ≤ f →
          (SetFitness engineTwoNext t2.2.1 f).1 = true ∧
          (SetFitness engineTwoNext t2.2.1 f).2.fitnessAt t2.2.1.specie_index
            t2.2.1.organism_index = some f) :=
  ⟨by with_unfolding_all decide, by with_unfolding_all decide,
    SetFitness_after_update 1 1 engineTwo engineTwoSet engineTwoNext engineTwo_live id 9
      ((GenerateNetworks id 9 engineTwo).getD []) (by with_unfolding_all decide)
      (((GenerateNetworks id 9 engineTwo).getD []).getD 1
        (netB, { fitness_valid_ptr := 7, specie_index := 0, organism_index := 0 }, 0))
      (by with_unfolding_all decide) engineTwoSet_steps id (fun _ => List.Perm.refl _) id
      (fun _ => List.Perm.refl _) 9 (fun _ _ => plainDraws) (by with_unfolding_all decide)⟩

/-! ## C22: the size of the next generation -/

theorem offspring_sum_zero (p : Int) (S : Nat) (fs : List ℚ) :
    (fs.map (fun f => (numOffspringOf p S f 0).toNat)).sum = fs.length * (p / (S : Int)).toNat := by
  have : (fun f : ℚ => (numOffspringOf p S f 0).toNat) = fun _ => (p / (S : Int)).toNat := by
    funext f
    unfold numOffspringOf
    rw [if_pos rfl]
  rw [this]
  simp

theorem floatSum_nonneg : ∀ (l : List ℚ) (acc : ℚ), 0 ≤ acc → (∀ f ∈ l, 0 ≤ f) →
    0 ≤ floatSum l acc := by
  intro l
  induction l with
  | nil =>
    intro acc h0 _
    exact h0
  | cons f rest ih =>
    intro acc h0 hl
    rw [floatSum_cons]
    exact ih _ (roundFloat_nonneg _ (add_nonneg h0 (hl f (List.mem_cons_self _ _))))
      (fun g hg => hl g (List.mem_cons_of_mem _ hg))

theorem specieFitness_nonneg (s : Specie) (h : ∀ o ∈ s.organisms, 0 ≤ o.fitness) :
    0 ≤ specieFitness s := by
  unfold specieFitness
  apply roundFloat_nonneg
  apply div_nonneg
  · apply floatSum_nonneg _ _ (le_refl _)
    intro x hx
    simp only [List.mem_map] at hx
    obtain ⟨o, ho, hxo⟩ := hx
    rw [← hxo]
    exact h o ho
  · exact roundFloat_nonneg _ (Nat.cast_nonneg _)

theorem Engine.Live.setAll {input_size output_size : Int} (f : ℚ) :
    ∀ (hs : List FitnessInterface) (e : Engine), Engine.Live input_size output_size e →
      Engine.Live input_size output_size (hs.foldl (fun e h => (SetFitness e h f).2) e) := by
  intro hs
  induction hs with
  | nil =>
    intro e h
    exact h
  | cons h rest ih =>
    intro e he
    exact ih _ (Engine.Live.setFitness h f he)

theorem engineFourSet_live : Engine.Live 2 1 engineFourSet :=
  Engine.Live.setAll 1 handlesFour engineFour
    (Engine.Live.create 6 paramsApart (fun k => (k % 3, 0, 1)) engineFour (by decide)
      (by decide) (by decide) (by with_unfolding_all decide))

/-- C22 as stated fails: the engine state `NEAT(2, 1, 6)` with `c1_c2 = 2`
has four species; with every fitness set to `1` every specie has the fitness `1` and
gets `int(6 * (1/4) + 0.5) = 2` offspring, so after `UpdateGeneration` the
engine has `8` organisms for `pop_size = 6`. -/
theorem UpdateGeneration_population_off_by_two :
    Engine.Live 2 1 engineFourSet ∧
    engineFourSet.species.map (fun s => s.organisms.map (fun o => o.fitness)) =
      [[1], [1, 1], [1, 1], [1]] ∧
    engineFourSet.pop_size = 6 ∧
    (UpdateGeneration id id 9 (fun _ _ => plainDraws) engineFourSet).map
      (fun r => (r.1, r.2.numOrganisms)) = some (true, 8) := by
  refine ⟨engineFourSet_live, by with_unfolding_all decide, by with_unfolding_all decide,
    by with_unfolding_all decide⟩

/-! ## C28: `SaveMap` and `LoadMap` -/

theorem klt_pair_irrefl (a : Int × Int) : KeyOrd.klt a a = false := by
  simp [KeyOrd.klt]

theorem klt_pair_asymm (a b : Int × Int) (h : KeyOrd.klt a b = true) :
    KeyOrd.klt b a = false := by
  simp only [KeyOrd.klt, Bool.or_eq_true, decide_eq_true_eq, Bool.and_eq_true] at h
  simp only [KeyOrd.klt, Bool.or_eq_false_iff, decide_eq_false_iff_not, Bool.and_eq_false_imp,
    decide_eq_true_eq]
  rcases h with h | ⟨h1, h2⟩
  · exact ⟨by omega, fun h3 => by omega⟩
  · exact ⟨by omega, fun _ => by omega⟩

theorem SMap.set_last (m : SMap (Int × Int) ℚ) (k : Int × Int) (w : ℚ)
    (h : ∀ k1 ∈ SMap.keys m, KeyOrd.klt k1 k = true) : SMap.set m k w = m ++ [(k, w)] := by
  induction m with
  | nil => rfl
  | cons hd tl ih =>
    obtain ⟨k1, v1⟩ := hd
    have h1 : KeyOrd.klt k1 k = true := h k1 (by simp [SMap.keys])
    have hne : k1 ≠ k := by
      intro heq
      rw [heq, klt_pair_irrefl] at h1
      cases h1
    have h2 : KeyOrd.klt k k1 = false := klt_pair_asymm k1 k h1
    have htl : ∀ k2 ∈ SMap.keys tl, KeyOrd.klt k2 k = true := by
      intro k2 hk2
      exact h k2 (by simp only [SMap.keys, List.map_cons, List.mem_cons]; exact Or.inr hk2)
    simp only [SMap.set, hne, if_false, h2, Bool.false_eq_true, List.cons_append]
    rw [ih htl]

theorem loadEntries_saved (rest : List Cell) :
    ∀ (m acc : SMap (Int × Int) ℚ), SMap.Ascending (acc ++ m) →
      loadEntries m.length acc ((m.map saveEntry).flatten ++ rest) = some (acc ++ m, rest) := by
  intro m
  induction m with
  | nil =>
    intro acc _
    simp [loadEntries]
  | cons e tl ih =>
    intro acc h
    obtain ⟨⟨a, b⟩, w⟩ := e
    have hlast : SMap.set acc (a, b) w = acc ++ [((a, b), w)] := by
      apply SMap.set_last
      intro k1 hk1
      unfold SMap.Ascending at h
      simp only [SMap.keys, List.map_append, List.map_cons] at h
      rw [List.pairwise_append] at h
      exact h.2.2 k1 hk1 (a, b) (List.mem_cons_self _ _)
    have h2 : SMap.Ascending ((acc ++ [((a, b), w)]) ++ tl) := by
      rw [List.append_assoc]
      exact h
    have := ih (acc ++ [((a, b), w)]) h2
    simp only [List.length_cons, List.map_cons, List.flatten_cons, saveEntry, List.cons_append,
      List.nil_append, loadEntries, readInt, readFloat]
    rw [hlast, this, List.append_assoc]
    rfl

/-- `LoadMap` with reset reads back what `SaveMap` wrote, and leaves the rest
of the file. -/
theorem LoadMap_saved (m inMap : SMap (Int × Int) ℚ) (rest : List Cell)
    (h : SMap.Ascending m) : LoadMap inMap (SaveMap m ++ rest) true = some (m, rest) := by
  unfold LoadMap SaveMap
  simp only [if_true, List.cons_append, readInt, Int.toNat_ofNat]
  have := loadEntries_saved rest m [] (by simpa using h)
  simpa using this

/-- C28: for every edge map `m` (a `std::map`, so with strictly ascending
keys), `SaveMap` writes the entry count and then the triple `(from, to,
weight)` of every entry in the order of the keys, `3 * size + 1` values in
all; `LoadMap` with reset, applied to these values followed by any further
content `rest` of the file, returns `m` for every previous content `inMap`
and leaves `rest`; and the four maps of a genome written one after the other
are read back equal to the originals. -/
theorem LoadMap_SaveMap (m : SMap (Int × Int) ℚ) (h : SMap.Ascending m) :
    SaveMap m = Cell.int (m.length : Int) ::
      (m.map (fun e => [Cell.int e.1.1, Cell.int e.1.2, Cell.float e.2])).flatten ∧
    (SaveMap m).length = 3 * m.length + 1 ∧
    (∀ (inMap : SMap (Int × Int) ℚ) (rest : List Cell),
      LoadMap inMap (SaveMap m ++ rest) true = some (m, rest)) ∧
    ∀ (g g0 : Genome) (rest : List Cell),
      g.forward_edges = m → SMap.Ascending g.recurrent_edges →
      SMap.Ascending g.disabled_forward_edges → SMap.Ascending g.disabled_recurrent_edges →
      loadFourMaps g0 (saveFourMaps g ++ rest) =
        some ({ g0 with
          forward_edges := g.forward_edges
          recurrent_edges := g.recurrent_edges
          disabled_forward_edges := g.disabled_forward_edges
          disabled_recurrent_edges := g.disabled_recurrent_edges }, rest) := by
  refine ⟨rfl, ?_, fun inMap rest => LoadMap_saved m inMap rest h, ?_⟩
  · unfold SaveMap
    simp only [List.length_cons, List.length_flatten, List.map_map]
    have : (List.map (List.length ∘ saveEntry) m) = m.map (fun _ => 3) := by
      apply List.map_congr_left
      intro e _
      rfl
    rw [this]
    simp
    ring
  · intro g g0 rest hm h2 h3 h4
    unfold loadFourMaps saveFourMaps
    rw [List.append_assoc, List.append_assoc, List.append_assoc,
      LoadMap_saved g.forward_edges _ _ (by rw [hm]; exact h)]
    simp only
    rw [LoadMap_saved g.recurrent_edges _ _ h2]
    simp only
    rw [LoadMap_saved g.disabled_forward_edges _ _ h3]
    simp only
    rw [LoadMap_saved g.disabled_recurrent_edges _ _ h4]

/-- C28, witness: the forward edges `(0,3)`, `(3,2)` of `genomeB` and its
other maps. -/
theorem LoadMap_SaveMap_witness :
    SaveMap genomeB.forward_edges =
      [Cell.int 2, Cell.int 0, Cell.int 3, Cell.float 1, Cell.int 3, Cell.int 2,
        Cell.float 5] ∧
    (SaveMap genomeB.forward_edges = Cell.int (genomeB.forward_edges.length : Int) ::
      (genomeB.forward_edges.map
        (fun e => [Cell.int e.1.1, Cell.int e.1.2, Cell.float e.2])).flatten ∧
    (SaveMap genomeB.forward_edges).length = 3 * genomeB.forward_edges.length + 1 ∧
    (∀ (inMap : SMap (Int × Int) ℚ) (rest : List Cell),
      LoadMap inMap (SaveMap genomeB.forward_edges ++ rest) true =
        some (genomeB.forward_edges, rest)) ∧
    ∀ (g g0 : Genome) (rest : List Cell),
      g.forward_edges = genomeB.forward_edges → SMap.Ascending g.recurrent_edges →
      SMap.Ascending g.disabled_forward_edges → SMap.Ascending g.disabled_recurrent_edges →
      loadFourMaps g0 (saveFourMaps g ++ rest) =
        some ({ g0 with
          forward_edges := g.forward_edges
          recurrent_edges := g.recurrent_edges
          disabled_forward_edges := g.disabled_forward_edges
          disabled_recurrent_edges := g.disabled_recurrent_edges }, rest)) ∧
    loadFourMaps (Genome.new 2 1) (saveFourMaps genomeB4) = some (genomeB4, []) :=
  ⟨by decide,
    LoadMap_SaveMap genomeB.forward_edges
      (show ([(0, 3), (3, 2)] : List (Int × Int)).Pairwise
        (fun a b => KeyOrd.klt a b = true) from by decide),
    by with_unfolding_all decide⟩

/-! ## Saving and loading a compiled network -/

theorem netFull_eq : netFull =
    { num_input_nodes := 2, num_output_nodes := 1,
      input_info := [⟨0, 1⟩, ⟨1, 1⟩, ⟨2, 1⟩], output_indices := [2],
      run_info := [⟨0, 0⟩, ⟨1, 0⟩, ⟨0, 3⟩],
      visual_info := [⟨0, 0, 0, false⟩, ⟨1, 0, 1, false⟩, ⟨2, 1, 0, true⟩],
      layer_sizes := [2, 1],
      adjacency_list := [(0, [2]), (1, [2]), (2, [])],
      adjacency_list_recurrent_rev := [(0, []), (1, []), (2, [2])] } := by
  with_unfolding_all decide

theorem netFull_second_run (act : ℚ → ℚ) :
    (Run act (Run act netFull [1] [0]).2.1 [1] [0]).2.2 = [act (2 + act 2)] ∧
    (Run act (ResetRecurrentConnections (Run act netFull [1] [0]).2.1) [1] [0]).2.2 = [act 2] := by
  rw [netFull_eq]
  constructor
  · simp [Run, Network.IsInvalid, runInfoAfter, copyInputs, setOutputVal, runNodes, blockSum,
      readOutputs, List.modify, List.range, List.range.loop]
    norm_num
  · simp [Run, Network.IsInvalid, runInfoAfter, copyInputs, setOutputVal, runNodes, blockSum,
      readOutputs, List.modify, List.range, List.range.loop, ResetRecurrentConnections]
    norm_num

theorem readForward_error (ni no : Int) (edges : List ((Int × Int) × ℚ))
    (h : ∃ k ∈ SMap.keys edges, IsOutputNode ni no k.1 = true ∧ IsOutputNode ni no k.2 = false)
    (adj0 rev0 : SMap Int (List Int)) :
    ∃ adj, readForward ni no edges adj0 rev0 = .error adj := by
  induction edges generalizing adj0 rev0 with
  | nil =>
    obtain ⟨k, hk, _⟩ := h
    cases hk
  | cons e rest ih =>
    obtain ⟨⟨fromNode, toNode⟩, w⟩ := e
    unfold readForward
    by_cases hc : (IsOutputNode ni no fromNode && !IsOutputNode ni no toNode) = true
    · rw [if_pos hc]
      exact ⟨adj0, rfl⟩
    · rw [if_neg hc]
      apply ih
      obtain ⟨k, hk, h1, h2⟩ := h
      have hk2 : k = (fromNode, toNode) ∨ k ∈ SMap.keys rest := by
        simpa [SMap.keys] using hk
      rcases hk2 with rfl | hk2
      · exact absurd (by simp [h1, h2]) hc
      · exact ⟨k, hk2, h1, h2⟩

theorem Network.build_output_source (it : List Int → List Int) (fuel : Nat) (ni no : Int)
    (fe re : SMap (Int × Int) ℚ)
    (h : ∃ k ∈ SMap.keys fe, IsOutputNode ni no k.1 = true ∧ IsOutputNode ni no k.2 = false) :
    ∃ adj, Network.build it fuel ni no fe re = some (Network.bare ni no adj) := by
  obtain ⟨adj, ha⟩ := readForward_error ni no fe h (initAdjacency (ni + no))
    (initAdjacency (ni + no))
  refine ⟨adj, ?_⟩
  unfold Network.build
  simp only [ha]

theorem Run_bare (act : ℚ → ℚ) (ni no : Int) (adj : SMap Int (List Int)) (hni : 2 ≤ ni)
    (hno : 1 ≤ no) (inp out : List ℚ) (h2 : (inp.length : Int) = ni - 1)
    (h3 : (out.length : Int) = no) :
    (Network.bare ni no adj).IsInvalid = false ∧
    (Network.bare ni no adj).run_info = [] ∧
    (Run act (Network.bare ni no adj) inp out).1 = true := by
  have hv : (Network.bare ni no adj).IsInvalid = false := by
    unfold Network.IsInvalid Network.bare
    simp only [Bool.or_eq_false_iff, decide_eq_false_iff_not, not_lt]
    exact ⟨hni, hno⟩
  refine ⟨hv, rfl, ?_⟩
  rw [Run_of_checks act _ inp out hv h2 h3]

/-- C30 (what the code does): the genome with two sensors, the output `2` and
the single forward edge `(2,3)` from the output to a hidden node. For every
iteration order and fuel the constructor returns at the edge check and leaves
the object with `num_input_nodes = 2`, `num_output_nodes = 1` and every vector
empty; `IsInvalid` is false on it, and `Run` with one input value and one
output slot passes its three checks and returns `true`, its loops indexing
the empty `run_info`. -/
theorem GenerateNetwork_output_source_not_invalid :
    genomeOutToHidden.num_input_nodes = 2 ∧ genomeOutToHidden.num_output_nodes = 1 ∧
    ((2 : Int), (3 : Int)) ∈ SMap.keys genomeOutToHidden.forward_edges ∧
    IsOutputNode 2 1 2 = true ∧ IsOutputNode 2 1 3 = false ∧
    (∀ (it : List Int → List Int) (fuel : Nat),
      GenerateNetwork it fuel genomeOutToHidden = some (Network.bare 2 1 (initAdjacency 3))) ∧
    (Network.bare 2 1 (initAdjacency 3)).IsInvalid = false ∧
    (Network.bare 2 1 (initAdjacency 3)).run_info = [] ∧
    (Run halve (Network.bare 2 1 (initAdjacency 3)) [5] [7]).1 = true := by
  refine ⟨rfl, rfl, by decide, by decide, by decide, fun _ _ => rfl, by decide, rfl, ?_⟩
  exact (Run_bare halve 2 1 _ (by decide) (by decide) [5] [7] (by decide) (by decide)).2.2

/-! ## The conversion of a `float` to `int` -/

theorem truncate_of_nonneg (x : ℚ) (h : 0 ≤ x) : truncate x = ⌊x⌋ := by
  unfold truncate
  rw [if_pos h]

/-! ## The states of the offspring loops -/

theorem BreedSteps.trans {it : List Int → List Int} {fuel : Nat}
    {a b c : List Specie × Engine} (h1 : BreedSteps it fuel a b) (h2 : BreedSteps it fuel b c) :
    BreedSteps it fuel a c := by
  induction h2 with
  | refl => exact h1
  | add child st1 _ h ih => exact BreedSteps.add child st1 ih h
  | mutate child d c1 e1 _ h ih => exact BreedSteps.mutate child d c1 e1 ih h

theorem offspringLoop_steps (it : List Int → List Int) (fuel : Nat) (specie : Specie)
    (top : Int) (draws : Nat → OffspringDraws) :
    ∀ (count oc : Nat) (st st1 : List Specie × Engine),
      offspringLoop it fuel specie top draws count oc st = some st1 →
      BreedSteps it fuel st st1 := by
  intro count
  induction count with
  | zero =>
    intro oc st st1 h
    simp only [offspringLoop, Option.some.injEq] at h
    rw [← h]
    exact BreedSteps.refl
  | succ n ih =>
    intro oc st st1 h
    unfold offspringLoop at h
    simp only at h
    cases hch : crossoverChild specie
        (parentIndices (rand_int top (draws oc).parent1) (rand_int top (draws oc).parent2))
        (draws oc).cross with
    | none => simp [hch] at h
    | some child =>
      simp only [hch] at h
      cases hm : mutateChild it fuel st.2 child (draws oc) with
      | none => simp [hm] at h
      | some r =>
        obtain ⟨c1, e1⟩ := r
        simp only [hm] at h
        cases ha : AddGenome e1 st.1 c1 with
        | none => simp [ha] at h
        | some st2 =>
          simp only [ha] at h
          have s1 : BreedSteps it fuel st (st.1, e1) :=
            BreedSteps.mutate child (draws oc) c1 e1 BreedSteps.refl hm
          have s2 : BreedSteps it fuel st st2 := BreedSteps.add c1 st2 s1 ha
          exact s2.trans (ih (oc + 1) st2 st1 h)

theorem specieOffspring_steps (it : List Int → List Int) (fuel : Nat) (specie : Specie)
    (f sum : ℚ) (draws : Nat → OffspringDraws) (st st1 : List Specie × Engine)
    (h : specieOffspring it fuel specie f sum draws st = some st1) :
    BreedSteps it fuel st st1 := by
  unfold specieOffspring at h
  simp only at h
  split at h
  · simp only [Option.some.injEq] at h
    rw [← h]
    exact BreedSteps.refl
  · split at h
    · cases hh : specie.organisms.head? with
      | none => simp [hh] at h
      | some champion =>
        simp only [hh] at h
        cases ha : AddGenome st.2 st.1 champion.genome with
        | none => simp [ha] at h
        | some st2 =>
          simp only [ha] at h
          exact (BreedSteps.add champion.genome st2 BreedSteps.refl ha).trans
            (offspringLoop_steps it fuel specie _ draws _ 0 st2 st1 h)
    · exact offspringLoop_steps it fuel specie _ draws _ 0 st st1 h

theorem speciesLoop_steps (it : List Int → List Int) (fuel : Nat) (sum : ℚ)
    (draws : Nat → Nat → OffspringDraws) :
    ∀ (L : List (Specie × ℚ)) (i : Nat) (st st1 : List Specie × Engine),
      speciesLoop it fuel sum draws i L st = some st1 → BreedSteps it fuel st st1 := by
  intro L
  induction L with
  | nil =>
    intro i st st1 h
    simp only [speciesLoop, Option.some.injEq] at h
    rw [← h]
    exact BreedSteps.refl
  | cons x rest ih =>
    intro i st st1 h
    obtain ⟨specie, f⟩ := x
    unfold speciesLoop at h
    cases hs : specieOffspring it fuel specie f sum (draws i) st with
    | none => simp [hs] at h
    | some st2 =>
      simp only [hs] at h
      exact (specieOffspring_steps it fuel specie f sum (draws i) st st2 hs).trans
        (ih (i + 1) st2 st1 h)

theorem speciesLoop_append (it : List Int → List Int) (fuel : Nat) (sum : ℚ)
    (draws : Nat → Nat → OffspringDraws) :
    ∀ (L1 L2 : List (Specie × ℚ)) (i : Nat) (st : List Specie × Engine),
      speciesLoop it fuel sum draws i (L1 ++ L2) st =
        (speciesLoop it fuel sum draws i L1 st).bind
          (speciesLoop it fuel sum draws (i + L1.length) L2) := by
  intro L1
  induction L1 with
  | nil =>
    intro L2 i st
    simp [speciesLoop]
  | cons x rest ih =>
    intro L2 i st
    obtain ⟨specie, f⟩ := x
    simp only [List.cons_append, speciesLoop, List.length_cons]
    cases hs : specieOffspring it fuel specie f sum (draws i) st with
    | none => simp
    | some st2 =>
      simp only [Option.some_bind]
      have hi := ih L2 (i + 1) st2
      have : i + 1 + rest.length = i + (rest.length + 1) := by omega
      rw [this] at hi
      exact hi

theorem mutateChild_frame (it : List Int → List Int) (fuel : Nat) (e : Engine)
    (child : Genome) (d : OffspringDraws) (c1 : Genome) (e1 : Engine)
    (h : mutateChild it fuel e child d = some (c1, e1)) :
    ∃ reg, e1 = { e with registry := reg } := by
  unfold mutateChild at h
  split at h
  · simp only [Option.some.injEq, Prod.mk.injEq] at h
    exact ⟨_, h.2.symm⟩
  · split at h
    · cases hnet : GenerateNetwork it fuel child with
      | none => simp [hnet] at h
      | some net =>
        simp only [hnet] at h
        cases hadd : AddEdgeMutation it child net 2 3 d.edge d.edge_z with
        | none => simp [hadd] at h
        | some r =>
          simp only [hadd, Option.some.injEq, Prod.mk.injEq] at h
          exact ⟨e.registry, h.2.symm⟩
    · split at h
      · simp only [Option.some.injEq, Prod.mk.injEq] at h
        exact ⟨e.registry, h.2.symm⟩
      · simp only [Option.some.injEq, Prod.mk.injEq] at h
        exact ⟨e.registry, h.2.symm⟩

theorem AddGenome_cases (e : Engine) (newSpecies : List Specie) (child : Genome)
    (st1 : List Specie × Engine) (h : AddGenome e newSpecies child = some st1) :
    (∃ j, findSpecie e (fun j => if j < e.species.length then representativeOf e.species j
          else representativeOf newSpecies j) child newSpecies.length 0 = some (some j) ∧
        st1 = (placeInto newSpecies j child, e)) ∨
    (findSpecie e (fun j => if j < e.species.length then representativeOf e.species j
          else representativeOf newSpecies j) child newSpecies.length 0 = some none ∧
        st1 = (foundSpecie newSpecies e.species_ctr child,
          { e with species_ctr := e.species_ctr + 1 })) := by
  unfold AddGenome at h
  simp only at h
  cases hf : findSpecie e (fun j => if j < e.species.length then representativeOf e.species j
      else representativeOf newSpecies j) child newSpecies.length 0 with
  | none =>
    rw [hf] at h
    cases h
  | some x =>
    rw [hf] at h
    cases x with
    | some j =>
      simp only [Option.some.injEq] at h
      exact Or.inl ⟨j, rfl, h.symm⟩
    | none =>
      simp only [Option.some.injEq] at h
      exact Or.inr ⟨rfl, h.symm⟩

theorem map_id_placeInto (species : List Specie) (j : Nat) (g : Genome) :
    (placeInto species j g).map (fun s => s.specie_id) = species.map (fun s => s.specie_id) := by
  apply List.ext_getElem?
  intro i
  simp only [List.getElem?_map, placeInto, List.getElem?_modify]
  cases species[i]? with
  | none => simp
  | some s =>
    by_cases hji : j = i
    · simp [hji]
    · simp [hji]

theorem PlaceInv.at_start (e0 : Engine) : PlaceInv e0 (emptiedSpecies e0.species, e0) :=
  { frame := rfl
    lenLe := by simp [emptiedSpecies]
    oldIds := by
      show ((emptiedSpecies e0.species).take e0.species.length).map _ = _
      rw [List.take_of_length_le (by simp [emptiedSpecies])]
      simp [emptiedSpecies, Function.comp_def]
    newNonempty := by
      intro j s hj hs
      have hs2 : (emptiedSpecies e0.species)[j]? = some s := hs
      rw [List.getElem?_eq_none (by simp [emptiedSpecies]; exact hj)] at hs2
      cases hs2
    newIds := by
      intro j s hj hs
      have hs2 : (emptiedSpecies e0.species)[j]? = some s := hs
      rw [List.getElem?_eq_none (by simp [emptiedSpecies]; exact hj)] at hs2
      cases hs2
    ctr := le_refl _
    unset := by
      intro s hs o ho
      have hs2 : s ∈ emptiedSpecies e0.species := hs
      simp only [emptiedSpecies, List.mem_map] at hs2
      obtain ⟨s0, _, rfl⟩ := hs2
      cases ho }

theorem PlaceInv.add {e0 : Engine} {st st1 : List Specie × Engine} (I : PlaceInv e0 st)
    (child : Genome) (h : AddGenome st.2 st.1 child = some st1) : PlaceInv e0 st1 := by
  rcases AddGenome_cases _ _ _ _ h with ⟨j, hf, rfl⟩ | ⟨hf, rfl⟩
  · refine ⟨I.frame, ?_, ?_, ?_, ?_, I.ctr, ?_⟩
    · show e0.species.length ≤ (placeInto st.1 j child).length
      rw [length_placeInto]
      exact I.lenLe
    · show ((placeInto st.1 j child).take _).map _ = _
      rw [List.map_take, map_id_placeInto, ← List.map_take]
      exact I.oldIds
    · intro i s1 hi hs1
      obtain ⟨s, hs, heq⟩ := getElem?_placeInto _ _ _ _ _ hs1
      rw [heq]
      split
      · simp
      · exact I.newNonempty i s hi hs
    · intro i s1 hi hs1
      obtain ⟨s, hs, heq⟩ := getElem?_placeInto _ _ _ _ _ hs1
      have hid : s1.specie_id = s.specie_id := by
        rw [heq]
        split <;> rfl
      rw [hid]
      exact I.newIds i s hi hs
    · intro s1 hs1 o ho
      obtain ⟨s, hs, heq⟩ := mem_placeInto _ _ _ _ hs1
      rcases heq with heq | heq
      · rw [heq] at ho
        exact I.unset s hs o ho
      · rw [heq] at ho
        simp only [List.mem_append, List.mem_singleton] at ho
        rcases ho with ho | ho
        · exact I.unset s hs o ho
        · rw [ho]
          rfl
  · refine ⟨I.frame, ?_, ?_, ?_, ?_, ?_, ?_⟩
    · show e0.species.length ≤ (foundSpecie st.1 st.2.species_ctr child).length
      simp only [foundSpecie, List.length_append, List.length_singleton]
      have := I.lenLe
      omega
    · show ((foundSpecie st.1 st.2.species_ctr child).take _).map _ = _
      unfold foundSpecie
      rw [List.take_append_of_le_length I.lenLe]
      exact I.oldIds
    · intro i s1 hi hs1
      rcases getElem?_snoc _ _ _ _ hs1 with ⟨_, hold⟩ | ⟨_, hnew⟩
      · exact I.newNonempty i s1 hi hold
      · rw [hnew]
        simp
    · intro i s1 hi hs1
      show e0.species_ctr < s1.specie_id ∧ s1.specie_id ≤ st.2.species_ctr + 1
      rcases getElem?_snoc _ _ _ _ hs1 with ⟨_, hold⟩ | ⟨_, hnew⟩
      · have := I.newIds i s1 hi hold
        omega
      · rw [hnew]
        have := I.ctr
        simp only
        omega
    · show e0.species_ctr ≤ st.2.species_ctr + 1
      have := I.ctr
      omega
    · intro s1 hs1 o ho
      have hs2 : s1 ∈ foundSpecie st.1 st.2.species_ctr child := hs1
      simp only [foundSpecie, List.mem_append, List.mem_singleton] at hs2
      rcases hs2 with hs2 | hs2
      · exact I.unset s1 hs2 o ho
      · rw [hs2] at ho
        simp only [List.mem_singleton] at ho
        rw [ho]
        rfl

theorem PlaceInv.of_mutate {e0 : Engine} {st : List Specie × Engine} (I : PlaceInv e0 st)
    (it : List Int → List Int) (fuel : Nat) (child : Genome) (d : OffspringDraws)
    (c1 : Genome) (e1 : Engine) (h : mutateChild it fuel st.2 child d = some (c1, e1)) :
    PlaceInv e0 (st.1, e1) := by
  obtain ⟨reg, rfl⟩ := mutateChild_frame it fuel st.2 child d c1 e1 h
  exact ⟨I.frame, I.lenLe, I.oldIds, I.newNonempty, I.newIds, I.ctr, I.unset⟩

theorem PlaceInv.of_steps {e0 : Engine} {it : List Int → List Int} {fuel : Nat}
    {st st1 : List Specie × Engine} (I : PlaceInv e0 st) (h : BreedSteps it fuel st st1) :
    PlaceInv e0 st1 := by
  induction h with
  | refl => exact I
  | add child st1 _ h ih => exact ih.add child h
  | mutate child d c1 e1 _ h ih => exact ih.of_mutate it fuel child d c1 e1 h

theorem Engine.create_seeded (input_size output_size pop_size_in : Int) (p : Params)
    (draws : Nat → Nat × Nat × ℚ) (hi : 0 < input_size) (ho : 0 < output_size)
    (hp : 0 < pop_size_in) :
    Engine.create input_size output_size pop_size_in p draws =
      seedLoop (input_size + 1) output_size draws (pop_size_in - 1).toNat 1
        (Engine.seedStart input_size output_size pop_size_in p) ∧
    ∃ e, Engine.create input_size output_size pop_size_in p draws = some e ∧
      SeedInv (input_size + 1) output_size
        (Engine.seedStart input_size output_size pop_size_in p) e
        (1 + (pop_size_in - 1).toNat) := by
  have h1 : ¬ input_size ≤ 0 := by omega
  have h2 : ¬ output_size ≤ 0 := by omega
  have h3 : ¬ pop_size_in ≤ 0 := by omega
  have hcreate : Engine.create input_size output_size pop_size_in p draws =
      seedLoop (input_size + 1) output_size draws (pop_size_in - 1).toNat 1
        (Engine.seedStart input_size output_size pop_size_in p) := by
    unfold Engine.create
    simp only [h1, h2, h3, if_false]
    rfl
  obtain ⟨e, hloop, I⟩ := SeedInv.loop draws (pop_size_in - 1).toNat 1 1 _
    (SeedInv.initial input_size output_size pop_size_in p)
  exact ⟨hcreate, e, by rw [hcreate]; exact hloop, I⟩

/-! ## A successful `UpdateGeneration` as a run of the offspring loops -/

theorem emptiedSpecies_sort (srt : List Organism → List Organism) (e : Engine) :
    emptiedSpecies (e.sortSpecies srt).species = emptiedSpecies e.species := by
  simp [emptiedSpecies, Engine.sortSpecies, Function.comp_def]

theorem length_sortSpecies (srt : List Organism → List Organism) (e : Engine) :
    (e.sortSpecies srt).species.length = e.species.length := by
  simp [Engine.sortSpecies]

theorem UpdateGeneration_steps (it : List Int → List Int) (srt : List Organism → List Organism)
    (fuel : Nat) (draws : Nat → Nat → OffspringDraws) (e e1 : Engine)
    (h : UpdateGeneration it srt fuel draws e = some (true, e1)) :
    ¬ e.hasUnset ∧
    ∃ st, speciesLoop it fuel e.fitnessSum draws 0
        ((e.sortSpecies srt).species.zip (e.species.map specieFitness))
        (emptiedSpecies e.species, e.sortSpecies srt) = some st ∧
      BreedSteps it fuel (emptiedSpecies e.species, e.sortSpecies srt) st ∧
      PlaceInv (e.sortSpecies srt) st ∧ e1 = turnover st := by
  have hres := UpdateGeneration_result it srt fuel draws e _ h
  have hset : ¬ e.hasUnset := by
    intro hu
    have := hres.1.mpr hu
    cases this
  refine ⟨hset, ?_⟩
  rw [UpdateGeneration_eq it srt fuel draws e hset] at h
  split at h
  · cases h
  · cases hl : speciesLoop it fuel e.fitnessSum draws 0
        ((e.sortSpecies srt).species.zip (e.species.map specieFitness))
        (emptiedSpecies e.species, e.sortSpecies srt) with
    | none =>
      rw [hl] at h
      cases h
    | some st =>
      rw [hl] at h
      simp only [Option.map_some', Option.some.injEq, Prod.mk.injEq, true_and] at h
      have hs := speciesLoop_steps it fuel e.fitnessSum draws _ 0 _ st hl
      have I0 := PlaceInv.at_start (e.sortSpecies srt)
      rw [emptiedSpecies_sort] at I0
      exact ⟨st, rfl, hs, I0.of_steps hs, h.symm⟩

theorem mem_turnover (st : List Specie × Engine) (s : Specie) :
    s ∈ (turnover st).species ↔ s ∈ st.1 ∧ s.organisms ≠ [] := by
  show s ∈ st.1.filter (fun s => decide (0 < s.organisms.length)) ↔ _
  rw [List.mem_filter]
  simp only [decide_eq_true_eq, List.length_pos]

theorem engineTwoSet_update :
    UpdateGeneration id id 9 (fun _ _ => plainDraws) engineTwoSet =
      some (true, engineTwoNext) := by
  with_unfolding_all decide

/-! ## C37: the member `generation_id` -/

theorem placeChild_generation_id (e e1 : Engine) (child : Genome)
    (h : placeChild e child = some e1) : e1.generation_id = e.generation_id := by
  unfold placeChild at h
  cases hf : findSpecie e (representativeOf e.species) child e.species.length 0 with
  | none => simp [hf] at h
  | some x =>
    cases x with
    | none =>
      simp only [hf, Option.some.injEq] at h
      rw [← h]
    | some j =>
      simp only [hf, Option.some.injEq] at h
      rw [← h]

theorem seedLoop_generation_id (ni no : Int) (draws : Nat → Nat × Nat × ℚ) :
    ∀ (count oc : Nat) (e e1 : Engine), seedLoop ni no draws count oc e = some e1 →
      e1.generation_id = e.generation_id := by
  intro count
  induction count with
  | zero =>
    intro oc e e1 h
    simp only [seedLoop, Option.some.injEq] at h
    rw [h]
  | succ n ih =>
    intro oc e e1 h
    unfold seedLoop at h
    cases hs : seedOrganism ni no e (draws oc) with
    | none => simp [hs] at h
    | some e2 =>
      simp only [hs] at h
      rw [ih _ _ _ h, placeChild_generation_id e e2 _ hs]

theorem Engine.create_generation_id (input_size output_size pop_size_in : Int) (p : Params)
    (draws : Nat → Nat × Nat × ℚ) (e : Engine)
    (h : Engine.create input_size output_size pop_size_in p draws = some e) :
    e.generation_id = 0 := by
  unfold Engine.create at h
  simp only at h
  split at h
  · simp only [Option.some.injEq] at h
    rw [← h]
    rfl
  · split at h
    · simp only [Option.some.injEq] at h
      rw [← h]
      rfl
    · split at h
      · simp only [Option.some.injEq] at h
        rw [← h]
        rfl
      · rw [seedLoop_generation_id _ _ _ _ _ _ _ h]
        rfl

theorem UpdateGeneration_generation_id_eq (it : List Int → List Int)
    (srt : List Organism → List Organism) (fuel : Nat) (draws : Nat → Nat → OffspringDraws)
    (e : Engine) (r : Bool × Engine) (h : UpdateGeneration it srt fuel draws e = some r) :
    r.2.generation_id = e.generation_id := by
  obtain ⟨ok, e1⟩ := r
  cases ok
  · have := (UpdateGeneration_result it srt fuel draws e _ h).2 rfl
    simp only at this
    rw [this]
  · obtain ⟨_, st, _, _, I, he1⟩ := UpdateGeneration_steps it srt fuel draws e e1 h
    have hf := congrArg Engine.generation_id I.frame
    have hf2 : st.2.generation_id = (e.sortSpecies srt).generation_id := hf
    show e1.generation_id = e.generation_id
    rw [he1]
    show st.2.generation_id = e.generation_id
    rw [hf2]
    rfl

theorem Engine.Live.generation_id {input_size output_size : Int} {e : Engine}
    (h : Engine.Live input_size output_size e) : e.generation_id = 0 := by
  induction h with
  | create pop_size_in p draws e _ _ _ hc =>
    exact Engine.create_generation_id _ _ _ _ _ _ hc
  | setFitness h f _ ih =>
    rw [← ih]
    unfold SetFitness
    split
    · rfl
    · split
      · rfl
      · rfl
  | update it srt fuel draws r _ _ _ hupd ih =>
    rw [UpdateGeneration_generation_id_eq it srt fuel draws _ r hupd, ih]

/-- C37 (evaluation at the failing input): the engine `NEAT(1, 1, 2)` with
both fitnesses set to `1` has `generation_id = 0`; `UpdateGeneration` returns
`true` and the engine afterwards has `generation_id = 0`, not `1`. No call of
`UpdateGeneration` that returns, on any engine, changes `generation_id`, and
it is `0` in every engine state reached from the constructor. -/
theorem UpdateGeneration_generation_id_not_incremented :
    Engine.Live 1 1 engineTwoSet ∧
    engineTwoSet.generation_id = 0 ∧
    (UpdateGeneration id id 9 (fun _ _ => plainDraws) engineTwoSet).map
      (fun r => (r.1, r.2.generation_id)) = some (true, 0) ∧
    (∀ (it : List Int → List Int) (srt : List Organism → List Organism) (fuel : Nat)
      (draws : Nat → Nat → OffspringDraws) (e : Engine) (r : Bool × Engine),
      UpdateGeneration it srt fuel draws e = some r → r.2.generation_id = e.generation_id) ∧
    ∀ (input_size output_size : Int) (e : Engine),
      Engine.Live input_size output_size e → e.generation_id = 0 := by
  refine ⟨(engineTwo_live.steps engineTwoSet_steps).1, by with_unfolding_all decide, ?_,
    UpdateGeneration_generation_id_eq, fun _ _ _ h => h.generation_id⟩
  rw [engineTwoSet_update]
  with_unfolding_all decide
/-! ## C40: the fitness of the organisms of a new generation -/

theorem numOrganisms_pos (e : Engine) (h : 0 < e.numOrganisms) :
    ∃ s ∈ e.species, ∃ o, o ∈ s.organisms := by
  unfold Engine.numOrganisms at h
  by_contra hc
  push_neg at hc
  have : (e.species.map (fun s => s.organisms.length)).sum = 0 := by
    apply List.sum_eq_zero
    intro x hx
    rw [List.mem_map] at hx
    obtain ⟨s, hs, rfl⟩ := hx
    cases ho : s.organisms with
    | nil => rfl
    | cons o rest =>
      exact absurd (by rw [ho]; exact List.mem_cons_self _ _) (hc s hs o)
  omega

/-- C40: after a successful `UpdateGeneration`, on any engine and with any
random draws, every organism of the engine has the fitness `-1` of the member
initialiser, the copied champions included (every organism of the new
generation is constructed by `AddGenome`), and every specie holds an organism;
so when the engine holds an organism, the next `UpdateGeneration` without a
`SetFitness` in between returns `false` and leaves the engine as it is. -/
theorem UpdateGeneration_resets_fitness (it : List Int → List Int)
    (srt : List Organism → List Organism) (fuel : Nat) (draws : Nat → Nat → OffspringDraws)
    (e e1 : Engine) (h : UpdateGeneration it srt fuel draws e = some (true, e1)) :
    (∀ s ∈ e1.species, ∀ o ∈ s.organisms, o.fitness = -1) ∧
    (∀ s ∈ e1.species, s.organisms ≠ []) ∧
    (0 < e1.numOrganisms →
      ∀ (it2 : List Int → List Int) (srt2 : List Organism → List Organism) (fuel2 : Nat)
        (draws2 : Nat → Nat → OffspringDraws),
        UpdateGeneration it2 srt2 fuel2 draws2 e1 = some (false, e1)) := by
  obtain ⟨_, st, _, _, I, he1⟩ := UpdateGeneration_steps it srt fuel draws e e1 h
  have hunset : ∀ s ∈ e1.species, ∀ o ∈ s.organisms, o.fitness = -1 := by
    intro s hs o ho
    rw [he1, mem_turnover] at hs
    exact I.unset s hs.1 o ho
  refine ⟨hunset, ?_, ?_⟩
  · intro s hs
    rw [he1, mem_turnover] at hs
    exact hs.2
  · intro hpos it2 srt2 fuel2 draws2
    obtain ⟨s, hs, o, ho⟩ := numOrganisms_pos e1 hpos
    apply UpdateGeneration_unset
    refine ⟨s, hs, o, ho, ?_⟩
    rw [hunset s hs o ho]
    norm_num

theorem UpdateGeneration_resets_fitness_witness :
    UpdateGeneration id id 9 (fun _ _ => plainDraws) engineTwoSet = some (true, engineTwoNext) ∧
    engineTwoNext.species.map (fun s => s.organisms.map (fun o => o.fitness)) = [[-1, -1]] ∧
    (∀ s ∈ engineTwoNext.species, ∀ o ∈ s.organisms, o.fitness = -1) ∧
    UpdateGeneration id id 9 (fun _ _ => plainDraws) engineTwoNext =
      some (false, engineTwoNext) :=
  ⟨engineTwoSet_update, by with_unfolding_all decide,
    (UpdateGeneration_resets_fitness id id 9 (fun _ _ => plainDraws) engineTwoSet engineTwoNext
      engineTwoSet_update).1,
    (UpdateGeneration_resets_fitness id id 9 (fun _ _ => plainDraws) engineTwoSet engineTwoNext
      engineTwoSet_update).2.2 (by with_unfolding_all decide) id id 9 (fun _ _ => plainDraws)⟩

/-! ## C36: no specie without organisms -/

/-- C34 as stated fails: for the specie `specieCA` of `3` organisms and
`top_p_cutoff = 1/10` the product rounds to `0`; the specification gives
`max(1, 0) = 1` candidate, `UpdateGeneration` takes all `3` organisms: the
draw `2` selects the rank `2`, and the child is the genome of the last
organism. -/
theorem breedingPool_whole_specie :
    specieCA.organisms.length = 3 ∧ (0 : ℚ) < 1 / 10 ∧ (1 / 10 : ℚ) ≤ 1 ∧
    breedingPoolSpec 3 (1 / 10) = 1 ∧
    breedingPool 3 (1 / 10) = 3 ∧
    topOrganismsIndex specieCA.organisms.length (1 / 10) = 2 ∧
    rand_int (topOrganismsIndex specieCA.organisms.length (1 / 10)) 2 = 2 ∧
    (∀ cross : Nat → Nat,
      crossoverChild specieCA
        (parentIndices (rand_int (topOrganismsIndex specieCA.organisms.length (1 / 10)) 2)
          (rand_int (topOrganismsIndex specieCA.organisms.length (1 / 10)) 2)) cross =
        some genomeB) := by
  refine ⟨rfl, by norm_num, by norm_num, by with_unfolding_all decide,
    by with_unfolding_all decide, by with_unfolding_all decide, by with_unfolding_all decide,
    fun cross => ?_⟩
  have h : parentIndices (rand_int (topOrganismsIndex specieCA.organisms.length (1 / 10)) 2)
      (rand_int (topOrganismsIndex specieCA.organisms.length (1 / 10)) 2) = (2, 2) := by
    with_unfolding_all decide
  rw [h]
  rfl
/-! ## C32: the number of offspring of a specie -/

theorem fitnessSum_nonneg (e : Engine) (h : ¬ e.hasUnset) :
    0 ≤ e.fitnessSum ∧ ∀ s ∈ e.species, 0 ≤ specieFitness s := by
  have hs : ∀ s ∈ e.species, 0 ≤ specieFitness s := by
    intro s hs
    apply specieFitness_nonneg
    intro o ho
    by_contra hneg
    exact h ⟨s, hs, o, ho, not_le.mp hneg⟩
  refine ⟨?_, hs⟩
  unfold Engine.fitnessSum
  apply floatSum_nonneg _ _ (le_refl _)
  intro x hx
  rw [List.mem_map] at hx
  obtain ⟨s, hs1, rfl⟩ := hx
  exact hs s hs1

/-! ## C38: the weight of an edge that is enabled again -/

/-- C38 (amended): when `AddEdgeMutation` returns `true` it has selected a
pair `(a, b)` and the flag `r` of `CheckRecurrent`; afterwards the weight of
`(a, b)` in the enabled map of the kind `r` is the new Gaussian sample
`randomValStdDev * z`, and `(a, b)` is no key of the disabled map of that
kind. So when `(a, b)` was held in that disabled map with the weight `w`, the
edge is enabled again with the new sample, which is `w` only if the sample
happens to be `w`. -/
theorem AddEdgeMutation_reenabled_weight (it : List Int → List Int) (g g1 : Genome)
    (net : Network) (sd : ℚ) (tries : Nat) (draws : Nat → Nat × Nat) (z : ℚ)
    (h : AddEdgeMutation it g net sd tries draws z = some (true, g1)) :
    ∃ a b r, CheckRecurrent it net a b = some r ∧
      SMap.find (g1.enabledMap r) (a, b) = some (sd * z) ∧
      SMap.find (g1.disabledMap r) (a, b) = none ∧
      ∀ w, SMap.find (g.disabledMap r) (a, b) = some w →
        (SMap.find (g1.enabledMap r) (a, b) = some w ↔ w = sd * z) := by
  obtain ⟨d, a, b, r, ht, hg⟩ := AddEdgeMutation_some it g g1 net sd tries draws z h
  have he : SMap.find (g1.enabledMap r) (a, b) = some (sd * z) := by
    rw [hg]
    cases r
    · simp only [Bool.false_eq_true, if_false, Genome.enabledMap]
      exact SMap.find_set_self _ _ _
    · simp only [if_true, Genome.enabledMap]
      exact SMap.find_set_self _ _ _
  refine ⟨a, b, r, ht.check, he, ?_, ?_⟩
  · rw [hg]
    cases r
    · simp only [Bool.false_eq_true, if_false, Genome.disabledMap]
      exact SMap.find_del_self _ _
    · simp only [if_true, Genome.disabledMap]
      exact SMap.find_del_self _ _
  · intro w _
    rw [he]
    constructor
    · intro hw
      simp only [Option.some.injEq] at hw
      exact hw.symm
    · intro hw
      rw [hw]

theorem AddEdgeMutation_reenabled_weight_witness :
    AddEdgeMutation id genomeB2 netB2 2 3 (fun _ => (0, 2)) 1 = some (true, genomeB3) ∧
    ∃ a b r, CheckRecurrent id netB2 a b = some r ∧
      SMap.find (genomeB3.enabledMap r) (a, b) = some (2 * 1) ∧
      SMap.find (genomeB3.disabledMap r) (a, b) = none ∧
      ∀ w, SMap.find (genomeB2.disabledMap r) (a, b) = some w →
        (SMap.find (genomeB3.enabledMap r) (a, b) = some w ↔ w = 2 * 1) :=
  ⟨by with_unfolding_all decide,
    AddEdgeMutation_reenabled_weight id genomeB2 genomeB3 netB2 2 3 (fun _ => (0, 2)) 1
      (by with_unfolding_all decide)⟩

/-- C38 as stated fails: the genome `genomeB2` holds the edge `(0,2)` in
`disabled_forward_edges` with the retained weight `5`; `AddEdgeMutation` on its
own network selects `(0,2)`, classifies it as forward and enables it again
with the Gaussian sample `2 * 1 = 2`: afterwards `forward_edges` maps `(0,2)`
to `2`, not to `5`, and `disabled_forward_edges` no longer holds the key. -/
theorem AddEdgeMutation_draws_new_weight :
    SMap.find genomeB2.disabled_forward_edges (0, 2) = some 5 ∧
    SMap.find genomeB2.forward_edges (0, 2) = none ∧
    GenerateNetwork id 10 genomeB2 = some netB2 ∧
    AddEdgeMutation id genomeB2 netB2 2 3 (fun _ => (0, 2)) 1 = some (true, genomeB3) ∧
    SMap.find genomeB3.forward_edges (0, 2) = some 2 ∧
    SMap.find genomeB3.disabled_forward_edges (0, 2) = none := by
  refine ⟨by with_unfolding_all decide, by with_unfolding_all decide,
    by with_unfolding_all decide, by with_unfolding_all decide, by with_unfolding_all decide,
    by with_unfolding_all decide⟩

/-! ## C39: the species of the initial population -/

theorem compatibilityDist_empty_single (c1_c2 c3 : ℚ) (ni no : Int) (k : Int × Int) (w : ℚ) :
    compatibilityDist c1_c2 c3 (Genome.new ni no)
      { Genome.new ni no with forward_edges := [(k, w)] } = c1_c2 := by
  have hinfo : GetCompatibilityDistInfo (Genome.new ni no)
      { Genome.new ni no with forward_edges := [(k, w)] } = (1, 1, 0) := by
    simp [GetCompatibilityDistInfo, Genome.new]
  unfold compatibilityDist
  rw [hinfo]
  simp

theorem compatibilityDist_empty_seeded (c1_c2 c3 : ℚ) (ni no : Int) (g : Genome)
    (h : Seeded ni no g) : compatibilityDist c1_c2 c3 (Genome.new ni no) g = c1_c2 := by
  obtain ⟨dIn, dOut, w, hg⟩ := h
  rw [hg]
  exact compatibilityDist_empty_single c1_c2 c3 ni no _ w

theorem seedLoop_single (ni no : Int) (draws : Nat → Nat × Nat × ℚ) :
    ∀ (count oc : Nat) (e : Engine) (rest : List Organism),
      e.c1_c2 < e.compatibility_thresh →
      e.species = [{ organisms := Organism.new (Genome.new ni no) :: rest, specie_id := 0 }] →
      (∀ o ∈ rest, Seeded ni no o.genome) →
      ∃ e1 rest1, seedLoop ni no draws count oc e = some e1 ∧
        e1.species =
          [{ organisms := Organism.new (Genome.new ni no) :: rest1, specie_id := 0 }] ∧
        rest1.length = rest.length + count ∧ e1.species_ctr = e.species_ctr ∧
        (∀ o ∈ rest1, Seeded ni no o.genome) := by
  intro count
  induction count with
  | zero =>
    intro oc e rest _ hs hr
    exact ⟨e, rest, rfl, hs, rfl, rfl, hr⟩
  | succ n ih =>
    intro oc e rest hc hs hr
    have hseed : Seeded ni no (AddInputOutputEdge (Genome.new ni no) (draws oc).1
        (draws oc).2.1 (randomGaussian 2 (draws oc).2.2)) := ⟨_, _, _, rfl⟩
    have hw : e.within (Genome.new ni no) (AddInputOutputEdge (Genome.new ni no) (draws oc).1
        (draws oc).2.1 (randomGaussian 2 (draws oc).2.2)) = true := by
      unfold Engine.within WithinCompatibilityThresh
      rw [compatibilityDist_empty_seeded _ _ _ _ _ hseed]
      exact decide_eq_true hc
    have hstep : seedOrganism ni no e (draws oc) =
        some { e with species :=
          [{ organisms := Organism.new (Genome.new ni no) ::
              (rest ++ [Organism.new (AddInputOutputEdge (Genome.new ni no) (draws oc).1
                (draws oc).2.1 (randomGaussian 2 (draws oc).2.2))]),
             specie_id := 0 }] } := by
      unfold seedOrganism placeChild
      simp only [hs, List.length_singleton, findSpecie, representativeOf, List.get?_cons_zero,
        List.head?_cons, Option.map_some', Organism.new, placeInto]
      have hw2 : e.within (Genome.new ni no) (AddInputOutputEdge (Genome.new ni no)
          (draws oc).1 (draws oc).2.1 (randomGaussian 2 (draws oc).2.2)) = true := hw
      simp [hw2, List.modify]
    obtain ⟨e1, rest1, h1, h2, h3, h4, h5⟩ := ih (oc + 1)
      { e with species :=
          [{ organisms := Organism.new (Genome.new ni no) ::
              (rest ++ [Organism.new (AddInputOutputEdge (Genome.new ni no) (draws oc).1
                (draws oc).2.1 (randomGaussian 2 (draws oc).2.2))]),
             specie_id := 0 }] }
      (rest ++ [Organism.new (AddInputOutputEdge (Genome.new ni no) (draws oc).1
                (draws oc).2.1 (randomGaussian 2 (draws oc).2.2))]) hc rfl (by
      intro o ho
      rw [List.mem_append, List.mem_singleton] at ho
      rcases ho with ho | ho
      · exact hr o ho
      · rw [ho]
        exact hseed)
    refine ⟨e1, rest1, ?_, h2, ?_, h4, h5⟩
    · unfold seedLoop
      simp only [hstep]
      exact h1
    · rw [h3, List.length_append, List.length_singleton]
      omega

/-- C39: the constructor called with positive sizes and `c1_c2 <
compatibility_thresh` (any `c3`, any random draws) returns an engine with
exactly one specie; its id is `0`, it holds `pop_size` organisms, the first
of them the empty genome; every other genome is at the compatibility distance
`c1_c2` from the empty genome, the representative of the specie. -/
theorem Engine.create_single_specie (input_size output_size pop_size_in : Int) (p : Params)
    (draws : Nat → Nat × Nat × ℚ) (hi : 0 < input_size) (ho : 0 < output_size)
    (hp : 0 < pop_size_in) (hc : p.c1_c2 < p.compatibility_thresh) :
    ∃ e rest, Engine.create input_size output_size pop_size_in p draws = some e ∧
      e.species =
        [{ organisms := Organism.new (Genome.new (input_size + 1) output_size) :: rest,
           specie_id := 0 }] ∧
      ((rest.length : Int) + 1 = pop_size_in) ∧ (e.numOrganisms : Int) = pop_size_in ∧
      e.species_ctr = 0 ∧
      ∀ o ∈ rest,
        compatibilityDist p.c1_c2 p.c3 (Genome.new (input_size + 1) output_size) o.genome =
          p.c1_c2 ∧
        WithinCompatibilityThresh p.c1_c2 p.c3 p.compatibility_thresh
          (Genome.new (input_size + 1) output_size) o.genome = true := by
  obtain ⟨hcreate, _⟩ := Engine.create_seeded input_size output_size pop_size_in p draws hi ho hp
  obtain ⟨e, rest, h1, h2, h3, h4, h5⟩ := seedLoop_single (input_size + 1) output_size draws
    (pop_size_in - 1).toNat 1 (Engine.seedStart input_size output_size pop_size_in p) [] hc rfl
    (by intro o ho; cases ho)
  refine ⟨e, rest, by rw [hcreate]; exact h1, h2, ?_, ?_, ?_, ?_⟩
  · rw [h3]
    simp only [List.length_nil]
    omega
  · unfold Engine.numOrganisms
    rw [h2]
    simp only [List.map_cons, List.map_nil, List.sum_cons, List.sum_nil, List.length_cons]
    rw [h3]
    simp only [List.length_nil]
    omega
  · rw [h4]
    rfl
  · intro o ho
    have hd := compatibilityDist_empty_seeded p.c1_c2 p.c3 _ _ _ (h5 o ho)
    refine ⟨hd, ?_⟩
    unfold WithinCompatibilityThresh
    rw [hd]
    exact decide_eq_true hc

theorem Engine.create_single_specie_witness :
    (0 : Int) < 1 ∧ (0 : Int) < 2 ∧ Params.default.c1_c2 < Params.default.compatibility_thresh ∧
    (Engine.create 1 1 2 Params.default (fun _ => (0, 0, 1))).map
      (fun e => e.species.map (fun s => (s.specie_id, s.organisms.length))) = some [(0, 2)] ∧
    ∃ e rest, Engine.create 1 1 2 Params.default (fun _ => (0, 0, 1)) = some e ∧
      e.species =
        [{ organisms := Organism.new (Genome.new (1 + 1) 1) :: rest, specie_id := 0 }] ∧
      ((rest.length : Int) + 1 = 2) ∧ (e.numOrganisms : Int) = 2 ∧
      e.species_ctr = 0 ∧
      ∀ o ∈ rest,
        compatibilityDist Params.default.c1_c2 Params.default.c3 (Genome.new (1 + 1) 1)
          o.genome = Params.default.c1_c2 ∧
        WithinCompatibilityThresh Params.default.c1_c2 Params.default.c3
          Params.default.compatibility_thresh (Genome.new (1 + 1) 1) o.genome = true :=
  ⟨by decide, by decide, by with_unfolding_all decide, by with_unfolding_all decide,
    Engine.create_single_specie 1 1 2 Params.default (fun _ => (0, 0, 1)) (by decide)
      (by decide) (by decide) (by with_unfolding_all decide)⟩

/-! ## Sorted species -/

theorem sortByFitness_perm (l : List Organism) : (sortByFitness l).Perm l :=
  List.perm_insertionSort _ l

theorem sortByFitness_sorted (l : List Organism) : SortedByFitness (sortByFitness l) := by
  have hT : IsTotal Organism (fun a b => b.fitness ≤ a.fitness) :=
    ⟨fun a b => le_total b.fitness a.fitness⟩
  have hR : IsTrans Organism (fun a b => b.fitness ≤ a.fitness) :=
    ⟨fun a b c hab hbc => le_trans hbc hab⟩
  exact List.sorted_insertionSort (fun a b => b.fitness ≤ a.fitness) l

theorem sorted_head_max (srt : List Organism → List Organism) (hsrt : ∀ l, (srt l).Perm l)
    (hsorted : ∀ l, SortedByFitness (srt l)) (l : List Organism) (hne : l ≠ []) :
    ∃ champion rest, srt l = champion :: rest ∧ champion ∈ l ∧
      ∀ o ∈ l, o.fitness ≤ champion.fitness := by
  cases hs : srt l with
  | nil =>
    have := (hsrt l).length_eq
    rw [hs] at this
    exact absurd (List.length_eq_zero.mp this.symm) hne
  | cons c rest =>
    refine ⟨c, rest, rfl, ?_, ?_⟩
    · exact (hsrt l).subset (by rw [hs]; exact List.mem_cons_self _ _)
    · intro o ho
      have ho2 : o ∈ srt l := (hsrt l).symm.subset ho
      have hp := hsorted l
      rw [hs] at ho2 hp
      rcases List.mem_cons.mp ho2 with rfl | hr
      · exact le_refl _
      · exact (List.pairwise_cons.mp hp).1 o hr

theorem representativeOf_sortSpecies (srt : List Organism → List Organism) (e : Engine)
    (j : Nat) (s : Specie) (hs : e.species[j]? = some s) :
    representativeOf (e.sortSpecies srt).species j =
      (srt s.organisms).head?.map (fun o => o.genome) := by
  unfold representativeOf Engine.sortSpecies
  simp [List.get?_eq_getElem?, List.getElem?_map, hs]

/-! ## C35: the specie a child is put into -/

theorem PlaceInv.within_eq {e0 : Engine} {st : List Specie × Engine} (I : PlaceInv e0 st)
    (g1 g2 : Genome) : st.2.within g1 g2 = e0.within g1 g2 := by
  have h1 := congrArg Engine.c1_c2 I.frame
  have h2 := congrArg Engine.c3 I.frame
  have h3 := congrArg Engine.compatibility_thresh I.frame
  simp only at h1 h2 h3
  unfold Engine.within
  rw [h1, h2, h3]

theorem PlaceInv.species_frame {e0 : Engine} {st : List Specie × Engine} (I : PlaceInv e0 st) :
    st.2.species = e0.species := by
  have h := congrArg Engine.species I.frame
  exact h

theorem PlaceInv.rep_defined {e0 : Engine} {st : List Specie × Engine} (I : PlaceInv e0 st)
    (hne : ∀ s ∈ e0.species, s.organisms ≠ []) (j : Nat) (hj : j < st.1.length) :
    ∃ r, breedingRep e0 st.1 j = some r := by
  unfold breedingRep
  split
  · rename_i hlt
    exact representativeOf_defined e0.species hne j hlt
  · rename_i hge
    obtain ⟨s, hs⟩ : ∃ s, st.1[j]? = some s := ⟨st.1[j], List.getElem?_eq_getElem hj⟩
    have hn := I.newNonempty j s (by omega) hs
    rw [representativeOf_eq, hs]
    cases ho : s.organisms with
    | nil => exact absurd ho hn
    | cons o rest => exact ⟨o.genome, by simp [ho]⟩

theorem AddGenome_rep (e : Engine) (newSpecies : List Specie) (child : Genome) :
    AddGenome e newSpecies child =
      match findSpecie e (breedingRep e newSpecies) child newSpecies.length 0 with
      | none => none
      | some (some j) => some (placeInto newSpecies j child, e)
      | some none =>
        some (foundSpecie newSpecies e.species_ctr child,
          { e with species_ctr := e.species_ctr + 1 }) := rfl

theorem breedingRep_congr (e0 e : Engine) (h : e.species = e0.species)
    (newSpecies : List Specie) : breedingRep e newSpecies = breedingRep e0 newSpecies := by
  funext j
  unfold breedingRep
  rw [h]

theorem IdInv.placeInv {e0 : Engine} {st : List Specie × Engine} (hid : IdInv e0)
    (I : PlaceInv e0 st) : ∀ s ∈ st.1, s.specie_id ≤ st.2.species_ctr := by
  intro s hs
  obtain ⟨j, hj, hjs⟩ := List.getElem_of_mem hs
  have hget : st.1[j]? = some s := by rw [List.getElem?_eq_getElem hj, hjs]
  by_cases hlt : j < e0.species.length
  · have h1 : ((st.1.take e0.species.length).map (fun s => s.specie_id))[j]? =
        some s.specie_id := by
      rw [List.getElem?_map, List.getElem?_take_of_lt hlt, hget]
      rfl
    rw [I.oldIds, List.getElem?_map] at h1
    cases h0 : e0.species[j]? with
    | none => simp [h0] at h1
    | some s0 =>
      simp only [h0, Option.map_some', Option.some.injEq] at h1
      have := hid s0 (List.getElem?_mem h0)
      have := I.ctr
      omega
  · exact (I.newIds j s (by omega) hget).2
theorem IdInv.of_placeChild (e e1 : Engine) (child : Genome) (hid : IdInv e)
    (h : placeChild e child = some e1) : IdInv e1 := by
  unfold placeChild at h
  cases hf : findSpecie e (representativeOf e.species) child e.species.length 0 with
  | none => simp [hf] at h
  | some x =>
    cases x with
    | none =>
      simp only [hf, Option.some.injEq] at h
      rw [← h]
      intro s hs
      have hs2 : s ∈ foundSpecie e.species e.species_ctr child := hs
      show s.specie_id ≤ e.species_ctr + 1
      simp only [foundSpecie, List.mem_append, List.mem_singleton] at hs2
      rcases hs2 with hs2 | hs2
      · have := hid s hs2
        omega
      · rw [hs2]
    | some j =>
      simp only [hf, Option.some.injEq] at h
      rw [← h]
      intro s hs
      have hs2 : s ∈ placeInto e.species j child := hs
      obtain ⟨s0, hs0, heq⟩ := mem_placeInto _ _ _ _ hs2
      show s.specie_id ≤ e.species_ctr
      rcases heq with heq | heq
      · rw [heq]
        exact hid s0 hs0
      · rw [heq]
        exact hid s0 hs0

theorem IdInv.of_seedLoop (ni no : Int) (draws : Nat → Nat × Nat × ℚ) :
    ∀ (count oc : Nat) (e e1 : Engine), IdInv e → seedLoop ni no draws count oc e = some e1 →
      IdInv e1 := by
  intro count
  induction count with
  | zero =>
    intro oc e e1 hid h
    simp only [seedLoop, Option.some.injEq] at h
    rw [← h]
    exact hid
  | succ n ih =>
    intro oc e e1 hid h
    unfold seedLoop at h
    cases hs : seedOrganism ni no e (draws oc) with
    | none => simp [hs] at h
    | some e2 =>
      simp only [hs] at h
      exact ih _ _ _ (IdInv.of_placeChild e e2 _ hid hs) h

theorem IdInv.of_create (input_size output_size pop_size_in : Int) (p : Params)
    (draws : Nat → Nat × Nat × ℚ) (e : Engine)
    (h : Engine.create input_size output_size pop_size_in p draws = some e) : IdInv e := by
  unfold Engine.create at h
  simp only at h
  have h0 : IdInv (Engine.init input_size output_size pop_size_in p) := by
    intro s hs
    cases hs
  split at h
  · simp only [Option.some.injEq] at h
    rw [← h]
    exact h0
  · split at h
    · simp only [Option.some.injEq] at h
      rw [← h]
      exact h0
    · split at h
      · simp only [Option.some.injEq] at h
        rw [← h]
        exact h0
      · refine IdInv.of_seedLoop _ _ _ _ _ _ _ ?_ h
        intro s hs
        simp only [List.mem_singleton] at hs
        rw [hs]

theorem IdInv.of_setFitness (e : Engine) (h : FitnessInterface) (f : ℚ) (hid : IdInv e) :
    IdInv (SetFitness e h f).2 := by
  unfold SetFitness
  split
  · exact hid
  · split
    · exact hid
    · intro s hs
      have hs2 : s ∈ e.species.modify (fun s => { s with
          organisms := s.organisms.modify (fun o => { o with fitness := f })
            h.organism_index }) h.specie_index := hs
      obtain ⟨s0, hs0, heq⟩ := mem_modify _ _ _ _ hs2
      show s.specie_id ≤ e.species_ctr
      rcases heq with heq | heq
      · rw [heq]
        exact hid s0 hs0
      · rw [heq]
        exact hid s0 hs0

theorem IdInv.of_sortSpecies (srt : List Organism → List Organism) (e : Engine) (hid : IdInv e) :
    IdInv (e.sortSpecies srt) := by
  intro s hs
  obtain ⟨s0, hs0, rfl⟩ := mem_sortSpecies srt e s hs
  exact hid s0 hs0

theorem IdInv.of_update (it : List Int → List Int) (srt : List Organism → List Organism)
    (fuel : Nat) (draws : Nat → Nat → OffspringDraws) (e : Engine) (r : Bool × Engine)
    (hid : IdInv e) (h : UpdateGeneration it srt fuel draws e = some r) : IdInv r.2 := by
  obtain ⟨ok, e1⟩ := r
  cases ok
  · have := (UpdateGeneration_result it srt fuel draws e _ h).2 rfl
    simp only at this
    rw [this]
    exact hid
  · obtain ⟨_, st, _, _, I, he1⟩ := UpdateGeneration_steps it srt fuel draws e e1 h
    intro s hs
    have hs1 : s ∈ e1.species := hs
    rw [he1, mem_turnover] at hs1
    show s.specie_id ≤ e1.species_ctr
    rw [he1]
    exact IdInv.placeInv (IdInv.of_sortSpecies srt e hid) I s hs1.1

theorem IdInv.live {input_size output_size : Int} {e : Engine}
    (h : Engine.Live input_size output_size e) : IdInv e := by
  induction h with
  | create pop_size_in p draws e _ _ _ hc => exact IdInv.of_create _ _ _ _ _ _ hc
  | setFitness h f _ ih => exact IdInv.of_setFitness _ h f ih
  | update it srt fuel draws r _ _ _ hupd ih => exact IdInv.of_update it srt fuel draws _ r ih hupd
theorem within_iff (e : Engine) (g1 g2 : Genome) :
    e.within g1 g2 = true ↔ compatibilityDist e.c1_c2 e.c3 g1 g2 < e.compatibility_thresh := by
  unfold Engine.within WithinCompatibilityThresh
  exact decide_eq_true_iff

theorem representativeOf_placeInto_new (species : List Specie) (j : Nat) (g : Genome) (i : Nat)
    (s : Specie) (hs : species[i]? = some s) (hne : s.organisms ≠ []) :
    representativeOf (placeInto species j g) i = representativeOf species i := by
  rw [representativeOf_eq, representativeOf_eq, hs]
  simp only [placeInto, List.getElem?_modify, hs]
  cases ho : s.organisms with
  | nil => exact absurd ho hne
  | cons o rest =>
    by_cases hji : j = i
    · simp [hji, ho]
    · simp [hji, ho]

/-- C35: at every moment of the loops of `UpdateGeneration` that create the
offspring, `AddGenome` is defined for every child genome `c`. The
representative of an index `j` of `newSpecies` is, for a specie of the engine,
the first organism of that specie after sorting, which has the highest
fitness of the specie, and else the first organism of `newSpecies[j]`, which
stays its first organism. `c` is appended to `newSpecies[j]` for the smallest
`j` whose representative is at a compatibility distance below
`compatibility_thresh` from `c`; when there is no such `j`, a specie holding
only `c` is appended, with the id `species_ctr + 1`, which no specie of
`newSpecies` and no specie of the engine has. -/
theorem AddGenome_placement (input_size output_size : Int) (e : Engine)
    (hlive : Engine.Live input_size output_size e) (it : List Int → List Int) (fuel : Nat)
    (srt : List Organism → List Organism) (hsrt : ∀ l, (srt l).Perm l)
    (hsorted : ∀ l, SortedByFitness (srt l)) (st : List Specie × Engine)
    (hst : BreedSteps it fuel (emptiedSpecies e.species, e.sortSpecies srt) st) (c : Genome) :
    (∀ j s, e.species[j]? = some s → ∃ champion rest, srt s.organisms = champion :: rest ∧
      breedingRep (e.sortSpecies srt) st.1 j = some champion.genome ∧ champion ∈ s.organisms ∧
      ∀ o ∈ s.organisms, o.fitness ≤ champion.fitness) ∧
    (∀ j, e.species.length ≤ j → j < st.1.length → ∃ s first rest, st.1[j]? = some s ∧
      s.organisms = first :: rest ∧
      breedingRep (e.sortSpecies srt) st.1 j = some first.genome) ∧
    ∃ st1, AddGenome st.2 st.1 c = some st1 ∧
      ((∃ j r, j < st.1.length ∧ breedingRep (e.sortSpecies srt) st.1 j = some r ∧
          compatibilityDist e.c1_c2 e.c3 r c < e.compatibility_thresh ∧
          (∀ i, i < j → ∃ ri, breedingRep (e.sortSpecies srt) st.1 i = some ri ∧
            ¬ compatibilityDist e.c1_c2 e.c3 ri c < e.compatibility_thresh) ∧
          st1 = (st.1.modify
            (fun s => { s with organisms := s.organisms ++ [Organism.new c] }) j, st.2)) ∨
        ((∀ i, i < st.1.length → ∃ ri, breedingRep (e.sortSpecies srt) st.1 i = some ri ∧
            ¬ compatibilityDist e.c1_c2 e.c3 ri c < e.compatibility_thresh) ∧
          st1 = (st.1 ++ [{ organisms := [Organism.new c],
                            specie_id := st.2.species_ctr + 1 }],
            { st.2 with species_ctr := st.2.species_ctr + 1 }) ∧
          (∀ s ∈ st.1, s.specie_id ≠ st.2.species_ctr + 1) ∧
          (∀ s ∈ e.species, s.specie_id ≠ st.2.species_ctr + 1))) ∧
      (∀ j, e.species.length ≤ j → j < st.1.length →
        representativeOf st1.1 j = representativeOf st.1 j) := by
  obtain ⟨I, _, _, _⟩ := EngineInv.of_live hlive
  have hid := IdInv.live hlive
  have P0 := PlaceInv.at_start (e.sortSpecies srt)
  rw [emptiedSpecies_sort] at P0
  have P : PlaceInv (e.sortSpecies srt) st := P0.of_steps hst
  have hne0 : ∀ s ∈ (e.sortSpecies srt).species, s.organisms ≠ [] :=
    (LoopInv.start srt hsrt e I).2
  have hlen0 := length_sortSpecies srt e
  have hrep : breedingRep st.2 st.1 = breedingRep (e.sortSpecies srt) st.1 :=
    breedingRep_congr _ _ P.species_frame st.1
  have hw : ∀ g1 g2, st.2.within g1 g2 = true ↔
      compatibilityDist e.c1_c2 e.c3 g1 g2 < e.compatibility_thresh := by
    intro g1 g2
    rw [P.within_eq, within_iff]
    rfl
  have hids := IdInv.placeInv (IdInv.of_sortSpecies srt e hid) P
  refine ⟨?_, ?_, ?_⟩
  · intro j s hs
    obtain ⟨champion, rest, h1, h2, h3⟩ :=
      sorted_head_max srt hsrt hsorted s.organisms (I.nonempty s (List.getElem?_mem hs))
    refine ⟨champion, rest, h1, ?_, h2, h3⟩
    have hj : j < e.species.length := by
      by_contra hc
      rw [List.getElem?_eq_none (by omega)] at hs
      cases hs
    unfold breedingRep
    rw [if_pos (by omega), representativeOf_sortSpecies srt e j s hs, h1]
    rfl
  · intro j hj1 hj2
    obtain ⟨s, hs⟩ : ∃ s, st.1[j]? = some s := ⟨st.1[j], List.getElem?_eq_getElem hj2⟩
    have hn := P.newNonempty j s (by omega) hs
    cases ho : s.organisms with
    | nil => exact absurd ho hn
    | cons o rest =>
      refine ⟨s, o, rest, hs, ho, ?_⟩
      unfold breedingRep
      rw [if_neg (by omega), representativeOf_eq, hs]
      simp [ho]
  · obtain ⟨x, hx⟩ := findSpecie_defined st.2 (breedingRep st.2 st.1) c st.1.length 0
      (by
        intro j _ hj
        rw [hrep]
        exact P.rep_defined hne0 j (by omega))
    cases x with
    | some j =>
      obtain ⟨_, hj, ⟨r, hr, hwr⟩, hbefore⟩ := findSpecie_some _ _ _ _ _ _ hx
      refine ⟨(placeInto st.1 j c, st.2), by rw [AddGenome_rep, hx], Or.inl ?_, ?_⟩
      · refine ⟨j, r, by omega, by rw [← hrep]; exact hr, (hw r c).mp hwr, ?_, rfl⟩
        intro i hi
        obtain ⟨ri, hri, hwi⟩ := hbefore i (Nat.zero_le _) hi
        refine ⟨ri, by rw [← hrep]; exact hri, ?_⟩
        intro hlt
        rw [(hw ri c).mpr hlt] at hwi
        cases hwi
      · intro i hi1 hi2
        obtain ⟨s, hs⟩ : ∃ s, st.1[i]? = some s := ⟨st.1[i], List.getElem?_eq_getElem hi2⟩
        exact representativeOf_placeInto_new st.1 j c i s hs
          (P.newNonempty i s (by omega) hs)
    | none =>
      have hall := findSpecie_none _ _ _ _ _ hx
      refine ⟨(foundSpecie st.1 st.2.species_ctr c,
        { st.2 with species_ctr := st.2.species_ctr + 1 }), by rw [AddGenome_rep, hx],
        Or.inr ⟨?_, rfl, ?_, ?_⟩, ?_⟩
      · intro i hi
        obtain ⟨ri, hri, hwi⟩ := hall i (Nat.zero_le _) (by omega)
        refine ⟨ri, by rw [← hrep]; exact hri, ?_⟩
        intro hlt
        rw [(hw ri c).mpr hlt] at hwi
        cases hwi
      · intro s hs
        have := hids s hs
        omega
      · intro s hs
        have h1 := hid s hs
        have h2 := P.ctr
        have h3 : (e.sortSpecies srt).species_ctr = e.species_ctr := rfl
        omega
      · intro i _ hi2
        exact representativeOf_foundSpecie st.1 _ c i hi2

theorem AddGenome_placement_witness :
    Engine.Live 1 1 engineTwoSet ∧
    AddGenome (engineTwoSet.sortSpecies sortByFitness) (emptiedSpecies engineTwoSet.species)
      genomeA =
      some ([{ organisms := [Organism.new genomeA], specie_id := 0 }],
        engineTwoSet.sortSpecies sortByFitness) ∧
    ∃ st1, AddGenome (engineTwoSet.sortSpecies sortByFitness)
        (emptiedSpecies engineTwoSet.species) genomeA = some st1 ∧
      ∀ j, engineTwoSet.species.length ≤ j → j < (emptiedSpecies engineTwoSet.species).length →
        representativeOf st1.1 j = representativeOf (emptiedSpecies engineTwoSet.species) j :=
  ⟨(engineTwo_live.steps engineTwoSet_steps).1, by with_unfolding_all decide,
    (AddGenome_placement 1 1 engineTwoSet (engineTwo_live.steps engineTwoSet_steps).1 id 9
      sortByFitness sortByFitness_perm sortByFitness_sorted
      (emptiedSpecies engineTwoSet.species, engineTwoSet.sortSpecies sortByFitness)
      BreedSteps.refl genomeA).2.2.imp (fun _ h => ⟨h.1, h.2.2⟩)⟩

/-! ## C33: the copy of the champion -/

theorem HoldsOrganism.after_placeInto {species : List Specie} {o : Organism}
    (h : HoldsOrganism species o) (j : Nat) (g : Genome) :
    HoldsOrganism (ModularNEAT.placeInto species j g) o := by
  obtain ⟨s, hs, ho⟩ := h
  obtain ⟨i, hi, his⟩ := List.getElem_of_mem hs
  have hget : species[i]? = some s := by rw [List.getElem?_eq_getElem hi, his]
  have hnew : (ModularNEAT.placeInto species j g)[i]? =
      some (if j = i then { s with organisms := s.organisms ++ [Organism.new g] } else s) := by
    simp only [ModularNEAT.placeInto, List.getElem?_modify, hget]
    by_cases hji : j = i
    · simp [hji]
    · simp [hji]
  refine ⟨_, List.getElem?_mem hnew, ?_⟩
  split
  · exact List.mem_append_left _ ho
  · exact ho

theorem AddGenome_holds (e : Engine) (newSpecies : List Specie) (child : Genome)
    (st1 : List Specie × Engine) (h : AddGenome e newSpecies child = some st1) :
    totalOrganisms st1.1 = totalOrganisms newSpecies + 1 ∧
    HoldsOrganism st1.1 (Organism.new child) ∧
    ∀ o, HoldsOrganism newSpecies o → HoldsOrganism st1.1 o := by
  rcases AddGenome_cases _ _ _ _ h with ⟨j, hf, rfl⟩ | ⟨hf, rfl⟩
  · have hj := (findSpecie_some _ _ _ _ _ _ hf).2.1
    refine ⟨totalOrganisms_placeInto _ _ _ (by omega), ?_, fun o ho => ho.after_placeInto j child⟩
    obtain ⟨s, hs⟩ : ∃ s, newSpecies[j]? = some s :=
      ⟨newSpecies[j], List.getElem?_eq_getElem (by omega)⟩
    have hnew : (placeInto newSpecies j child)[j]? =
        some { s with organisms := s.organisms ++ [Organism.new child] } := by
      simp [placeInto, List.getElem?_modify, hs]
    exact ⟨_, List.getElem?_mem hnew, by simp⟩
  · refine ⟨totalOrganisms_foundSpecie _ _ _, ?_, ?_⟩
    · exact ⟨{ organisms := [Organism.new child], specie_id := e.species_ctr + 1 },
        by simp [foundSpecie], List.mem_singleton.mpr rfl⟩
    · intro o ho
      obtain ⟨s, hs, hos⟩ := ho
      exact ⟨s, by simp [foundSpecie, hs], hos⟩

theorem BreedSteps.holds {it : List Int → List Int} {fuel : Nat}
    {st st1 : List Specie × Engine} (h : BreedSteps it fuel st st1) (o : Organism)
    (ho : HoldsOrganism st.1 o) : HoldsOrganism st1.1 o := by
  induction h with
  | refl => exact ho
  | add child st2 _ h ih => exact (AddGenome_holds _ _ _ _ h).2.2 o ih
  | mutate child d c1 e1 _ _ ih => exact ih

theorem offspringLoop_count (it : List Int → List Int) (fuel : Nat) (specie : Specie)
    (top : Int) (draws : Nat → OffspringDraws) :
    ∀ (count oc : Nat) (st st1 : List Specie × Engine),
      offspringLoop it fuel specie top draws count oc st = some st1 →
      totalOrganisms st1.1 = totalOrganisms st.1 + count := by
  intro count
  induction count with
  | zero =>
    intro oc st st1 h
    simp only [offspringLoop, Option.some.injEq] at h
    rw [← h]
    rfl
  | succ n ih =>
    intro oc st st1 h
    unfold offspringLoop at h
    simp only at h
    cases hch : crossoverChild specie
        (parentIndices (rand_int top (draws oc).parent1) (rand_int top (draws oc).parent2))
        (draws oc).cross with
    | none => simp [hch] at h
    | some child =>
      simp only [hch] at h
      cases hm : mutateChild it fuel st.2 child (draws oc) with
      | none => simp [hm] at h
      | some r =>
        obtain ⟨c1, e1⟩ := r
        simp only [hm] at h
        cases ha : AddGenome e1 st.1 c1 with
        | none => simp [ha] at h
        | some st2 =>
          simp only [ha] at h
          have h1 := (AddGenome_holds _ _ _ _ ha).1
          have h2 := ih (oc + 1) st2 st1 h
          rw [h2, h1]
          omega

theorem zip_sortSpecies (srt : List Organism → List Organism) (e : Engine) :
    (e.sortSpecies srt).species.zip (e.species.map specieFitness) =
      e.species.map (fun s => ({ s with organisms := srt s.organisms }, specieFitness s)) := by
  unfold Engine.sortSpecies
  simp only
  rw [List.zip_map']

theorem speciesLoop_at (it : List Int → List Int) (fuel : Nat) (sum : ℚ)
    (draws : Nat → Nat → OffspringDraws) (L : List (Specie × ℚ)) (x : Specie × ℚ)
    (hx : x ∈ L) (st0 stf : List Specie × Engine)
    (h : speciesLoop it fuel sum draws 0 L st0 = some stf) :
    ∃ (i : Nat) (sta stb : List Specie × Engine), BreedSteps it fuel st0 sta ∧
      specieOffspring it fuel x.1 x.2 sum (draws i) sta = some stb ∧
      BreedSteps it fuel stb stf := by
  obtain ⟨L1, L2, rfl⟩ := List.append_of_mem hx
  rw [speciesLoop_append] at h
  cases h1 : speciesLoop it fuel sum draws 0 L1 st0 with
  | none => simp [h1] at h
  | some sta =>
    simp only [h1, Option.some_bind, Nat.zero_add] at h
    obtain ⟨specie, f⟩ := x
    unfold speciesLoop at h
    cases h2 : specieOffspring it fuel specie f sum (draws L1.length) sta with
    | none => simp [h2] at h
    | some stb =>
      simp only [h2] at h
      exact ⟨L1.length, sta, stb, speciesLoop_steps it fuel sum draws L1 0 st0 sta h1, h2,
        speciesLoop_steps it fuel sum draws L2 _ stb stf h⟩
theorem specieOffspring_cases (it : List Int → List Int) (fuel : Nat) (specie : Specie)
    (f sum : ℚ) (draws : Nat → OffspringDraws) (st st1 : List Specie × Engine) (a : Int)
    (ha : numOffspringOf st.2.pop_size st.2.species.length f sum = a)
    (champion : Organism) (rest : List Organism) (hc : specie.organisms = champion :: rest)
    (h : specieOffspring it fuel specie f sum draws st = some st1) :
    totalOrganisms st1.1 = totalOrganisms st.1 + a.toNat ∧
    (5 < a → ∃ st0, AddGenome st.2 st.1 champion.genome = some st0 ∧
      offspringLoop it fuel specie (topOrganismsIndex specie.organisms.length st.2.top_p_cutoff)
        draws (a - 1).toNat 0 st0 = some st1) ∧
    (1 ≤ a → a ≤ 5 →
      offspringLoop it fuel specie (topOrganismsIndex specie.organisms.length st.2.top_p_cutoff)
        draws a.toNat 0 st = some st1) := by
  unfold specieOffspring at h
  simp only [ha] at h
  by_cases h1 : a < 1
  · rw [if_pos h1] at h
    simp only [Option.some.injEq] at h
    rw [← h]
    refine ⟨?_, fun h5 => absurd h5 (by omega), fun h5 => absurd h5 (by omega)⟩
    have : a.toNat = 0 := by omega
    rw [this]
    rfl
  · rw [if_neg h1] at h
    by_cases h5 : a > 5
    · rw [if_pos h5, hc] at h
      simp only [List.head?_cons] at h
      cases hadd : AddGenome st.2 st.1 champion.genome with
      | none => simp [hadd] at h
      | some st0 =>
        simp only [hadd] at h
        have hcount := offspringLoop_count it fuel specie _ draws _ 0 st0 st1 h
        have hone := (AddGenome_holds _ _ _ _ hadd).1
        refine ⟨?_, fun _ => ⟨st0, rfl, ?_⟩, fun _ hle => absurd hle (by omega)⟩
        · rw [hcount, hone]
          omega
        · rw [hc]
          exact h
    · rw [if_neg h5] at h
      have hcount := offspringLoop_count it fuel specie _ draws _ 0 st st1 h
      exact ⟨hcount, fun h6 => absurd h6 h5, fun _ _ => h⟩

/-- C33: after a successful `UpdateGeneration` the engine holds as many
organisms as the species were allocated offspring. For every specie `s` of
the engine, with its allocation `a`, the value `numOffspring` computed in
`float` and converted to `int`: the first organism `champion` after
sorting has the highest fitness of the specie; the body of the loop for `s`
adds exactly `a` organisms to `newSpecies`; when `a > 5` it first calls
`AddGenome` with the genome of `champion`, as it is, and then creates `a - 1`
offspring, and the new generation holds an organism with that genome (and the
fitness `-1`); when `1 ≤ a ≤ 5` it is the loop that creates `a` offspring by
crossover and mutation, without the copy. -/
theorem UpdateGeneration_champion (input_size output_size : Int) (e e1 : Engine)
    (hlive : Engine.Live input_size output_size e) (it : List Int → List Int)
    (hit : ∀ l, (it l).Perm l) (srt : List Organism → List Organism)
    (hsrt : ∀ l, (srt l).Perm l) (hsorted : ∀ l, SortedByFitness (srt l)) (fuel : Nat)
    (draws : Nat → Nat → OffspringDraws)
    (hupd : UpdateGeneration it srt fuel draws e = some (true, e1)) :
    e1.numOrganisms = (e.species.map (fun s => (e.allocation s).toNat)).sum ∧
    ∀ s ∈ e.species, ∃ champion rest, srt s.organisms = champion :: rest ∧
      champion ∈ s.organisms ∧ (∀ o ∈ s.organisms, o.fitness ≤ champion.fitness) ∧
      (5 < e.allocation s → HoldsOrganism e1.species (Organism.new champion.genome)) ∧
      ∃ (i : Nat) (sta stb : List Specie × Engine),
        BreedSteps it fuel (emptiedSpecies e.species, e.sortSpecies srt) sta ∧
        specieOffspring it fuel { s with organisms := srt s.organisms } (specieFitness s)
          e.fitnessSum (draws i) sta = some stb ∧
        totalOrganisms stb.1 = totalOrganisms sta.1 + (e.allocation s).toNat ∧
        (5 < e.allocation s → ∃ st0, AddGenome sta.2 sta.1 champion.genome = some st0 ∧
          offspringLoop it fuel { s with organisms := srt s.organisms }
            (topOrganismsIndex s.organisms.length e.top_p_cutoff) (draws i)
            (e.allocation s - 1).toNat 0 st0 = some stb) ∧
        (1 ≤ e.allocation s → e.allocation s ≤ 5 →
          offspringLoop it fuel { s with organisms := srt s.organisms }
            (topOrganismsIndex s.organisms.length e.top_p_cutoff) (draws i)
            (e.allocation s).toNat 0 sta = some stb) := by
  obtain ⟨I, _, _, _⟩ := EngineInv.of_live hlive
  obtain ⟨_, hnum, _, _⟩ := UpdateGeneration_success it hit srt hsrt fuel draws e e1 I hupd
  obtain ⟨_, stf, hloop, _, _, he1⟩ := UpdateGeneration_steps it srt fuel draws e e1 hupd
  refine ⟨hnum, ?_⟩
  intro s hs
  obtain ⟨champion, rest, hc1, hc2, hc3⟩ :=
    sorted_head_max srt hsrt hsorted s.organisms (I.nonempty s hs)
  have hx : (({ s with organisms := srt s.organisms } : Specie), specieFitness s) ∈
      (e.sortSpecies srt).species.zip (e.species.map specieFitness) := by
    rw [zip_sortSpecies]
    exact List.mem_map.mpr ⟨s, hs, rfl⟩
  obtain ⟨i, sta, stb, hsa, hspec, hsb⟩ := speciesLoop_at it fuel e.fitnessSum draws _ _ hx _ _
    hloop
  have P0 := PlaceInv.at_start (e.sortSpecies srt)
  rw [emptiedSpecies_sort] at P0
  have P : PlaceInv (e.sortSpecies srt) sta := P0.of_steps hsa
  have hpop : sta.2.pop_size = e.pop_size := by
    have h := congrArg Engine.pop_size P.frame
    exact h
  have htop : sta.2.top_p_cutoff = e.top_p_cutoff := by
    have h := congrArg Engine.top_p_cutoff P.frame
    exact h
  have hlen : sta.2.species.length = e.species.length := by
    rw [P.species_frame, length_sortSpecies]
  have ha : numOffspringOf sta.2.pop_size sta.2.species.length (specieFitness s)
      e.fitnessSum = e.allocation s := by
    rw [hpop, hlen]
    rfl
  have hcases := specieOffspring_cases it fuel { s with organisms := srt s.organisms }
    (specieFitness s) e.fitnessSum (draws i) sta stb (e.allocation s) ha champion rest hc1 hspec
  have hl : (srt s.organisms).length = s.organisms.length := (hsrt s.organisms).length_eq
  simp only [htop, hl] at hcases
  refine ⟨champion, rest, hc1, hc2, hc3, ?_, i, sta, stb, hsa, hspec, hcases.1, hcases.2.1,
    hcases.2.2⟩
  intro h5
  obtain ⟨st0, hadd, hoff⟩ := hcases.2.1 h5
  have h0 := (AddGenome_holds _ _ _ _ hadd).2.1
  have h1 := (offspringLoop_steps it fuel _ _ _ _ 0 st0 stb hoff).holds _ h0
  obtain ⟨s1, hs1, ho1⟩ := hsb.holds _ h1
  refine ⟨s1, ?_, ho1⟩
  rw [he1, mem_turnover]
  exact ⟨hs1, List.ne_nil_of_mem ho1⟩
theorem Engine.Live.foldl {input_size output_size : Int} {α : Type} (f : Engine → α → Engine)
    (hf : ∀ e a, Engine.Live input_size output_size e →
      Engine.Live input_size output_size (f e a)) :
    ∀ (l : List α) (e : Engine), Engine.Live input_size output_size e →
      Engine.Live input_size output_size (l.foldl f e) := by
  intro l
  induction l with
  | nil =>
    intro e h
    exact h
  | cons a rest ih =>
    intro e h
    exact ih _ (hf e a h)

theorem engineSixSet_live : Engine.Live 1 1 engineSixSet :=
  Engine.Live.foldl _ (fun _ _ h => Engine.Live.setFitness _ _ h) _ _
    (Engine.Live.create 6 Params.default (fun k => (0, 0, (k : ℚ))) engineSix (by decide)
      (by decide) (by decide) (by with_unfolding_all decide))

theorem engineSixSet_update :
    UpdateGeneration id sortByFitness 9 (fun _ _ => rankOneDraws) engineSixSet =
      some (true, engineSixNext) := by
  with_unfolding_all decide

theorem UpdateGeneration_champion_witness :
    Engine.Live 1 1 engineSixSet ∧ engineSixSet.FitnessFinite ∧
    engineSixSet.species.map (fun s => s.organisms.map
      (fun o => (o.genome.forward_edges.map (fun x => x.2), o.fitness))) =
      [[([], 0), ([2], 1), ([4], 2), ([6], 3), ([8], 4), ([10], 5)]] ∧
    engineSixSet.species.map (fun s => engineSixSet.allocation s) = [6] ∧
    UpdateGeneration id sortByFitness 9 (fun _ _ => rankOneDraws) engineSixSet =
      some (true, engineSixNext) ∧
    engineSixNext.species.map (fun s => s.organisms.map
      (fun o => (o.genome.forward_edges.map (fun x => x.2), o.fitness))) =
      [[([10], -1), ([8], -1), ([8], -1), ([8], -1), ([8], -1), ([8], -1)]] ∧
    engineSixNext.numOrganisms =
      (engineSixSet.species.map (fun s => (engineSixSet.allocation s).toNat)).sum :=
  ⟨engineSixSet_live, by with_unfolding_all decide, by with_unfolding_all decide,
    by with_unfolding_all decide, engineSixSet_update, by with_unfolding_all decide,
    (UpdateGeneration_champion 1 1 engineSixSet engineSixNext engineSixSet_live id
      (fun _ => List.Perm.refl _) sortByFitness sortByFitness_perm sortByFitness_sorted 9
      (fun _ _ => rankOneDraws) engineSixSet_update).1⟩

/-! ## C31: `rand_int` in the range of `int` -/

theorem wrapInt_of_range (x : Int) (h0 : -2147483648 ≤ x) (h1 : x ≤ 2147483647) :
    wrapInt x = x := by
  unfold wrapInt
  omega

theorem truncate_between (y : ℚ) (a b : Int) (ha : (a : ℚ) ≤ y) (hb : y ≤ (b : ℚ)) :
    a ≤ truncate y ∧ truncate y ≤ b := by
  unfold truncate
  split
  · exact ⟨Int.le_floor.mpr ha, Int.cast_le.mp (le_trans (Int.floor_le y) hb)⟩
  · exact ⟨Int.cast_le.mp (le_trans ha (Int.le_ceil y)), Int.ceil_le.mpr hb⟩

/-- The rounding to `double` keeps a value between two `int` bounds. -/
theorem roundDouble_between (x : ℚ) (a b : Int) (ha0 : -2147483648 ≤ a) (hb0 : b ≤ 2147483648)
    (ha : (a : ℚ) ≤ x) (hb : x ≤ (b : ℚ)) :
    (a : ℚ) ≤ roundDouble x ∧ roundDouble x ≤ (b : ℚ) := by
  have h0 : pow2 0 = 1 := by
    rw [pow2_eq]
    simp
  have haq : (-2147483648 : ℚ) ≤ (a : ℚ) := by exact_mod_cast ha0
  have hbq : (b : ℚ) ≤ 2147483648 := by exact_mod_cast hb0
  have hlt : |x| < pow2 ((53 : Nat) + 0) := by
    rw [add_zero, pow2_natCast, abs_lt]
    constructor
    · have : (-(2 : ℚ) ^ 53) < -2147483648 := by norm_num
      linarith
    · have : (2147483648 : ℚ) < (2 : ℚ) ^ 53 := by norm_num
      linarith
  have h1 := le_roundBinary 53 (-1074) 0 (by norm_num) x hlt a (by rw [h0, mul_one]; exact ha)
  have h2 := roundBinary_le 53 (-1074) 0 (by norm_num) x hlt b (by rw [h0, mul_one]; exact hb)
  rw [h0, mul_one] at h1 h2
  exact ⟨h1, h2⟩

/-- The value `ret_val` of `rand_int(max)` when `max + 1` is an `int`. -/
theorem rand_int_ret_val (m : Int) (r : ℚ) (hm0 : 0 ≤ m) (hm1 : m ≤ 2147483647) (hr0 : 0 ≤ r)
    (hr1 : r ≤ 1) :
    0 ≤ truncate (roundDouble ((m : ℚ) * r)) ∧ truncate (roundDouble ((m : ℚ) * r)) ≤ m := by
  have hmq : (0 : ℚ) ≤ (m : ℚ) := by exact_mod_cast hm0
  have h0 : ((0 : Int) : ℚ) ≤ (m : ℚ) * r := by
    have := mul_nonneg hmq hr0
    simpa using this
  have h1 : (m : ℚ) * r ≤ (m : ℚ) := by
    calc (m : ℚ) * r ≤ (m : ℚ) * 1 := mul_le_mul_of_nonneg_left hr1 hmq
      _ = (m : ℚ) := mul_one _
  obtain ⟨h2, h3⟩ := roundDouble_between _ 0 m (by norm_num) (by omega) h0 h1
  exact truncate_between _ 0 m h2 h3

theorem rand_intFrom_bounds (max : Int) (r : ℚ) (hmax : 0 ≤ max) (hint : max < 2147483647)
    (hr0 : 0 ≤ r) (hr1 : r ≤ 1) :
    0 ≤ rand_intFrom max r ∧ rand_intFrom max r ≤ max := by
  have h := rand_int_ret_val (max + 1) r (by omega) (by omega) hr0 hr1
  unfold rand_intFrom
  simp only
  rw [wrapInt_of_range (max + 1) (by omega) (by omega)]
  split
  · exact ⟨hmax, le_refl _⟩
  · constructor
    · exact h.1
    · omega

theorem rand_int2From_bounds (min max : Int) (r : ℚ) (hmin : -2147483648 ≤ min)
    (hmax : max ≤ 2147483647) (h : min ≤ max) (hint : max - min < 2147483647) (hr0 : 0 ≤ r)
    (hr1 : r ≤ 1) : min ≤ rand_int2From min max r ∧ rand_int2From min max r ≤ max := by
  have hb := rand_intFrom_bounds (max - min) r (by omega) hint hr0 hr1
  unfold rand_int2From
  rw [wrapInt_of_range (max - min) (by omega) (by omega),
    wrapInt_of_range _ (by omega) (by omega)]
  omega

theorem rand_intFrom_eq (max : Int) (r : ℚ) (hmin : -2147483648 ≤ max) (hint : max < 2147483647)
    (hr0 : 0 ≤ r) (hr1 : r ≤ 1) :
    rand_intFrom max r =
      rand_int max (truncate (roundDouble (((max + 1 : Int) : ℚ) * r))).toNat := by
  unfold rand_intFrom rand_int
  simp only
  rw [wrapInt_of_range (max + 1) (by omega) (by omega)]
  by_cases hm : 0 ≤ max + 1
  · have h := rand_int_ret_val (max + 1) r hm (by omega) hr0 hr1
    rw [Int.toNat_of_nonneg h.1]
  · have hneg : ((max + 1 : Int) : ℚ) < 0 := by exact_mod_cast (not_le.mp hm)
    have hx : ((max + 1 : Int) : ℚ) ≤ ((max + 1 : Int) : ℚ) * r := by
      have := mul_le_mul_of_nonpos_left hr1 (le_of_lt hneg)
      rwa [mul_one] at this
    have hx0 : ((max + 1 : Int) : ℚ) * r ≤ ((0 : Int) : ℚ) := by
      have := mul_nonpos_of_nonpos_of_nonneg (le_of_lt hneg) hr0
      simpa using this
    obtain ⟨h2, h3⟩ := roundDouble_between _ (max + 1) 0 (by omega) (by norm_num) hx hx0
    have ht := truncate_between _ (max + 1) 0 h2 h3
    rw [if_pos (by omega), if_pos (by omega)]

/-- C31 (amended): for every value `r` of `rand_norm()` in `[0, 1]`, `r = 1`
included, `rand_int(max)` lies in `[0, max]` for every `0 ≤ max < INT_MAX`,
and `rand_int(min, max)` lies in `[min, max]` for all `int` values `min ≤ max`
with `max - min < INT_MAX`; for an `int` `max < INT_MAX` the result is the one
of the model `rand_int` on the truncated product; and the index drawn for the
edge to split (`rand_int(possibleEdges.size() - 1)`), for a parent
(`rand_int(topOrganismsSize)`) and for the two nodes of a candidate connection
(`rand_int(run_info.size() - 1)` and `rand_int(num_input_nodes,
run_info.size() - 1)`) is an index of the vector it is used on, when that
vector is not empty and has fewer than `2 ^ 31` elements. -/
theorem rand_int_in_range (r : ℚ) (hr0 : 0 ≤ r) (hr1 : r ≤ 1) :
    (∀ max : Int, 0 ≤ max → max < 2147483647 →
      0 ≤ rand_intFrom max r ∧ rand_intFrom max r ≤ max) ∧
    (∀ min max : Int, -2147483648 ≤ min → max ≤ 2147483647 → min ≤ max →
      max - min < 2147483647 →
      min ≤ rand_int2From min max r ∧ rand_int2From min max r ≤ max) ∧
    (∀ max : Int, -2147483648 ≤ max → max < 2147483647 →
      rand_intFrom max r =
        rand_int max (truncate (roundDouble (((max + 1 : Int) : ℚ) * r))).toNat) ∧
    (∀ g : Genome, 1 ≤ g.possibleEdges.length → g.possibleEdges.length < 2147483648 →
      0 ≤ rand_intFrom ((g.possibleEdges.length : Int) - 1) r ∧
      rand_intFrom ((g.possibleEdges.length : Int) - 1) r < g.possibleEdges.length) ∧
    (∀ (size : Nat) (top_p_cutoff : ℚ), 1 ≤ size → size < 2147483648 →
      0 ≤ rand_intFrom (topOrganismsIndex size top_p_cutoff) r ∧
      rand_intFrom (topOrganismsIndex size top_p_cutoff) r < size) ∧
    (∀ net : Network, 1 ≤ net.run_info.length → net.run_info.length < 2147483648 →
      (0 ≤ rand_intFrom ((net.run_info.length : Int) - 1) r ∧
        rand_intFrom ((net.run_info.length : Int) - 1) r < net.run_info.length) ∧
      (0 ≤ net.num_input_nodes → net.num_input_nodes ≤ (net.run_info.length : Int) - 1 →
        net.num_input_nodes ≤
          rand_int2From net.num_input_nodes ((net.run_info.length : Int) - 1) r ∧
        rand_int2From net.num_input_nodes ((net.run_info.length : Int) - 1) r <
          net.run_info.length)) := by
  refine ⟨fun max h h2 => rand_intFrom_bounds max r h h2 hr0 hr1,
    fun min max h1 h2 h h3 => rand_int2From_bounds min max r h1 h2 h h3 hr0 hr1,
    fun max h1 h2 => rand_intFrom_eq max r h1 h2 hr0 hr1, ?_, ?_, ?_⟩
  · intro g hg hg2
    have h := rand_intFrom_bounds ((g.possibleEdges.length : Int) - 1) r (by omega) (by omega)
      hr0 hr1
    omega
  · intro size c hs hs2
    have ht := topOrganismsIndex_bounds size c hs
    have h := rand_intFrom_bounds (topOrganismsIndex size c) r ht.1 (by omega) hr0 hr1
    omega
  · intro net hn hn2
    have h := rand_intFrom_bounds ((net.run_info.length : Int) - 1) r (by omega) (by omega)
      hr0 hr1
    refine ⟨by omega, fun h0 hle => ?_⟩
    have h2 := rand_int2From_bounds net.num_input_nodes ((net.run_info.length : Int) - 1) r
      (by omega) (by omega) hle (by omega) hr0 hr1
    omega

theorem rand_int_in_range_witness :
    (0 : ℚ) ≤ 1 ∧ (1 : ℚ) ≤ 1 ∧ rand_intFrom 3 1 = 3 ∧ rand_int2From 2 5 1 = 5 ∧
    0 ≤ rand_intFrom 3 1 ∧ rand_intFrom 3 1 ≤ 3 :=
  ⟨by norm_num, by norm_num, by with_unfolding_all decide, by with_unfolding_all decide,
    ((rand_int_in_range 1 (by norm_num) (by norm_num)).1 3 (by decide) (by decide)).1,
    ((rand_int_in_range 1 (by norm_num) (by norm_num)).1 3 (by decide) (by decide)).2⟩

/-- C31 as stated fails: for `max = INT_MAX = 2147483647` the sum `max + 1`
leaves the range of `int` (undefined behaviour; the two's complement value is
`INT_MIN`), and `rand_int(max)` is `-1073741824` for the sample `1/2` and
`-2147483648` for the sample `1`, both outside `[0, max]`; `rand_int(0, max)`
is outside `[0, max]` in the same way. -/
theorem rand_int_overflow :
    (0 : Int) ≤ 2147483647 ∧ (0 : ℚ) ≤ 1 / 2 ∧ (1 / 2 : ℚ) ≤ 1 ∧
    wrapInt (2147483647 + 1) = -2147483648 ∧
    rand_intFrom 2147483647 (1 / 2) = -1073741824 ∧
    rand_intFrom 2147483647 1 = -2147483648 ∧
    rand_int2From 0 2147483647 (1 / 2) = -1073741824 ∧
    ¬ (0 ≤ rand_intFrom 2147483647 (1 / 2)) := by
  refine ⟨by decide, by norm_num, by norm_num, by decide, by with_unfolding_all decide,
    by with_unfolding_all decide, by with_unfolding_all decide, by with_unfolding_all decide⟩

/-! ## The number of offspring in `float` -/

theorem numOffspringOf_float (p : Int) (S : Nat) (f sum : ℚ) (hp : 0 ≤ p) (hf : 0 ≤ f)
    (hsum : 0 < sum) :
    numOffspringOf p S f sum =
      ⌊roundFloat (roundFloat (roundFloat (p : ℚ) * roundFloat (f / sum)) + 1 / 2)⌋ ∧
    0 ≤ numOffspringOf p S f sum := by
  have hpq : (0 : ℚ) ≤ (p : ℚ) := by exact_mod_cast hp
  have h1 := roundFloat_nonneg _ hpq
  have h2 := roundFloat_nonneg _ (div_nonneg hf hsum.le)
  have h3 := roundFloat_nonneg _ (mul_nonneg h1 h2)
  have h4 := roundFloat_nonneg (roundFloat (roundFloat (p : ℚ) * roundFloat (f / sum)) + 1 / 2)
    (by linarith)
  have he : numOffspringOf p S f sum =
      ⌊roundFloat (roundFloat (roundFloat (p : ℚ) * roundFloat (f / sum)) + 1 / 2)⌋ := by
    unfold numOffspringOf
    rw [if_neg hsum.ne', truncate_of_nonneg _ h4]
  rw [he]
  exact ⟨rfl, Int.floor_nonneg.mpr h4⟩

/-- The number of offspring of a specie against the exact share `pop_size *
f / sum`, for `pop_size` below `2 ^ 24`. -/
theorem numOffspringOf_near (p : Int) (S : Nat) (f sum : ℚ) (hp : 0 ≤ p) (hp2 : p < 2 ^ 24)
    (hf : 0 ≤ f) (hsum : 0 < sum) :
    (p : ℚ) * (f / sum) + 1 / 2 - ((p : ℚ) * (f / sum) + 1) / 2 ^ 22 - 1 <
      (numOffspringOf p S f sum : ℚ) ∧
    (numOffspringOf p S f sum : ℚ) ≤
      (p : ℚ) * (f / sum) + 1 / 2 + ((p : ℚ) * (f / sum) + 1) / 2 ^ 22 := by
  rw [(numOffspringOf_float p S f sum hp hf hsum).1]
  obtain ⟨_, h⟩ := roundFloat_mul_add_half p hp hp2 (f / sum) (div_nonneg hf hsum.le)
  rw [abs_le] at h
  have h1 := Int.floor_le
    (roundFloat (roundFloat (roundFloat (p : ℚ) * roundFloat (f / sum)) + 1 / 2))
  have h2 := Int.lt_floor_add_one
    (roundFloat (roundFloat (roundFloat (p : ℚ) * roundFloat (f / sum)) + 1 / 2))
  constructor <;> linarith [h.1, h.2]

theorem offspring_sum_near (p : Int) (hp : 0 ≤ p) (hp2 : p < 2 ^ 24) (S : Nat) (sum : ℚ)
    (hsum : 0 < sum) :
    ∀ fs : List ℚ, (∀ f ∈ fs, 0 ≤ f) →
      |(((fs.map (fun f => (numOffspringOf p S f sum).toNat)).sum : ℕ) : ℚ) -
        (p : ℚ) * (fs.sum / sum)| ≤
      (fs.length : ℚ) / 2 + ((p : ℚ) * (fs.sum / sum) + (fs.length : ℚ)) / 2 ^ 22 := by
  intro fs
  induction fs with
  | nil =>
    intro _
    simp
  | cons f rest ih =>
    intro h
    have hf : 0 ≤ f := h f (List.mem_cons_self _ _)
    have hrest := ih (fun g hg => h g (List.mem_cons_of_mem _ hg))
    obtain ⟨h1, h2⟩ := numOffspringOf_near p S f sum hp hp2 hf hsum
    have h0 := (numOffspringOf_float p S f sum hp hf hsum).2
    have hc : (((numOffspringOf p S f sum).toNat : ℕ) : ℚ) = (numOffspringOf p S f sum : ℚ) := by
      have := Int.toNat_of_nonneg h0
      exact_mod_cast this
    simp only [List.map_cons, List.sum_cons, List.length_cons, Nat.cast_add, Nat.cast_one]
    rw [hc]
    have hsplit : (p : ℚ) * ((f + rest.sum) / sum) =
        (p : ℚ) * (f / sum) + (p : ℚ) * (rest.sum / sum) := by
      rw [add_div, mul_add]
    rw [hsplit]
    rw [abs_le] at hrest ⊢
    constructor <;> linarith [hrest.1, hrest.2]

/-- The exact sum of `float` values against their sum in `float`. -/
theorem floatSum_ratio (fs : List ℚ) (hfs : ∀ f ∈ fs, 0 ≤ f ∧ FloatGrid f)
    (hF : 0 < floatSum fs 0) (hlen : fs.length ≤ 2 ^ 20) :
    1 - (fs.length : ℚ) / 2 ^ 24 ≤ fs.sum / floatSum fs 0 ∧
    fs.sum / floatSum fs 0 ≤ 1 + 2 * (fs.length : ℚ) / 2 ^ 24 := by
  obtain ⟨_, hlo, hhi⟩ := floatSum_bounds fs 0 (le_refl _) floatGrid_zero hfs
  rw [zero_add] at hlo hhi
  have hS : ((fs.length : ℕ) : ℚ) ≤ 2 ^ 20 := by exact_mod_cast hlen
  have hS0 : (0 : ℚ) ≤ ((fs.length : ℕ) : ℚ) := Nat.cast_nonneg _
  have hb1 : 1 + ((fs.length : ℕ) : ℚ) * (-(1 / 2 ^ 24)) ≤ (1 + -(1 / 2 ^ 24 : ℚ)) ^ fs.length :=
    one_add_mul_le_pow (by norm_num) _
  have hb1' : 1 - ((fs.length : ℕ) : ℚ) / 2 ^ 24 ≤ (1 - 1 / 2 ^ 24 : ℚ) ^ fs.length := by
    have e1 : (1 - 1 / 2 ^ 24 : ℚ) = 1 + -(1 / 2 ^ 24) := by ring
    rw [e1]
    calc 1 - ((fs.length : ℕ) : ℚ) / 2 ^ 24
        = 1 + ((fs.length : ℕ) : ℚ) * (-(1 / 2 ^ 24)) := by ring
      _ ≤ _ := hb1
  have hprod : (1 - 1 / 2 ^ 24 : ℚ) ^ fs.length * (1 + 1 / 2 ^ 24) ^ fs.length ≤ 1 := by
    rw [← mul_pow]
    apply pow_le_one₀
    · norm_num
    · norm_num
  have ht0 : (0 : ℚ) < (1 - 1 / 2 ^ 24 : ℚ) ^ fs.length := by
    apply pow_pos
    norm_num
  have hT0 : (0 : ℚ) < (1 + 1 / 2 ^ 24 : ℚ) ^ fs.length := by
    apply pow_pos
    norm_num
  generalize (1 - 1 / 2 ^ 24 : ℚ) ^ fs.length = t at *
  generalize (1 + 1 / 2 ^ 24 : ℚ) ^ fs.length = T at *
  generalize hFd : floatSum fs 0 = F at *
  generalize fs.sum = sm at *
  generalize ((fs.length : ℕ) : ℚ) = σ at *
  have hσ : σ / 2 ^ 24 ≤ 1 / 16 := by
    rw [div_le_iff₀ (by positivity)]
    norm_num at hS ⊢
    linarith
  have hsm : 0 < sm := by
    by_contra hc
    have : T * sm ≤ 0 := mul_nonpos_of_nonneg_of_nonpos hT0.le (not_lt.mp hc)
    linarith
  constructor
  · rw [le_div_iff₀ hF]
    -- (1 - σ u) F ≤ t F ≤ t T sm ≤ sm
    have h1 : (1 - σ / 2 ^ 24) * F ≤ t * F := mul_le_mul_of_nonneg_right hb1' hF.le
    have h2 : t * F ≤ t * (T * sm) := mul_le_mul_of_nonneg_left hhi ht0.le
    have h3 : t * (T * sm) ≤ 1 * sm := by
      rw [← mul_assoc]
      exact mul_le_mul_of_nonneg_right hprod hsm.le
    linarith
  · rw [div_le_iff₀ hF]
    -- sm ≤ F / t, and 1 / t ≤ 1 + 2 σ u
    have h1 : (1 - σ / 2 ^ 24) * sm ≤ t * sm := mul_le_mul_of_nonneg_right hb1' hsm.le
    have h2 : (1 - σ / 2 ^ 24) * sm ≤ F := le_trans h1 hlo
    have h3 : 0 ≤ (1 + 2 * σ / 2 ^ 24) := by positivity
    have h4 : (1 + 2 * σ / 2 ^ 24) * ((1 - σ / 2 ^ 24) * sm) ≤ (1 + 2 * σ / 2 ^ 24) * F :=
      mul_le_mul_of_nonneg_left h2 h3
    have h5 : sm ≤ (1 + 2 * σ / 2 ^ 24) * ((1 - σ / 2 ^ 24) * sm) := by
      have h6 : 1 ≤ (1 + 2 * σ / 2 ^ 24) * (1 - σ / 2 ^ 24) := by
        have h7 : 0 ≤ σ / 2 ^ 24 := by positivity
        nlinarith
      calc sm = 1 * sm := (one_mul _).symm
        _ ≤ ((1 + 2 * σ / 2 ^ 24) * (1 - σ / 2 ^ 24)) * sm :=
          mul_le_mul_of_nonneg_right h6 hsm.le
        _ = _ := by ring
    linarith

/-- The total number of offspring against `pop_size`. -/
theorem offspring_total_near (p : Int) (hp : 1 ≤ p) (S : Nat) (fs : List ℚ)
    (hfs : ∀ f ∈ fs, 0 ≤ f ∧ FloatGrid f) (hF : 0 < floatSum fs 0)
    (hsize : p * ((fs.length : Int) + 3) ≤ 2 ^ 20) :
    2 * |(((fs.map (fun f => (numOffspringOf p S f (floatSum fs 0)).toNat)).sum : ℕ) : Int) - p|
      ≤ (fs.length : Int) := by
  have hlen1 : (1 : Int) ≤ (fs.length : Int) := by
    cases fs with
    | nil => exact absurd hF (lt_irrefl _)
    | cons f rest =>
      simp only [List.length_cons]
      omega
  have hmul1 : p * 1 ≤ p * (fs.length : Int) := Int.mul_le_mul_of_nonneg_left hlen1 (by omega)
  have hmul2 : 1 * (fs.length : Int) ≤ p * (fs.length : Int) :=
    Int.mul_le_mul_of_nonneg_right hp (by omega)
  rw [mul_add] at hsize
  have hp3 : p ≤ 2 ^ 18 := by omega
  have hlenI : (fs.length : Int) ≤ 2 ^ 20 := by omega
  have hlen : fs.length ≤ 2 ^ 20 := by exact_mod_cast hlenI
  have hnear := offspring_sum_near p (by omega) (by omega) S (floatSum fs 0) hF fs
    (fun f hf => (hfs f hf).1)
  obtain ⟨r1, r2⟩ := floatSum_ratio fs hfs hF hlen
  have hpq : (1 : ℚ) ≤ (p : ℚ) := by exact_mod_cast hp
  have hsq : (p : ℚ) * ((fs.length : ℕ) : ℚ) + (p : ℚ) * 3 ≤ 2 ^ 20 := by exact_mod_cast hsize
  have hS0 : (0 : ℚ) ≤ ((fs.length : ℕ) : ℚ) := Nat.cast_nonneg _
  generalize hn : (fs.map (fun f => (numOffspringOf p S f (floatSum fs 0)).toNat)).sum = n at *
  generalize fs.sum / floatSum fs 0 = ρ at *
  have hx1 : (p : ℚ) * ρ ≤ (p : ℚ) + 2 * ((p : ℚ) * ((fs.length : ℕ) : ℚ)) / 2 ^ 24 := by
    have := mul_le_mul_of_nonneg_left r2 (show (0 : ℚ) ≤ (p : ℚ) by linarith)
    calc _ ≤ _ := this
      _ = _ := by ring
  have hx2 : (p : ℚ) - (p : ℚ) * ((fs.length : ℕ) : ℚ) / 2 ^ 24 ≤ (p : ℚ) * ρ := by
    have := mul_le_mul_of_nonneg_left r1 (show (0 : ℚ) ≤ (p : ℚ) by linarith)
    calc _ = (p : ℚ) * (1 - ((fs.length : ℕ) : ℚ) / 2 ^ 24) := by ring
      _ ≤ _ := this
  have hps : (p : ℚ) * ((fs.length : ℕ) : ℚ) ≤ 2 ^ 20 := by linarith
  have hps0 : 0 ≤ (p : ℚ) * ((fs.length : ℕ) : ℚ) := mul_nonneg (by linarith) hS0
  have hp4 : (p : ℚ) ≤ 262144 := by exact_mod_cast hp3
  have hS4 : ((fs.length : ℕ) : ℚ) ≤ 1048576 := by exact_mod_cast hlen
  rw [abs_le] at hnear
  have key : (2 : ℚ) * |((n : ℕ) : ℚ) - (p : ℚ)| < ((fs.length : ℕ) : ℚ) + 1 := by
    have hlt : |((n : ℕ) : ℚ) - (p : ℚ)| < (((fs.length : ℕ) : ℚ) + 1) / 2 := by
      rw [abs_lt]
      generalize (p : ℚ) * ρ = x at *
      generalize (p : ℚ) * ((fs.length : ℕ) : ℚ) = ps at *
      norm_num at hnear hx1 hx2 hps ⊢
      constructor <;> linarith [hnear.1, hnear.2]
    linarith
  have key2 : 2 * |((n : ℕ) : Int) - p| < (fs.length : Int) + 1 := by
    have : ((2 * |((n : ℕ) : Int) - p| : Int) : ℚ) < (((fs.length : Int) + 1 : Int) : ℚ) := by
      push_cast
      exact key
    exact_mod_cast this
  omega

theorem fitnessSum_pos (e : Engine) (h : ¬ e.hasUnset) (hne : e.fitnessSum ≠ 0) :
    0 < e.fitnessSum ∧ ∀ f ∈ e.species.map specieFitness, 0 ≤ f ∧ FloatGrid f := by
  obtain ⟨h0, hs⟩ := fitnessSum_nonneg e h
  refine ⟨lt_of_le_of_ne h0 (Ne.symm hne), ?_⟩
  intro f hf
  rw [List.mem_map] at hf
  obtain ⟨s, hs1, rfl⟩ := hf
  exact ⟨hs s hs1, roundFloat_grid _⟩

/-- C22 (amended): after a successful `UpdateGeneration` on an engine state
with `S ≥ 1` species whose sums of fitnesses are finite, the number `n` of
organisms satisfies: when the sum `F` of the species' fitnesses is not `0` and
`pop_size * (S + 3) ≤ 2 ^ 20`, `n` differs from `pop_size` by at most `S / 2`;
when `F = 0`, `n = S * floor(pop_size / S)`, which differs from `pop_size` by
at most `S - 1`; hence by at most `1` when there are one or two species and
`pop_size * (S + 3) ≤ 2 ^ 20`. -/
theorem UpdateGeneration_population (input_size output_size : Int) (e e1 : Engine)
    (hlive : Engine.Live input_size output_size e) (hne : e.species ≠ [])
    (hfin : e.FitnessFinite)
    (it : List Int → List Int) (hit : ∀ l, (it l).Perm l)
    (srt : List Organism → List Organism) (hsrt : ∀ l, (srt l).Perm l) (fuel : Nat)
    (draws : Nat → Nat → OffspringDraws)
    (hupd : UpdateGeneration it srt fuel draws e = some (true, e1)) :
    (e.fitnessSum ≠ 0 → e.pop_size * ((e.species.length : Int) + 3) ≤ 2 ^ 20 →
      2 * |(e1.numOrganisms : Int) - e.pop_size| ≤ e.species.length) ∧
    (e.fitnessSum = 0 →
      (e1.numOrganisms : Int) = (e.species.length : Int) * (e.pop_size / (e.species.length : Int)) ∧
      |(e1.numOrganisms : Int) - e.pop_size| ≤ (e.species.length : Int) - 1) ∧
    (e.species.length ≤ 2 → e.pop_size * ((e.species.length : Int) + 3) ≤ 2 ^ 20 →
      |(e1.numOrganisms : Int) - e.pop_size| ≤ 1) := by
  have _ := hfin
  obtain ⟨I, hpop, _, _⟩ := EngineInv.of_live hlive
  obtain ⟨_, hcount, _, _⟩ := UpdateGeneration_success it hit srt hsrt fuel draws e e1 I hupd
  have hu : ¬ e.hasUnset := by
    intro hu
    have := (UpdateGeneration_result it srt fuel draws e _ hupd).1.2 hu
    cases this
  have hS : 1 ≤ e.species.length := List.length_pos.2 hne
  have hcount2 : e1.numOrganisms =
      ((e.species.map specieFitness).map
        (fun f => (numOffspringOf e.pop_size e.species.length f e.fitnessSum).toNat)).sum := by
    rw [hcount, List.map_map]
    rfl
  have hA : e.fitnessSum ≠ 0 → e.pop_size * ((e.species.length : Int) + 3) ≤ 2 ^ 20 →
      2 * |(e1.numOrganisms : Int) - e.pop_size| ≤ e.species.length := by
    intro hs hsize
    obtain ⟨hpos, hfs⟩ := fitnessSum_pos e hu hs
    have h := offspring_total_near e.pop_size (by omega) e.species.length
      (e.species.map specieFitness) hfs hpos (by rw [List.length_map]; exact hsize)
    rw [List.length_map] at h
    rw [hcount2]
    exact h
  have hB : e.fitnessSum = 0 →
      (e1.numOrganisms : Int) = (e.species.length : Int) * (e.pop_size / (e.species.length : Int)) ∧
      |(e1.numOrganisms : Int) - e.pop_size| ≤ (e.species.length : Int) - 1 := by
    intro hs
    rw [hs, offspring_sum_zero, List.length_map] at hcount2
    have hq : 0 ≤ e.pop_size / (e.species.length : Int) :=
      Int.ediv_nonneg hpop.le (by omega)
    have hcast : (e1.numOrganisms : Int) =
        (e.species.length : Int) * (e.pop_size / (e.species.length : Int)) := by
      rw [hcount2]
      push_cast
      rw [Int.toNat_of_nonneg hq]
    have hmod := Int.emod_add_ediv e.pop_size (e.species.length : Int)
    have hm0 := Int.emod_nonneg e.pop_size (show (e.species.length : Int) ≠ 0 by omega)
    have hm1 := Int.emod_lt_of_pos e.pop_size (show (0 : Int) < e.species.length by omega)
    refine ⟨hcast, ?_⟩
    rw [hcast, abs_le]
    constructor <;> omega
  refine ⟨hA, hB, ?_⟩
  intro h2 hsize
  by_cases hs : e.fitnessSum = 0
  · have := (hB hs).2
    omega
  · have := hA hs hsize
    omega

/-- C22, witness: `NEAT(1, 1, 2)` with both fitnesses `1`. -/
theorem UpdateGeneration_population_witness :
    engineTwoNext.numOrganisms = 2 ∧ engineTwoSet.pop_size = 2 ∧
    engineTwoSet.FitnessFinite ∧
    (engineTwoSet.fitnessSum ≠ 0 →
      engineTwoSet.pop_size * ((engineTwoSet.species.length : Int) + 3) ≤ 2 ^ 20 →
      2 * |(engineTwoNext.numOrganisms : Int) - engineTwoSet.pop_size| ≤
        engineTwoSet.species.length) :=
  ⟨by with_unfolding_all decide, by with_unfolding_all decide, by with_unfolding_all decide,
    (UpdateGeneration_population 1 1 engineTwoSet engineTwoNext
      (engineTwo_live.steps engineTwoSet_steps).1 (by with_unfolding_all decide)
      (by with_unfolding_all decide) id
      (fun _ => List.Perm.refl _) id (fun _ => List.Perm.refl _) 9 (fun _ _ => plainDraws)
      (by with_unfolding_all decide)).1⟩

/-! ## C34: the breeding pool -/

theorem floor_near (y x ε : ℚ) (h : |y - x| ≤ ε) : ⌊x - ε⌋ ≤ ⌊y⌋ ∧ ⌊y⌋ ≤ ⌊x + ε⌋ := by
  rw [abs_le] at h
  exact ⟨Int.floor_le_floor (by linarith), Int.floor_le_floor (by linarith)⟩

theorem breedingPool_eq (n : Nat) (c : ℚ) (hc0 : 0 ≤ c) :
    breedingPool n c =
      if 1 ≤ ⌊roundFloat (roundFloat (roundFloat (n : ℚ) * c) + 1 / 2)⌋ ∧
          ⌊roundFloat (roundFloat (roundFloat (n : ℚ) * c) + 1 / 2)⌋ < (n : Int) then
        ⌊roundFloat (roundFloat (roundFloat (n : ℚ) * c) + 1 / 2)⌋
      else (n : Int) := by
  have h1 := roundFloat_nonneg _ (Nat.cast_nonneg n)
  have h2 := roundFloat_nonneg _ (mul_nonneg h1 hc0)
  have hx := roundFloat_nonneg (roundFloat (roundFloat (n : ℚ) * c) + 1 / 2) (by linarith)
  unfold breedingPool topOrganismsIndex
  simp only
  rw [truncate_of_nonneg _ hx]
  by_cases h : ⌊roundFloat (roundFloat (roundFloat (n : ℚ) * c) + 1 / 2)⌋ ≤ 0 ∨
      ⌊roundFloat (roundFloat (roundFloat (n : ℚ) * c) + 1 / 2)⌋ ≥ (n : Int)
  · rw [if_pos h, if_neg (by omega)]
    omega
  · rw [if_neg h, if_pos (by omega)]
    omega

/-- C34 (amended): for a specie of `n ≥ 1` organisms and `top_p_cutoff ≥ 0`,
with `t` the value of `n * top_p_cutoff + 0.5f` computed in `float` and
converted to `int`: the breeding pool of `UpdateGeneration` has `t` candidates
when `1 ≤ t < n` and `n` candidates otherwise, so between `1` and `n`; for `n
< 2 ^ 24` the value `t` lies between the `floor` of `n * top_p_cutoff + 1/2 -
d` and the one of `n * top_p_cutoff + 1/2 + d`, with `d = (n * top_p_cutoff +
1) / 2 ^ 22`; the pool has the `max(1, round(n * top_p_cutoff))` candidates of
the specification when `t` is the exact `floor(n * top_p_cutoff + 1/2)` and `1
≤ t ≤ n`, and all `n` organisms when `t = 0`. Both parent ranks, as drawn and
after the exchange, lie in `0 .. k - 1`, and every rank of that range is drawn
by some value of the random source. -/
theorem breedingPool_size (n : Nat) (c : ℚ) (hn : 1 ≤ n) (hc0 : 0 ≤ c) :
    ∃ t : Int, t = ⌊roundFloat (roundFloat (roundFloat (n : ℚ) * c) + 1 / 2)⌋ ∧
    1 ≤ breedingPool n c ∧ breedingPool n c ≤ n ∧
    breedingPool n c = (if 1 ≤ t ∧ t < (n : Int) then t else (n : Int)) ∧
    (n < 2 ^ 24 →
      ⌊(n : ℚ) * c + 1 / 2 - ((n : ℚ) * c + 1) / 2 ^ 22⌋ ≤ t ∧
      t ≤ ⌊(n : ℚ) * c + 1 / 2 + ((n : ℚ) * c + 1) / 2 ^ 22⌋) ∧
    (t = ⌊(n : ℚ) * c + 1 / 2⌋ → 1 ≤ t → t ≤ n → breedingPool n c = breedingPoolSpec n c) ∧
    (t = 0 → breedingPool n c = n) ∧
    (∀ d1 d2 : Nat,
      (0 ≤ rand_int (breedingPool n c - 1) d1 ∧
        rand_int (breedingPool n c - 1) d1 ≤ breedingPool n c - 1) ∧
      (0 ≤ (parentIndices (rand_int (breedingPool n c - 1) d1)
          (rand_int (breedingPool n c - 1) d2)).1 ∧
        (parentIndices (rand_int (breedingPool n c - 1) d1)
          (rand_int (breedingPool n c - 1) d2)).1 ≤ breedingPool n c - 1) ∧
      (0 ≤ (parentIndices (rand_int (breedingPool n c - 1) d1)
          (rand_int (breedingPool n c - 1) d2)).2 ∧
        (parentIndices (rand_int (breedingPool n c - 1) d1)
          (rand_int (breedingPool n c - 1) d2)).2 ≤ breedingPool n c - 1)) ∧
    (∀ rank : Nat, (rank : Int) ≤ breedingPool n c - 1 →
      rand_int (breedingPool n c - 1) rank = rank) := by
  have heq := breedingPool_eq n c hc0
  have h1 : 1 ≤ breedingPool n c ∧ breedingPool n c ≤ n := by
    rw [heq]
    split <;> omega
  refine ⟨_, rfl, h1.1, h1.2, heq, ?_, ?_, ?_, ?_, ?_⟩
  · intro hsize
    exact floor_near _ _ _ (roundFloat_size_add_half n hsize c hc0).2
  · intro ht h1t htn
    unfold breedingPoolSpec
    rw [heq, ← ht, max_eq_right h1t]
    split
    · rfl
    · omega
  · intro ht
    rw [heq, ht]
    simp
  · intro d1 d2
    have b1 := rand_int_bounds (breedingPool n c - 1) d1 (by omega)
    have b2 := rand_int_bounds (breedingPool n c - 1) d2 (by omega)
    have hp := parentIndices_bounds _ _ (breedingPool n c - 1) b1 b2
    exact ⟨b1, hp.1, hp.2⟩
  · intro rank hr
    unfold rand_int
    rw [if_neg (by omega)]

/-- C34, witness: a specie of `5` organisms with `top_p_cutoff = 0.7f`, the
`float` nearest to `7/10`: the product is `3.5` in `float` and the pool has
`4` candidates, where `round(5 * 0.7f) = 3`. -/
theorem breedingPool_size_witness :
    1 ≤ 5 ∧ (0 : ℚ) ≤ roundFloat (7 / 10) ∧ breedingPool 5 (roundFloat (7 / 10)) = 4 ∧
    breedingPoolSpec 5 (roundFloat (7 / 10)) = 3 ∧ breedingPool 3 (3 / 5) = 2 ∧
    ∃ t : Int, t = ⌊roundFloat (roundFloat (roundFloat ((5 : Nat) : ℚ) * roundFloat (7 / 10))
      + 1 / 2)⌋ ∧ 1 ≤ breedingPool 5 (roundFloat (7 / 10)) :=
  ⟨by decide, by with_unfolding_all decide, by with_unfolding_all decide,
    by with_unfolding_all decide, by with_unfolding_all decide,
    (breedingPool_size 5 (roundFloat (7 / 10)) (by decide) (by with_unfolding_all decide)).imp
      (fun _ h => ⟨h.1, h.2.1⟩)⟩

/-! ## C32: the number of offspring of a specie -/

/-- C32 (amended): in an engine state with every fitness set and finite sums,
the first loop of `UpdateGeneration` computes for every specie the sum in
`float` of the fitnesses of its organisms divided in `float` by their number,
and the sum `F` in `float` of these values; `UpdateGeneration` is the loop
over the species run with these values; the number of offspring of a specie
with the fitness `f` is `floor(pop_size / number of species)` when `F = 0`,
and otherwise the `float` value of `pop_size * (f / F) + 0.5f`, converted to
`int`, which for `pop_size < 2 ^ 24` lies between the `floor` of `pop_size * f
/ F + 1/2 - d` and the one of `pop_size * f / F + 1/2 + d`, with `d =
(pop_size * f / F + 1) / 2 ^ 22`; and a specie whose number is below `1`
leaves `newSpecies` and the engine as they are. -/
theorem UpdateGeneration_allocation (input_size output_size : Int) (e : Engine)
    (hlive : Engine.Live input_size output_size e) (hset : ¬ e.hasUnset)
    (hfin : e.FitnessFinite) :
    fitnessLoop e.species [] 0 = some (e.species.map specieFitness, e.fitnessSum) ∧
    (∀ s : Specie, specieFitness s =
      roundFloat (floatSum (s.organisms.map (fun o => o.fitness)) 0 /
        roundFloat (s.organisms.length : ℚ))) ∧
    e.fitnessSum = floatSum (e.species.map specieFitness) 0 ∧
    (∀ s ∈ e.species,
      numOffspringOf e.pop_size e.species.length (specieFitness s) e.fitnessSum =
        if e.fitnessSum = 0 then ⌊(e.pop_size : ℚ) / (e.species.length : ℚ)⌋
        else ⌊roundFloat (roundFloat (roundFloat (e.pop_size : ℚ) *
          roundFloat (specieFitness s / e.fitnessSum)) + 1 / 2)⌋) ∧
    (∀ s ∈ e.species, e.fitnessSum ≠ 0 → e.pop_size < 2 ^ 24 →
      ⌊(e.pop_size : ℚ) * (specieFitness s / e.fitnessSum) + 1 / 2 -
          ((e.pop_size : ℚ) * (specieFitness s / e.fitnessSum) + 1) / 2 ^ 22⌋ ≤
        numOffspringOf e.pop_size e.species.length (specieFitness s) e.fitnessSum ∧
      numOffspringOf e.pop_size e.species.length (specieFitness s) e.fitnessSum ≤
        ⌊(e.pop_size : ℚ) * (specieFitness s / e.fitnessSum) + 1 / 2 +
          ((e.pop_size : ℚ) * (specieFitness s / e.fitnessSum) + 1) / 2 ^ 22⌋) ∧
    (∀ (it : List Int → List Int) (srt : List Organism → List Organism) (fuel : Nat)
      (draws : Nat → Nat → OffspringDraws),
      UpdateGeneration it srt fuel draws e =
        (speciesLoop it fuel e.fitnessSum draws 0
          ((e.sortSpecies srt).species.zip (e.species.map specieFitness))
          (emptiedSpecies e.species, e.sortSpecies srt)).map (fun st => (true, turnover st))) ∧
    (∀ (it : List Int → List Int) (fuel : Nat) (specie : Specie) (f sum : ℚ)
      (draws : Nat → OffspringDraws) (st : List Specie × Engine),
      numOffspringOf st.2.pop_size st.2.species.length f sum < 1 →
      specieOffspring it fuel specie f sum draws st = some st) := by
  have _ := hfin
  obtain ⟨I, hpop, _, _⟩ := EngineInv.of_live hlive
  obtain ⟨hF, hfs⟩ := fitnessSum_nonneg e hset
  refine ⟨?_, fun _ => rfl, rfl, ?_, ?_, ?_, ?_⟩
  · cases hl : fitnessLoop e.species [] 0 with
    | none => exact absurd ((fitnessLoop_none_iff e.species [] 0).mp hl) hset
    | some x =>
      obtain ⟨fs, sum⟩ := x
      obtain ⟨h1, h2⟩ := fitnessLoop_some e.species [] 0 fs sum hl
      rw [h1, h2]
      simp [Engine.fitnessSum]
  · intro s hs
    by_cases h0 : e.fitnessSum = 0
    · rw [if_pos h0]
      unfold numOffspringOf
      rw [if_pos h0, Rat.floor_intCast_div_natCast]
    · rw [if_neg h0]
      exact (numOffspringOf_float e.pop_size e.species.length _ _ hpop.le (hfs s hs)
        (lt_of_le_of_ne hF (Ne.symm h0))).1
  · intro s hs h0 hp
    obtain ⟨h1, h2⟩ := numOffspringOf_near e.pop_size e.species.length (specieFitness s)
      e.fitnessSum hpop.le hp (hfs s hs) (lt_of_le_of_ne hF (Ne.symm h0))
    constructor
    · have h3 := Int.floor_le ((e.pop_size : ℚ) * (specieFitness s / e.fitnessSum) + 1 / 2 -
        ((e.pop_size : ℚ) * (specieFitness s / e.fitnessSum) + 1) / 2 ^ 22)
      have h4 : ((⌊(e.pop_size : ℚ) * (specieFitness s / e.fitnessSum) + 1 / 2 -
          ((e.pop_size : ℚ) * (specieFitness s / e.fitnessSum) + 1) / 2 ^ 22⌋ : Int) : ℚ) <
          ((numOffspringOf e.pop_size e.species.length (specieFitness s) e.fitnessSum + 1 : Int)
            : ℚ) := by
        push_cast
        linarith
      have h5 := Int.cast_lt.mp h4
      omega
    · exact Int.le_floor.mpr h2
  · intro it srt fuel draws
    rw [UpdateGeneration_eq it srt fuel draws e hset, any_isEmpty_false e I]
    simp
  · intro it fuel specie f sum draws st h
    unfold specieOffspring
    simp only
    rw [if_pos h]

theorem engineFourSet_set : ¬ engineFourSet.hasUnset :=
  show ¬ ∃ s ∈ engineFourSet.species, ∃ o ∈ s.organisms, o.fitness < 0 from by
    with_unfolding_all decide

/-- C32, witness: the engine `NEAT(2, 1, 6)` with four species of the fitness
`1`. -/
theorem UpdateGeneration_allocation_witness :
    Engine.Live 2 1 engineFourSet ∧ ¬ engineFourSet.hasUnset ∧ engineFourSet.FitnessFinite ∧
    engineFourSet.species.map specieFitness = [1, 1, 1, 1] ∧
    engineFourSet.species.map
      (fun s => numOffspringOf engineFourSet.pop_size engineFourSet.species.length
        (specieFitness s) engineFourSet.fitnessSum) = [2, 2, 2, 2] ∧
    fitnessLoop engineFourSet.species [] 0 =
      some (engineFourSet.species.map specieFitness, engineFourSet.fitnessSum) :=
  ⟨engineFourSet_live, engineFourSet_set, by with_unfolding_all decide,
    by with_unfolding_all decide, by with_unfolding_all decide,
    (UpdateGeneration_allocation 2 1 engineFourSet engineFourSet_live engineFourSet_set
      (by with_unfolding_all decide)).1⟩

theorem engineElevenSet_live : Engine.Live 1 1 engineElevenSet :=
  Engine.Live.foldl _ (fun _ _ h => Engine.Live.setFitness _ _ h) _ _
    (Engine.Live.create 11 paramsApart (fun _ => (0, 0, 1)) engineEleven (by decide)
      (by decide) (by decide) (by with_unfolding_all decide))

/-- C32 as stated fails: in the engine state `NEAT(1, 1, 11)` with two
species, of one organism with the fitness `13` and of ten organisms with the
fitness `9`, the species have the fitnesses `13` and `9`, and `F = 22`. The
quotient `13 / 22` is rounded down to a `float`, the product with `11` is the
`float` below `6.5`, and the sum with `0.5f` is the `float` below `7`: the
specie gets `6` offspring, where `floor(11 * 13 / 22 + 1/2) = 7`. -/
theorem UpdateGeneration_allocation_rounded :
    Engine.Live 1 1 engineElevenSet ∧ ¬ engineElevenSet.hasUnset ∧
    engineElevenSet.FitnessFinite ∧ engineElevenSet.pop_size = 11 ∧
    engineElevenSet.species.map (fun s => s.organisms.map (fun o => o.fitness)) =
      [[13], [9, 9, 9, 9, 9, 9, 9, 9, 9, 9]] ∧
    engineElevenSet.species.map specieFitness = [13, 9] ∧
    engineElevenSet.fitnessSum = 22 ∧
    engineElevenSet.species.map
      (fun s => numOffspringOf engineElevenSet.pop_size engineElevenSet.species.length
        (specieFitness s) engineElevenSet.fitnessSum) = [6, 5] ∧
    ⌊(11 : ℚ) * 13 / 22 + 1 / 2⌋ = 7 ∧
    roundFloat (13 / 22) < 13 / 22 ∧
    roundFloat (roundFloat 11 * roundFloat (13 / 22)) < 13 / 2 ∧
    roundFloat (roundFloat (roundFloat 11 * roundFloat (13 / 22)) + 1 / 2) < 7 := by
  refine ⟨engineElevenSet_live, ?_, by with_unfolding_all decide, by with_unfolding_all decide,
    by with_unfolding_all decide, by with_unfolding_all decide, by with_unfolding_all decide,
    by with_unfolding_all decide, by with_unfolding_all decide, by with_unfolding_all decide,
    by with_unfolding_all decide, by with_unfolding_all decide⟩
  show ¬ ∃ s ∈ engineElevenSet.species, ∃ o ∈ s.organisms, o.fitness < 0
  with_unfolding_all decide

end ModularNEAT
